import Mathlib

/-!
Red-black tree (`RedBlackTree.hh`): embedding of the pointer program

The C++ class keeps its nodes on the free store and links them with raw
pointers (`parent`, `left`, `right`), with one shared sentinel `NIL` standing
for every absent child.  The embedding keeps that shape: a store maps
addresses to node records, address `0` is `nullptr`, every read or write
through a pointer that is null or not allocated makes the operation return
`none`, and the `while` loops and the recursive helpers take a step budget.

The comparator is the default `std::less<T>` over a linearly ordered key
type, and `==` is equality of keys.  The counter `nodeCount` is a natural
number: it counts live nodes, each of which occupies storage of its own, so
the `size_t` counter cannot wrap before the store is exhausted.
-/

namespace RBT

/-- Colour of a node (`enum class Color`). -/
inductive Color
  | RED
  | BLACK
  deriving DecidableEq, Repr

/-- Addresses; `0` is the null pointer. -/
abbrev Ptr := Nat

/-- The null pointer. -/
def nullptr : Ptr := 0

/-- One record of the store (`class Node`). -/
structure Node (α : Type) where
  data : α
  color : Color
  parent : Ptr
  left : Ptr
  right : Ptr

/-- Constructor `Node(const T& value)`: a RED node with null links. -/
def Node.mk1 {α : Type} (value : α) : Node α :=
  ⟨value, Color.RED, nullptr, nullptr, nullptr⟩

/-- State of a `RedBlackTree` object together with the free store it owns:
`mem` is the store and `brk` the next address handed out by `new`. -/
structure RedBlackTree (α : Type) where
  root : Ptr
  NIL : Ptr
  nodeCount : Nat
  mem : Ptr → Option (Node α)
  brk : Ptr

/-- A `while (cond) body` loop run for at most `fuel` tests of the condition. -/
def whileLoop {σ : Type} (cond : σ → Option Bool) (body : σ → Option σ) :
    Nat → σ → Option σ
  | 0, _ => none
  | n + 1, s =>
    match cond s with
    | none => none
    | some false => some s
    | some true =>
      match body s with
      | none => none
      | some s1 => whileLoop cond body n s1

namespace RedBlackTree

variable {α : Type}

/-- Read the record behind a pointer; fails on `nullptr` and on free storage. -/
def deref (t : RedBlackTree α) (p : Ptr) : Option (Node α) :=
  if p = nullptr then none else t.mem p

/-- Overwrite the record at an address. -/
def store (t : RedBlackTree α) (p : Ptr) (n : Node α) : RedBlackTree α :=
  { t with mem := fun q => if q = p then some n else t.mem q }

/-- Assignment `root = r`. -/
def setRoot (t : RedBlackTree α) (r : Ptr) : RedBlackTree α := { t with root := r }

/-- Assignment of the member `nodeCount`. -/
def setNodeCount (t : RedBlackTree α) (n : Nat) : RedBlackTree α := { t with nodeCount := n }

/-- Expression `new Node<T>(value)`: the record is placed at the next address. -/
def alloc (t : RedBlackTree α) (value : α) : Ptr × RedBlackTree α :=
  (t.brk, { t with mem := fun q => if q = t.brk then some (Node.mk1 value) else t.mem q,
                   brk := t.brk + 1 })

/-- Statement `delete p`. -/
def free (t : RedBlackTree α) (p : Ptr) : Option (RedBlackTree α) :=
  match t.deref p with
  | none => none
  | some _ => some { t with mem := fun q => if q = p then none else t.mem q }

/-- Read `p->data`. -/
def getData (t : RedBlackTree α) (p : Ptr) : Option α := (t.deref p).map Node.data
/-- Read `p->color`. -/
def getColor (t : RedBlackTree α) (p : Ptr) : Option Color := (t.deref p).map Node.color
/-- Read `p->parent`. -/
def getParent (t : RedBlackTree α) (p : Ptr) : Option Ptr := (t.deref p).map Node.parent
/-- Read `p->left`. -/
def getLeft (t : RedBlackTree α) (p : Ptr) : Option Ptr := (t.deref p).map Node.left
/-- Read `p->right`. -/
def getRight (t : RedBlackTree α) (p : Ptr) : Option Ptr := (t.deref p).map Node.right

/-- Assignment `p->color = c`. -/
def setColor (t : RedBlackTree α) (p : Ptr) (c : Color) : Option (RedBlackTree α) :=
  (t.deref p).map fun n => t.store p { n with color := c }
/-- Assignment `p->parent = v`. -/
def setParent (t : RedBlackTree α) (p : Ptr) (v : Ptr) : Option (RedBlackTree α) :=
  (t.deref p).map fun n => t.store p { n with parent := v }
/-- Assignment `p->left = v`. -/
def setLeft (t : RedBlackTree α) (p : Ptr) (v : Ptr) : Option (RedBlackTree α) :=
  (t.deref p).map fun n => t.store p { n with left := v }
/-- Assignment `p->right = v`. -/
def setRight (t : RedBlackTree α) (p : Ptr) (v : Ptr) : Option (RedBlackTree α) :=
  (t.deref p).map fun n => t.store p { n with right := v }

/-- Constructor `RedBlackTree()`: the sentinel is the first allocation, it is
BLACK with null links, and the root points at it. -/
def new [Inhabited α] : RedBlackTree α :=
  { root := 1, NIL := 1, nodeCount := 0,
    mem := fun q => if q = 1 then some ⟨default, Color.BLACK, nullptr, nullptr, nullptr⟩ else none,
    brk := 2 }

/-- Inline member `isEmpty`. -/
def isEmpty (t : RedBlackTree α) : Bool := t.root == t.NIL

/-- Inline member `size`. -/
def size (t : RedBlackTree α) : Nat := t.nodeCount

/-- Member `destroyTree`: post-order deletion of the subtree at `node`. -/
def destroyTree : Nat → RedBlackTree α → Ptr → Option (RedBlackTree α)
  | 0, _, _ => none
  | n + 1, t, node =>
    if node = t.NIL then some t else do
      let l ← t.getLeft node
      let t ← destroyTree n t l
      let r ← t.getRight node
      let t ← destroyTree n t r
      t.free node

/-- Member `clear`. -/
def clear (t : RedBlackTree α) (fuel : Nat) : Option (RedBlackTree α) := do
  let t ← destroyTree fuel t t.root
  some ((t.setRoot t.NIL).setNodeCount 0)

/-- Member `search`: recursive descent from `node`. -/
def search [LinearOrder α] (t : RedBlackTree α) : Nat → Ptr → α → Option Ptr
  | 0, _, _ => none
  | n + 1, node, value =>
    if node = t.NIL then some node else do
      let d ← t.getData node
      if d = value then some node
      else if value < d then do
        let l ← t.getLeft node
        search t n l value
      else do
        let r ← t.getRight node
        search t n r value

/-- Member `contains`. -/
def contains [LinearOrder α] (t : RedBlackTree α) (fuel : Nat) (value : α) : Option Bool := do
  let r ← t.search fuel t.root value
  some (r != t.NIL)

/-- Member `minimum`. -/
def minimum (t : RedBlackTree α) (fuel : Nat) (node : Ptr) : Option Ptr :=
  whileLoop (fun node => do
      let l ← t.getLeft node
      some (l != t.NIL))
    (fun node => t.getLeft node) fuel node

/-- Member `maximum`. -/
def maximum (t : RedBlackTree α) (fuel : Nat) (node : Ptr) : Option Ptr :=
  whileLoop (fun node => do
      let r ← t.getRight node
      some (r != t.NIL))
    (fun node => t.getRight node) fuel node

/-- Member `inorderHelper`; the result is the sequence of keys handed to the
callback. -/
def inorderHelper (t : RedBlackTree α) : Nat → Ptr → Option (List α)
  | 0, _ => none
  | n + 1, node =>
    if node = t.NIL then some [] else do
      let l ← t.getLeft node
      let xs ← inorderHelper t n l
      let d ← t.getData node
      let r ← t.getRight node
      let ys ← inorderHelper t n r
      some (xs ++ d :: ys)

/-- Member `inorder`. -/
def inorder (t : RedBlackTree α) (fuel : Nat) : Option (List α) :=
  t.inorderHelper fuel t.root

/-- Member `rotateLeft`. -/
def rotateLeft (t : RedBlackTree α) (x : Ptr) : Option (RedBlackTree α) := do
  let y ← t.getRight x
  let yl ← t.getLeft y
  let t ← t.setRight x yl
  let yl ← t.getLeft y
  let t ← if yl ≠ t.NIL then t.setParent yl x else some t
  let xp ← t.getParent x
  let t ← t.setParent y xp
  let xp ← t.getParent x
  let t ←
    if xp = nullptr then some (t.setRoot y)
    else do
      let xpl ← t.getLeft xp
      if x = xpl then t.setLeft xp y else t.setRight xp y
  let t ← t.setLeft y x
  t.setParent x y

/-- Member `rotateRight`. -/
def rotateRight (t : RedBlackTree α) (y : Ptr) : Option (RedBlackTree α) := do
  let x ← t.getLeft y
  let xr ← t.getRight x
  let t ← t.setLeft y xr
  let xr ← t.getRight x
  let t ← if xr ≠ t.NIL then t.setParent xr y else some t
  let yp ← t.getParent y
  let t ← t.setParent x yp
  let yp ← t.getParent y
  let t ←
    if yp = nullptr then some (t.setRoot x)
    else do
      let ypr ← t.getRight yp
      if y = ypr then t.setRight yp x else t.setLeft yp x
  let t ← t.setRight x y
  t.setParent y x

/-- Loop test of `insertFixup`:
`z->parent != nullptr && z->parent->color == Color::RED`. -/
def insertFixupCond (s : RedBlackTree α × Ptr) : Option Bool := do
  let p ← s.1.getParent s.2
  if p = nullptr then some false else do
    let c ← s.1.getColor p
    some (c == Color.RED)

/-- Loop body of `insertFixup`, branch `z->parent == z->parent->parent->left`
(`p` is `z->parent`, `g` is `z->parent->parent`). -/
def insertFixupLeft (t : RedBlackTree α) (z p g : Ptr) : Option (RedBlackTree α × Ptr) := do
  let uncle ← t.getRight g
  let uc ← t.getColor uncle
  if uc = Color.RED then do
    let t ← t.setColor p Color.BLACK
    let t ← t.setColor uncle Color.BLACK
    let t ← t.setColor g Color.RED
    some (t, g)
  else do
    let pr ← t.getRight p
    let (t, z) ← (if z = pr then do
        let t ← t.rotateLeft p
        some (t, p)
      else some (t, z))
    let p ← t.getParent z
    let t ← t.setColor p Color.BLACK
    let g ← t.getParent p
    let t ← t.setColor g Color.RED
    let t ← t.rotateRight g
    some (t, z)

/-- Loop body of `insertFixup`, mirrored branch (the parent is a right child). -/
def insertFixupRight (t : RedBlackTree α) (z p g : Ptr) : Option (RedBlackTree α × Ptr) := do
  let uncle ← t.getLeft g
  let uc ← t.getColor uncle
  if uc = Color.RED then do
    let t ← t.setColor p Color.BLACK
    let t ← t.setColor uncle Color.BLACK
    let t ← t.setColor g Color.RED
    some (t, g)
  else do
    let pl ← t.getLeft p
    let (t, z) ← (if z = pl then do
        let t ← t.rotateRight p
        some (t, p)
      else some (t, z))
    let p ← t.getParent z
    let t ← t.setColor p Color.BLACK
    let g ← t.getParent p
    let t ← t.setColor g Color.RED
    let t ← t.rotateLeft g
    some (t, z)

/-- Loop body of `insertFixup`. -/
def insertFixupBody (s : RedBlackTree α × Ptr) : Option (RedBlackTree α × Ptr) := do
  let p ← s.1.getParent s.2
  let g ← s.1.getParent p
  let gl ← s.1.getLeft g
  if p = gl then insertFixupLeft s.1 s.2 p g else insertFixupRight s.1 s.2 p g

/-- Member `insertFixup`. -/
def insertFixup (t : RedBlackTree α) (fuel : Nat) (z : Ptr) : Option (RedBlackTree α) := do
  let s ← whileLoop insertFixupCond insertFixupBody fuel (t, z)
  s.1.setColor s.1.root Color.BLACK

/-- Loop test of the descent in `insert`: `x != NIL`; the state is `(y, x)`. -/
def insertDescendCond (t : RedBlackTree α) (s : Ptr × Ptr) : Option Bool :=
  some (s.2 != t.NIL)

/-- Loop body of the descent in `insert`. -/
def insertDescendBody [LinearOrder α] (t : RedBlackTree α) (z : Ptr) (s : Ptr × Ptr) :
    Option (Ptr × Ptr) := do
  let x := s.2
  let zd ← t.getData z
  let xd ← t.getData x
  if zd < xd then do
    let l ← t.getLeft x
    some (x, l)
  else do
    let r ← t.getRight x
    some (x, r)

/-- Member `insert`, the linking of the new node `z` below `y`. -/
def insertLink [LinearOrder α] (t : RedBlackTree α) (z y : Ptr) : Option (RedBlackTree α) := do
  let t ← t.setParent z y
  if y = nullptr then some (t.setRoot z)
  else do
    let zd ← t.getData z
    let yd ← t.getData y
    if zd < yd then t.setLeft y z else t.setRight y z

/-- Member `insert`. -/
def insert [LinearOrder α] (t : RedBlackTree α) (fuel : Nat) (value : α) :
    Option (RedBlackTree α) := do
  let (z, t) := t.alloc value
  let t ← t.setLeft z t.NIL
  let t ← t.setRight z t.NIL
  let (y, _) ← whileLoop (insertDescendCond t) (insertDescendBody t z) fuel (nullptr, t.root)
  let t ← t.insertLink z y
  let t := t.setNodeCount (t.nodeCount + 1)
  t.insertFixup fuel z

/-- Member `transplant`. -/
def transplant (t : RedBlackTree α) (u v : Ptr) : Option (RedBlackTree α) := do
  let up ← t.getParent u
  let t ←
    if up = nullptr then some (t.setRoot v)
    else do
      let upl ← t.getLeft up
      if u = upl then t.setLeft up v else t.setRight up v
  let up ← t.getParent u
  t.setParent v up

/-- Loop test of `deleteFixup`: `x != root && x->color == Color::BLACK`. -/
def deleteFixupCond (s : RedBlackTree α × Ptr) : Option Bool :=
  if s.2 = s.1.root then some false else do
    let c ← s.1.getColor s.2
    some (c == Color.BLACK)

/-- Loop body of `deleteFixup`, left branch, CASE 1 (sibling RED); the result
pairs the state with the sibling `w` in force afterwards. -/
def deleteFixupCase1L (t : RedBlackTree α) (x w : Ptr) : Option (RedBlackTree α × Ptr) := do
  let wc ← t.getColor w
  if wc = Color.RED then do
    let t ← t.setColor w Color.BLACK
    let xp ← t.getParent x
    let t ← t.setColor xp Color.RED
    let xp ← t.getParent x
    let t ← t.rotateLeft xp
    let xp ← t.getParent x
    let w ← t.getRight xp
    some (t, w)
  else some (t, w)

/-- Loop body of `deleteFixup`, left branch, CASE 3 (sibling's right child BLACK). -/
def deleteFixupCase3L (t : RedBlackTree α) (x w : Ptr) : Option (RedBlackTree α × Ptr) := do
  let wr ← t.getRight w
  let wrc ← t.getColor wr
  if wrc = Color.BLACK then do
    let wl ← t.getLeft w
    let t ← t.setColor wl Color.BLACK
    let t ← t.setColor w Color.RED
    let t ← t.rotateRight w
    let xp ← t.getParent x
    let w ← t.getRight xp
    some (t, w)
  else some (t, w)

/-- Loop body of `deleteFixup`, left branch, CASE 4; ends with `x = root`. -/
def deleteFixupCase4L (t : RedBlackTree α) (x w : Ptr) : Option (RedBlackTree α × Ptr) := do
  let xp ← t.getParent x
  let xpc ← t.getColor xp
  let t ← t.setColor w xpc
  let xp ← t.getParent x
  let t ← t.setColor xp Color.BLACK
  let wr ← t.getRight w
  let t ← t.setColor wr Color.BLACK
  let xp ← t.getParent x
  let t ← t.rotateLeft xp
  some (t, t.root)

/-- Loop body of `deleteFixup`, left branch, CASES 2 to 4 for the sibling `w`
in force after CASE 1.  Both operands of the `&&` of CASE 2 are read before
the test, so a failing read of the second one fails here even where the
program would not evaluate it. -/
def deleteFixupRestL (t : RedBlackTree α) (x w : Ptr) : Option (RedBlackTree α × Ptr) := do
  let wl ← t.getLeft w
  let wlc ← t.getColor wl
  let wr ← t.getRight w
  let wrc ← t.getColor wr
  if wlc = Color.BLACK ∧ wrc = Color.BLACK then do
    let t ← t.setColor w Color.RED
    let xp ← t.getParent x
    some (t, xp)
  else do
    let (t, w) ← deleteFixupCase3L t x w
    deleteFixupCase4L t x w

/-- Loop body of `deleteFixup`, branch `x == x->parent->left`. -/
def deleteFixupLeft (t : RedBlackTree α) (x : Ptr) : Option (RedBlackTree α × Ptr) := do
  let xp ← t.getParent x
  let w ← t.getRight xp
  let (t, w) ← deleteFixupCase1L t x w
  deleteFixupRestL t x w

/-- Loop body of `deleteFixup`, mirrored branch, CASE 1. -/
def deleteFixupCase1R (t : RedBlackTree α) (x w : Ptr) : Option (RedBlackTree α × Ptr) := do
  let wc ← t.getColor w
  if wc = Color.RED then do
    let t ← t.setColor w Color.BLACK
    let xp ← t.getParent x
    let t ← t.setColor xp Color.RED
    let xp ← t.getParent x
    let t ← t.rotateRight xp
    let xp ← t.getParent x
    let w ← t.getLeft xp
    some (t, w)
  else some (t, w)

/-- Loop body of `deleteFixup`, mirrored branch, CASE 3. -/
def deleteFixupCase3R (t : RedBlackTree α) (x w : Ptr) : Option (RedBlackTree α × Ptr) := do
  let wl ← t.getLeft w
  let wlc ← t.getColor wl
  if wlc = Color.BLACK then do
    let wr ← t.getRight w
    let t ← t.setColor wr Color.BLACK
    let t ← t.setColor w Color.RED
    let t ← t.rotateLeft w
    let xp ← t.getParent x
    let w ← t.getLeft xp
    some (t, w)
  else some (t, w)

/-- Loop body of `deleteFixup`, mirrored branch, CASE 4. -/
def deleteFixupCase4R (t : RedBlackTree α) (x w : Ptr) : Option (RedBlackTree α × Ptr) := do
  let xp ← t.getParent x
  let xpc ← t.getColor xp
  let t ← t.setColor w xpc
  let xp ← t.getParent x
  let t ← t.setColor xp Color.BLACK
  let wl ← t.getLeft w
  let t ← t.setColor wl Color.BLACK
  let xp ← t.getParent x
  let t ← t.rotateRight xp
  some (t, t.root)

/-- Loop body of `deleteFixup`, mirrored branch, CASES 2 to 4 for the sibling
`w` in force after CASE 1; both operands of the `&&` are read, as in the left
branch. -/
def deleteFixupRestR (t : RedBlackTree α) (x w : Ptr) : Option (RedBlackTree α × Ptr) := do
  let wr ← t.getRight w
  let wrc ← t.getColor wr
  let wl ← t.getLeft w
  let wlc ← t.getColor wl
  if wrc = Color.BLACK ∧ wlc = Color.BLACK then do
    let t ← t.setColor w Color.RED
    let xp ← t.getParent x
    some (t, xp)
  else do
    let (t, w) ← deleteFixupCase3R t x w
    deleteFixupCase4R t x w

/-- Loop body of `deleteFixup`, mirrored branch (`x` is a right child). -/
def deleteFixupRight (t : RedBlackTree α) (x : Ptr) : Option (RedBlackTree α × Ptr) := do
  let xp ← t.getParent x
  let w ← t.getLeft xp
  let (t, w) ← deleteFixupCase1R t x w
  deleteFixupRestR t x w

/-- Loop body of `deleteFixup`. -/
def deleteFixupBody (s : RedBlackTree α × Ptr) : Option (RedBlackTree α × Ptr) := do
  let xp ← s.1.getParent s.2
  let xpl ← s.1.getLeft xp
  if s.2 = xpl then deleteFixupLeft s.1 s.2 else deleteFixupRight s.1 s.2

/-- Member `deleteFixup`. -/
def deleteFixup (t : RedBlackTree α) (fuel : Nat) (x : Ptr) : Option (RedBlackTree α) := do
  let s ← whileLoop deleteFixupCond deleteFixupBody fuel (t, x)
  s.1.setColor s.2 Color.BLACK

/-- Member `remove`, CASE 3: the successor `y` is taken out of the right
subtree of `z` (`x` is `y->right`). -/
def removeDetach (t : RedBlackTree α) (z y x : Ptr) : Option (RedBlackTree α) := do
  let yp ← t.getParent y
  if yp = z then t.setParent x y
  else do
    let yr ← t.getRight y
    let t ← t.transplant y yr
    let zr ← t.getRight z
    let t ← t.setRight y zr
    let yr ← t.getRight y
    t.setParent yr y

/-- Member `remove`, CASE 3: `y` takes the place and the colour of `z`. -/
def removeReplace (t : RedBlackTree α) (z y : Ptr) : Option (RedBlackTree α) := do
  let t ← t.transplant z y
  let zl ← t.getLeft z
  let t ← t.setLeft y zl
  let yl ← t.getLeft y
  let t ← t.setParent yl y
  let zc ← t.getColor z
  t.setColor y zc

/-- Member `remove`, CASE 3 (`z` has two children): the successor `y` takes
the place of `z`.  The result is the state, `x` and `yOriginalColor`. -/
def removeTwoChildren (t : RedBlackTree α) (fuel : Nat) (z : Ptr) :
    Option (RedBlackTree α × Ptr × Color) := do
  let zr ← t.getRight z
  let y ← t.minimum fuel zr
  let yOriginalColor ← t.getColor y
  let x ← t.getRight y
  let t ← t.removeDetach z y x
  let t ← t.removeReplace z y
  some (t, x, yOriginalColor)

/-- Member `remove`, the splice of `z` (CASES 1 to 3). -/
def removeSplice (t : RedBlackTree α) (fuel : Nat) (z : Ptr) :
    Option (RedBlackTree α × Ptr × Color) := do
  let yOriginalColor ← t.getColor z
  let zl ← t.getLeft z
  if zl = t.NIL then do
    let x ← t.getRight z
    let zr ← t.getRight z
    let t ← t.transplant z zr
    some (t, x, yOriginalColor)
  else do
    let zr ← t.getRight z
    if zr = t.NIL then do
      let x ← t.getLeft z
      let zl ← t.getLeft z
      let t ← t.transplant z zl
      some (t, x, yOriginalColor)
    else removeTwoChildren t fuel z

/-- Member `remove`; the result pairs the new state with the returned flag. -/
def remove [LinearOrder α] (t : RedBlackTree α) (fuel : Nat) (value : α) :
    Option (RedBlackTree α × Bool) := do
  let z ← t.search fuel t.root value
  if z = t.NIL then some (t, false) else do
    let (t, x, yOriginalColor) ← removeSplice t fuel z
    let t ← t.free z
    let t := t.setNodeCount (t.nodeCount - 1)
    let t ← (if yOriginalColor = Color.BLACK then t.deleteFixup fuel x else some t)
    some (t, true)

end RedBlackTree
end RBT

/-!
The tree a store represents

A store is read back as a binary tree whose nodes remember their address.
The predicates below say when a state of the program represents such a tree:
every node of the tree is a record of the store with the right key, colour,
parent and child pointers, absent children are the sentinel, and no address
occurs twice.
-/

namespace RBT

/-- Contribution of a colour to a black count. -/
def blk (c : Color) : Nat := if c = Color.BLACK then 1 else 0

/-- Binary tree with the address, colour and key of every node. -/
inductive Tree (α : Type) where
  | nil : Tree α
  | node (addr : Ptr) (color : Color) (left : Tree α) (key : α) (right : Tree α) : Tree α

namespace Tree

variable {α : Type}

/-- Pointer to the root of a tree: the sentinel for the empty tree. -/
def ptr (NIL : Ptr) : Tree α → Ptr
  | nil => NIL
  | node a _ _ _ _ => a

/-- Colour of the root; the empty tree is the BLACK sentinel. -/
def color : Tree α → Color
  | nil => Color.BLACK
  | node _ c _ _ _ => c

/-- Addresses of the nodes. -/
def addrs : Tree α → List Ptr
  | nil => []
  | node a _ l _ r => a :: (l.addrs ++ r.addrs)

/-- Keys in in-order (left subtree, node, right subtree). -/
def keys : Tree α → List α
  | nil => []
  | node _ _ l k r => l.keys ++ k :: r.keys

/-- Number of nodes. -/
def size : Tree α → Nat
  | nil => 0
  | node _ _ l _ r => l.size + r.size + 1

/-- Largest number of nodes on a path from the root to a leaf. -/
def height : Tree α → Nat
  | nil => 0
  | node _ _ l _ r => max l.height r.height + 1

/-- Number of BLACK nodes on each root-to-sentinel path, one entry per path. -/
def pathBlackCounts : Tree α → List Nat
  | nil => [0]
  | node _ c l _ r =>
    (l.pathBlackCounts ++ r.pathBlackCounts).map (fun n => n + blk c)

/-- No RED node has a RED child. -/
def NoRedRed : Tree α → Prop
  | nil => True
  | node _ c l _ r =>
    (c = Color.RED → l.color = Color.BLACK ∧ r.color = Color.BLACK) ∧ l.NoRedRed ∧ r.NoRedRed

/-- Every root-to-sentinel path has the same number of BLACK nodes. -/
def EqualBlackPaths (T : Tree α) : Prop :=
  ∃ n, ∀ m ∈ T.pathBlackCounts, m = n

/-- Number of BLACK nodes on the leftmost path. -/
def bh : Tree α → Nat
  | nil => 0
  | node _ c l _ _ => l.bh + blk c

/-- Red-black shape of a subtree: equal black counts on both sides of every
node and BLACK children under every RED node. -/
def WF : Tree α → Prop
  | nil => True
  | node _ c l _ r =>
    l.WF ∧ r.WF ∧ l.bh = r.bh ∧ (c = Color.RED → l.color = Color.BLACK ∧ r.color = Color.BLACK)

/-- The root recoloured. -/
def setColor (c : Color) : Tree α → Tree α
  | nil => nil
  | node a _ l k r => node a c l k r

end Tree

/-- One step of a path from a node down to a child: the node with the subtree
that is not on the path. `L` means the path continues in the left child. -/
inductive Frame (α : Type) where
  | L (addr : Ptr) (color : Color) (key : α) (sib : Tree α) : Frame α
  | R (addr : Ptr) (color : Color) (sib : Tree α) (key : α) : Frame α

namespace Frame

variable {α : Type}

/-- Address of the node of a frame. -/
def addr : Frame α → Ptr
  | L a _ _ _ => a
  | R a _ _ _ => a

/-- Colour of the node of a frame. -/
def color : Frame α → Color
  | L _ c _ _ => c
  | R _ c _ _ => c

/-- Key of the node of a frame. -/
def key : Frame α → α
  | L _ _ k _ => k
  | R _ _ _ k => k

/-- Subtree beside the path. -/
def sib : Frame α → Tree α
  | L _ _ _ s => s
  | R _ _ s _ => s

/-- Put a tree below the node of a frame. -/
def fill : Frame α → Tree α → Tree α
  | L a c k s, T => Tree.node a c T k s
  | R a c s k, T => Tree.node a c s k T

end Frame

/-- Path from a position up to the root, nearest node first. -/
abbrev Ctx (α : Type) := List (Frame α)

namespace Ctx

variable {α : Type}

/-- Rebuild the whole tree from a path and the subtree at its lower end. -/
def plug : Ctx α → Tree α → Tree α
  | [], T => T
  | f :: fs, T => plug fs (f.fill T)

/-- Parent pointer of the position a path leads to; null at the root. -/
def par : Ctx α → Ptr
  | [] => nullptr
  | f :: _ => f.addr

/-- Addresses on and beside a path. -/
def addrs : Ctx α → List Ptr
  | [] => []
  | f :: fs => f.addr :: (f.sib.addrs ++ addrs fs)

end Ctx

/-- The records of a subtree are in the store, below the parent `par`. -/
def Rep {α : Type} (m : Ptr → Option (Node α)) (NIL : Ptr) : Ptr → Tree α → Prop
  | _, Tree.nil => True
  | par, Tree.node a c l k r =>
    m a = some ⟨k, c, par, l.ptr NIL, r.ptr NIL⟩ ∧ Rep m NIL a l ∧ Rep m NIL a r

/-- The records of a path are in the store; `h` is the pointer found at its
lower end and `root` the root pointer of the tree object. -/
def RepCtx {α : Type} (m : Ptr → Option (Node α)) (NIL : Ptr) (root : Ptr) :
    Ctx α → Ptr → Prop
  | [], h => root = h
  | Frame.L a c k s :: fs, h =>
    m a = some ⟨k, c, Ctx.par fs, h, s.ptr NIL⟩ ∧ Rep m NIL a s ∧ RepCtx m NIL root fs a
  | Frame.R a c s k :: fs, h =>
    m a = some ⟨k, c, Ctx.par fs, s.ptr NIL, h⟩ ∧ Rep m NIL a s ∧ RepCtx m NIL root fs a

/-- The sentinel record: BLACK, with null children. -/
def NilCell {α : Type} (t : RedBlackTree α) : Prop :=
  t.NIL ≠ 0 ∧ t.NIL < t.brk ∧
    ∃ d p, t.mem t.NIL = some (⟨d, Color.BLACK, p, nullptr, nullptr⟩ : Node α)

/-- Addresses of real nodes: not null, not the sentinel, already handed out. -/
def AddrsOk {α : Type} (t : RedBlackTree α) (as : List Ptr) : Prop :=
  as.Nodup ∧ ∀ a ∈ as, a ≠ 0 ∧ a ≠ t.NIL ∧ a < t.brk

/-- The state `t` represents the tree `T`. -/
structure Models {α : Type} (t : RedBlackTree α) (T : Tree α) : Prop where
  root : t.root = T.ptr t.NIL
  rep : Rep t.mem t.NIL nullptr T
  nilCell : NilCell t
  addrsOk : AddrsOk t T.addrs

/-- The state `t` represents a tree, seen from the position a path leads to. -/
structure ModelsAt {α : Type} (t : RedBlackTree α) (ctx : Ctx α) (T : Tree α) : Prop where
  repCtx : RepCtx t.mem t.NIL t.root ctx (T.ptr t.NIL)
  rep : Rep t.mem t.NIL ctx.par T
  nilCell : NilCell t
  addrsOk : AddrsOk t (T.addrs ++ ctx.addrs)

/-- State in the middle of CASE 3 of `remove`: the successor `y` has been
taken out of the tree and already owns the subtree `R`, while `z` still sits
at the end of the path with its left subtree `l`. -/
structure Detached {α : Type} (t : RedBlackTree α) (ctx : Ctx α) (z : Ptr) (k : α) (c : Color)
    (l : Tree α) (y : Ptr) (ky : α) (R : Tree α) : Prop where
  repCtx : RepCtx t.mem t.NIL t.root ctx z
  cellz : ∃ zr, t.mem z = some (⟨k, c, ctx.par, l.ptr t.NIL, zr⟩ : Node α)
  repl : Rep t.mem t.NIL z l
  celly : ∃ cy yp yl, t.mem y = some (⟨ky, cy, yp, yl, R.ptr t.NIL⟩ : Node α)
  repR : Rep t.mem t.NIL y R
  nilCell : NilCell t
  addrsOk : AddrsOk t (z :: y :: (l.addrs ++ (R.addrs ++ ctx.addrs)))

/-- The second state keeps the sentinel, the counter, the allocation mark and
the sentinel record of the first. -/
def Fr {α : Type} (t t1 : RedBlackTree α) : Prop :=
  t1.NIL = t.NIL ∧ t1.nodeCount = t.nodeCount ∧ t1.brk = t.brk ∧ t1.mem t.NIL = t.mem t.NIL

end RBT

/-!
The operations read on trees

What the pointer code does to the represented tree, one definition per loop
or case of the source.  These are the statements the store-level lemmas
prove about the members of `RedBlackTree`.
-/

namespace RBT

variable {α : Type}

namespace Ctx

/-- The nearest node of a path exists and is BLACK. -/
def headBlack : Ctx α → Prop
  | [] => False
  | f :: _ => f.color = Color.BLACK

/-- Red-black shape of everything on and beside a path, for a subtree of black
count `n` at its lower end. -/
def WF : Ctx α → Nat → Prop
  | [], _ => True
  | f :: fs, n =>
    f.sib.WF ∧ f.sib.bh = n ∧ (f.color = Color.RED → f.sib.color = Color.BLACK ∧ headBlack fs) ∧
      WF fs (n + blk f.color)

/-- Path followed by the descent loop of `insert` for the key `k`. -/
def descend [LinearOrder α] (k : α) : Tree α → Ctx α → Ctx α
  | Tree.nil, ctx => ctx
  | Tree.node a c l x r, ctx =>
    if k < x then descend k l (Frame.L a c x r :: ctx) else descend k r (Frame.R a c l x :: ctx)

/-- The side on which a path leaves its nearest node agrees with the
comparison of the key `k` with the key of that node. -/
def sideOk [LinearOrder α] (k : α) : Ctx α → Prop
  | [] => True
  | Frame.L _ _ x _ :: _ => k < x
  | Frame.R _ _ _ x :: _ => ¬ k < x

/-- Position reached by `search` for the key `k`: the path and the subtree found. -/
def find [LinearOrder α] (k : α) : Tree α → Ctx α → Ctx α × Tree α
  | Tree.nil, ctx => (ctx, Tree.nil)
  | Tree.node a c l x r, ctx =>
    if x = k then (ctx, Tree.node a c l x r)
    else if k < x then find k l (Frame.L a c x r :: ctx)
    else find k r (Frame.R a c l x :: ctx)

/-- Position reached by `minimum`: the path to the leftmost node and that node. -/
def leftmost : Tree α → Ctx α → Ctx α × Tree α
  | Tree.nil, ctx => (ctx, Tree.nil)
  | Tree.node a c Tree.nil x r, ctx => (ctx, Tree.node a c Tree.nil x r)
  | Tree.node a c (Tree.node b cb bl y br) x r, ctx =>
    leftmost (Tree.node b cb bl y br) (Frame.L a c x r :: ctx)

/-- The splice of `remove` (CASES 1 to 3) on the path to `z` and the subtree
at `z`: the path to `x`, the subtree at `x` and `yOriginalColor`. -/
def splice : Ctx α → Tree α → Option (Ctx α × Tree α × Color)
  | _, Tree.nil => none
  | ctx, Tree.node _ c Tree.nil _ r => some (ctx, r, c)
  | ctx, Tree.node _ c (Tree.node l0 cl ll kl lr) _ Tree.nil =>
    some (ctx, Tree.node l0 cl ll kl lr, c)
  | ctx, Tree.node _ c (Tree.node l0 cl ll kl lr) _ (Tree.node r0 cr rl kr rr) =>
    match leftmost (Tree.node r0 cr rl kr rr) [] with
    | (cR, Tree.node y cy _ ky yr) =>
      some (cR ++ Frame.R y c (Tree.node l0 cl ll kl lr) ky :: ctx, yr, cy)
    | (_, Tree.nil) => none

/-- Loop test of `insertFixup` on a path: the parent exists and is RED. -/
def insCond : Ctx α → Bool
  | [] => false
  | f :: _ => f.color == Color.RED

/-- One iteration of the loop of `insertFixup`, on the path to `z` and the
subtree at `z`. -/
def insStep : Ctx α → Tree α → Option (Ctx α × Tree α)
  | Frame.L p _ kp sp :: Frame.L g _ kg (Tree.node u Color.RED ul ku ur) :: fs, Z =>
    some (fs, Tree.node g Color.RED (Tree.node p Color.BLACK Z kp sp) kg
      (Tree.node u Color.BLACK ul ku ur))
  | Frame.R p _ sp kp :: Frame.L g _ kg (Tree.node u Color.RED ul ku ur) :: fs, Z =>
    some (fs, Tree.node g Color.RED (Tree.node p Color.BLACK sp kp Z) kg
      (Tree.node u Color.BLACK ul ku ur))
  | Frame.L p _ kp sp :: Frame.L g _ kg u :: fs, Z =>
    some (Frame.L p Color.BLACK kp (Tree.node g Color.RED sp kg u) :: fs, Z)
  | Frame.R p cp sp kp :: Frame.L g _ kg u :: fs, Tree.node z cz zl kz zr =>
    some (Frame.L z Color.BLACK kz (Tree.node g Color.RED zr kg u) :: fs,
      Tree.node p cp sp kp zl)
  | Frame.L p _ kp sp :: Frame.R g _ (Tree.node u Color.RED ul ku ur) kg :: fs, Z =>
    some (fs, Tree.node g Color.RED (Tree.node u Color.BLACK ul ku ur) kg
      (Tree.node p Color.BLACK Z kp sp))
  | Frame.R p _ sp kp :: Frame.R g _ (Tree.node u Color.RED ul ku ur) kg :: fs, Z =>
    some (fs, Tree.node g Color.RED (Tree.node u Color.BLACK ul ku ur) kg
      (Tree.node p Color.BLACK sp kp Z))
  | Frame.R p _ sp kp :: Frame.R g _ u kg :: fs, Z =>
    some (Frame.R p Color.BLACK (Tree.node g Color.RED u kg sp) kp :: fs, Z)
  | Frame.L p cp kp sp :: Frame.R g _ u kg :: fs, Tree.node z cz zl kz zr =>
    some (Frame.R z Color.BLACK (Tree.node g Color.RED u kg zl) kz :: fs,
      Tree.node p cp zr kp sp)
  | _, _ => none

/-- Loop test of `deleteFixup` on a path and the subtree at `x`: `x` is not
the root and is BLACK. -/
def delCond : Ctx α → Tree α → Bool
  | [], _ => false
  | _ :: _, X => X.color == Color.BLACK

/-- CASES 2 to 4 of the left branch of `deleteFixup`: `x` is the left child of
`p` and the last argument is the subtree at the sibling `w`. -/
def delRestL (fs : Ctx α) (p : Ptr) (cp : Color) (kp : α) (X : Tree α) :
    Tree α → Option (Ctx α × Tree α)
  | Tree.nil => none
  | Tree.node w _ a kw b =>
    if a.color = Color.BLACK ∧ b.color = Color.BLACK then
      some (fs, Tree.node p cp X kp (Tree.node w Color.RED a kw b))
    else if b.color = Color.BLACK then
      match a with
      | Tree.node a1 _ al ka ar =>
        some ([], plug fs (Tree.node a1 cp (Tree.node p Color.BLACK X kp al) ka
          (Tree.node w Color.BLACK ar kw b)))
      | Tree.nil => none
    else
      match b with
      | Tree.node b1 _ bl kb br =>
        some ([], plug fs (Tree.node w cp (Tree.node p Color.BLACK X kp a) kw
          (Tree.node b1 Color.BLACK bl kb br)))
      | Tree.nil => none

/-- CASES 2 to 4 of the mirrored branch of `deleteFixup`: `x` is the right
child of `p`. -/
def delRestR (fs : Ctx α) (p : Ptr) (cp : Color) (kp : α) (X : Tree α) :
    Tree α → Option (Ctx α × Tree α)
  | Tree.nil => none
  | Tree.node w _ a kw b =>
    if b.color = Color.BLACK ∧ a.color = Color.BLACK then
      some (fs, Tree.node p cp (Tree.node w Color.RED a kw b) kp X)
    else if a.color = Color.BLACK then
      match b with
      | Tree.node b1 _ bl kb br =>
        some ([], plug fs (Tree.node b1 cp (Tree.node w Color.BLACK a kw bl) kb
          (Tree.node p Color.BLACK br kp X)))
      | Tree.nil => none
    else
      match a with
      | Tree.node a1 _ al ka ar =>
        some ([], plug fs (Tree.node w cp (Tree.node a1 Color.BLACK al ka ar) kw
          (Tree.node p Color.BLACK b kp X)))
      | Tree.nil => none

/-- One iteration of the loop of `deleteFixup`, on the path to `x` and the
subtree at `x`; CASE 1 comes first when the sibling is RED. -/
def delStep : Ctx α → Tree α → Option (Ctx α × Tree α)
  | [], _ => none
  | Frame.L p _ kp (Tree.node w Color.RED wl kw wr) :: fs, X =>
    delRestL (Frame.L w Color.BLACK kw wr :: fs) p Color.RED kp X wl
  | Frame.L p cp kp W :: fs, X => delRestL fs p cp kp X W
  | Frame.R p _ (Tree.node w Color.RED wl kw wr) kp :: fs, X =>
    delRestR (Frame.R w Color.BLACK wl kw :: fs) p Color.RED kp X wr
  | Frame.R p cp W kp :: fs, X => delRestR fs p cp kp X W

end Ctx

end RBT

namespace RBT

variable {α : Type}

namespace Ctx

/-- Keys visited by the in-order traversal before the subtree at the end of a path. -/
def keysL : Ctx α → List α
  | [] => []
  | Frame.L _ _ _ _ :: fs => keysL fs
  | Frame.R _ _ s k :: fs => keysL fs ++ (s.keys ++ [k])

/-- Keys visited by the in-order traversal after the subtree at the end of a path. -/
def keysR : Ctx α → List α
  | [] => []
  | Frame.L _ _ k s :: fs => (k :: s.keys) ++ keysR fs
  | Frame.R _ _ _ _ :: fs => keysR fs

end Ctx

/-- The store after `delete` has run on every address of a list. -/
def RedBlackTree.freeAll (t : RedBlackTree α) (as : List Ptr) : RedBlackTree α :=
  { t with mem := fun q => if q ∈ as then none else t.mem q }

/-- A result obtained with some step budget is obtained with every larger one. -/
def FuelMono {β : Type} (f : Nat → Option β) : Prop :=
  ∀ n m r, n ≤ m → f n = some r → f m = some r

end RBT

namespace RBT

variable {α : Type}

/-- States of a tree object that a client can bring about: construction,
followed by calls of `insert`, `remove` and `clear` that return. -/
inductive Reachable [LinearOrder α] [Inhabited α] : RedBlackTree α → Prop
  | new : Reachable RedBlackTree.new
  | insert {t t1 : RedBlackTree α} (fuel : Nat) (k : α) :
      Reachable t → t.insert fuel k = some t1 → Reachable t1
  | remove {t t1 : RedBlackTree α} (fuel : Nat) (k : α) (b : Bool) :
      Reachable t → t.remove fuel k = some (t1, b) → Reachable t1
  | clear {t t1 : RedBlackTree α} (fuel : Nat) :
      Reachable t → t.clear fuel = some t1 → Reachable t1

/-- The call `f` returns `r`: every step budget from some bound on gives `r`,
and no budget gives another result. -/
def Returns {β : Type} (f : Nat → Option β) (r : β) : Prop :=
  (∃ N, ∀ fuel, N ≤ fuel → f fuel = some r) ∧ ∀ fuel r1, f fuel = some r1 → r1 = r

/-- Red-black colouring of the tree held by a state: the records reachable
from `root` form a tree whose root is BLACK (the sentinel, when the tree is
empty), in which no RED node has a RED child and all root-to-sentinel paths
have the same number of BLACK nodes. -/
def RedBlack (t : RedBlackTree α) : Prop :=
  ∃ T, Models t T ∧ T.color = Color.BLACK ∧ T.NoRedRed ∧ T.EqualBlackPaths

/-- Invariant of the reachable states: red-black shape, BLACK root, keys in
non-decreasing order, and the counter equal to the number of nodes. -/
def Inv [LinearOrder α] (t : RedBlackTree α) : Prop :=
  ∃ T, Models t T ∧ T.WF ∧ T.color = Color.BLACK ∧ T.keys.Sorted (· ≤ ·) ∧ t.nodeCount = T.size

/-- A run of `insert` calls, one per key of a list, each with the budget `fuel`. -/
def insertAll [LinearOrder α] (t : RedBlackTree α) (ks : List α) (fuel : Nat) :
    Option (RedBlackTree α) :=
  ks.foldlM (fun s k => s.insert fuel k) t

/-- The tree object after `insert(5)`, `insert(3)`, `insert(8)` on a new tree. -/
def sampleTree : RedBlackTree Nat :=
  (insertAll RedBlackTree.new [5, 3, 8] 4).getD RedBlackTree.new

/-- The state `remove(k)` leaves behind on `sampleTree`. -/
def sampleRemoved (k : Nat) : RedBlackTree Nat :=
  ((sampleTree.remove 5 k).getD (sampleTree, false)).1

end RBT

namespace RBT

variable {α : Type}

/-- The tree object of the example scenario: `insert` of 5, 3, 8, 1, 4, 7, 9
on a new tree. -/
def scenarioTree : RedBlackTree Nat :=
  (insertAll RedBlackTree.new [5, 3, 8, 1, 4, 7, 9] 6).getD RedBlackTree.new

/-- The example scenario after `remove(3)`. -/
def scenarioRemoved : RedBlackTree Nat :=
  ((scenarioTree.remove 6 3).getD (scenarioTree, false)).1

/-- The example scenario after `clear()`. -/
def scenarioCleared : RedBlackTree Nat :=
  (scenarioRemoved.clear 6).getD scenarioRemoved

/-- Invariant 5 in its strict form: at every node the keys of the left subtree
compare less than the key of the node, and the keys of the right subtree do
not compare less than it. -/
def Tree.SearchTree [LT α] : Tree α → Prop
  | Tree.nil => True
  | Tree.node _ _ l k r =>
    (∀ x ∈ l.keys, x < k) ∧ (∀ x ∈ r.keys, ¬ x < k) ∧ l.SearchTree ∧ r.SearchTree

/-- Invariant 5 in its weak form: at every node the key of the node does not
compare less than a key of the left subtree, and the keys of the right subtree
do not compare less than the key of the node. -/
def Tree.WeakSearchTree [LT α] : Tree α → Prop
  | Tree.nil => True
  | Tree.node _ _ l k r =>
    (∀ x ∈ l.keys, ¬ k < x) ∧ (∀ x ∈ r.keys, ¬ x < k) ∧ l.WeakSearchTree ∧ r.WeakSearchTree

/-- The tree object after `insert(1)` three times on a new tree. -/
def tripleTree : RedBlackTree Nat :=
  (insertAll RedBlackTree.new [1, 1, 1] 4).getD RedBlackTree.new

/-- The tree object after `insert(1)` twice on a new tree. -/
def pairTree : RedBlackTree Nat :=
  (insertAll RedBlackTree.new [1, 1] 4).getD RedBlackTree.new

/-- The state `remove(1)` leaves behind on `pairTree`. -/
def pairRemoved : RedBlackTree Nat :=
  ((pairTree.remove 4 1).getD (pairTree, false)).1

/-- A call of one of the mutating public operations. -/
inductive Op (α : Type) where
  | insert (k : α) : Op α
  | remove (k : α) : Op α
  | clear : Op α

/-- Counts kept beside a run of operations: the `insert` calls and the `remove`
calls that returned true, since construction and since the last `clear`. -/
structure Tally where
  inserts : Nat
  removes : Nat
  insertsLive : Nat
  removesLive : Nat
  deriving DecidableEq, Repr

/-- One operation of a run, with its effect on the counts. -/
def Op.step [LinearOrder α] (fuel : Nat) (s : RedBlackTree α × Tally) :
    Op α → Option (RedBlackTree α × Tally)
  | Op.insert k =>
    (s.1.insert fuel k).map fun t =>
      (t, { s.2 with inserts := s.2.inserts + 1, insertsLive := s.2.insertsLive + 1 })
  | Op.remove k =>
    (s.1.remove fuel k).map fun r =>
      (r.1, if r.2 then
        { s.2 with removes := s.2.removes + 1, removesLive := s.2.removesLive + 1 }
      else s.2)
  | Op.clear =>
    (s.1.clear fuel).map fun t => (t, { s.2 with insertsLive := 0, removesLive := 0 })

/-- A run of operations from a state, every call with the budget `fuel`; the
counts start at zero. -/
def runOps [LinearOrder α] (t : RedBlackTree α) (ops : List (Op α)) (fuel : Nat) :
    Option (RedBlackTree α × Tally) :=
  ops.foldlM (Op.step fuel) (t, ⟨0, 0, 0, 0⟩)

/-- The run `insert(1)`, `clear()` on a new tree. -/
def clearedRun : RedBlackTree Nat × Tally :=
  (runOps RedBlackTree.new [Op.insert 1, Op.clear] 3).getD (RedBlackTree.new, ⟨0, 0, 0, 0⟩)

end RBT

namespace RBT

variable {α : Type}

/-- Address, colour and key of every node, in in-order. -/
def Tree.nodes : Tree α → List (Ptr × Color × α)
  | Tree.nil => []
  | Tree.node a c l k r => l.nodes ++ (a, c, k) :: r.nodes

/-- The tree `sampleTree` represents: 5 at the root, 3 and 8 below it. -/
def sampleShape : Tree Nat :=
  Tree.node 2 Color.BLACK (Tree.node 3 Color.RED Tree.nil 3 Tree.nil) 5
    (Tree.node 4 Color.RED Tree.nil 8 Tree.nil)

/-- The state the splice of `remove(3)` leaves behind on `sampleTree`. -/
def sampleSpliced : RedBlackTree Nat :=
  ((sampleTree.removeSplice 5 3).getD (sampleTree, 0, Color.BLACK)).1

end RBT

/-!
The fixups with a record of what they do

Copies of `insertFixup`, `deleteFixup` and of their callers `insert` and
`remove` that carry out the same statements and, beside the state, return the
list of the colour assignments, rotations and sibling, uncle and grandparent
reads of the fixup, in the order in which the program performs them.
-/

namespace RBT

/-- What a fixup does, as recorded by the copies below. -/
inductive Event where
  /-- Assignment `p->color = c`. -/
  | color (p : Ptr) (c : Color) : Event
  /-- Call `rotateLeft(x)`, with `y` the value of `x->right` at the call. -/
  | rotateLeft (x y : Ptr) : Event
  /-- Call `rotateRight(y)`, with `x` the value of `y->left` at the call. -/
  | rotateRight (y x : Ptr) : Event
  /-- Test `uncle->color == Color::RED` of `insertFixup`, with the colour read. -/
  | uncle (c : Color) : Event
  /-- Read of `z->parent->parent` in `insertFixup`, with the pointer read. -/
  | grandparent (g : Ptr) : Event
  /-- The sibling `w` of `deleteFixup`, when it is recoloured or its children are read. -/
  | sibling (w : Ptr) : Event
  deriving DecidableEq, Repr

/-- Colours of the uncles tested, one per iteration of `insertFixup`. -/
def uncles : List Event → List Color
  | [] => []
  | Event.uncle c :: es => c :: uncles es
  | _ :: es => uncles es

/-- Number of rotations recorded. -/
def rotations : List Event → Nat
  | [] => 0
  | Event.rotateLeft _ _ :: es => rotations es + 1
  | Event.rotateRight _ _ :: es => rotations es + 1
  | _ :: es => rotations es

/-- Pointers that the recorded steps need to be real nodes: the targets of the
colour assignments that write RED, the nodes rotated and their children that
move up, and the grandparents and siblings read. -/
def realPtrs : List Event → List Ptr
  | [] => []
  | Event.color p Color.RED :: es => p :: realPtrs es
  | Event.rotateLeft x y :: es => x :: y :: realPtrs es
  | Event.rotateRight y x :: es => y :: x :: realPtrs es
  | Event.grandparent g :: es => g :: realPtrs es
  | Event.sibling w :: es => w :: realPtrs es
  | _ :: es => realPtrs es

namespace RedBlackTree

variable {α : Type}

/-- Loop body of `insertFixup`, branch `z->parent == z->parent->parent->left`,
with its record. -/
def insertFixupLeftLog (t : RedBlackTree α) (z p g : Ptr) :
    Option ((RedBlackTree α × Ptr) × List Event) := do
  let uncle ← t.getRight g
  let uc ← t.getColor uncle
  if uc = Color.RED then do
    let t ← t.setColor p Color.BLACK
    let t ← t.setColor uncle Color.BLACK
    let t ← t.setColor g Color.RED
    some ((t, g), [Event.uncle uc, Event.color p Color.BLACK, Event.color uncle Color.BLACK,
      Event.color g Color.RED])
  else do
    let pr ← t.getRight p
    let (t, z, log) ← (if z = pr then do
        let y ← t.getRight p
        let t ← t.rotateLeft p
        some (t, p, [Event.rotateLeft p y])
      else some (t, z, []))
    let p ← t.getParent z
    let t ← t.setColor p Color.BLACK
    let g ← t.getParent p
    let t ← t.setColor g Color.RED
    let x ← t.getLeft g
    let t ← t.rotateRight g
    some ((t, z), Event.uncle uc :: log ++
      [Event.color p Color.BLACK, Event.color g Color.RED, Event.rotateRight g x])

/-- Loop body of `insertFixup`, mirrored branch, with its record. -/
def insertFixupRightLog (t : RedBlackTree α) (z p g : Ptr) :
    Option ((RedBlackTree α × Ptr) × List Event) := do
  let uncle ← t.getLeft g
  let uc ← t.getColor uncle
  if uc = Color.RED then do
    let t ← t.setColor p Color.BLACK
    let t ← t.setColor uncle Color.BLACK
    let t ← t.setColor g Color.RED
    some ((t, g), [Event.uncle uc, Event.color p Color.BLACK, Event.color uncle Color.BLACK,
      Event.color g Color.RED])
  else do
    let pl ← t.getLeft p
    let (t, z, log) ← (if z = pl then do
        let x ← t.getLeft p
        let t ← t.rotateRight p
        some (t, p, [Event.rotateRight p x])
      else some (t, z, []))
    let p ← t.getParent z
    let t ← t.setColor p Color.BLACK
    let g ← t.getParent p
    let t ← t.setColor g Color.RED
    let y ← t.getRight g
    let t ← t.rotateLeft g
    some ((t, z), Event.uncle uc :: log ++
      [Event.color p Color.BLACK, Event.color g Color.RED, Event.rotateLeft g y])

/-- Loop body of `insertFixup`, with its record. -/
def insertFixupBodyLog (s : RedBlackTree α × Ptr) :
    Option ((RedBlackTree α × Ptr) × List Event) := do
  let p ← s.1.getParent s.2
  let g ← s.1.getParent p
  let gl ← s.1.getLeft g
  let r ← (if p = gl then insertFixupLeftLog s.1 s.2 p g else insertFixupRightLog s.1 s.2 p g)
  some (r.1, Event.grandparent g :: r.2)

/-- Member `insertFixup`, with its record: the loop appends the record of each
iteration, and the final `root->color = Color::BLACK` closes it. -/
def insertFixupLog (t : RedBlackTree α) (fuel : Nat) (z : Ptr) :
    Option (RedBlackTree α × List Event) := do
  let s ← whileLoop (fun s => insertFixupCond s.1)
    (fun s => (insertFixupBodyLog s.1).map fun r => (r.1, s.2 ++ r.2)) fuel ((t, z), [])
  let t1 ← s.1.1.setColor s.1.1.root Color.BLACK
  some (t1, s.2 ++ [Event.color s.1.1.root Color.BLACK])

/-- Member `insert`, with the record of its `insertFixup`. -/
def insertLog [LinearOrder α] (t : RedBlackTree α) (fuel : Nat) (value : α) :
    Option (RedBlackTree α × List Event) := do
  let (z, t) := t.alloc value
  let t ← t.setLeft z t.NIL
  let t ← t.setRight z t.NIL
  let (y, _) ← whileLoop (insertDescendCond t) (insertDescendBody t z) fuel (nullptr, t.root)
  let t ← t.insertLink z y
  let t := t.setNodeCount (t.nodeCount + 1)
  t.insertFixupLog fuel z

end RedBlackTree

namespace Ctx

variable {α : Type}

/-- Record of one iteration of the loop of `insertFixup`, on the path to `z`
and the subtree at `z`. -/
def insLog : Ctx α → Tree α → List Event
  | Frame.L p _ _ _ :: Frame.L g _ _ (Tree.node u Color.RED _ _ _) :: _, _ =>
    [Event.grandparent g, Event.uncle Color.RED, Event.color p Color.BLACK,
      Event.color u Color.BLACK, Event.color g Color.RED]
  | Frame.R p _ _ _ :: Frame.L g _ _ (Tree.node u Color.RED _ _ _) :: _, _ =>
    [Event.grandparent g, Event.uncle Color.RED, Event.color p Color.BLACK,
      Event.color u Color.BLACK, Event.color g Color.RED]
  | Frame.L p _ _ _ :: Frame.L g _ _ _ :: _, _ =>
    [Event.grandparent g, Event.uncle Color.BLACK, Event.color p Color.BLACK,
      Event.color g Color.RED, Event.rotateRight g p]
  | Frame.R p _ _ _ :: Frame.L g _ _ _ :: _, Tree.node z _ _ _ _ =>
    [Event.grandparent g, Event.uncle Color.BLACK, Event.rotateLeft p z,
      Event.color z Color.BLACK, Event.color g Color.RED, Event.rotateRight g z]
  | Frame.L p _ _ _ :: Frame.R g _ (Tree.node u Color.RED _ _ _) _ :: _, _ =>
    [Event.grandparent g, Event.uncle Color.RED, Event.color p Color.BLACK,
      Event.color u Color.BLACK, Event.color g Color.RED]
  | Frame.R p _ _ _ :: Frame.R g _ (Tree.node u Color.RED _ _ _) _ :: _, _ =>
    [Event.grandparent g, Event.uncle Color.RED, Event.color p Color.BLACK,
      Event.color u Color.BLACK, Event.color g Color.RED]
  | Frame.R p _ _ _ :: Frame.R g _ _ _ :: _, _ =>
    [Event.grandparent g, Event.uncle Color.BLACK, Event.color p Color.BLACK,
      Event.color g Color.RED, Event.rotateLeft g p]
  | Frame.L p _ _ _ :: Frame.R g _ _ _ :: _, Tree.node z _ _ _ _ =>
    [Event.grandparent g, Event.uncle Color.BLACK, Event.rotateRight p z,
      Event.color z Color.BLACK, Event.color g Color.RED, Event.rotateLeft g z]
  | _, _ => []

end Ctx

end RBT

namespace RBT

namespace RedBlackTree

variable {α : Type}

/-- Loop body of `deleteFixup`, left branch, CASE 1, with its record. -/
def deleteFixupCase1LLog (t : RedBlackTree α) (x w : Ptr) :
    Option ((RedBlackTree α × Ptr) × List Event) := do
  let wc ← t.getColor w
  if wc = Color.RED then do
    let t ← t.setColor w Color.BLACK
    let xp ← t.getParent x
    let t ← t.setColor xp Color.RED
    let xp1 ← t.getParent x
    let y ← t.getRight xp1
    let t ← t.rotateLeft xp1
    let xp2 ← t.getParent x
    let w1 ← t.getRight xp2
    some ((t, w1), [Event.color w Color.BLACK, Event.color xp Color.RED,
      Event.rotateLeft xp1 y, Event.sibling w1])
  else some ((t, w), [])

/-- Loop body of `deleteFixup`, left branch, CASE 3, with its record. -/
def deleteFixupCase3LLog (t : RedBlackTree α) (x w : Ptr) :
    Option ((RedBlackTree α × Ptr) × List Event) := do
  let wr ← t.getRight w
  let wrc ← t.getColor wr
  if wrc = Color.BLACK then do
    let wl ← t.getLeft w
    let t ← t.setColor wl Color.BLACK
    let t ← t.setColor w Color.RED
    let x1 ← t.getLeft w
    let t ← t.rotateRight w
    let xp ← t.getParent x
    let w1 ← t.getRight xp
    some ((t, w1), [Event.color wl Color.BLACK, Event.color w Color.RED,
      Event.rotateRight w x1, Event.sibling w1])
  else some ((t, w), [])

/-- Loop body of `deleteFixup`, left branch, CASE 4, with its record. -/
def deleteFixupCase4LLog (t : RedBlackTree α) (x w : Ptr) :
    Option ((RedBlackTree α × Ptr) × List Event) := do
  let xp ← t.getParent x
  let xpc ← t.getColor xp
  let t ← t.setColor w xpc
  let xp1 ← t.getParent x
  let t ← t.setColor xp1 Color.BLACK
  let wr ← t.getRight w
  let t ← t.setColor wr Color.BLACK
  let xp2 ← t.getParent x
  let y ← t.getRight xp2
  let t ← t.rotateLeft xp2
  some ((t, t.root), [Event.color w xpc, Event.color xp1 Color.BLACK,
    Event.color wr Color.BLACK, Event.rotateLeft xp2 y])

/-- Loop body of `deleteFixup`, left branch, CASES 2 to 4, with its record. -/
def deleteFixupRestLLog (t : RedBlackTree α) (x w : Ptr) :
    Option ((RedBlackTree α × Ptr) × List Event) := do
  let wl ← t.getLeft w
  let wlc ← t.getColor wl
  let wr ← t.getRight w
  let wrc ← t.getColor wr
  if wlc = Color.BLACK ∧ wrc = Color.BLACK then do
    let t ← t.setColor w Color.RED
    let xp ← t.getParent x
    some ((t, xp), [Event.color w Color.RED])
  else do
    let r3 ← deleteFixupCase3LLog t x w
    let r4 ← deleteFixupCase4LLog r3.1.1 x r3.1.2
    some (r4.1, r3.2 ++ r4.2)

/-- Loop body of `deleteFixup`, branch `x == x->parent->left`, with its record. -/
def deleteFixupLeftLog (t : RedBlackTree α) (x : Ptr) :
    Option ((RedBlackTree α × Ptr) × List Event) := do
  let xp ← t.getParent x
  let w ← t.getRight xp
  let r1 ← deleteFixupCase1LLog t x w
  let r2 ← deleteFixupRestLLog r1.1.1 x r1.1.2
  some (r2.1, Event.sibling w :: r1.2 ++ r2.2)

/-- Loop body of `deleteFixup`, mirrored branch, CASE 1, with its record. -/
def deleteFixupCase1RLog (t : RedBlackTree α) (x w : Ptr) :
    Option ((RedBlackTree α × Ptr) × List Event) := do
  let wc ← t.getColor w
  if wc = Color.RED then do
    let t ← t.setColor w Color.BLACK
    let xp ← t.getParent x
    let t ← t.setColor xp Color.RED
    let xp1 ← t.getParent x
    let y ← t.getLeft xp1
    let t ← t.rotateRight xp1
    let xp2 ← t.getParent x
    let w1 ← t.getLeft xp2
    some ((t, w1), [Event.color w Color.BLACK, Event.color xp Color.RED,
      Event.rotateRight xp1 y, Event.sibling w1])
  else some ((t, w), [])

/-- Loop body of `deleteFixup`, mirrored branch, CASE 3, with its record. -/
def deleteFixupCase3RLog (t : RedBlackTree α) (x w : Ptr) :
    Option ((RedBlackTree α × Ptr) × List Event) := do
  let wl ← t.getLeft w
  let wlc ← t.getColor wl
  if wlc = Color.BLACK then do
    let wr ← t.getRight w
    let t ← t.setColor wr Color.BLACK
    let t ← t.setColor w Color.RED
    let y ← t.getRight w
    let t ← t.rotateLeft w
    let xp ← t.getParent x
    let w1 ← t.getLeft xp
    some ((t, w1), [Event.color wr Color.BLACK, Event.color w Color.RED,
      Event.rotateLeft w y, Event.sibling w1])
  else some ((t, w), [])

/-- Loop body of `deleteFixup`, mirrored branch, CASE 4, with its record. -/
def deleteFixupCase4RLog (t : RedBlackTree α) (x w : Ptr) :
    Option ((RedBlackTree α × Ptr) × List Event) := do
  let xp ← t.getParent x
  let xpc ← t.getColor xp
  let t ← t.setColor w xpc
  let xp1 ← t.getParent x
  let t ← t.setColor xp1 Color.BLACK
  let wl ← t.getLeft w
  let t ← t.setColor wl Color.BLACK
  let xp2 ← t.getParent x
  let y ← t.getLeft xp2
  let t ← t.rotateRight xp2
  some ((t, t.root), [Event.color w xpc, Event.color xp1 Color.BLACK,
    Event.color wl Color.BLACK, Event.rotateRight xp2 y])

/-- Loop body of `deleteFixup`, mirrored branch, CASES 2 to 4, with its record. -/
def deleteFixupRestRLog (t : RedBlackTree α) (x w : Ptr) :
    Option ((RedBlackTree α × Ptr) × List Event) := do
  let wr ← t.getRight w
  let wrc ← t.getColor wr
  let wl ← t.getLeft w
  let wlc ← t.getColor wl
  if wrc = Color.BLACK ∧ wlc = Color.BLACK then do
    let t ← t.setColor w Color.RED
    let xp ← t.getParent x
    some ((t, xp), [Event.color w Color.RED])
  else do
    let r3 ← deleteFixupCase3RLog t x w
    let r4 ← deleteFixupCase4RLog r3.1.1 x r3.1.2
    some (r4.1, r3.2 ++ r4.2)

/-- Loop body of `deleteFixup`, mirrored branch, with its record. -/
def deleteFixupRightLog (t : RedBlackTree α) (x : Ptr) :
    Option ((RedBlackTree α × Ptr) × List Event) := do
  let xp ← t.getParent x
  let w ← t.getLeft xp
  let r1 ← deleteFixupCase1RLog t x w
  let r2 ← deleteFixupRestRLog r1.1.1 x r1.1.2
  some (r2.1, Event.sibling w :: r1.2 ++ r2.2)

/-- Loop body of `deleteFixup`, with its record. -/
def deleteFixupBodyLog (s : RedBlackTree α × Ptr) :
    Option ((RedBlackTree α × Ptr) × List Event) := do
  let xp ← s.1.getParent s.2
  let xpl ← s.1.getLeft xp
  if s.2 = xpl then deleteFixupLeftLog s.1 s.2 else deleteFixupRightLog s.1 s.2

/-- Member `deleteFixup`, with its record: the loop appends the record of each
iteration, and the final `x->color = Color::BLACK` closes it. -/
def deleteFixupLog (t : RedBlackTree α) (fuel : Nat) (x : Ptr) :
    Option (RedBlackTree α × List Event) := do
  let s ← whileLoop (fun s => deleteFixupCond s.1)
    (fun s => (deleteFixupBodyLog s.1).map fun r => (r.1, s.2 ++ r.2)) fuel ((t, x), [])
  let t1 ← s.1.1.setColor s.1.2 Color.BLACK
  some (t1, s.2 ++ [Event.color s.1.2 Color.BLACK])

/-- Member `remove`, with the record of its `deleteFixup`; the record is empty
when `deleteFixup` is not called. -/
def removeLog [LinearOrder α] (t : RedBlackTree α) (fuel : Nat) (value : α) :
    Option (RedBlackTree α × Bool × List Event) := do
  let z ← t.search fuel t.root value
  if z = t.NIL then some (t, false, []) else do
    let (t, x, yOriginalColor) ← removeSplice t fuel z
    let t ← t.free z
    let t := t.setNodeCount (t.nodeCount - 1)
    let r ← (if yOriginalColor = Color.BLACK then t.deleteFixupLog fuel x else some (t, []))
    some (r.1, true, r.2)

end RedBlackTree

end RBT

namespace RBT

variable {α : Type}

/-- Real nodes of a tree object: the nodes reached from `root` through `left`
and `right` links, the sentinel excluded. -/
inductive RealNode (t : RedBlackTree α) : Ptr → Prop
  | root : t.root ≠ t.NIL → RealNode t t.root
  | left {n c : Ptr} : RealNode t n → t.getLeft n = some c → c ≠ t.NIL → RealNode t c
  | right {n c : Ptr} : RealNode t n → t.getRight n = some c → c ≠ t.NIL → RealNode t c

/-- The tree object after `insert(5)`, `insert(3)` on a new tree. -/
def leafTree : RedBlackTree Nat :=
  (insertAll RedBlackTree.new [5, 3] 4).getD RedBlackTree.new

/-- The tree object after `insert(5)`, `insert(3)`, `remove(3)` on a new tree. -/
def leafRemoved : RedBlackTree Nat :=
  ((leafTree.remove 4 3).getD (leafTree, false)).1

/-- The tree object after `insert(5)`, `insert(3)`, `remove(3)`, `clear()` on
a new tree. -/
def leafRemovedCleared : RedBlackTree Nat :=
  (leafRemoved.clear 4).getD RedBlackTree.new

end RBT

namespace RBT

variable {α : Type}

/-- The path and the subtree at its end are in red-black shape, except that
the subtree has a RED root whose parent may be RED as well. -/
def InsInv (ctx : Ctx α) (Z : Tree α) (n : Nat) : Prop :=
  ctx.WF n ∧ Z.WF ∧ Z.bh = n ∧ Z.color = Color.RED

/-- The path is in red-black shape for a subtree of black count `n + 1`, but
the subtree at its end has black count `n` only and its root colour is free. -/
def DelInv (ctx : Ctx α) (X : Tree α) (n : Nat) : Prop :=
  ctx.WF (n + 1) ∧ (X.setColor Color.BLACK).WF ∧ X.bh = n

end RBT

namespace RBT

open RedBlackTree

variable {α : Type}

@[simp] theorem nullptr_eq : nullptr = 0 := rfl

theorem AddrsOk.perm {t : RedBlackTree α} {as bs : List Ptr} (h : as.Perm bs) :
    AddrsOk t as ↔ AddrsOk t bs := by
  unfold AddrsOk
  rw [h.nodup_iff]
  constructor
  · rintro ⟨h1, h2⟩
    exact ⟨h1, fun a ha => h2 a (h.mem_iff.mpr ha)⟩
  · rintro ⟨h1, h2⟩
    exact ⟨h1, fun a ha => h2 a (h.mem_iff.mp ha)⟩

theorem modelsAt_cons {t : RedBlackTree α} (f : Frame α) (fs : Ctx α) (T : Tree α) :
    ModelsAt t (f :: fs) T ↔ ModelsAt t fs (f.fill T) := by
  cases f with
  | L a c k s =>
    have hp : (T.addrs ++ (a :: (s.addrs ++ Ctx.addrs fs))).Perm
        ((a :: (T.addrs ++ s.addrs)) ++ Ctx.addrs fs) := by
      simp only [List.cons_append, List.append_assoc]
      exact List.perm_middle
    constructor
    · rintro ⟨h1, h2, h3, h4⟩
      simp only [RepCtx, Ctx.par, Frame.addr] at h1 h2
      exact ⟨h1.2.2, ⟨h1.1, h2, h1.2.1⟩, h3, (AddrsOk.perm hp).mp h4⟩
    · rintro ⟨h1, h2, h3, h4⟩
      simp only [Frame.fill, Rep, Tree.ptr] at h1 h2
      exact ⟨⟨h2.1, h2.2.2, h1⟩, h2.2.1, h3, (AddrsOk.perm hp).mpr h4⟩
  | R a c s k =>
    have hp : (T.addrs ++ (a :: (s.addrs ++ Ctx.addrs fs))).Perm
        ((a :: (s.addrs ++ T.addrs)) ++ Ctx.addrs fs) := by
      simp only [List.cons_append, List.append_assoc]
      refine List.perm_middle.trans (List.Perm.cons _ ?_)
      rw [← List.append_assoc, ← List.append_assoc]
      exact List.Perm.append_right _ List.perm_append_comm
    constructor
    · rintro ⟨h1, h2, h3, h4⟩
      simp only [RepCtx, Ctx.par, Frame.addr] at h1 h2
      exact ⟨h1.2.2, ⟨h1.1, h1.2.1, h2⟩, h3, (AddrsOk.perm hp).mp h4⟩
    · rintro ⟨h1, h2, h3, h4⟩
      simp only [Frame.fill, Rep, Tree.ptr] at h1 h2
      exact ⟨⟨h2.1, h2.2.1, h1⟩, h2.2.2, h3, (AddrsOk.perm hp).mpr h4⟩

theorem modelsAt_nil {t : RedBlackTree α} (T : Tree α) : ModelsAt t [] T ↔ Models t T := by
  constructor
  · rintro ⟨h1, h2, h3, h4⟩
    exact ⟨h1, h2, h3, by simpa [Ctx.addrs] using h4⟩
  · rintro ⟨h1, h2, h3, h4⟩
    exact ⟨h1, h2, h3, by simpa [Ctx.addrs] using h4⟩

theorem modelsAt_iff {t : RedBlackTree α} (ctx : Ctx α) (T : Tree α) :
    ModelsAt t ctx T ↔ Models t (ctx.plug T) := by
  induction ctx generalizing T with
  | nil => exact modelsAt_nil T
  | cons f fs ih => rw [modelsAt_cons, ih]; rfl

theorem modelsAt_append {t : RedBlackTree α} (c1 c2 : Ctx α) (T : Tree α) :
    ModelsAt t (c1 ++ c2) T ↔ ModelsAt t c2 (Ctx.plug c1 T) := by
  induction c1 generalizing T with
  | nil => rfl
  | cons f fs ih => rw [List.cons_append, modelsAt_cons, ih]; rfl

end RBT

namespace RBT

open RedBlackTree

variable {α : Type}

/-! ### Reading and writing the store -/

@[simp] theorem store_mem (t : RedBlackTree α) (p : Ptr) (n : Node α) :
    (t.store p n).mem = Function.update t.mem p (some n) := by
  funext q
  simp [RedBlackTree.store, Function.update_apply]

@[simp] theorem store_root (t : RedBlackTree α) (p : Ptr) (n : Node α) :
    (t.store p n).root = t.root := rfl
@[simp] theorem store_NIL (t : RedBlackTree α) (p : Ptr) (n : Node α) :
    (t.store p n).NIL = t.NIL := rfl
@[simp] theorem store_brk (t : RedBlackTree α) (p : Ptr) (n : Node α) :
    (t.store p n).brk = t.brk := rfl
@[simp] theorem store_nodeCount (t : RedBlackTree α) (p : Ptr) (n : Node α) :
    (t.store p n).nodeCount = t.nodeCount := rfl

theorem deref_eq {t : RedBlackTree α} {p : Ptr} (hp : p ≠ 0) : t.deref p = t.mem p := by
  simp [RedBlackTree.deref, hp]

theorem Rep.congr_mem {m m1 : Ptr → Option (Node α)} {NIL : Ptr} {T : Tree α} {par : Ptr}
    (h : ∀ a ∈ T.addrs, m1 a = m a) : Rep m1 NIL par T ↔ Rep m NIL par T := by
  induction T generalizing par with
  | nil => simp [Rep]
  | node a c l k r ihl ihr =>
    simp only [Rep]
    rw [h a (by simp [Tree.addrs]), ihl (fun b hb => h b (by simp [Tree.addrs, hb])),
      ihr (fun b hb => h b (by simp [Tree.addrs, hb]))]

theorem RepCtx.congr_path {m m1 : Ptr → Option (Node α)} {NIL root : Ptr} {ctx : Ctx α} {p : Ptr}
    (h : ∀ a ∈ ctx.addrs, m1 a = m a) : RepCtx m1 NIL root ctx p ↔ RepCtx m NIL root ctx p := by
  induction ctx generalizing p with
  | nil => simp [RepCtx]
  | cons f fs ih =>
    cases f with
    | L a c k s =>
      simp only [RepCtx]
      rw [h a (by simp [Ctx.addrs, Frame.addr]),
        Rep.congr_mem (fun b hb => h b (by simp [Ctx.addrs, Frame.sib, hb])),
        ih (fun b hb => h b (by simp [Ctx.addrs, hb]))]
    | R a c s k =>
      simp only [RepCtx]
      rw [h a (by simp [Ctx.addrs, Frame.addr]),
        Rep.congr_mem (fun b hb => h b (by simp [Ctx.addrs, Frame.sib, hb])),
        ih (fun b hb => h b (by simp [Ctx.addrs, hb]))]

@[simp] theorem Rep.update_off {m : Ptr → Option (Node α)} {NIL : Ptr} {T : Tree α} {par p : Ptr}
    {n : Option (Node α)} (hp : p ∉ T.addrs) :
    Rep (Function.update m p n) NIL par T ↔ Rep m NIL par T :=
  Rep.congr_mem fun a ha => Function.update_noteq (fun (e : a = p) => hp (e ▸ ha)) _ _

@[simp] theorem RepCtx.update_path {m : Ptr → Option (Node α)} {NIL root : Ptr} {ctx : Ctx α}
    {h p : Ptr} {n : Option (Node α)} (hp : p ∉ ctx.addrs) :
    RepCtx (Function.update m p n) NIL root ctx h ↔ RepCtx m NIL root ctx h :=
  RepCtx.congr_path fun a ha => Function.update_noteq (fun (e : a = p) => hp (e ▸ ha)) _ _

/-- Changing the parent field of the root record of a subtree. -/
theorem Rep.reparent {m : Ptr → Option (Node α)} {NIL : Ptr} {a : Ptr} {c : Color}
    {l r : Tree α} {k : α} {par par1 : Ptr} (h : Rep m NIL par (Tree.node a c l k r))
    (hl : a ∉ l.addrs) (hr : a ∉ r.addrs) :
    Rep (Function.update m a (some ⟨k, c, par1, l.ptr NIL, r.ptr NIL⟩)) NIL par1
      (Tree.node a c l k r) := by
  simp only [Rep] at h ⊢
  simp [hl, hr, h.2.1, h.2.2]

/-- Changing the pointer at the lower end of a path. -/
theorem RepCtx.relink {m : Ptr → Option (Node α)} {NIL root : Ptr} {ctx : Ctx α}
    {h : Ptr} (hc : RepCtx m NIL root ctx h) (hnd : ctx.addrs.Nodup) (h1 : Ptr) :
    match ctx with
    | [] => RepCtx m NIL h1 ([] : Ctx α) h1
    | Frame.L a c k s :: fs =>
      RepCtx (Function.update m a (some ⟨k, c, Ctx.par fs, h1, s.ptr NIL⟩)) NIL root
        (Frame.L a c k s :: fs) h1
    | Frame.R a c s k :: fs =>
      RepCtx (Function.update m a (some ⟨k, c, Ctx.par fs, s.ptr NIL, h1⟩)) NIL root
        (Frame.R a c s k :: fs) h1 := by
  match ctx, hc, hnd with
  | [], _, _ => simp [RepCtx]
  | Frame.L a c k s :: fs, hc, hnd =>
    simp only [Ctx.addrs, Frame.addr, Frame.sib, List.nodup_cons, List.mem_append, not_or,
      List.nodup_append] at hnd
    simp only [RepCtx] at hc ⊢
    simp [hnd.1.1, hnd.1.2, hc.2.1, hc.2.2]
  | Frame.R a c s k :: fs, hc, hnd =>
    simp only [Ctx.addrs, Frame.addr, Frame.sib, List.nodup_cons, List.mem_append, not_or,
      List.nodup_append] at hnd
    simp only [RepCtx] at hc ⊢
    simp [hnd.1.1, hnd.1.2, hc.2.1, hc.2.2]

end RBT

namespace RBT

open RedBlackTree

variable {α : Type}

theorem ModelsAt.cell {t : RedBlackTree α} {ctx : Ctx α} {a : Ptr} {c : Color} {l r : Tree α}
    {k : α} (h : ModelsAt t ctx (Tree.node a c l k r)) :
    t.deref a = some ⟨k, c, ctx.par, l.ptr t.NIL, r.ptr t.NIL⟩ := by
  have h0 : a ≠ 0 := (h.addrsOk.2 a (by simp [Tree.addrs])).1
  rw [deref_eq h0]
  exact h.rep.1

theorem ModelsAt.nil_deref {t : RedBlackTree α} {ctx : Ctx α} {T : Tree α} (h : ModelsAt t ctx T) :
    ∃ d p, t.deref t.NIL = some ⟨d, Color.BLACK, p, 0, 0⟩ := by
  obtain ⟨h0, _, d, p, hm⟩ := h.nilCell
  exact ⟨d, p, by rw [deref_eq h0]; exact hm⟩

theorem ModelsAt.getColor {t : RedBlackTree α} {ctx : Ctx α} {T : Tree α} (h : ModelsAt t ctx T) :
    t.getColor (T.ptr t.NIL) = some T.color := by
  cases T with
  | nil =>
    obtain ⟨d, p, hd⟩ := h.nil_deref
    simp [RedBlackTree.getColor, Tree.ptr, Tree.color, hd]
  | node a c l k r => simp [RedBlackTree.getColor, Tree.ptr, Tree.color, h.cell]

theorem ModelsAt.getLeft {t : RedBlackTree α} {ctx : Ctx α} {a : Ptr} {c : Color} {l r : Tree α}
    {k : α} (h : ModelsAt t ctx (Tree.node a c l k r)) : t.getLeft a = some (l.ptr t.NIL) := by
  simp [RedBlackTree.getLeft, h.cell]

theorem ModelsAt.getRight {t : RedBlackTree α} {ctx : Ctx α} {a : Ptr} {c : Color} {l r : Tree α}
    {k : α} (h : ModelsAt t ctx (Tree.node a c l k r)) : t.getRight a = some (r.ptr t.NIL) := by
  simp [RedBlackTree.getRight, h.cell]

theorem ModelsAt.getParent {t : RedBlackTree α} {ctx : Ctx α} {a : Ptr} {c : Color} {l r : Tree α}
    {k : α} (h : ModelsAt t ctx (Tree.node a c l k r)) : t.getParent a = some ctx.par := by
  simp [RedBlackTree.getParent, h.cell]

theorem ModelsAt.getData {t : RedBlackTree α} {ctx : Ctx α} {a : Ptr} {c : Color} {l r : Tree α}
    {k : α} (h : ModelsAt t ctx (Tree.node a c l k r)) : t.getData a = some k := by
  simp [RedBlackTree.getData, h.cell]

theorem AddrsOk.store {t : RedBlackTree α} {as : List Ptr} {p : Ptr} {n : Node α} :
    AddrsOk (t.store p n) as ↔ AddrsOk t as := Iff.rfl

@[simp] theorem Tree.ptr_nil (NIL : Ptr) : (Tree.nil : Tree α).ptr NIL = NIL := rfl
@[simp] theorem Tree.ptr_node (NIL : Ptr) (a : Ptr) (c : Color) (l r : Tree α) (k : α) :
    (Tree.node a c l k r).ptr NIL = a := rfl

theorem deref_store (t : RedBlackTree α) (p q : Ptr) (n : Node α) (hp : p ≠ 0) :
    (t.store p n).deref q = if q = p then some n else t.deref q := by
  unfold RedBlackTree.deref
  by_cases h : q = p
  · subst h; simp [hp]
  · simp [h, Function.update_noteq h]

@[simp] theorem deref_setRoot (t : RedBlackTree α) (r q : Ptr) :
    (t.setRoot r).deref q = t.deref q := rfl
@[simp] theorem setRoot_mem (t : RedBlackTree α) (r : Ptr) : (t.setRoot r).mem = t.mem := rfl
@[simp] theorem setRoot_root (t : RedBlackTree α) (r : Ptr) : (t.setRoot r).root = r := rfl
@[simp] theorem setRoot_NIL (t : RedBlackTree α) (r : Ptr) : (t.setRoot r).NIL = t.NIL := rfl
@[simp] theorem setRoot_brk (t : RedBlackTree α) (r : Ptr) : (t.setRoot r).brk = t.brk := rfl
@[simp] theorem setRoot_nodeCount (t : RedBlackTree α) (r : Ptr) :
    (t.setRoot r).nodeCount = t.nodeCount := rfl

theorem AddrsOk.of_eq_addrs {t t1 : RedBlackTree α} {as : List Ptr} (h1 : t1.NIL = t.NIL)
    (h2 : t1.brk = t.brk) : AddrsOk t1 as ↔ AddrsOk t as := by
  simp only [AddrsOk, h1, h2]

theorem NilCell.of_eq_nil {t t1 : RedBlackTree α} (h1 : t1.NIL = t.NIL)
    (h2 : t1.brk = t.brk) (h3 : t1.mem t.NIL = t.mem t.NIL) : NilCell t1 ↔ NilCell t := by
  simp only [NilCell, h1, h2, h3]

theorem Fr.of_eq_frame {t t1 : RedBlackTree α} (h1 : t1.NIL = t.NIL) (h2 : t1.nodeCount = t.nodeCount)
    (h3 : t1.brk = t.brk) (h4 : t1.mem t.NIL = t.mem t.NIL) : Fr t t1 := ⟨h1, h2, h3, h4⟩

@[simp] theorem Ctx.par_nil : Ctx.par ([] : Ctx α) = 0 := rfl
@[simp] theorem Ctx.par_cons (f : Frame α) (fs : Ctx α) : Ctx.par (f :: fs) = f.addr := rfl

theorem Tree.ne_ptr {T : Tree α} {NIL p : Ptr} (h1 : p ≠ NIL) (h2 : p ∉ T.addrs) :
    (p = T.ptr NIL) = False := by
  cases T with
  | nil => simpa using h1
  | node a c l k r =>
    simp only [Tree.addrs, List.mem_cons, not_or] at h2
    simpa using h2.1

theorem Tree.ptr_ne {T : Tree α} {NIL p : Ptr} (h1 : p ≠ NIL) (h2 : p ∉ T.addrs) :
    (T.ptr NIL = p) = False := by
  rw [← Tree.ne_ptr h1 h2]; exact propext eq_comm

theorem update_ne1 {m : Ptr → Option (Node α)} {p q : Ptr} {v : Option (Node α)} (h : q ≠ p) :
    Function.update m p v q = m q := Function.update_noteq h _ _

theorem update_ne2 {m : Ptr → Option (Node α)} {p q : Ptr} {v : Option (Node α)} (h : p ≠ q) :
    Function.update m p v q = m q := Function.update_noteq (Ne.symm h) _ _

set_option maxHeartbeats 1000000 in
theorem rotateLeft_at {t : RedBlackTree α} {ctx : Ctx α} {x y : Ptr} {cx cy : Color}
    {a b c : Tree α} {kx ky : α}
    (h : ModelsAt t ctx (Tree.node x cx a kx (Tree.node y cy b ky c))) :
    ∃ t1, t.rotateLeft x = some t1 ∧
      ModelsAt t1 ctx (Tree.node y cy (Tree.node x cx a kx b) ky c) ∧ Fr t t1 := by
  obtain ⟨hc, hr, hn, hnd, hok⟩ := h
  have hperm : ((Tree.node x cx a kx (Tree.node y cy b ky c)).addrs ++ Ctx.addrs ctx).Perm
      ((Tree.node y cy (Tree.node x cx a kx b) ky c).addrs ++ Ctx.addrs ctx) := by
    simp only [Tree.addrs, List.cons_append, List.append_assoc]
    exact (List.Perm.cons x List.perm_middle).trans (List.Perm.swap y x _)
  have hok' := (AddrsOk.perm hperm).mp ⟨hnd, hok⟩
  clear hperm
  obtain ⟨hn0, hnb, d, p, hnil⟩ := id hn
  have hx := hok x (by simp [Tree.addrs])
  have hy := hok y (by simp [Tree.addrs])
  rcases b with _ | ⟨b0, cb, bl, kb, br⟩ <;> rcases ctx with _ | ⟨⟨g, cg, kg, s⟩ | ⟨g, cg, s, kg⟩, fs⟩ <;>
  ( have hg : True := trivial
    have hb : True := trivial
    try have hg := hok g (by simp [Tree.addrs, Ctx.addrs, Frame.addr])
    try have hb := hok b0 (by simp [Tree.addrs])
    clear hok
    simp only [Tree.addrs, Ctx.addrs, Frame.addr, Frame.sib, List.cons_append, List.nodup_cons,
      List.mem_append, List.mem_cons, not_or, List.nodup_append, List.append_assoc,
      List.disjoint_cons_left, List.disjoint_cons_right, List.disjoint_append_left,
      List.disjoint_append_right, List.nil_append, List.append_nil, List.not_mem_nil,
      not_false_eq_true, true_and, and_true, List.nodup_nil, List.disjoint_nil_left,
      List.disjoint_nil_right] at hnd
    simp only [Rep, RepCtx, Tree.ptr_node, Tree.ptr_nil, true_and, and_true, Ctx.par_cons,
      Ctx.par_nil, Frame.addr] at hr hc
    simp only [rotateLeft, RedBlackTree.getRight, RedBlackTree.getLeft, RedBlackTree.setRight,
      RedBlackTree.getParent, RedBlackTree.setParent, RedBlackTree.setLeft]
    simp only [ne_eq, hx, hy, hg, hb, not_false_eq_true, deref_eq, hr, Option.map_some', nullptr_eq,
      Option.bind_eq_bind, Option.some_bind, deref_setRoot, ite_not, store_NIL, store_mem,
      Function.update_same, hnd, update_ne2, update_ne1, setRoot_mem, if_true, if_false, hc,
      Tree.ne_ptr, Tree.ptr_ne, Option.some.injEq, exists_eq_left', setRoot_NIL, not_true_eq_false]
    refine ⟨⟨?_, ?_, ?_, ?_⟩, ?_⟩
    · simp only [RepCtx, Rep, store_mem, store_root, store_NIL, setRoot_mem, setRoot_root,
        setRoot_NIL, Function.update_same, update_ne1, update_ne2, Rep.update_off, RepCtx.update_path,
        hnd, hr, hc, hx, hy, hg, hb, Tree.ptr_node, Tree.ptr_nil, Ctx.par_nil, Ctx.par_cons,
        Frame.addr, and_self, ne_eq, not_false_eq_true, nullptr_eq, Ctx.addrs, Tree.addrs,
        List.mem_cons, List.mem_append, not_or, or_self, or_false, not_true_eq_false]
    · simp only [RepCtx, Rep, store_mem, store_root, store_NIL, setRoot_mem, setRoot_root,
        setRoot_NIL, Function.update_same, update_ne1, update_ne2, Rep.update_off, RepCtx.update_path,
        hnd, hr, hc, hx, hy, hg, hb, Tree.ptr_node, Tree.ptr_nil, Ctx.par_nil, Ctx.par_cons,
        Frame.addr, and_self, ne_eq, not_false_eq_true, nullptr_eq, Ctx.addrs, Tree.addrs,
        List.mem_cons, List.mem_append, not_or, or_self, or_false, not_true_eq_false]
    · simp only [NilCell, store_mem, store_NIL, store_brk, setRoot_mem, setRoot_NIL, setRoot_brk,
        update_ne1, update_ne2, hx, hy, hg, hb, ne_eq, not_false_eq_true, hnil, hn0, hnb,
        Option.some.injEq, Node.mk.injEq, true_and, exists_and_left, exists_eq', and_true,
        exists_eq_left', and_self, nullptr_eq]
    · exact (AddrsOk.of_eq_addrs (by simp only [store_NIL, setRoot_NIL]) (by simp only [store_brk, setRoot_brk])).mpr hok'
    · simp only [Fr, store_mem, store_NIL, store_brk, store_nodeCount, setRoot_mem, setRoot_NIL,
        setRoot_brk, setRoot_nodeCount, update_ne1, update_ne2, hx, hy, hg, hb, ne_eq,
        not_false_eq_true, and_self])

set_option maxHeartbeats 1000000 in
theorem rotateRight_at {t : RedBlackTree α} {ctx : Ctx α} {x y : Ptr} {cx cy : Color}
    {a b c : Tree α} {kx ky : α}
    (h : ModelsAt t ctx (Tree.node y cy (Tree.node x cx a kx b) ky c)) :
    ∃ t1, t.rotateRight y = some t1 ∧
      ModelsAt t1 ctx (Tree.node x cx a kx (Tree.node y cy b ky c)) ∧ Fr t t1 := by
  obtain ⟨hc, hr, hn, hnd, hok⟩ := h
  have hperm : ((Tree.node y cy (Tree.node x cx a kx b) ky c).addrs ++ Ctx.addrs ctx).Perm
      ((Tree.node x cx a kx (Tree.node y cy b ky c)).addrs ++ Ctx.addrs ctx) := by
    simp only [Tree.addrs, List.cons_append, List.append_assoc]
    exact (List.Perm.swap x y _).trans (List.Perm.cons x List.perm_middle.symm)
  have hok' := (AddrsOk.perm hperm).mp ⟨hnd, hok⟩
  clear hperm
  obtain ⟨hn0, hnb, d, p, hnil⟩ := id hn
  have hx := hok x (by simp [Tree.addrs])
  have hy := hok y (by simp [Tree.addrs])
  rcases b with _ | ⟨b0, cb, bl, kb, br⟩ <;> rcases ctx with _ | ⟨⟨g, cg, kg, s⟩ | ⟨g, cg, s, kg⟩, fs⟩ <;>
  ( have hg : True := trivial
    have hb : True := trivial
    try have hg := hok g (by simp [Tree.addrs, Ctx.addrs, Frame.addr])
    try have hb := hok b0 (by simp [Tree.addrs])
    clear hok
    simp only [Tree.addrs, Ctx.addrs, Frame.addr, Frame.sib, List.cons_append, List.nodup_cons,
      List.mem_append, List.mem_cons, not_or, List.nodup_append, List.append_assoc,
      List.disjoint_cons_left, List.disjoint_cons_right, List.disjoint_append_left,
      List.disjoint_append_right, List.nil_append, List.append_nil, List.not_mem_nil,
      not_false_eq_true, true_and, and_true, List.nodup_nil, List.disjoint_nil_left,
      List.disjoint_nil_right] at hnd
    simp only [Rep, RepCtx, Tree.ptr_node, Tree.ptr_nil, true_and, and_true, Ctx.par_cons,
      Ctx.par_nil, Frame.addr] at hr hc
    simp only [rotateRight, RedBlackTree.getRight, RedBlackTree.getLeft, RedBlackTree.setRight,
      RedBlackTree.getParent, RedBlackTree.setParent, RedBlackTree.setLeft]
    simp only [ne_eq, hx, hy, hg, hb, not_false_eq_true, deref_eq, hr, Option.map_some', nullptr_eq,
      Option.bind_eq_bind, Option.some_bind, deref_setRoot, ite_not, store_NIL, store_mem,
      Function.update_same, hnd, update_ne2, update_ne1, setRoot_mem, if_true, if_false, hc,
      Tree.ne_ptr, Tree.ptr_ne, Option.some.injEq, exists_eq_left', setRoot_NIL, not_true_eq_false]
    refine ⟨⟨?_, ?_, ?_, ?_⟩, ?_⟩
    · simp only [RepCtx, Rep, store_mem, store_root, store_NIL, setRoot_mem, setRoot_root,
        setRoot_NIL, Function.update_same, update_ne1, update_ne2, Rep.update_off, RepCtx.update_path,
        hnd, hr, hc, hx, hy, hg, hb, Tree.ptr_node, Tree.ptr_nil, Ctx.par_nil, Ctx.par_cons,
        Frame.addr, and_self, ne_eq, not_false_eq_true, nullptr_eq, Ctx.addrs, Tree.addrs,
        List.mem_cons, List.mem_append, not_or, or_self, or_false, not_true_eq_false]
    · simp only [RepCtx, Rep, store_mem, store_root, store_NIL, setRoot_mem, setRoot_root,
        setRoot_NIL, Function.update_same, update_ne1, update_ne2, Rep.update_off, RepCtx.update_path,
        hnd, hr, hc, hx, hy, hg, hb, Tree.ptr_node, Tree.ptr_nil, Ctx.par_nil, Ctx.par_cons,
        Frame.addr, and_self, ne_eq, not_false_eq_true, nullptr_eq, Ctx.addrs, Tree.addrs,
        List.mem_cons, List.mem_append, not_or, or_self, or_false, not_true_eq_false]
    · simp only [NilCell, store_mem, store_NIL, store_brk, setRoot_mem, setRoot_NIL, setRoot_brk,
        update_ne1, update_ne2, hx, hy, hg, hb, ne_eq, not_false_eq_true, hnil, hn0, hnb,
        Option.some.injEq, Node.mk.injEq, true_and, exists_and_left, exists_eq', and_true,
        exists_eq_left', and_self, nullptr_eq]
    · exact (AddrsOk.of_eq_addrs (by simp only [store_NIL, setRoot_NIL]) (by simp only [store_brk, setRoot_brk])).mpr hok'
    · simp only [Fr, store_mem, store_NIL, store_brk, store_nodeCount, setRoot_mem, setRoot_NIL,
        setRoot_brk, setRoot_nodeCount, update_ne1, update_ne2, hx, hy, hg, hb, ne_eq,
        not_false_eq_true, and_self])

set_option maxHeartbeats 1000000 in
theorem setColor_at {t : RedBlackTree α} {ctx : Ctx α} {x : Ptr} {cx : Color}
    {a b : Tree α} {kx : α} (c1 : Color)
    (h : ModelsAt t ctx (Tree.node x cx a kx b)) :
    ∃ t1, t.setColor x c1 = some t1 ∧ ModelsAt t1 ctx (Tree.node x c1 a kx b) ∧ Fr t t1 := by
  obtain ⟨hc, hr, hn, hnd, hok⟩ := h
  have hok' : AddrsOk t ((Tree.node x c1 a kx b).addrs ++ Ctx.addrs ctx) := ⟨hnd, hok⟩
  obtain ⟨hn0, hnb, d, p, hnil⟩ := id hn
  have hx := hok x (by simp [Tree.addrs])
  clear hok
  simp only [Tree.addrs, Ctx.addrs, Frame.addr, Frame.sib, List.cons_append, List.nodup_cons,
      List.mem_append, List.mem_cons, not_or, List.nodup_append, List.append_assoc,
      List.disjoint_cons_left, List.disjoint_cons_right, List.disjoint_append_left,
      List.disjoint_append_right, List.nil_append, List.append_nil, List.not_mem_nil,
      not_false_eq_true, true_and, and_true, List.nodup_nil, List.disjoint_nil_left,
      List.disjoint_nil_right] at hnd
  simp only [Rep, RepCtx, Tree.ptr_node, Tree.ptr_nil, true_and, and_true, Ctx.par_cons,
      Ctx.par_nil, Frame.addr] at hr hc
  simp only [RedBlackTree.setColor]
  simp only [ne_eq, hx, not_false_eq_true, deref_eq, hr, Option.map_some', nullptr_eq,
      Option.bind_eq_bind, Option.some_bind, deref_setRoot, ite_not, store_NIL, store_mem,
      Function.update_same, hnd, update_ne2, update_ne1, setRoot_mem, if_true, if_false, hc,
      Tree.ne_ptr, Tree.ptr_ne, Option.some.injEq, exists_eq_left', setRoot_NIL, not_true_eq_false]
  refine ⟨⟨?_, ?_, ?_, ?_⟩, ?_⟩
  · simp only [RepCtx, Rep, store_mem, store_root, store_NIL, setRoot_mem, setRoot_root,
        setRoot_NIL, Function.update_same, update_ne1, update_ne2, Rep.update_off, RepCtx.update_path,
        hnd, hr, hc, hx, Tree.ptr_node, Tree.ptr_nil, Ctx.par_nil, Ctx.par_cons,
        Frame.addr, and_self, ne_eq, not_false_eq_true, nullptr_eq, Ctx.addrs, Tree.addrs,
        List.mem_cons, List.mem_append, not_or, or_self, or_false, not_true_eq_false]
  · simp only [RepCtx, Rep, store_mem, store_root, store_NIL, setRoot_mem, setRoot_root,
        setRoot_NIL, Function.update_same, update_ne1, update_ne2, Rep.update_off, RepCtx.update_path,
        hnd, hr, hc, hx, Tree.ptr_node, Tree.ptr_nil, Ctx.par_nil, Ctx.par_cons,
        Frame.addr, and_self, ne_eq, not_false_eq_true, nullptr_eq, Ctx.addrs, Tree.addrs,
        List.mem_cons, List.mem_append, not_or, or_self, or_false, not_true_eq_false]
  · simp only [NilCell, store_mem, store_NIL, store_brk, setRoot_mem, setRoot_NIL, setRoot_brk,
        update_ne1, update_ne2, hx, ne_eq, not_false_eq_true, hnil, hn0, hnb,
        Option.some.injEq, Node.mk.injEq, true_and, exists_and_left, exists_eq', and_true,
        exists_eq_left', and_self, nullptr_eq]
  · exact (AddrsOk.of_eq_addrs (by simp only [store_NIL, setRoot_NIL]) (by simp only [store_brk, setRoot_brk])).mpr hok'
  · simp only [Fr, store_mem, store_NIL, store_brk, store_nodeCount, setRoot_mem, setRoot_NIL,
        setRoot_brk, setRoot_nodeCount, update_ne1, update_ne2, hx, ne_eq,
        not_false_eq_true, and_self]

end RBT

namespace RBT

open RedBlackTree

variable {α : Type}

/-! ### Moving the position -/

theorem ModelsAt.upL {t : RedBlackTree α} {fs : Ctx α} {a : Ptr} {c : Color} {k : α}
    {s T : Tree α} (h : ModelsAt t (Frame.L a c k s :: fs) T) :
    ModelsAt t fs (Tree.node a c T k s) := (modelsAt_cons _ _ _).mp h

theorem ModelsAt.upR {t : RedBlackTree α} {fs : Ctx α} {a : Ptr} {c : Color} {k : α}
    {s T : Tree α} (h : ModelsAt t (Frame.R a c s k :: fs) T) :
    ModelsAt t fs (Tree.node a c s k T) := (modelsAt_cons _ _ _).mp h

theorem ModelsAt.downL {t : RedBlackTree α} {fs : Ctx α} {a : Ptr} {c : Color} {k : α}
    {l r : Tree α} (h : ModelsAt t fs (Tree.node a c l k r)) :
    ModelsAt t (Frame.L a c k r :: fs) l := (modelsAt_cons (Frame.L a c k r) fs l).mpr h

theorem ModelsAt.downR {t : RedBlackTree α} {fs : Ctx α} {a : Ptr} {c : Color} {k : α}
    {l r : Tree α} (h : ModelsAt t fs (Tree.node a c l k r)) :
    ModelsAt t (Frame.R a c l k :: fs) r := (modelsAt_cons (Frame.R a c l k) fs r).mpr h

theorem Fr.refl (t : RedBlackTree α) : Fr t t := ⟨rfl, rfl, rfl, rfl⟩

theorem Fr.trans {t t1 t2 : RedBlackTree α} (h1 : Fr t t1) (h2 : Fr t1 t2) : Fr t t2 := by
  obtain ⟨a1, a2, a3, a4⟩ := h1
  obtain ⟨b1, b2, b3, b4⟩ := h2
  refine ⟨b1.trans a1, b2.trans a2, b3.trans a3, ?_⟩
  rw [a1] at b4
  rw [b4, a4]

theorem ModelsAt.ne_nil {t : RedBlackTree α} {ctx : Ctx α} {a : Ptr} {c : Color} {l r : Tree α}
    {k : α} (h : ModelsAt t ctx (Tree.node a c l k r)) : (a = t.NIL) = False := by
  have := (h.addrsOk.2 a (by simp [Tree.addrs])).2.1
  simpa using this

theorem ModelsAt.ne_null {t : RedBlackTree α} {ctx : Ctx α} {a : Ptr} {c : Color} {l r : Tree α}
    {k : α} (h : ModelsAt t ctx (Tree.node a c l k r)) : (a = 0) = False := by
  have := (h.addrsOk.2 a (by simp [Tree.addrs])).1
  simpa using this

theorem ModelsAt.right_ne_left {t : RedBlackTree α} {ctx : Ctx α} {g p : Ptr} {c cp : Color}
    {l pl pr : Tree α} {k kp : α}
    (h : ModelsAt t ctx (Tree.node g c l k (Tree.node p cp pl kp pr))) :
    (p = l.ptr t.NIL) = False := by
  have h1 := (h.addrsOk.2 p (by simp [Tree.addrs])).2.1
  have h2 := h.addrsOk.1
  simp only [Tree.addrs, List.cons_append, List.nodup_cons, List.append_assoc,
    List.nodup_append, List.disjoint_cons_right, List.mem_append, not_or] at h2
  exact Tree.ne_ptr h1 (by simp only [h2, not_false_eq_true])

theorem ModelsAt.left_ne_right {t : RedBlackTree α} {ctx : Ctx α} {g p : Ptr} {c cp : Color}
    {r pl pr : Tree α} {k kp : α}
    (h : ModelsAt t ctx (Tree.node g c (Tree.node p cp pl kp pr) k r)) :
    (p = r.ptr t.NIL) = False := by
  have h1 := (h.addrsOk.2 p (by simp [Tree.addrs])).2.1
  have h2 := h.addrsOk.1
  simp only [Tree.addrs, List.cons_append, List.nodup_cons, List.append_assoc,
    List.nodup_append, List.disjoint_cons_right, List.mem_append, List.mem_cons, not_or] at h2
  exact Tree.ne_ptr h1 (by simp only [h2, not_false_eq_true])

end RBT

namespace RBT

open RedBlackTree

variable {α : Type}

/-! ### One iteration of the loop of `insertFixup` -/

theorem insertFixupLeft_red {t : RedBlackTree α} {fs : Ctx α} {p g u : Ptr} {cp cg : Color}
    {pl pr ul ur : Tree α} {kp kg ku : α} (z : Ptr)
    (h : ModelsAt t fs (Tree.node g cg (Tree.node p cp pl kp pr) kg
      (Tree.node u Color.RED ul ku ur))) :
    ∃ t1, insertFixupLeft t z p g = some (t1, g) ∧
      ModelsAt t1 fs (Tree.node g Color.RED (Tree.node p Color.BLACK pl kp pr) kg
        (Tree.node u Color.BLACK ul ku ur)) ∧ Fr t t1 := by
  obtain ⟨t1, e1, h1, f1⟩ := setColor_at Color.BLACK h.downL
  obtain ⟨t2, e2, h2, f2⟩ := setColor_at Color.BLACK h1.upL.downR
  obtain ⟨t3, e3, h3, f3⟩ := setColor_at Color.RED h2.upR
  refine ⟨t3, ?_, h3, (f1.trans f2).trans f3⟩
  have hc := h.downR.getColor
  simp only [Tree.ptr_node, Tree.color] at hc
  simp only [insertFixupLeft, h.getRight, Tree.ptr_node, hc, e1, e2, e3, Option.bind_eq_bind,
    Option.some_bind, if_true]

theorem insertFixupRight_red {t : RedBlackTree α} {fs : Ctx α} {p g u : Ptr} {cp cg : Color}
    {pl pr ul ur : Tree α} {kp kg ku : α} (z : Ptr)
    (h : ModelsAt t fs (Tree.node g cg (Tree.node u Color.RED ul ku ur) kg
      (Tree.node p cp pl kp pr))) :
    ∃ t1, insertFixupRight t z p g = some (t1, g) ∧
      ModelsAt t1 fs (Tree.node g Color.RED (Tree.node u Color.BLACK ul ku ur) kg
        (Tree.node p Color.BLACK pl kp pr)) ∧ Fr t t1 := by
  obtain ⟨t1, e1, h1, f1⟩ := setColor_at Color.BLACK h.downR
  obtain ⟨t2, e2, h2, f2⟩ := setColor_at Color.BLACK h1.upR.downL
  obtain ⟨t3, e3, h3, f3⟩ := setColor_at Color.RED h2.upL
  refine ⟨t3, ?_, h3, (f1.trans f2).trans f3⟩
  have hc := h.downL.getColor
  simp only [Tree.ptr_node, Tree.color] at hc
  simp only [insertFixupRight, h.getLeft, Tree.ptr_node, hc, e1, e2, e3, Option.bind_eq_bind,
    Option.some_bind, if_true]

theorem insertFixupLeft_outer {t : RedBlackTree α} {fs : Ctx α} {p g z : Ptr}
    {cp cg cz : Color} {zl zr pr U : Tree α} {kp kg kz : α} (h : ModelsAt t fs (Tree.node g cg (Tree.node p cp (Tree.node z cz zl kz zr) kp pr) kg U))
    (hU : U.color = Color.BLACK) :
    ∃ t1, insertFixupLeft t z p g = some (t1, z) ∧
      ModelsAt t1 (Frame.L p Color.BLACK kp (Tree.node g Color.RED pr kg U) :: fs)
        (Tree.node z cz zl kz zr) ∧ Fr t t1 := by
  obtain ⟨t1, e1, h1, f1⟩ := setColor_at Color.BLACK h.downL
  obtain ⟨t2, e2, h2, f2⟩ := setColor_at Color.RED h1.upL
  obtain ⟨t3, e3, h3, f3⟩ := rotateRight_at h2
  refine ⟨t3, ?_, h3.downL, (f1.trans f2).trans f3⟩
  have hc := h.downR.getColor
  simp only [hU] at hc
  simp only [insertFixupLeft, h.getRight, hc, h.downL.getRight, h.downL.left_ne_right,
    h.downL.downL.getParent, Ctx.par_cons, Frame.addr, e1, h1.getParent, e2, e3,
    Option.bind_eq_bind, Option.some_bind, if_false, reduceCtorEq]

theorem insertFixupRight_outer {t : RedBlackTree α} {fs : Ctx α} {p g z : Ptr}
    {cp cg cz : Color} {zl zr pl U : Tree α} {kp kg kz : α} (h : ModelsAt t fs (Tree.node g cg U kg (Tree.node p cp pl kp (Tree.node z cz zl kz zr))))
    (hU : U.color = Color.BLACK) :
    ∃ t1, insertFixupRight t z p g = some (t1, z) ∧
      ModelsAt t1 (Frame.R p Color.BLACK (Tree.node g Color.RED U kg pl) kp :: fs)
        (Tree.node z cz zl kz zr) ∧ Fr t t1 := by
  obtain ⟨t1, e1, h1, f1⟩ := setColor_at Color.BLACK h.downR
  obtain ⟨t2, e2, h2, f2⟩ := setColor_at Color.RED h1.upR
  obtain ⟨t3, e3, h3, f3⟩ := rotateLeft_at h2
  refine ⟨t3, ?_, h3.downR, (f1.trans f2).trans f3⟩
  have hc := h.downL.getColor
  simp only [hU] at hc
  simp only [insertFixupRight, h.getLeft, hc, h.downR.getLeft, h.downR.right_ne_left,
    h.downR.downR.getParent, Ctx.par_cons, Frame.addr, e1, h1.getParent, e2, e3,
    Option.bind_eq_bind, Option.some_bind, if_false, reduceCtorEq]

theorem insertFixupLeft_inner {t : RedBlackTree α} {fs : Ctx α} {p g z : Ptr}
    {cp cg cz : Color} {zl zr pl U : Tree α} {kp kg kz : α} (h : ModelsAt t fs (Tree.node g cg (Tree.node p cp pl kp (Tree.node z cz zl kz zr)) kg U))
    (hU : U.color = Color.BLACK) :
    ∃ t1, insertFixupLeft t z p g = some (t1, p) ∧
      ModelsAt t1 (Frame.L z Color.BLACK kz (Tree.node g Color.RED zr kg U) :: fs)
        (Tree.node p cp pl kp zl) ∧ Fr t t1 := by
  obtain ⟨t0, e0, h0, f0⟩ := rotateLeft_at h.downL
  obtain ⟨t1, e1, h1, f1⟩ := setColor_at Color.BLACK h0
  obtain ⟨t2, e2, h2, f2⟩ := setColor_at Color.RED h1.upL
  obtain ⟨t3, e3, h3, f3⟩ := rotateRight_at h2
  refine ⟨t3, ?_, h3.downL, ((f0.trans f1).trans f2).trans f3⟩
  have hc := h.downR.getColor
  simp only [hU] at hc
  simp only [insertFixupLeft, h.getRight, hc, h.downL.getRight, Tree.ptr_node, e0,
    h0.downL.getParent, Ctx.par_cons, Frame.addr, e1, h1.getParent, e2, e3,
    Option.bind_eq_bind, Option.some_bind, if_false, if_true, reduceCtorEq]

theorem insertFixupRight_inner {t : RedBlackTree α} {fs : Ctx α} {p g z : Ptr}
    {cp cg cz : Color} {zl zr pr U : Tree α} {kp kg kz : α} (h : ModelsAt t fs (Tree.node g cg U kg (Tree.node p cp (Tree.node z cz zl kz zr) kp pr)))
    (hU : U.color = Color.BLACK) :
    ∃ t1, insertFixupRight t z p g = some (t1, p) ∧
      ModelsAt t1 (Frame.R z Color.BLACK (Tree.node g Color.RED U kg zl) kz :: fs)
        (Tree.node p cp zr kp pr) ∧ Fr t t1 := by
  obtain ⟨t0, e0, h0, f0⟩ := rotateRight_at h.downR
  obtain ⟨t1, e1, h1, f1⟩ := setColor_at Color.BLACK h0
  obtain ⟨t2, e2, h2, f2⟩ := setColor_at Color.RED h1.upR
  obtain ⟨t3, e3, h3, f3⟩ := rotateLeft_at h2
  refine ⟨t3, ?_, h3.downR, ((f0.trans f1).trans f2).trans f3⟩
  have hc := h.downL.getColor
  simp only [hU] at hc
  simp only [insertFixupRight, h.getLeft, hc, h.downR.getLeft, Tree.ptr_node, e0,
    h0.downR.getParent, Ctx.par_cons, Frame.addr, e1, h1.getParent, e2, e3,
    Option.bind_eq_bind, Option.some_bind, if_false, if_true, reduceCtorEq]

end RBT

namespace RBT

open RedBlackTree

variable {α : Type}

theorem insertFixupBody_spec {t : RedBlackTree α} {ctx ctx1 : Ctx α} {z : Ptr} {cz : Color}
    {zl zr Z1 : Tree α} {kz : α} (h : ModelsAt t ctx (Tree.node z cz zl kz zr))
    (hs : Ctx.insStep ctx (Tree.node z cz zl kz zr) = some (ctx1, Z1)) :
    ∃ t1, insertFixupBody (t, z) = some (t1, Z1.ptr t.NIL) ∧ ModelsAt t1 ctx1 Z1 ∧ Fr t t1 := by
  rcases ctx with _ | ⟨P, _ | ⟨G, fs⟩⟩
  · simp [Ctx.insStep] at hs
  · simp [Ctx.insStep] at hs
  · rcases P with ⟨p, cp, kp, sp⟩ | ⟨p, cp, sp, kp⟩ <;>
    rcases G with ⟨g, cg, kg, U⟩ | ⟨g, cg, U, kg⟩ <;>
    rcases U with _ | ⟨u, _ | _, ul, ku, ur⟩ <;>
    simp only [Ctx.insStep, Option.some.injEq, Prod.mk.injEq] at hs <;>
    obtain ⟨rfl, rfl⟩ := hs <;>
    simp only [insertFixupBody, h.getParent, Ctx.par_cons, Frame.addr, Option.bind_eq_bind,
      Option.some_bind, Tree.ptr_node]
    · obtain ⟨t1, e1, h1, f1⟩ := insertFixupLeft_outer h.upL.upL rfl
      exact ⟨t1, by simp only [h.upL.getParent, Ctx.par_cons, Frame.addr, h.upL.upL.getLeft,
        Tree.ptr_node, Tree.ptr_nil, Option.bind_eq_bind, Option.some_bind, e1, if_true], h1, f1⟩
    · obtain ⟨t1, e1, h1, f1⟩ := insertFixupLeft_red z h.upL.upL
      exact ⟨t1, by simp only [h.upL.getParent, Ctx.par_cons, Frame.addr, h.upL.upL.getLeft,
        Tree.ptr_node, Tree.ptr_nil, Option.bind_eq_bind, Option.some_bind, e1, if_true], h1, f1⟩
    · obtain ⟨t1, e1, h1, f1⟩ := insertFixupLeft_outer h.upL.upL rfl
      exact ⟨t1, by simp only [h.upL.getParent, Ctx.par_cons, Frame.addr, h.upL.upL.getLeft,
        Tree.ptr_node, Tree.ptr_nil, Option.bind_eq_bind, Option.some_bind, e1, if_true], h1, f1⟩
    · obtain ⟨t1, e1, h1, f1⟩ := insertFixupRight_inner h.upL.upR rfl
      have hne := h.upL.upR.right_ne_left
      simp only [Tree.ptr_node, Tree.ptr_nil] at hne
      exact ⟨t1, by simp only [h.upL.getParent, Ctx.par_cons, Frame.addr, h.upL.upR.getLeft,
        Tree.ptr_node, Tree.ptr_nil, Option.bind_eq_bind, Option.some_bind, e1, hne, if_false], h1, f1⟩
    · obtain ⟨t1, e1, h1, f1⟩ := insertFixupRight_red z h.upL.upR
      have hne := h.upL.upR.right_ne_left
      simp only [Tree.ptr_node, Tree.ptr_nil] at hne
      exact ⟨t1, by simp only [h.upL.getParent, Ctx.par_cons, Frame.addr, h.upL.upR.getLeft,
        Tree.ptr_node, Tree.ptr_nil, Option.bind_eq_bind, Option.some_bind, e1, hne, if_false], h1, f1⟩
    · obtain ⟨t1, e1, h1, f1⟩ := insertFixupRight_inner h.upL.upR rfl
      have hne := h.upL.upR.right_ne_left
      simp only [Tree.ptr_node, Tree.ptr_nil] at hne
      exact ⟨t1, by simp only [h.upL.getParent, Ctx.par_cons, Frame.addr, h.upL.upR.getLeft,
        Tree.ptr_node, Tree.ptr_nil, Option.bind_eq_bind, Option.some_bind, e1, hne, if_false], h1, f1⟩
    · obtain ⟨t1, e1, h1, f1⟩ := insertFixupLeft_inner h.upR.upL rfl
      exact ⟨t1, by simp only [h.upR.getParent, Ctx.par_cons, Frame.addr, h.upR.upL.getLeft,
        Tree.ptr_node, Tree.ptr_nil, Option.bind_eq_bind, Option.some_bind, e1, if_true], h1, f1⟩
    · obtain ⟨t1, e1, h1, f1⟩ := insertFixupLeft_red z h.upR.upL
      exact ⟨t1, by simp only [h.upR.getParent, Ctx.par_cons, Frame.addr, h.upR.upL.getLeft,
        Tree.ptr_node, Tree.ptr_nil, Option.bind_eq_bind, Option.some_bind, e1, if_true], h1, f1⟩
    · obtain ⟨t1, e1, h1, f1⟩ := insertFixupLeft_inner h.upR.upL rfl
      exact ⟨t1, by simp only [h.upR.getParent, Ctx.par_cons, Frame.addr, h.upR.upL.getLeft,
        Tree.ptr_node, Tree.ptr_nil, Option.bind_eq_bind, Option.some_bind, e1, if_true], h1, f1⟩
    · obtain ⟨t1, e1, h1, f1⟩ := insertFixupRight_outer h.upR.upR rfl
      have hne := h.upR.upR.right_ne_left
      simp only [Tree.ptr_node, Tree.ptr_nil] at hne
      exact ⟨t1, by simp only [h.upR.getParent, Ctx.par_cons, Frame.addr, h.upR.upR.getLeft,
        Tree.ptr_node, Tree.ptr_nil, Option.bind_eq_bind, Option.some_bind, e1, hne, if_false], h1, f1⟩
    · obtain ⟨t1, e1, h1, f1⟩ := insertFixupRight_red z h.upR.upR
      have hne := h.upR.upR.right_ne_left
      simp only [Tree.ptr_node, Tree.ptr_nil] at hne
      exact ⟨t1, by simp only [h.upR.getParent, Ctx.par_cons, Frame.addr, h.upR.upR.getLeft,
        Tree.ptr_node, Tree.ptr_nil, Option.bind_eq_bind, Option.some_bind, e1, hne, if_false], h1, f1⟩
    · obtain ⟨t1, e1, h1, f1⟩ := insertFixupRight_outer h.upR.upR rfl
      have hne := h.upR.upR.right_ne_left
      simp only [Tree.ptr_node, Tree.ptr_nil] at hne
      exact ⟨t1, by simp only [h.upR.getParent, Ctx.par_cons, Frame.addr, h.upR.upR.getLeft,
        Tree.ptr_node, Tree.ptr_nil, Option.bind_eq_bind, Option.some_bind, e1, hne, if_false], h1, f1⟩

end RBT

namespace RBT

variable {α : Type}

/-! ### Shape of the tree through `insertFixup` -/

@[simp] theorem blk_red : blk Color.RED = 0 := rfl
@[simp] theorem blk_black : blk Color.BLACK = 1 := rfl

@[simp] theorem Tree.color_nil : (Tree.nil : Tree α).color = Color.BLACK := rfl
@[simp] theorem Tree.color_node (a : Ptr) (c : Color) (l r : Tree α) (k : α) :
    (Tree.node a c l k r).color = c := rfl

theorem Color.ne_red {c : Color} : c ≠ Color.RED ↔ c = Color.BLACK := by
  cases c <;> simp

theorem Color.ne_black {c : Color} : c ≠ Color.BLACK ↔ c = Color.RED := by
  cases c <;> simp

theorem Tree.bh_fill (f : Frame α) (T : Tree α) (h : (f.fill T).WF) :
    (f.fill T).bh = T.bh + blk f.color := by
  cases f with
  | L a c k s => simp [Frame.fill, Tree.bh, Frame.color]
  | R a c s k =>
    simp only [Frame.fill, Tree.WF] at h
    simp [Frame.fill, Tree.bh, Frame.color, h.2.2.1]

theorem Ctx.keys_plug_congr {T1 T2 : Tree α} (ctx : Ctx α) (h : T1.keys = T2.keys) :
    (Ctx.plug ctx T1).keys = (Ctx.plug ctx T2).keys := by
  induction ctx generalizing T1 T2 with
  | nil => exact h
  | cons f fs ih =>
    apply ih
    cases f <;> simp [Frame.fill, Tree.keys, h]

theorem Ctx.size_plug_congr {T1 T2 : Tree α} (ctx : Ctx α) (h : T1.size = T2.size) :
    (Ctx.plug ctx T1).size = (Ctx.plug ctx T2).size := by
  induction ctx generalizing T1 T2 with
  | nil => exact h
  | cons f fs ih =>
    apply ih
    cases f <;> simp [Frame.fill, Tree.size, h]

theorem Ctx.size_plug_add {T1 T2 : Tree α} {d : Nat} (ctx : Ctx α)
    (h : T1.size = T2.size + d) : (Ctx.plug ctx T1).size = (Ctx.plug ctx T2).size + d := by
  induction ctx generalizing T1 T2 with
  | nil => exact h
  | cons f fs ih =>
    apply ih
    cases f <;> simp only [Frame.fill, Tree.size, h] <;> omega

theorem insStep_inv {ctx ctx1 : Ctx α} {Z Z1 : Tree α} {n : Nat}
    (hs : Ctx.insStep ctx Z = some (ctx1, Z1)) (hi : InsInv ctx Z n)
    (hc : Ctx.insCond ctx = true) :
    (∃ n1, InsInv ctx1 Z1 n1) ∧ ctx1.length < ctx.length ∧
      (Ctx.plug ctx1 Z1).keys = (Ctx.plug ctx Z).keys ∧
      (Ctx.plug ctx1 Z1).size = (Ctx.plug ctx Z).size := by
  obtain ⟨h1, h2, h3, h4⟩ := hi
  rcases Z with _ | ⟨z, cz, zl, kz, zr⟩
  · simp at h4
  rcases ctx with _ | ⟨P, _ | ⟨G, fs⟩⟩
  · simp [Ctx.insStep] at hs
  · simp [Ctx.insStep] at hs
  · rcases P with ⟨p, cp, kp, sp⟩ | ⟨p, cp, sp, kp⟩ <;>
    rcases G with ⟨g, cg, kg, U⟩ | ⟨g, cg, U, kg⟩ <;>
    rcases U with _ | ⟨u, _ | _, ul, ku, ur⟩ <;>
    simp only [Ctx.insStep, Option.some.injEq, Prod.mk.injEq] at hs <;>
    obtain ⟨rfl, rfl⟩ := hs <;>
    simp only [Ctx.insCond, Frame.color, beq_iff_eq] at hc <;>
    subst hc <;>
    simp only [Ctx.WF, Frame.sib, Frame.color, Ctx.headBlack, Tree.WF, Tree.bh, blk_red,
      blk_black, Tree.color_node, Tree.color_nil, true_and, forall_const, if_true, if_false,
      reduceCtorEq, false_implies, and_true, add_zero, zero_add, true_implies] at h1 h2 h3 h4 <;>
    subst h4 <;>
    obtain ⟨hs1, hs2, ⟨hs3, rfl⟩, h1⟩ := h1 <;>
    subst h3 <;>
    simp only [Ctx.WF, Frame.sib, Frame.color, Ctx.headBlack, Tree.WF, Tree.bh, blk_red,
      blk_black, Tree.color_node, Tree.color_nil, true_and, forall_const, if_true, if_false,
      reduceCtorEq, false_implies, and_true, add_zero, zero_add, true_implies, and_self] at h1 h2 hs2 <;>
    refine ⟨⟨_, ?_, ?_, rfl, ?_⟩, ?_, ?_, ?_⟩
    all_goals first
      | (simp only [Ctx.plug]; apply Ctx.keys_plug_congr
         simp only [Frame.fill, Tree.keys, List.append_assoc, List.cons_append, List.nil_append]
         done)
      | (simp only [Ctx.plug]; apply Ctx.size_plug_congr; simp only [Frame.fill, Tree.size] <;> omega)
      | (simp only [List.length_cons]; omega)
      | rfl
      | (try simp only [Ctx.WF, Frame.sib, Frame.color, Ctx.headBlack, Tree.WF, Tree.bh, blk_red,
      blk_black, Tree.color_node, Tree.color_nil, true_and, forall_const, if_true, if_false,
      reduceCtorEq, false_implies, and_true, add_zero, zero_add, true_implies, and_self]
         casesm* _ ∧ _
         and_intros
         all_goals first
           | assumption
           | omega
           | (convert ‹Ctx.WF fs _› using 1; omega))

theorem insStep_some {ctx : Ctx α} {Z : Tree α} {n : Nat} (hi : InsInv ctx Z n)
    (hc : Ctx.insCond ctx = true) : ∃ r, Ctx.insStep ctx Z = some r := by
  obtain ⟨h1, h2, h3, h4⟩ := hi
  rcases Z with _ | ⟨z, cz, zl, kz, zr⟩
  · simp at h4
  rcases ctx with _ | ⟨P, _ | ⟨G, fs⟩⟩
  · simp [Ctx.insCond] at hc
  · rcases P with ⟨p, cp, kp, sp⟩ | ⟨p, cp, sp, kp⟩ <;>
    simp only [Ctx.insCond, Frame.color, beq_iff_eq] at hc <;>
    subst hc <;>
    simp [Ctx.WF, Frame.color, Ctx.headBlack] at h1
  · rcases P with ⟨p, cp, kp, sp⟩ | ⟨p, cp, sp, kp⟩ <;>
    rcases G with ⟨g, cg, kg, U⟩ | ⟨g, cg, U, kg⟩ <;>
    rcases U with _ | ⟨u, _ | _, ul, ku, ur⟩ <;>
    exact ⟨_, rfl⟩

theorem Tree.WF.setColor_black {T : Tree α} (h : T.WF) : (T.setColor Color.BLACK).WF := by
  cases T with
  | nil => trivial
  | node a c l k r =>
    simp only [Tree.WF] at h
    simp only [Tree.setColor, Tree.WF, reduceCtorEq, false_implies, and_true]
    exact ⟨h.1, h.2.1, h.2.2.1⟩

theorem Ctx.WF.of_plug {ctx : Ctx α} {S : Tree α} (h : (Ctx.plug ctx S).WF)
    (hb : (Ctx.plug ctx S).color = Color.BLACK) :
    Ctx.WF ctx S.bh ∧ S.WF ∧ (S.color = Color.RED → Ctx.headBlack ctx) := by
  induction ctx generalizing S with
  | nil =>
    refine ⟨trivial, h, fun hr => ?_⟩
    simp only [Ctx.plug] at hb
    rw [hb] at hr
    cases hr
  | cons f fs ih =>
    obtain ⟨h1, h2, h3⟩ := ih h hb
    have hbh := Tree.bh_fill f S h2
    rw [hbh] at h1
    cases f with
    | L a c k s =>
      simp only [Frame.fill, Tree.WF, Tree.color_node] at h2 h3
      refine ⟨⟨h2.2.1, h2.2.2.1.symm, fun hc => ⟨(h2.2.2.2 hc).2, h3 hc⟩, h1⟩, h2.1, fun hr => ?_⟩
      simp only [Ctx.headBlack, Frame.color]
      cases c with
      | RED => rw [(h2.2.2.2 rfl).1] at hr; cases hr
      | BLACK => rfl
    | R a c s k =>
      simp only [Frame.fill, Tree.WF, Tree.color_node] at h2 h3
      refine ⟨⟨h2.1, h2.2.2.1, fun hc => ⟨(h2.2.2.2 hc).1, h3 hc⟩, h1⟩, h2.2.1, fun hr => ?_⟩
      simp only [Ctx.headBlack, Frame.color]
      cases c with
      | RED => rw [(h2.2.2.2 rfl).2] at hr; cases hr
      | BLACK => rfl

theorem Ctx.WF.plug {ctx : Ctx α} {S : Tree α} {n : Nat} (h : Ctx.WF ctx n) (hS : S.WF)
    (hn : S.bh = n) (hr : S.color = Color.RED → Ctx.headBlack ctx) :
    (Ctx.plug ctx S).WF ∧ (ctx ≠ [] → (Ctx.plug ctx S).color = Color.BLACK) := by
  induction ctx generalizing S n with
  | nil => exact ⟨hS, fun h => absurd rfl h⟩
  | cons f fs ih =>
    obtain ⟨h1, h2, h3, h4⟩ := h
    have hb : S.color = Color.BLACK ∨ f.color = Color.BLACK := by
      rcases hc : S.color with _ | _
      · exact Or.inr (hr hc)
      · exact Or.inl rfl
    have key : (f.fill S).WF ∧ (f.fill S).bh = n + blk f.color ∧
        ((f.fill S).color = Color.RED → Ctx.headBlack fs) := by
      cases f with
      | L a c k s =>
        simp only [Frame.sib, Frame.color] at h1 h2 h3 hb
        simp only [Frame.fill, Tree.WF, Tree.bh, Tree.color_node, Frame.color]
        refine ⟨⟨hS, h1, by omega, fun hc => ⟨?_, (h3 hc).1⟩⟩, by omega, fun hc => (h3 hc).2⟩
        rcases hb with hb | hb
        · exact hb
        · rw [hc] at hb; cases hb
      | R a c s k =>
        simp only [Frame.sib, Frame.color] at h1 h2 h3 hb
        simp only [Frame.fill, Tree.WF, Tree.bh, Tree.color_node, Frame.color]
        refine ⟨⟨h1, hS, by omega, fun hc => ⟨(h3 hc).1, ?_⟩⟩, by omega, fun hc => (h3 hc).2⟩
        rcases hb with hb | hb
        · exact hb
        · rw [hc] at hb; cases hb
    obtain ⟨k1, k2, k3⟩ := key
    obtain ⟨r1, r2⟩ := ih h4 k1 k2 k3
    refine ⟨r1, fun _ => ?_⟩
    by_cases hfs : fs = []
    · subst hfs
      simp only [Ctx.plug]
      rcases hc : (f.fill S).color with _ | _
      · exact absurd (k3 hc) (by simp [Ctx.headBlack])
      · rfl
    · exact r2 hfs

end RBT

namespace RBT

open RedBlackTree

variable {α : Type}

/-! ### Loops -/

theorem whileLoop_false {σ : Type} {cond : σ → Option Bool} {body : σ → Option σ} {s : σ}
    (n : Nat) (h : cond s = some false) : whileLoop cond body (n + 1) s = some s := by
  simp only [whileLoop, h]

theorem whileLoop_true {σ : Type} {cond : σ → Option Bool} {body : σ → Option σ} {s s1 : σ}
    (n : Nat) (h : cond s = some true) (hb : body s = some s1) :
    whileLoop cond body (n + 1) s = whileLoop cond body n s1 := by
  simp only [whileLoop, h, hb]

theorem whileLoop_mono {σ : Type} {cond : σ → Option Bool} {body : σ → Option σ} {n m : Nat}
    {s r : σ} (h : whileLoop cond body n s = some r) (hnm : n ≤ m) :
    whileLoop cond body m s = some r := by
  induction n generalizing m s with
  | zero => simp [whileLoop] at h
  | succ n ih =>
    obtain ⟨m, rfl⟩ : ∃ k, m = k + 1 := ⟨m - 1, by omega⟩
    simp only [whileLoop] at h ⊢
    rcases hc : cond s with _ | _ | _
    · simp [hc] at h
    · simpa [hc] using h
    · simp only [hc] at h ⊢
      rcases hb : body s with _ | s1
      · simp [hb] at h
      · simp only [hb] at h ⊢
        exact ih h (by omega)

theorem Ctx.plug_node (ctx : Ctx α) (a : Ptr) (c : Color) (l r : Tree α) (k : α) :
    ∃ a1 c1 l1 k1 r1, Ctx.plug ctx (Tree.node a c l k r) = Tree.node a1 c1 l1 k1 r1 := by
  induction ctx generalizing a c l r k with
  | nil => exact ⟨a, c, l, k, r, rfl⟩
  | cons f fs ih =>
    cases f with
    | L b cb kb s => exact ih b cb _ s kb
    | R b cb s kb => exact ih b cb s _ kb

theorem insertFixupCond_spec {t : RedBlackTree α} {ctx : Ctx α} {z : Ptr} {cz : Color}
    {zl zr : Tree α} {kz : α} (h : ModelsAt t ctx (Tree.node z cz zl kz zr)) :
    insertFixupCond (t, z) = some (Ctx.insCond ctx) := by
  rcases ctx with _ | ⟨⟨p, cp, kp, sp⟩ | ⟨p, cp, sp, kp⟩, fs⟩
  · simp only [insertFixupCond, h.getParent, Ctx.par_nil, Option.bind_eq_bind, Option.some_bind,
      nullptr_eq, if_true, Ctx.insCond]
  · have hc := h.upL.getColor
    simp only [Tree.ptr_node, Tree.color_node] at hc
    simp only [insertFixupCond, h.getParent, Ctx.par_cons, Frame.addr, Option.bind_eq_bind,
      Option.some_bind, nullptr_eq, h.upL.ne_null, if_false, hc, Ctx.insCond, Frame.color]
  · have hc := h.upR.getColor
    simp only [Tree.ptr_node, Tree.color_node] at hc
    simp only [insertFixupCond, h.getParent, Ctx.par_cons, Frame.addr, Option.bind_eq_bind,
      Option.some_bind, nullptr_eq, h.upR.ne_null, if_false, hc, Ctx.insCond, Frame.color]

theorem insertFixup_loop (N : Nat) : ∀ (t : RedBlackTree α) (ctx : Ctx α) (Z : Tree α) (n : Nat),
    ctx.length ≤ N → ModelsAt t ctx Z → InsInv ctx Z n →
    ∃ t1 ctx1 Z1 n1,
      (∀ fuel, N < fuel →
        whileLoop insertFixupCond insertFixupBody fuel (t, Z.ptr t.NIL) =
          some (t1, Z1.ptr t.NIL)) ∧
      ModelsAt t1 ctx1 Z1 ∧ InsInv ctx1 Z1 n1 ∧ Ctx.insCond ctx1 = false ∧
      (Ctx.plug ctx1 Z1).keys = (Ctx.plug ctx Z).keys ∧
      (Ctx.plug ctx1 Z1).size = (Ctx.plug ctx Z).size ∧ Fr t t1 := by
  induction N with
  | zero =>
    intro t ctx Z n hl h hi
    have hctx : ctx = [] := List.eq_nil_of_length_eq_zero (by omega)
    subst hctx
    rcases Z with _ | ⟨z, cz, zl, kz, zr⟩
    · simp [InsInv] at hi
    refine ⟨t, [], _, n, fun fuel hf => ?_, h, hi, rfl, rfl, rfl, Fr.refl t⟩
    obtain ⟨f, rfl⟩ : ∃ k, fuel = k + 1 := ⟨fuel - 1, by omega⟩
    exact whileLoop_false f (insertFixupCond_spec h)
  | succ N ih =>
    intro t ctx Z n hl h hi
    rcases Z with _ | ⟨z, cz, zl, kz, zr⟩
    · simp [InsInv] at hi
    rcases hc : Ctx.insCond ctx with _ | _
    · refine ⟨t, ctx, _, n, fun fuel hf => ?_, h, hi, hc, rfl, rfl, Fr.refl t⟩
      obtain ⟨f, rfl⟩ : ∃ k, fuel = k + 1 := ⟨fuel - 1, by omega⟩
      exact whileLoop_false f ((insertFixupCond_spec h).trans (by rw [hc]))
    · obtain ⟨⟨ctx1, Z1⟩, hs⟩ := insStep_some hi hc
      obtain ⟨⟨n1, hi1⟩, hlen, hk, hsz⟩ := insStep_inv hs hi hc
      obtain ⟨t1, e1, h1, f1⟩ := insertFixupBody_spec h hs
      obtain ⟨t2, ctx2, Z2, n2, e2, h2, hi2, hc2, hk2, hsz2, f2⟩ :=
        ih t1 ctx1 Z1 n1 (by omega) h1 hi1
      refine ⟨t2, ctx2, Z2, n2, fun fuel hf => ?_, h2, hi2, hc2, hk2.trans hk, hsz2.trans hsz,
        f1.trans f2⟩
      obtain ⟨f, rfl⟩ : ∃ k, fuel = k + 1 := ⟨fuel - 1, by omega⟩
      refine (whileLoop_true f ((insertFixupCond_spec h).trans (by rw [hc])) e1).trans ?_
      have := e2 f (by omega)
      rw [f1.1] at this
      exact this

theorem insertFixup_spec {t : RedBlackTree α} {ctx : Ctx α} {Z : Tree α} {n : Nat}
    (h : ModelsAt t ctx Z) (hi : InsInv ctx Z n) :
    ∃ t1 T1, (∀ fuel, ctx.length < fuel → t.insertFixup fuel (Z.ptr t.NIL) = some t1) ∧
      Models t1 T1 ∧ T1.WF ∧ T1.color = Color.BLACK ∧ T1.keys = (Ctx.plug ctx Z).keys ∧
      T1.size = (Ctx.plug ctx Z).size ∧ Fr t t1 := by
  obtain ⟨t1, ctx1, Z1, n1, e1, h1, hi1, hc1, hk1, hs1, f1⟩ :=
    insertFixup_loop ctx.length t ctx Z n (le_refl _) h hi
  obtain ⟨w1, w2, w3, w4⟩ := hi1
  rcases Z1 with _ | ⟨z1, cz1, zl1, kz1, zr1⟩
  · simp at w4
  have hwf : (Ctx.plug ctx1 (Tree.node z1 cz1 zl1 kz1 zr1)).WF := by
    rcases ctx1 with _ | ⟨f, fs⟩
    · exact w2
    · refine (Ctx.WF.plug w1 w2 w3 fun _ => ?_).1
      simp only [Ctx.insCond, beq_eq_false_iff_ne, ne_eq] at hc1
      exact Color.ne_red.mp hc1
  obtain ⟨a, c, l, k, r, hT⟩ := Ctx.plug_node ctx1 z1 cz1 zl1 zr1 kz1
  have hm := (modelsAt_iff ctx1 _).mp h1
  rw [hT] at hm hwf hk1 hs1
  obtain ⟨t2, e2, h2, f2⟩ := setColor_at Color.BLACK ((modelsAt_nil _).mpr hm)
  refine ⟨t2, Tree.node a Color.BLACK l k r, fun fuel hf => ?_, (modelsAt_nil _).mp h2,
    Tree.WF.setColor_black hwf, rfl, hk1, hs1, f1.trans f2⟩
  have hroot : t1.root = a := hm.root
  simp only [insertFixup, e1 fuel hf, Option.bind_eq_bind, Option.some_bind, hroot, e2]

end RBT

namespace RBT

open RedBlackTree

variable {α : Type}

/-! ### Insertion of the new node -/

theorem Ctx.addrs_plug (ctx : Ctx α) (T : Tree α) :
    (Ctx.plug ctx T).addrs.Perm (T.addrs ++ Ctx.addrs ctx) := by
  induction ctx generalizing T with
  | nil => simp [Ctx.plug, Ctx.addrs]
  | cons f fs ih =>
    refine (ih (f.fill T)).trans ?_
    cases f with
    | L a c k s =>
      simp only [Frame.fill, Tree.addrs, Ctx.addrs, Frame.addr, Frame.sib, List.cons_append,
        List.append_assoc]
      exact List.perm_middle.symm
    | R a c s k =>
      simp only [Frame.fill, Tree.addrs, Ctx.addrs, Frame.addr, Frame.sib, List.cons_append,
        List.append_assoc]
      refine (List.Perm.cons _ ?_).trans List.perm_middle.symm
      rw [← List.append_assoc, ← List.append_assoc]
      exact List.Perm.append_right _ List.perm_append_comm

set_option maxHeartbeats 1000000 in
theorem insertLink_spec [LinearOrder α] {t : RedBlackTree α} {ctx : Ctx α} {z pz : Ptr} {k : α}
    (h : ModelsAt t ctx Tree.nil)
    (hz : t.mem z = some ⟨k, Color.RED, pz, t.NIL, t.NIL⟩) (hz0 : z ≠ 0) (hzn : z ≠ t.NIL)
    (hzb : z < t.brk) (hza : z ∉ Ctx.addrs ctx) (hside : Ctx.sideOk k ctx) :
    ∃ t1, t.insertLink z ctx.par = some t1 ∧
      ModelsAt t1 ctx (Tree.node z Color.RED Tree.nil k Tree.nil) ∧ Fr t t1 := by
  obtain ⟨hc, hr, hn, hnd, hok⟩ := h
  have hok' : AddrsOk t ((Tree.node z Color.RED Tree.nil k Tree.nil).addrs ++ Ctx.addrs ctx) := by
    refine ⟨?_, ?_⟩
    · simpa [Tree.addrs, hza] using hnd
    · intro a ha
      simp only [Tree.addrs, List.append_nil, List.cons_append, List.nil_append,
        List.mem_cons] at ha
      rcases ha with rfl | ha
      · exact ⟨hz0, hzn, hzb⟩
      · exact hok a (by simpa [Tree.addrs] using ha)
  obtain ⟨hn0, hnb, d, p, hnil⟩ := id hn
  rcases ctx with _ | ⟨⟨g, cg, kg, s⟩ | ⟨g, cg, s, kg⟩, fs⟩ <;>
  ( have hg : True := trivial
    try have hg := hok g (by simp [Tree.addrs, Ctx.addrs, Frame.addr])
    clear hok
    simp only [Ctx.addrs, Frame.addr, Frame.sib, List.mem_cons, List.mem_append, not_or,
      List.not_mem_nil, not_false_eq_true] at hza
    simp only [Ctx.sideOk] at hside
    simp only [Tree.addrs, Ctx.addrs, Frame.addr, Frame.sib, List.cons_append, List.nodup_cons,
      List.mem_append, List.mem_cons, not_or, List.nodup_append, List.append_assoc,
      List.disjoint_cons_left, List.disjoint_cons_right, List.disjoint_append_left,
      List.disjoint_append_right, List.nil_append, List.append_nil, List.not_mem_nil,
      not_false_eq_true, true_and, and_true, List.nodup_nil, List.disjoint_nil_left,
      List.disjoint_nil_right] at hnd
    simp only [Rep, RepCtx, Tree.ptr_node, Tree.ptr_nil, true_and, and_true, Ctx.par_cons,
      Ctx.par_nil, Frame.addr] at hr hc
    simp only [insertLink, RedBlackTree.getRight, RedBlackTree.getLeft, RedBlackTree.setRight,
      RedBlackTree.getParent, RedBlackTree.setParent, RedBlackTree.setLeft,
      RedBlackTree.getData, Ctx.par_nil, Ctx.par_cons, Frame.addr]
    simp only [ne_eq, hz0, hzn, hg, hz, hza, hside, Ne.symm hz0, Ne.symm hzn, not_false_eq_true, deref_eq, hr, Option.map_some', nullptr_eq,
      Option.bind_eq_bind, Option.some_bind, deref_setRoot, ite_not, store_NIL, store_mem,
      Function.update_same, hnd, update_ne2, update_ne1, setRoot_mem, if_true, if_false, hc,
      Tree.ne_ptr, Tree.ptr_ne, Option.some.injEq, exists_eq_left', setRoot_NIL, not_true_eq_false]
    refine ⟨⟨?_, ?_, ?_, ?_⟩, ?_⟩
    · simp only [RepCtx, Rep, store_mem, store_root, store_NIL, setRoot_mem, setRoot_root,
        setRoot_NIL, Function.update_same, update_ne1, update_ne2, Rep.update_off, RepCtx.update_path,
        hnd, hr, hc, hz0, hzn, hg, hz, hza, Tree.ptr_node, Tree.ptr_nil, Ctx.par_nil, Ctx.par_cons,
        Frame.addr, and_self, ne_eq, not_false_eq_true, nullptr_eq, Ctx.addrs, Tree.addrs,
        List.mem_cons, List.mem_append, not_or, or_self, or_false, not_true_eq_false]
    · simp only [RepCtx, Rep, store_mem, store_root, store_NIL, setRoot_mem, setRoot_root,
        setRoot_NIL, Function.update_same, update_ne1, update_ne2, Rep.update_off, RepCtx.update_path,
        hnd, hr, hc, hz0, hzn, hg, hz, hza, Tree.ptr_node, Tree.ptr_nil, Ctx.par_nil, Ctx.par_cons,
        Frame.addr, and_self, ne_eq, not_false_eq_true, nullptr_eq, Ctx.addrs, Tree.addrs,
        List.mem_cons, List.mem_append, not_or, or_self, or_false, not_true_eq_false]
    · simp only [NilCell, store_mem, store_NIL, store_brk, setRoot_mem, setRoot_NIL, setRoot_brk,
        update_ne1, update_ne2, hz0, hzn, hg, Ne.symm hz0, Ne.symm hzn, ne_eq, not_false_eq_true, hnil, hn0, hnb,
        Option.some.injEq, Node.mk.injEq, true_and, exists_and_left, exists_eq', and_true,
        exists_eq_left', and_self, nullptr_eq]
    · exact (AddrsOk.of_eq_addrs (by simp only [store_NIL, setRoot_NIL]) (by simp only [store_brk, setRoot_brk])).mpr hok'
    · simp only [Fr, store_mem, store_NIL, store_brk, store_nodeCount, setRoot_mem, setRoot_NIL,
        setRoot_brk, setRoot_nodeCount, update_ne1, update_ne2, hz0, hzn, hg, Ne.symm hz0, Ne.symm hzn, ne_eq,
        not_false_eq_true, and_self])

theorem Ctx.plug_descend [LinearOrder α] (k : α) (T : Tree α) (ctx : Ctx α) :
    Ctx.plug (Ctx.descend k T ctx) Tree.nil = Ctx.plug ctx T := by
  induction T generalizing ctx with
  | nil => rfl
  | node a c l x r ihl ihr =>
    simp only [Ctx.descend]
    split
    · rw [ihl]; rfl
    · rw [ihr]; rfl

theorem Ctx.length_descend [LinearOrder α] (k : α) (T : Tree α) (ctx : Ctx α) :
    (Ctx.descend k T ctx).length ≤ ctx.length + T.height := by
  induction T generalizing ctx with
  | nil => simp [Ctx.descend]
  | node a c l x r ihl ihr =>
    simp only [Ctx.descend, Tree.height]
    split
    · have := ihl (Frame.L a c x r :: ctx)
      simp only [List.length_cons] at this
      omega
    · have := ihr (Frame.R a c l x :: ctx)
      simp only [List.length_cons] at this
      omega

theorem Ctx.sideOk_descend [LinearOrder α] (k : α) (T : Tree α) (ctx : Ctx α)
    (h : Ctx.sideOk k ctx) : Ctx.sideOk k (Ctx.descend k T ctx) := by
  induction T generalizing ctx with
  | nil => exact h
  | node a c l x r ihl ihr =>
    simp only [Ctx.descend]
    split
    · exact ihl _ (by simp only [Ctx.sideOk]; assumption)
    · exact ihr _ (by simp only [Ctx.sideOk]; assumption)

theorem insertDescend_loop [LinearOrder α] {t : RedBlackTree α} {z : Ptr} {k : α}
    (hz : t.getData z = some k) (T : Tree α) :
    ∀ (ctx : Ctx α) (fuel : Nat), ModelsAt t ctx T → T.height < fuel →
      whileLoop (insertDescendCond t) (insertDescendBody t z) fuel (ctx.par, T.ptr t.NIL) =
        some ((Ctx.descend k T ctx).par, t.NIL) := by
  induction T with
  | nil =>
    intro ctx fuel h hf
    obtain ⟨f, rfl⟩ : ∃ n, fuel = n + 1 := ⟨fuel - 1, by simp only [Tree.height] at hf; omega⟩
    exact whileLoop_false f (by simp [insertDescendCond])
  | node a c l x r ihl ihr =>
    intro ctx fuel h hf
    simp only [Tree.height] at hf
    obtain ⟨f, rfl⟩ : ∃ n, fuel = n + 1 := ⟨fuel - 1, by omega⟩
    have hcond : insertDescendCond t (ctx.par, a) = some true := by
      simp [insertDescendCond, h.ne_nil]
    by_cases hk : k < x
    · have hbody : insertDescendBody t z (ctx.par, a) = some (a, l.ptr t.NIL) := by
        simp only [insertDescendBody, hz, h.getData, h.getLeft, Option.bind_eq_bind,
          Option.some_bind, hk, if_true]
      refine (whileLoop_true f hcond hbody).trans ?_
      simp only [Ctx.descend, hk, if_true]
      exact ihl (Frame.L a c x r :: ctx) f h.downL (by omega)
    · have hbody : insertDescendBody t z (ctx.par, a) = some (a, r.ptr t.NIL) := by
        simp only [insertDescendBody, hz, h.getData, h.getRight, Option.bind_eq_bind,
          Option.some_bind, hk, if_false]
      refine (whileLoop_true f hcond hbody).trans ?_
      simp only [Ctx.descend, hk, if_false]
      exact ihr (Frame.R a c l x :: ctx) f h.downR (by omega)

theorem newNode_spec {t : RedBlackTree α} {T : Tree α} (h : Models t T) (k : α) :
    ∃ t2 t3, (t.alloc k).2.setLeft (t.alloc k).1 (t.alloc k).2.NIL = some t2 ∧
      t2.setRight (t.alloc k).1 t2.NIL = some t3 ∧ (t.alloc k).1 = t.brk ∧
      Models t3 T ∧ t3.mem t.brk = some ⟨k, Color.RED, 0, t.NIL, t.NIL⟩ ∧ t3.NIL = t.NIL ∧
      t3.brk = t.brk + 1 ∧ t3.nodeCount = t.nodeCount ∧ t.brk ≠ 0 ∧ t.brk ≠ t.NIL ∧
      t.brk ∉ T.addrs := by
  obtain ⟨hroot, hr, hn, hnd, hok⟩ := h
  obtain ⟨hn0, hnb, d, p, hnil⟩ := id hn
  have hb0 : t.brk ≠ 0 := Nat.ne_of_gt (Nat.lt_of_le_of_lt (Nat.zero_le _) hnb)
  have hbn : t.brk ≠ t.NIL := Nat.ne_of_gt hnb
  have hba : t.brk ∉ T.addrs := fun hm => absurd (hok _ hm).2.2 (lt_irrefl _)
  refine ⟨(t.alloc k).2.store t.brk ⟨k, Color.RED, 0, t.NIL, 0⟩,
    ((t.alloc k).2.store t.brk ⟨k, Color.RED, 0, t.NIL, 0⟩).store t.brk
    ⟨k, Color.RED, 0, t.NIL, t.NIL⟩, ?_, ?_, rfl, ⟨?_, ?_, ?_, ?_⟩, ?_, rfl, rfl, rfl, hb0, hbn,
    hba⟩
  · simp only [RedBlackTree.alloc, RedBlackTree.setLeft,
      RedBlackTree.deref, nullptr_eq, hb0, if_false, if_true, Option.map_some', Node.mk1]
  · simp only [RedBlackTree.alloc, RedBlackTree.setRight,
      RedBlackTree.deref, nullptr_eq, hb0, if_false, if_true, Option.map_some',
      store_mem, Function.update_same, store_NIL]
  · exact hroot
  · refine (Rep.congr_mem fun a ha => ?_).mpr hr
    have : a ≠ t.brk := fun e => hba (e ▸ ha)
    simp [RedBlackTree.alloc, Function.update_noteq this, this]
  · refine ⟨hn0, Nat.lt_succ_of_lt hnb, d, p, ?_⟩
    simp [RedBlackTree.alloc, Function.update_noteq (Ne.symm hbn), Ne.symm hbn, hnil]
  · exact ⟨hnd, fun a ha => ⟨(hok a ha).1, (hok a ha).2.1, Nat.lt_succ_of_lt (hok a ha).2.2⟩⟩
  · simp

end RBT

namespace RBT

open RedBlackTree

variable {α : Type}

theorem ModelsAt.setNodeCount {t : RedBlackTree α} {ctx : Ctx α} {T : Tree α}
    (h : ModelsAt t ctx T) (n : Nat) : ModelsAt (t.setNodeCount n) ctx T :=
  ⟨h.repCtx, h.rep, h.nilCell, h.addrsOk⟩

theorem insert_spec [LinearOrder α] {t : RedBlackTree α} {T : Tree α} (h : Models t T)
    (hwf : T.WF) (hb : T.color = Color.BLACK) (k : α) :
    ∃ t1 T1, (∀ fuel, T.height < fuel → t.insert fuel k = some t1) ∧ Models t1 T1 ∧ T1.WF ∧
      T1.color = Color.BLACK ∧
      T1.keys = (Ctx.plug (Ctx.descend k T []) (Tree.node t.brk Color.RED Tree.nil k Tree.nil)).keys ∧
      T1.size = T.size + 1 ∧ t1.nodeCount = t.nodeCount + 1 := by
  obtain ⟨t2, t3, e2, e3, ez, h3, hz, hN, hbrk, hcnt, hz0, hzn, hza⟩ := newNode_spec h k
  have hctx : ModelsAt t3 (Ctx.descend k T []) Tree.nil :=
    (modelsAt_iff _ _).mpr (by rw [Ctx.plug_descend]; exact h3)
  have hza' : t.brk ∉ Ctx.addrs (Ctx.descend k T []) := by
    intro hm
    apply hza
    have := (Ctx.addrs_plug (Ctx.descend k T []) Tree.nil).mem_iff (a := t.brk)
    rw [Ctx.plug_descend] at this
    exact this.mpr (by simpa [Tree.addrs] using hm)
  rw [← hN] at hz hzn
  obtain ⟨t4, e4, h4, f4⟩ := insertLink_spec hctx hz hz0 hzn (by rw [hbrk]; exact Nat.lt_succ_self _)
    hza' (Ctx.sideOk_descend k T [] trivial)
  have h5 := h4.setNodeCount (t4.nodeCount + 1)
  have hi : InsInv (Ctx.descend k T []) (Tree.node t.brk Color.RED Tree.nil k Tree.nil) 0 := by
    have := @Ctx.WF.of_plug α (Ctx.descend k T []) Tree.nil
      (by rw [Ctx.plug_descend]; exact hwf) (by rw [Ctx.plug_descend]; exact hb)
    exact ⟨this.1, by simp [Tree.WF, Tree.bh], by simp [Tree.bh], rfl⟩
  obtain ⟨t6, T1, e6, h6, w6, c6, k6, s6, f6⟩ := insertFixup_spec h5 hi
  refine ⟨t6, T1, fun fuel hf => ?_, h6, w6, c6, k6, ?_, ?_⟩
  · have hd := insertDescend_loop (t := t3) (z := t.brk) (k := k)
      (by simp [RedBlackTree.getData, deref_eq hz0, hz]) T [] fuel ((modelsAt_nil T).mpr h3) hf
    have hlen := Ctx.length_descend k T []
    simp only [List.length_nil, zero_add] at hlen
    have e6' := e6 fuel (by omega)
    have hroot : t3.root = T.ptr t3.NIL := h3.root
    simp only [Tree.ptr_node] at e6'
    rw [ez] at e2 e3
    simp only [Ctx.par_nil, ← hroot] at hd
    simp only [RedBlackTree.insert, e2, e3, Option.bind_eq_bind, Option.some_bind, ez, hd,
      e4, e6', nullptr_eq]
  · rw [s6]
    have := @Ctx.size_plug_add α (Tree.node t.brk Color.RED Tree.nil k Tree.nil) Tree.nil 1
      (Ctx.descend k T []) (by simp [Tree.size])
    rw [this, Ctx.plug_descend]
    rfl
  · have := f6.2.1
    simp only [setNodeCount] at this
    rw [this, f4.2.1, hcnt]

end RBT

namespace RBT

open RedBlackTree

variable {α : Type}

/-! ### Splicing a node out -/

set_option maxHeartbeats 1000000 in
theorem transplant_right_at {t : RedBlackTree α} {ctx : Ctx α} {z : Ptr} {c : Color} {r : Tree α}
    {k : α} (h : ModelsAt t ctx (Tree.node z c Tree.nil k r)) :
    ∃ t1, t.transplant z (r.ptr t.NIL) = some t1 ∧ ModelsAt t1 ctx r ∧
      t1.getParent (r.ptr t.NIL) = some ctx.par ∧ t1.mem z = t.mem z ∧ t1.NIL = t.NIL ∧
      t1.brk = t.brk ∧ t1.nodeCount = t.nodeCount := by
  obtain ⟨hc, hr, hn, hnd, hok⟩ := h
  have hok' : AddrsOk t (r.addrs ++ Ctx.addrs ctx) := by
    simp only [Tree.addrs, List.nil_append, List.append_nil, List.cons_append] at hnd hok
    exact ⟨hnd.of_cons, fun a ha => hok a (List.mem_cons_of_mem _ ha)⟩
  obtain ⟨hn0, hnb, d, p, hnil⟩ := id hn
  have hz := hok z (by simp [Tree.addrs])
  have hnn : t.NIL ∉ r.addrs ++ Ctx.addrs ctx := fun hm => (hok'.2 _ hm).2.1 rfl
  rcases r with _ | ⟨b0, cb, bl, kb, br⟩ <;> rcases ctx with _ | ⟨⟨g, cg, kg, s⟩ | ⟨g, cg, s, kg⟩, fs⟩ <;>
  ( have hg : True := trivial
    have hb : True := trivial
    try have hg := hok g (by simp [Tree.addrs, Ctx.addrs, Frame.addr])
    try have hb := hok b0 (by simp [Tree.addrs])
    clear hok
    simp only [Tree.addrs, Ctx.addrs, Frame.addr, Frame.sib, List.mem_cons, List.mem_append,
      not_or, List.not_mem_nil, not_false_eq_true, List.nil_append, List.append_nil,
      or_false, false_or, true_and, and_true] at hnn
    simp only [Tree.addrs, Ctx.addrs, Frame.addr, Frame.sib, List.cons_append, List.nodup_cons,
      List.mem_append, List.mem_cons, not_or, List.nodup_append, List.append_assoc,
      List.disjoint_cons_left, List.disjoint_cons_right, List.disjoint_append_left,
      List.disjoint_append_right, List.nil_append, List.append_nil, List.not_mem_nil,
      not_false_eq_true, true_and, and_true, List.nodup_nil, List.disjoint_nil_left,
      List.disjoint_nil_right] at hnd
    simp only [Rep, RepCtx, Tree.ptr_node, Tree.ptr_nil, true_and, and_true, Ctx.par_cons,
      Ctx.par_nil, Frame.addr] at hr hc
    simp only [transplant, RedBlackTree.getRight, RedBlackTree.getLeft, RedBlackTree.setRight,
      RedBlackTree.getParent, RedBlackTree.setParent, RedBlackTree.setLeft, Tree.ptr_nil,
      Tree.ptr_node, Ctx.par_nil, Ctx.par_cons, Frame.addr]
    simp only [ne_eq, hz, hg, hb, hn0, hnil, not_false_eq_true, deref_eq, hr, Option.map_some', nullptr_eq,
      Option.bind_eq_bind, Option.some_bind, deref_setRoot, ite_not, store_NIL, store_mem,
      Function.update_same, hnd, update_ne2, update_ne1, setRoot_mem, if_true, if_false, hc,
      Tree.ne_ptr, Tree.ptr_ne, Option.some.injEq, exists_eq_left', setRoot_NIL, not_true_eq_false]
    refine ⟨⟨?_, ?_, ?_, ?_⟩, ?_, ?_, ?_, ?_, ?_⟩
    · simp only [RepCtx, Rep, store_mem, store_root, store_NIL, setRoot_mem, setRoot_root,
        setRoot_NIL, Function.update_same, update_ne1, update_ne2, Rep.update_off, RepCtx.update_path,
        hnd, hr, hc, hz, hg, hb, hnn, Tree.ptr_node, Tree.ptr_nil, Ctx.par_nil, Ctx.par_cons,
        Frame.addr, and_self, ne_eq, not_false_eq_true, nullptr_eq, Ctx.addrs, Tree.addrs,
        List.mem_cons, List.mem_append, not_or, or_self, or_false, not_true_eq_false]
    · simp only [RepCtx, Rep, store_mem, store_root, store_NIL, setRoot_mem, setRoot_root,
        setRoot_NIL, Function.update_same, update_ne1, update_ne2, Rep.update_off, RepCtx.update_path,
        hnd, hr, hc, hz, hg, hb, hnn, Tree.ptr_node, Tree.ptr_nil, Ctx.par_nil, Ctx.par_cons,
        Frame.addr, and_self, ne_eq, not_false_eq_true, nullptr_eq, Ctx.addrs, Tree.addrs,
        List.mem_cons, List.mem_append, not_or, or_self, or_false, not_true_eq_false]
    · simp only [NilCell, store_mem, store_NIL, store_brk, setRoot_mem, setRoot_NIL, setRoot_brk,
        update_ne1, update_ne2, hz, hg, hb, ne_eq, not_false_eq_true, hnil, hn0, hnb,
        Option.some.injEq, Node.mk.injEq, true_and, exists_and_left, exists_eq', and_true,
        exists_eq_left', and_self, nullptr_eq, Function.update_same]
      try exact ⟨_, _, rfl⟩
    · exact (AddrsOk.of_eq_addrs (by simp only [store_NIL, setRoot_NIL]) (by simp only [store_brk, setRoot_brk])).mpr hok'
    · simp only [ne_eq, hz, hg, hb, hn0, hnil, not_false_eq_true, deref_eq, hr, Option.map_some', nullptr_eq,
      Option.bind_eq_bind, Option.some_bind, deref_setRoot, ite_not, store_NIL, store_mem,
      Function.update_same, hnd, update_ne2, update_ne1, setRoot_mem, if_true, if_false, hc,
      Tree.ne_ptr, Tree.ptr_ne, Option.some.injEq, exists_eq_left', setRoot_NIL, not_true_eq_false]
    · simp only [Fr, store_mem, store_NIL, store_brk, store_nodeCount, setRoot_mem, setRoot_NIL,
        setRoot_brk, setRoot_nodeCount, update_ne1, update_ne2, hz, hg, hb, Ne.symm hz.2.1, ne_eq,
        not_false_eq_true, and_self]
    · simp only [store_NIL, setRoot_NIL]
    · simp only [store_brk, setRoot_brk]
    · simp only [store_nodeCount, setRoot_nodeCount])

set_option maxHeartbeats 1000000 in
theorem transplant_left_at {t : RedBlackTree α} {ctx : Ctx α} {z : Ptr} {c : Color} {r : Tree α}
    {k : α} (h : ModelsAt t ctx (Tree.node z c r k Tree.nil)) :
    ∃ t1, t.transplant z (r.ptr t.NIL) = some t1 ∧ ModelsAt t1 ctx r ∧
      t1.getParent (r.ptr t.NIL) = some ctx.par ∧ t1.mem z = t.mem z ∧ t1.NIL = t.NIL ∧
      t1.brk = t.brk ∧ t1.nodeCount = t.nodeCount := by
  obtain ⟨hc, hr, hn, hnd, hok⟩ := h
  have hok' : AddrsOk t (r.addrs ++ Ctx.addrs ctx) := by
    simp only [Tree.addrs, List.nil_append, List.append_nil, List.cons_append] at hnd hok
    exact ⟨hnd.of_cons, fun a ha => hok a (List.mem_cons_of_mem _ ha)⟩
  obtain ⟨hn0, hnb, d, p, hnil⟩ := id hn
  have hz := hok z (by simp [Tree.addrs])
  have hnn : t.NIL ∉ r.addrs ++ Ctx.addrs ctx := fun hm => (hok'.2 _ hm).2.1 rfl
  rcases r with _ | ⟨b0, cb, bl, kb, br⟩ <;> rcases ctx with _ | ⟨⟨g, cg, kg, s⟩ | ⟨g, cg, s, kg⟩, fs⟩ <;>
  ( have hg : True := trivial
    have hb : True := trivial
    try have hg := hok g (by simp [Tree.addrs, Ctx.addrs, Frame.addr])
    try have hb := hok b0 (by simp [Tree.addrs])
    clear hok
    simp only [Tree.addrs, Ctx.addrs, Frame.addr, Frame.sib, List.mem_cons, List.mem_append,
      not_or, List.not_mem_nil, not_false_eq_true, List.nil_append, List.append_nil,
      or_false, false_or, true_and, and_true] at hnn
    simp only [Tree.addrs, Ctx.addrs, Frame.addr, Frame.sib, List.cons_append, List.nodup_cons,
      List.mem_append, List.mem_cons, not_or, List.nodup_append, List.append_assoc,
      List.disjoint_cons_left, List.disjoint_cons_right, List.disjoint_append_left,
      List.disjoint_append_right, List.nil_append, List.append_nil, List.not_mem_nil,
      not_false_eq_true, true_and, and_true, List.nodup_nil, List.disjoint_nil_left,
      List.disjoint_nil_right] at hnd
    simp only [Rep, RepCtx, Tree.ptr_node, Tree.ptr_nil, true_and, and_true, Ctx.par_cons,
      Ctx.par_nil, Frame.addr] at hr hc
    simp only [transplant, RedBlackTree.getRight, RedBlackTree.getLeft, RedBlackTree.setRight,
      RedBlackTree.getParent, RedBlackTree.setParent, RedBlackTree.setLeft, Tree.ptr_nil,
      Tree.ptr_node, Ctx.par_nil, Ctx.par_cons, Frame.addr]
    simp only [ne_eq, hz, hg, hb, hn0, hnil, not_false_eq_true, deref_eq, hr, Option.map_some', nullptr_eq,
      Option.bind_eq_bind, Option.some_bind, deref_setRoot, ite_not, store_NIL, store_mem,
      Function.update_same, hnd, update_ne2, update_ne1, setRoot_mem, if_true, if_false, hc,
      Tree.ne_ptr, Tree.ptr_ne, Option.some.injEq, exists_eq_left', setRoot_NIL, not_true_eq_false]
    refine ⟨⟨?_, ?_, ?_, ?_⟩, ?_, ?_, ?_, ?_, ?_⟩
    · simp only [RepCtx, Rep, store_mem, store_root, store_NIL, setRoot_mem, setRoot_root,
        setRoot_NIL, Function.update_same, update_ne1, update_ne2, Rep.update_off, RepCtx.update_path,
        hnd, hr, hc, hz, hg, hb, hnn, Tree.ptr_node, Tree.ptr_nil, Ctx.par_nil, Ctx.par_cons,
        Frame.addr, and_self, ne_eq, not_false_eq_true, nullptr_eq, Ctx.addrs, Tree.addrs,
        List.mem_cons, List.mem_append, not_or, or_self, or_false, not_true_eq_false]
    · simp only [RepCtx, Rep, store_mem, store_root, store_NIL, setRoot_mem, setRoot_root,
        setRoot_NIL, Function.update_same, update_ne1, update_ne2, Rep.update_off, RepCtx.update_path,
        hnd, hr, hc, hz, hg, hb, hnn, Tree.ptr_node, Tree.ptr_nil, Ctx.par_nil, Ctx.par_cons,
        Frame.addr, and_self, ne_eq, not_false_eq_true, nullptr_eq, Ctx.addrs, Tree.addrs,
        List.mem_cons, List.mem_append, not_or, or_self, or_false, not_true_eq_false]
    · simp only [NilCell, store_mem, store_NIL, store_brk, setRoot_mem, setRoot_NIL, setRoot_brk,
        update_ne1, update_ne2, hz, hg, hb, ne_eq, not_false_eq_true, hnil, hn0, hnb,
        Option.some.injEq, Node.mk.injEq, true_and, exists_and_left, exists_eq', and_true,
        exists_eq_left', and_self, nullptr_eq, Function.update_same]
      try exact ⟨_, _, rfl⟩
    · exact (AddrsOk.of_eq_addrs (by simp only [store_NIL, setRoot_NIL]) (by simp only [store_brk, setRoot_brk])).mpr hok'
    · simp only [ne_eq, hz, hg, hb, hn0, hnil, not_false_eq_true, deref_eq, hr, Option.map_some', nullptr_eq,
      Option.bind_eq_bind, Option.some_bind, deref_setRoot, ite_not, store_NIL, store_mem,
      Function.update_same, hnd, update_ne2, update_ne1, setRoot_mem, if_true, if_false, hc,
      Tree.ne_ptr, Tree.ptr_ne, Option.some.injEq, exists_eq_left', setRoot_NIL, not_true_eq_false]
    · simp only [Fr, store_mem, store_NIL, store_brk, store_nodeCount, setRoot_mem, setRoot_NIL,
        setRoot_brk, setRoot_nodeCount, update_ne1, update_ne2, hz, hg, hb, Ne.symm hz.2.1, ne_eq,
        not_false_eq_true, and_self]
    · simp only [store_NIL, setRoot_NIL]
    · simp only [store_brk, setRoot_brk]
    · simp only [store_nodeCount, setRoot_nodeCount])

end RBT

namespace RBT

open RedBlackTree

variable {α : Type}

theorem free_spec {t : RedBlackTree α} {ctx : Ctx α} {T : Tree α} {z : Ptr} {n : Node α}
    (h : ModelsAt t ctx T) (hz : z ∉ T.addrs ++ Ctx.addrs ctx) (hzn : z ≠ t.NIL) (hz0 : z ≠ 0)
    (hm : t.mem z = some n) :
    ∃ t1, t.free z = some t1 ∧ ModelsAt t1 ctx T ∧ Fr t t1 ∧ t1.root = t.root := by
  refine ⟨{ t with mem := Function.update t.mem z none }, ?_, ⟨?_, ?_, ?_, h.addrsOk⟩,
    ⟨rfl, rfl, rfl, ?_⟩, rfl⟩
  · simp only [RedBlackTree.free, deref_eq hz0, hm]
    congr 2
    funext q
    simp [Function.update_apply]
  · refine (RepCtx.congr_path fun a ha => ?_).mpr h.repCtx
    exact Function.update_noteq (fun e => hz (by simp [← e, ha])) _ _
  · refine (Rep.congr_mem fun a ha => ?_).mpr h.rep
    exact Function.update_noteq (fun e => hz (by simp [← e, ha])) _ _
  · obtain ⟨h1, h2, d, p, h3⟩ := h.nilCell
    exact ⟨h1, h2, d, p, by simp [Function.update_noteq (Ne.symm hzn), h3]⟩
  · simp [Function.update_noteq (Ne.symm hzn)]

set_option maxHeartbeats 1000000 in
theorem removeReplace_spec {t : RedBlackTree α} {ctx : Ctx α} {z y l0 : Ptr} {c cl : Color}
    {ll lr R : Tree α} {k ky kl : α}
    (h : Detached t ctx z k c (Tree.node l0 cl ll kl lr) y ky R) :
    ∃ t1, t.removeReplace z y = some t1 ∧
      ModelsAt t1 ctx (Tree.node y c (Tree.node l0 cl ll kl lr) ky R) ∧ Fr t t1 ∧
      t1.mem z = t.mem z := by
  obtain ⟨hc, ⟨zr, hz⟩, hr, ⟨cy, yp, yl, hy⟩, hR, hn, hnd, hok⟩ := h
  have hok' : AddrsOk t ((Tree.node y c (Tree.node l0 cl ll kl lr) ky R).addrs ++ Ctx.addrs ctx) := by
    have h1 := hnd.of_cons
    have h2 := fun a ha => hok a (List.mem_cons_of_mem z ha)
    simp only [AddrsOk, Tree.addrs, List.cons_append, List.append_assoc] at h1 h2 ⊢
    exact ⟨h1, h2⟩
  obtain ⟨hn0, hnb, d, p, hnil⟩ := id hn
  have hz0 := hok z (by simp)
  have hy0 := hok y (by simp)
  have hl0 := hok l0 (by simp [Tree.addrs])
  rcases ctx with _ | ⟨⟨g, cg, kg, s⟩ | ⟨g, cg, s, kg⟩, fs⟩ <;>
  ( have hg : True := trivial
    try have hg := hok g (by simp [Tree.addrs, Ctx.addrs, Frame.addr])
    clear hok
    simp only [Tree.addrs, Ctx.addrs, Frame.addr, Frame.sib, List.cons_append, List.nodup_cons,
      List.mem_append, List.mem_cons, not_or, List.nodup_append, List.append_assoc,
      List.disjoint_cons_left, List.disjoint_cons_right, List.disjoint_append_left,
      List.disjoint_append_right, List.nil_append, List.append_nil, List.not_mem_nil,
      not_false_eq_true, true_and, and_true, List.nodup_nil, List.disjoint_nil_left,
      List.disjoint_nil_right] at hnd
    simp only [Rep, RepCtx, Tree.ptr_node, Tree.ptr_nil, true_and, and_true, Ctx.par_cons,
      Ctx.par_nil, Frame.addr] at hr hc hz
    simp only [removeReplace, transplant, RedBlackTree.getRight, RedBlackTree.getLeft,
      RedBlackTree.setRight, RedBlackTree.getParent, RedBlackTree.setParent,
      RedBlackTree.setLeft, RedBlackTree.getColor, RedBlackTree.setColor, Tree.ptr_nil,
      Tree.ptr_node, Ctx.par_nil, Ctx.par_cons, Frame.addr]
    simp only [ne_eq, hz0, hy0, hl0, hg, hz, hy, not_false_eq_true, deref_eq, hr, Option.map_some', nullptr_eq,
      Option.bind_eq_bind, Option.some_bind, deref_setRoot, ite_not, store_NIL, store_mem,
      Function.update_same, hnd, update_ne2, update_ne1, setRoot_mem, if_true, if_false, hc,
      Tree.ne_ptr, Tree.ptr_ne, Option.some.injEq, exists_eq_left', setRoot_NIL, not_true_eq_false]
    refine ⟨⟨?_, ?_, ?_, ?_⟩, ?_, ?_⟩
    · simp only [RepCtx, Rep, store_mem, store_root, store_NIL, setRoot_mem, setRoot_root,
        setRoot_NIL, Function.update_same, update_ne1, update_ne2, Rep.update_off, RepCtx.update_path,
        hnd, hr, hc, hz0, hy0, hl0, hg, hz, hy, hR, Tree.ptr_node, Tree.ptr_nil, Ctx.par_nil, Ctx.par_cons,
        Frame.addr, and_self, ne_eq, not_false_eq_true, nullptr_eq, Ctx.addrs, Tree.addrs,
        List.mem_cons, List.mem_append, not_or, or_self, or_false, not_true_eq_false]
    · simp only [RepCtx, Rep, store_mem, store_root, store_NIL, setRoot_mem, setRoot_root,
        setRoot_NIL, Function.update_same, update_ne1, update_ne2, Rep.update_off, RepCtx.update_path,
        hnd, hr, hc, hz0, hy0, hl0, hg, hz, hy, hR, Tree.ptr_node, Tree.ptr_nil, Ctx.par_nil, Ctx.par_cons,
        Frame.addr, and_self, ne_eq, not_false_eq_true, nullptr_eq, Ctx.addrs, Tree.addrs,
        List.mem_cons, List.mem_append, not_or, or_self, or_false, not_true_eq_false]
    · simp only [NilCell, store_mem, store_NIL, store_brk, setRoot_mem, setRoot_NIL, setRoot_brk,
        update_ne1, update_ne2, hz0, hy0, hl0, hg, ne_eq, not_false_eq_true, hnil, hn0, hnb,
        Option.some.injEq, Node.mk.injEq, true_and, exists_and_left, exists_eq', and_true,
        exists_eq_left', and_self, nullptr_eq]
    · exact (AddrsOk.of_eq_addrs (by simp only [store_NIL, setRoot_NIL]) (by simp only [store_brk, setRoot_brk])).mpr hok'
    · simp only [Fr, store_mem, store_NIL, store_brk, store_nodeCount, setRoot_mem, setRoot_NIL,
        setRoot_brk, setRoot_nodeCount, update_ne1, update_ne2, hz0, hy0, hl0, hg, ne_eq,
        not_false_eq_true, and_self]
    · simp only [ne_eq, hz0, hy0, hl0, hg, hz, hy, not_false_eq_true, deref_eq, hr, Option.map_some', nullptr_eq,
      Option.bind_eq_bind, Option.some_bind, deref_setRoot, ite_not, store_NIL, store_mem,
      Function.update_same, hnd, update_ne2, update_ne1, setRoot_mem, if_true, if_false, hc,
      Tree.ne_ptr, Tree.ptr_ne, Option.some.injEq, exists_eq_left', setRoot_NIL, not_true_eq_false])

theorem Ctx.plug_append (c1 c2 : Ctx α) (T : Tree α) :
    Ctx.plug (c1 ++ c2) T = Ctx.plug c2 (Ctx.plug c1 T) := by
  induction c1 generalizing T with
  | nil => rfl
  | cons f fs ih => exact ih _

theorem Ctx.par_append_cons (f : Frame α) (c1 c2 : Ctx α) :
    Ctx.par (f :: c1 ++ c2) = f.addr := rfl

set_option maxHeartbeats 1000000 in
theorem removeDetach_direct {t : RedBlackTree α} {ctx : Ctx α} {z y : Ptr} {c cy : Color}
    {l yr : Tree α} {k ky : α}
    (h : ModelsAt t ctx (Tree.node z c l k (Tree.node y cy Tree.nil ky yr))) :
    ∃ t1, t.removeDetach z y (yr.ptr t.NIL) = some t1 ∧ Detached t1 ctx z k c l y ky yr ∧
      t1.getParent (yr.ptr t.NIL) = some y ∧ t1.NIL = t.NIL ∧ t1.brk = t.brk ∧
      t1.nodeCount = t.nodeCount ∧ t1.mem z = t.mem z := by
  obtain ⟨hc, hr, hn, hnd, hok⟩ := h
  have hok' : AddrsOk t (z :: y :: (l.addrs ++ (yr.addrs ++ Ctx.addrs ctx))) := by
    have h1 := hnd
    have h2 := hok
    simp only [AddrsOk, Tree.addrs, List.cons_append, List.append_assoc, List.nil_append] at h1 h2 ⊢
    refine ⟨?_, fun a ha => h2 a ?_⟩
    · exact (List.Perm.nodup_iff (List.Perm.cons z List.perm_middle)).mp h1
    · exact (List.Perm.mem_iff (List.Perm.cons z List.perm_middle)).mpr ha
  obtain ⟨hn0, hnb, d, p, hnil⟩ := id hn
  have hz0 := hok z (by simp [Tree.addrs])
  have hy0 := hok y (by simp [Tree.addrs])
  have hnn : t.NIL ∉ (Tree.node z c l k (Tree.node y cy Tree.nil ky yr)).addrs ++ Ctx.addrs ctx :=
    fun hm => (hok _ hm).2.1 rfl
  rcases yr with _ | ⟨r0, cr, rl, kr, rr⟩ <;>
  ( have hr0 : True := trivial
    try have hr0 := hok r0 (by simp [Tree.addrs])
    clear hok
    simp only [Tree.addrs, Ctx.addrs, Frame.addr, Frame.sib, List.mem_cons, List.mem_append,
      not_or, List.not_mem_nil, not_false_eq_true, List.nil_append, List.append_nil,
      or_false, false_or, true_and, and_true, List.cons_append] at hnn
    simp only [Tree.addrs, Ctx.addrs, Frame.addr, Frame.sib, List.cons_append, List.nodup_cons,
      List.mem_append, List.mem_cons, not_or, List.nodup_append, List.append_assoc,
      List.disjoint_cons_left, List.disjoint_cons_right, List.disjoint_append_left,
      List.disjoint_append_right, List.nil_append, List.append_nil, List.not_mem_nil,
      not_false_eq_true, true_and, and_true, List.nodup_nil, List.disjoint_nil_left,
      List.disjoint_nil_right] at hnd
    simp only [Rep, Tree.ptr_node, Tree.ptr_nil, true_and, and_true] at hr hc
    simp only [removeDetach, RedBlackTree.getParent, RedBlackTree.setParent, Tree.ptr_nil,
      Tree.ptr_node]
    simp only [ne_eq, hz0, hy0, hr0, hn0, hnil, not_false_eq_true, deref_eq, hr, Option.map_some', nullptr_eq,
      Option.bind_eq_bind, Option.some_bind, deref_setRoot, ite_not, store_NIL, store_mem,
      Function.update_same, hnd, update_ne2, update_ne1, setRoot_mem, if_true, if_false, hc,
      Tree.ne_ptr, Tree.ptr_ne, Option.some.injEq, exists_eq_left', setRoot_NIL, not_true_eq_false]
    refine ⟨⟨?_, ⟨y, ?_⟩, ?_, ⟨cy, z, t.NIL, ?_⟩, ?_, ?_, ?_⟩, ?_, ?_, ?_, ?_, ?_⟩
    · simp only [RepCtx, Rep, store_mem, store_root, store_NIL, setRoot_mem, setRoot_root,
        setRoot_NIL, Function.update_same, update_ne1, update_ne2, Rep.update_off, RepCtx.update_path,
        hnd, hr, hc, hz0, hy0, hr0, hnn, Tree.ptr_node, Tree.ptr_nil, Ctx.par_nil, Ctx.par_cons,
        Frame.addr, and_self, ne_eq, not_false_eq_true, nullptr_eq, Ctx.addrs, Tree.addrs,
        List.mem_cons, List.mem_append, not_or, or_self, or_false, not_true_eq_false]
    · simp only [RepCtx, Rep, store_mem, store_root, store_NIL, setRoot_mem, setRoot_root,
        setRoot_NIL, Function.update_same, update_ne1, update_ne2, Rep.update_off, RepCtx.update_path,
        hnd, hr, hc, hz0, hy0, hr0, hnn, Ne.symm hz0.2.1, Tree.ptr_node, Tree.ptr_nil, Ctx.par_nil, Ctx.par_cons,
        Frame.addr, and_self, ne_eq, not_false_eq_true, nullptr_eq, Ctx.addrs, Tree.addrs,
        List.mem_cons, List.mem_append, not_or, or_self, or_false, not_true_eq_false]
    · simp only [RepCtx, Rep, store_mem, store_root, store_NIL, setRoot_mem, setRoot_root,
        setRoot_NIL, Function.update_same, update_ne1, update_ne2, Rep.update_off, RepCtx.update_path,
        hnd, hr, hc, hz0, hy0, hr0, hnn, Tree.ptr_node, Tree.ptr_nil, Ctx.par_nil, Ctx.par_cons,
        Frame.addr, and_self, ne_eq, not_false_eq_true, nullptr_eq, Ctx.addrs, Tree.addrs,
        List.mem_cons, List.mem_append, not_or, or_self, or_false, not_true_eq_false]
    · simp only [RepCtx, Rep, store_mem, store_root, store_NIL, setRoot_mem, setRoot_root,
        setRoot_NIL, Function.update_same, update_ne1, update_ne2, Rep.update_off, RepCtx.update_path,
        hnd, hr, hc, hz0, hy0, hr0, hnn, Ne.symm hy0.2.1, Tree.ptr_node, Tree.ptr_nil, Ctx.par_nil, Ctx.par_cons,
        Frame.addr, and_self, ne_eq, not_false_eq_true, nullptr_eq, Ctx.addrs, Tree.addrs,
        List.mem_cons, List.mem_append, not_or, or_self, or_false, not_true_eq_false]
    · simp only [RepCtx, Rep, store_mem, store_root, store_NIL, setRoot_mem, setRoot_root,
        setRoot_NIL, Function.update_same, update_ne1, update_ne2, Rep.update_off, RepCtx.update_path,
        hnd, hr, hc, hz0, hy0, hr0, hnn, Tree.ptr_node, Tree.ptr_nil, Ctx.par_nil, Ctx.par_cons,
        Frame.addr, and_self, ne_eq, not_false_eq_true, nullptr_eq, Ctx.addrs, Tree.addrs,
        List.mem_cons, List.mem_append, not_or, or_self, or_false, not_true_eq_false]
    · simp only [NilCell, store_mem, store_NIL, store_brk, setRoot_mem, setRoot_NIL, setRoot_brk,
        update_ne1, update_ne2, hz0, hy0, hr0, Function.update_same, ne_eq, not_false_eq_true, hnil, hn0, hnb,
        Option.some.injEq, Node.mk.injEq, true_and, exists_and_left, exists_eq', and_true,
        exists_eq_left', and_self, nullptr_eq]
      try exact ⟨_, _, rfl⟩
    · exact (AddrsOk.of_eq_addrs (by simp only [store_NIL, setRoot_NIL]) (by simp only [store_brk, setRoot_brk])).mpr hok'
    · simp only [ne_eq, hz0, hy0, hr0, hn0, hnil, not_false_eq_true, deref_eq, hr, Option.map_some', nullptr_eq,
      Option.bind_eq_bind, Option.some_bind, deref_setRoot, ite_not, store_NIL, store_mem,
      Function.update_same, hnd, update_ne2, update_ne1, setRoot_mem, if_true, if_false, hc,
      Tree.ne_ptr, Tree.ptr_ne, Option.some.injEq, exists_eq_left', setRoot_NIL, not_true_eq_false]
    · simp only [store_NIL, setRoot_NIL]
    · simp only [store_brk, setRoot_brk]
    · simp only [store_nodeCount, setRoot_nodeCount]
    · simp only [RepCtx, Rep, store_mem, store_root, store_NIL, setRoot_mem, setRoot_root,
        setRoot_NIL, Function.update_same, update_ne1, update_ne2, Rep.update_off, RepCtx.update_path,
        hnd, hr, hc, hz0, hy0, hr0, hnn, Ne.symm hz0.2.1, Tree.ptr_node, Tree.ptr_nil, Ctx.par_nil, Ctx.par_cons,
        Frame.addr, and_self, ne_eq, not_false_eq_true, nullptr_eq, Ctx.addrs, Tree.addrs,
        List.mem_cons, List.mem_append, not_or, or_self, or_false, not_true_eq_false])

set_option maxHeartbeats 1000000 in
theorem removeDetach_tail {t : RedBlackTree α} {ctx : Ctx α} {z y r0 yp yl yr0 : Ptr}
    {c cr cy : Color} {l rl rr : Tree α} {k kr ky : α}
    (h : ModelsAt t ctx (Tree.node z c l k (Tree.node r0 cr rl kr rr)))
    (hy : t.mem y = some ⟨ky, cy, yp, yl, yr0⟩)
    (hyok : AddrsOk t (y :: ((Tree.node z c l k (Tree.node r0 cr rl kr rr)).addrs ++
      Ctx.addrs ctx))) :
    ∃ t2 t3, t.setRight y r0 = some t2 ∧ t2.getRight y = some r0 ∧
      t2.setParent r0 y = some t3 ∧
      Detached t3 ctx z k c l y ky (Tree.node r0 cr rl kr rr) ∧ Fr t t3 ∧
      t3.mem z = t.mem z := by
  obtain ⟨hc, hr, hn, -, -⟩ := h
  obtain ⟨hnd, hok⟩ := hyok
  have hok' : AddrsOk t (z :: y :: (l.addrs ++ ((Tree.node r0 cr rl kr rr).addrs ++
      Ctx.addrs ctx))) := by
    have h1 := hnd
    have h2 := hok
    simp only [AddrsOk, Tree.addrs, List.cons_append, List.append_assoc, List.nil_append] at h1 h2 ⊢
    exact ⟨(List.Perm.nodup_iff (List.Perm.swap z y _)).mp h1,
      fun a ha => h2 a ((List.Perm.mem_iff (List.Perm.swap z y _)).mpr ha)⟩
  obtain ⟨hn0, hnb, d, p, hnil⟩ := id hn
  have hz0 := hok z (by simp [Tree.addrs])
  have hy0 := hok y (by simp [Tree.addrs])
  have hr0 := hok r0 (by simp [Tree.addrs])
  clear hok
  simp only [Tree.addrs, Ctx.addrs, Frame.addr, Frame.sib, List.cons_append, List.nodup_cons,
      List.mem_append, List.mem_cons, not_or, List.nodup_append, List.append_assoc,
      List.disjoint_cons_left, List.disjoint_cons_right, List.disjoint_append_left,
      List.disjoint_append_right, List.nil_append, List.append_nil, List.not_mem_nil,
      not_false_eq_true, true_and, and_true, List.nodup_nil, List.disjoint_nil_left,
      List.disjoint_nil_right] at hnd
  simp only [Rep, Tree.ptr_node, Tree.ptr_nil, true_and, and_true] at hr hc
  refine ⟨t.store y ⟨ky, cy, yp, yl, r0⟩,
    (t.store y ⟨ky, cy, yp, yl, r0⟩).store r0 ⟨kr, cr, y, rl.ptr t.NIL, rr.ptr t.NIL⟩,
    ?_, ?_, ?_, ⟨?_, ⟨r0, ?_⟩, ?_, ⟨cy, yp, yl, ?_⟩, ?_, ?_, ?_⟩, ?_, ?_⟩
  · simp only [RedBlackTree.setRight]
    simp only [ne_eq, hz0, hy0, hr0, hy, not_false_eq_true, deref_eq, hr, Option.map_some', nullptr_eq,
      Option.bind_eq_bind, Option.some_bind, deref_setRoot, ite_not, store_NIL, store_mem,
      Function.update_same, hnd, update_ne2, update_ne1, setRoot_mem, if_true, if_false, hc,
      Tree.ne_ptr, Tree.ptr_ne, Option.some.injEq, exists_eq_left', setRoot_NIL, not_true_eq_false]
  · simp only [RedBlackTree.getRight]
    simp only [ne_eq, hz0, hy0, hr0, hy, not_false_eq_true, deref_eq, hr, Option.map_some', nullptr_eq,
      Option.bind_eq_bind, Option.some_bind, deref_setRoot, ite_not, store_NIL, store_mem,
      Function.update_same, hnd, update_ne2, update_ne1, setRoot_mem, if_true, if_false, hc,
      Tree.ne_ptr, Tree.ptr_ne, Option.some.injEq, exists_eq_left', setRoot_NIL, not_true_eq_false]
  · simp only [RedBlackTree.setParent]
    simp only [ne_eq, hz0, hy0, hr0, hy, not_false_eq_true, deref_eq, hr, Option.map_some', nullptr_eq,
      Option.bind_eq_bind, Option.some_bind, deref_setRoot, ite_not, store_NIL, store_mem,
      Function.update_same, hnd, update_ne2, update_ne1, setRoot_mem, if_true, if_false, hc,
      Tree.ne_ptr, Tree.ptr_ne, Option.some.injEq, exists_eq_left', setRoot_NIL, not_true_eq_false]
  · simp only [RepCtx, Rep, store_mem, store_root, store_NIL, setRoot_mem, setRoot_root,
        setRoot_NIL, Function.update_same, update_ne1, update_ne2, Rep.update_off, RepCtx.update_path,
        hnd, hr, hc, hz0, hy0, hr0, Tree.ptr_node, Tree.ptr_nil, Ctx.par_nil, Ctx.par_cons,
        Frame.addr, and_self, ne_eq, not_false_eq_true, nullptr_eq, Ctx.addrs, Tree.addrs,
        List.mem_cons, List.mem_append, not_or, or_self, or_false, not_true_eq_false]
  · simp only [RepCtx, Rep, store_mem, store_root, store_NIL, setRoot_mem, setRoot_root,
        setRoot_NIL, Function.update_same, update_ne1, update_ne2, Rep.update_off, RepCtx.update_path,
        hnd, hr, hc, hz0, hy0, hr0, Tree.ptr_node, Tree.ptr_nil, Ctx.par_nil, Ctx.par_cons,
        Frame.addr, and_self, ne_eq, not_false_eq_true, nullptr_eq, Ctx.addrs, Tree.addrs,
        List.mem_cons, List.mem_append, not_or, or_self, or_false, not_true_eq_false]
  · simp only [RepCtx, Rep, store_mem, store_root, store_NIL, setRoot_mem, setRoot_root,
        setRoot_NIL, Function.update_same, update_ne1, update_ne2, Rep.update_off, RepCtx.update_path,
        hnd, hr, hc, hz0, hy0, hr0, Tree.ptr_node, Tree.ptr_nil, Ctx.par_nil, Ctx.par_cons,
        Frame.addr, and_self, ne_eq, not_false_eq_true, nullptr_eq, Ctx.addrs, Tree.addrs,
        List.mem_cons, List.mem_append, not_or, or_self, or_false, not_true_eq_false]
  · simp only [RepCtx, Rep, store_mem, store_root, store_NIL, setRoot_mem, setRoot_root,
        setRoot_NIL, Function.update_same, update_ne1, update_ne2, Rep.update_off, RepCtx.update_path,
        hnd, hr, hc, hz0, hy0, hr0, hy, Tree.ptr_node, Tree.ptr_nil, Ctx.par_nil, Ctx.par_cons,
        Frame.addr, and_self, ne_eq, not_false_eq_true, nullptr_eq, Ctx.addrs, Tree.addrs,
        List.mem_cons, List.mem_append, not_or, or_self, or_false, not_true_eq_false]
  · simp only [RepCtx, Rep, store_mem, store_root, store_NIL, setRoot_mem, setRoot_root,
        setRoot_NIL, Function.update_same, update_ne1, update_ne2, Rep.update_off, RepCtx.update_path,
        hnd, hr, hc, hz0, hy0, hr0, Tree.ptr_node, Tree.ptr_nil, Ctx.par_nil, Ctx.par_cons,
        Frame.addr, and_self, ne_eq, not_false_eq_true, nullptr_eq, Ctx.addrs, Tree.addrs,
        List.mem_cons, List.mem_append, not_or, or_self, or_false, not_true_eq_false]
  · simp only [NilCell, store_mem, store_NIL, store_brk, setRoot_mem, setRoot_NIL, setRoot_brk,
        update_ne1, update_ne2, hz0, hy0, hr0, ne_eq, not_false_eq_true, hnil, hn0, hnb,
        Option.some.injEq, Node.mk.injEq, true_and, exists_and_left, exists_eq', and_true,
        exists_eq_left', and_self, nullptr_eq]
  · exact (AddrsOk.of_eq_addrs (by simp only [store_NIL, setRoot_NIL]) (by simp only [store_brk, setRoot_brk])).mpr hok'
  · simp only [Fr, store_mem, store_NIL, store_brk, store_nodeCount, setRoot_mem, setRoot_NIL,
        setRoot_brk, setRoot_nodeCount, update_ne1, update_ne2, hz0, hy0, hr0, ne_eq,
        not_false_eq_true, and_self]
  · simp only [RepCtx, Rep, store_mem, store_root, store_NIL, setRoot_mem, setRoot_root,
        setRoot_NIL, Function.update_same, update_ne1, update_ne2, Rep.update_off, RepCtx.update_path,
        hnd, hr, hc, hz0, hy0, hr0, Tree.ptr_node, Tree.ptr_nil, Ctx.par_nil, Ctx.par_cons,
        Frame.addr, and_self, ne_eq, not_false_eq_true, nullptr_eq, Ctx.addrs, Tree.addrs,
        List.mem_cons, List.mem_append, not_or, or_self, or_false, not_true_eq_false]

theorem Ctx.plug_cons_node (f : Frame α) (fs : Ctx α) (T : Tree α) :
    ∃ a c l k r, Ctx.plug (f :: fs) T = Tree.node a c l k r := by
  cases f with
  | L a c k s => exact Ctx.plug_node fs a c T s k
  | R a c s k => exact Ctx.plug_node fs a c s T k

theorem Ctx.addrs_append (c1 c2 : Ctx α) :
    Ctx.addrs (c1 ++ c2) = Ctx.addrs c1 ++ Ctx.addrs c2 := by
  induction c1 with
  | nil => rfl
  | cons f fs ih => simp [Ctx.addrs, ih]

theorem removeDetach_deep {t : RedBlackTree α} {ctx : Ctx α} {z y : Ptr} {c cy : Color}
    {l yr : Tree α} {k ky : α} (f : Frame α) (fs : Ctx α)
    (h : ModelsAt t ((f :: fs) ++ Frame.R z c l k :: ctx) (Tree.node y cy Tree.nil ky yr)) :
    ∃ t1, t.removeDetach z y (yr.ptr t.NIL) = some t1 ∧
      Detached t1 ctx z k c l y ky (Ctx.plug (f :: fs) yr) ∧
      (yr = Tree.nil → t1.getParent t.NIL = some f.addr) ∧ t1.NIL = t.NIL ∧ t1.brk = t.brk ∧
      t1.nodeCount = t.nodeCount := by
  obtain ⟨t1, e1, h1, p1, m1, n1, b1, c1⟩ := transplant_right_at h
  have hz : ModelsAt t1 ctx (Tree.node z c l k (Ctx.plug (f :: fs) yr)) :=
    ((modelsAt_append (f :: fs) (Frame.R z c l k :: ctx) yr).mp h1).upR
  obtain ⟨r0, cr, rl, kr, rr, hR⟩ := Ctx.plug_cons_node f fs yr
  rw [hR] at hz ⊢
  have hfz : f.addr ≠ z := by
    have hnd := h.addrsOk.1
    have e : (Frame.R z c l k).addr = z := rfl
    rw [Ctx.addrs_append] at hnd
    simp only [Ctx.addrs, e, List.nodup_append, List.nodup_cons, List.mem_append, List.mem_cons,
      not_or, List.disjoint_cons_left, List.disjoint_cons_right, List.disjoint_append_left,
      List.disjoint_append_right] at hnd
    tauto
  have hycell : t1.mem y = some ⟨ky, cy, f.addr, t.NIL, yr.ptr t.NIL⟩ := by
    rw [m1]; exact h.rep.1
  have hyok : AddrsOk t1 (y :: ((Tree.node z c l k (Tree.node r0 cr rl kr rr)).addrs ++
      Ctx.addrs ctx)) := by
    have h0 := h.addrsOk
    simp only [Tree.addrs, List.nil_append, List.cons_append] at h0
    have hp : (yr.addrs ++ Ctx.addrs ((f :: fs) ++ Frame.R z c l k :: ctx)).Perm
        ((Tree.node z c l k (Tree.node r0 cr rl kr rr)).addrs ++ Ctx.addrs ctx) := by
      refine (Ctx.addrs_plug _ yr).symm.trans ?_
      rw [Ctx.plug_append, hR]
      exact Ctx.addrs_plug ctx _
    exact (AddrsOk.of_eq_addrs n1 b1).mpr ((AddrsOk.perm (List.Perm.cons y hp)).mp h0)
  obtain ⟨t2, t3, e2, e3, e4, hd, f3, m3⟩ := removeDetach_tail hz hycell hyok
  refine ⟨t3, ?_, hd, ?_, f3.1.trans n1, f3.2.2.1.trans b1, f3.2.1.trans c1⟩
  · have hgp := h.getParent
    rw [List.cons_append, Ctx.par_cons] at hgp
    have hgr := h.getRight
    simp only [removeDetach, hgp, Option.bind_eq_bind, Option.some_bind, hfz, if_false, hgr, e1,
      hz.getRight, Tree.ptr_node, e2, e3, e4]
  · intro hyr
    subst hyr
    rw [List.cons_append, Ctx.par_cons] at p1
    have := f3.2.2.2
    rw [n1] at this
    simp only [Tree.ptr_nil, RedBlackTree.getParent, deref_eq h.nilCell.1] at p1 ⊢
    rw [this]
    exact p1

end RBT

namespace RBT

open RedBlackTree

variable {α : Type}

/-! ### `search` and `minimum` -/

theorem Ctx.plug_find [LinearOrder α] (k : α) (T : Tree α) (ctx : Ctx α) :
    Ctx.plug (Ctx.find k T ctx).1 (Ctx.find k T ctx).2 = Ctx.plug ctx T := by
  induction T generalizing ctx with
  | nil => rfl
  | node a c l x r ihl ihr =>
    simp only [Ctx.find]
    split
    · rfl
    · split
      · rw [ihl]; rfl
      · rw [ihr]; rfl

theorem Ctx.find_key [LinearOrder α] (k : α) (T : Tree α) (ctx : Ctx α) :
    (Ctx.find k T ctx).2 = Tree.nil ∨
      ∃ a c l r, (Ctx.find k T ctx).2 = Tree.node a c l k r := by
  induction T generalizing ctx with
  | nil => exact Or.inl rfl
  | node a c l x r ihl ihr =>
    simp only [Ctx.find]
    split
    · next h => exact Or.inr ⟨a, c, l, r, by rw [h]⟩
    · split
      · exact ihl _
      · exact ihr _

theorem search_spec [LinearOrder α] {t : RedBlackTree α} (k : α) (T : Tree α) :
    ∀ (ctx : Ctx α) (fuel : Nat), ModelsAt t ctx T → T.height < fuel →
      t.search fuel (T.ptr t.NIL) k = some ((Ctx.find k T ctx).2.ptr t.NIL) ∧
        ModelsAt t (Ctx.find k T ctx).1 (Ctx.find k T ctx).2 := by
  induction T with
  | nil =>
    intro ctx fuel h hf
    obtain ⟨f, rfl⟩ : ∃ n, fuel = n + 1 := ⟨fuel - 1, by omega⟩
    exact ⟨by simp [RedBlackTree.search, Ctx.find], h⟩
  | node a c l x r ihl ihr =>
    intro ctx fuel h hf
    simp only [Tree.height] at hf
    obtain ⟨f, rfl⟩ : ∃ n, fuel = n + 1 := ⟨fuel - 1, by omega⟩
    simp only [RedBlackTree.search, Tree.ptr_node, h.ne_nil, if_false, h.getData,
      Option.bind_eq_bind, Option.some_bind, Ctx.find, h.getLeft, h.getRight]
    by_cases hx : x = k
    · simp only [hx, if_true, Tree.ptr_node, true_and]
      rw [← hx]; exact h
    · simp only [hx, if_false]
      by_cases hk : k < x
      · simp only [hk, if_true]
        exact ihl _ f h.downL (by omega)
      · simp only [hk, if_false]
        exact ihr _ f h.downR (by omega)

theorem Ctx.leftmost_spec (a : Ptr) (c : Color) (l r : Tree α) (x : α) (ctx : Ctx α) :
    ∃ cR y cy ky yr,
      Ctx.leftmost (Tree.node a c l x r) ctx = (cR ++ ctx, Tree.node y cy Tree.nil ky yr) ∧
      Ctx.plug cR (Tree.node y cy Tree.nil ky yr) = Tree.node a c l x r ∧
      cR.length < (Tree.node a c l x r).height ∧
      (Tree.node a c l x r).keys = ky :: (Ctx.plug cR yr).keys ∧
      (Tree.node a c l x r).size = (Ctx.plug cR yr).size + 1 := by
  induction l generalizing a c x r ctx with
  | nil =>
    exact ⟨[], a, c, x, r, rfl, rfl, by simp [Tree.height], by simp [Tree.keys, Ctx.plug],
      by simp [Tree.size, Ctx.plug]⟩
  | node b cb bl y br ihl _ =>
    obtain ⟨cR, y1, cy, ky, yr, h1, h2, h3, h4, h5⟩ := ihl b cb br y (Frame.L a c x r :: ctx)
    refine ⟨cR ++ [Frame.L a c x r], y1, cy, ky, yr, ?_, ?_, ?_, ?_, ?_⟩
    · simp only [Ctx.leftmost, h1, List.append_assoc, List.singleton_append]
    · rw [Ctx.plug_append, h2]; rfl
    · simp only [List.length_append, List.length_singleton, Tree.height] at h3 ⊢
      omega
    · rw [Ctx.plug_append]
      simp only [Ctx.plug, Frame.fill, Tree.keys] at h4 ⊢
      rw [h4]; rfl
    · rw [Ctx.plug_append]
      simp only [Ctx.plug, Frame.fill, Tree.size] at h5 ⊢
      omega

theorem minimum_spec {t : RedBlackTree α} (T : Tree α) :
    ∀ (ctx : Ctx α) (fuel : Nat) (a : Ptr) (c : Color) (l r : Tree α) (x : α),
      T = Tree.node a c l x r → ModelsAt t ctx T → T.height < fuel →
      t.minimum fuel a = some ((Ctx.leftmost T ctx).2.ptr t.NIL) ∧
        ModelsAt t (Ctx.leftmost T ctx).1 (Ctx.leftmost T ctx).2 := by
  induction T with
  | nil => intro ctx fuel a c l r x hT; cases hT
  | node a0 c0 l0 x0 r0 ihl _ =>
    intro ctx fuel a c l r x hT h hf
    cases hT
    simp only [Tree.height] at hf
    obtain ⟨f, rfl⟩ : ∃ n, fuel = n + 1 := ⟨fuel - 1, by omega⟩
    rcases l0 with _ | ⟨b, cb, bl, y, br⟩
    · refine ⟨?_, h⟩
      simp only [RedBlackTree.minimum, Ctx.leftmost, Tree.ptr_node]
      exact whileLoop_false f (by simp [h.getLeft])
    · have hb : ((Tree.ptr t.NIL (Tree.node b cb bl y br)) != t.NIL) = true := by
        simp [h.downL.ne_nil]
      obtain ⟨i1, i2⟩ := ihl (Frame.L a0 c0 x0 r0 :: ctx) f b cb bl br y rfl h.downL
        (by simp only [Tree.height] at hf ⊢; omega)
      refine ⟨?_, i2⟩
      simp only [RedBlackTree.minimum] at i1 ⊢
      refine (@whileLoop_true _ _ _ _ b f ?_ ?_).trans i1
      · simp only [h.getLeft, Option.bind_eq_bind, Option.some_bind, hb]
      · simp only [h.getLeft, Tree.ptr_node]

end RBT

namespace RBT

open RedBlackTree

variable {α : Type}

/-! ### The splice of `remove` -/

theorem Ctx.leftmost_append (T : Tree α) (ctx : Ctx α) :
    Ctx.leftmost T ctx = ((Ctx.leftmost T []).1 ++ ctx, (Ctx.leftmost T []).2) := by
  induction T generalizing ctx with
  | nil => rfl
  | node a c l x r ihl _ =>
    rcases l with _ | ⟨b, cb, bl, y, br⟩
    · rfl
    · simp only [Ctx.leftmost]
      rw [ihl (Frame.L a c x r :: ctx), ihl [Frame.L a c x r]]
      simp

theorem Ctx.mem_addrs_plug {ctx : Ctx α} {T : Tree α} {a : Ptr} :
    a ∈ (Ctx.plug ctx T).addrs ↔ a ∈ T.addrs ++ Ctx.addrs ctx :=
  (Ctx.addrs_plug ctx T).mem_iff

theorem removeSplice_spec {t : RedBlackTree α} {ctx ctx1 : Ctx α} {z : Ptr} {c yc : Color}
    {l r X : Tree α} {k : α} (h : ModelsAt t ctx (Tree.node z c l k r))
    (hs : Ctx.splice ctx (Tree.node z c l k r) = some (ctx1, X, yc)) :
    ∃ t1, (∀ fuel, (Tree.node z c l k r).height < fuel →
        t.removeSplice fuel z = some (t1, X.ptr t.NIL, yc)) ∧
      ModelsAt t1 ctx1 X ∧ t1.getParent (X.ptr t.NIL) = some ctx1.par ∧
      (∃ n, t1.mem z = some n) ∧ z ∉ (Ctx.plug ctx1 X).addrs ∧ t1.NIL = t.NIL ∧
      t1.brk = t.brk ∧ t1.nodeCount = t.nodeCount := by
  have hznd : z ∉ l.addrs ++ (r.addrs ++ Ctx.addrs ctx) := by
    have := h.addrsOk.1
    simp only [Tree.addrs, List.cons_append, List.append_assoc, List.nodup_cons] at this
    exact this.1
  have hzcell := h.rep.1
  rcases l with _ | ⟨l0, cl, ll, kl, lr⟩
  · simp only [Ctx.splice, Option.some.injEq, Prod.mk.injEq] at hs
    obtain ⟨rfl, rfl, rfl⟩ := hs
    obtain ⟨t1, e1, h1, p1, m1, n1, b1, c1⟩ := transplant_right_at h
    refine ⟨t1, fun fuel _ => ?_, h1, p1, ⟨_, m1.trans hzcell⟩, ?_, n1, b1, c1⟩
    · have hc := h.getColor
      simp only [Tree.ptr_node, Tree.color_node] at hc
      simp only [removeSplice, hc, h.getLeft, h.getRight, Tree.ptr_nil, Option.bind_eq_bind,
        Option.some_bind, if_true, e1]
    · rw [Ctx.mem_addrs_plug]
      simpa [Tree.addrs] using hznd
  rcases r with _ | ⟨r0, cr, rl, kr, rr⟩
  · simp only [Ctx.splice, Option.some.injEq, Prod.mk.injEq] at hs
    obtain ⟨rfl, rfl, rfl⟩ := hs
    obtain ⟨t1, e1, h1, p1, m1, n1, b1, c1⟩ := transplant_left_at h
    simp only [Tree.ptr_node] at e1
    refine ⟨t1, fun fuel _ => ?_, h1, p1, ⟨_, m1.trans hzcell⟩, ?_, n1, b1, c1⟩
    · have hc := h.getColor
      simp only [Tree.ptr_node, Tree.color_node] at hc
      simp only [removeSplice, hc, h.getLeft, h.getRight, Tree.ptr_nil, Tree.ptr_node,
        h.downL.ne_nil, Option.bind_eq_bind, Option.some_bind, if_true, if_false, e1]
    · rw [Ctx.mem_addrs_plug]
      simpa [Tree.addrs] using hznd
  obtain ⟨cR, y, cy, ky, yr, hl1, hl2, hl3, hl4, hl5⟩ := Ctx.leftmost_spec r0 cr rl rr kr []
  rw [List.append_nil] at hl1
  simp only [Ctx.splice, hl1, Option.some.injEq, Prod.mk.injEq] at hs
  obtain ⟨rfl, rfl, rfl⟩ := hs
  have hmin := fun fuel hf => minimum_spec (t := t) (Tree.node r0 cr rl kr rr)
    (Frame.R z c (Tree.node l0 cl ll kl lr) k :: ctx) fuel r0 cr rl rr kr rfl h.downR hf
  simp only [Ctx.leftmost_append (Tree.node r0 cr rl kr rr) (_ :: _), hl1, Tree.ptr_node] at hmin
  have hY := (hmin _ (Nat.lt_succ_self _)).2
  have hcz := h.getColor
  simp only [Tree.ptr_node, Tree.color_node] at hcz
  have hcy := hY.getColor
  simp only [Tree.ptr_node, Tree.color_node] at hcy
  have hexec : ∀ (fuel : Nat) (t1 t2 : RedBlackTree α),
      (Tree.node z c (Tree.node l0 cl ll kl lr) k (Tree.node r0 cr rl kr rr)).height < fuel →
      t.removeDetach z y (yr.ptr t.NIL) = some t1 → t1.removeReplace z y = some t2 →
      t.removeSplice fuel z = some (t2, yr.ptr t.NIL, cy) := by
    intro fuel t1 t2 hf e1 e2
    have hm := (hmin fuel (by simp only [Tree.height] at hf ⊢; omega)).1
    simp only [removeSplice, hcz, h.getLeft, h.getRight, Tree.ptr_node, h.downL.ne_nil,
      h.downR.ne_nil, Option.bind_eq_bind, Option.some_bind, if_false, removeTwoChildren, hm,
      hcy, hY.getRight, e1, e2]
  have hfin : ∀ (t1 t2 : RedBlackTree α) (par : Ptr),
      (yr = Tree.nil → t1.getParent t.NIL = some par) → t1.NIL = t.NIL → Fr t1 t2 →
      ModelsAt t2 (cR ++ Frame.R y c (Tree.node l0 cl ll kl lr) ky :: ctx) yr →
      par = Ctx.par (cR ++ Frame.R y c (Tree.node l0 cl ll kl lr) ky :: ctx) →
      t2.getParent (yr.ptr t.NIL) =
        some (Ctx.par (cR ++ Frame.R y c (Tree.node l0 cl ll kl lr) ky :: ctx)) := by
    intro t1 t2 par hp hn hf hm hpar
    rcases yr with _ | ⟨x0, cx, xl, kx, xr⟩
    · have h0 := hm.nilCell.1
      rw [hf.1, hn] at h0
      have := hp rfl
      simp only [Tree.ptr_nil, RedBlackTree.getParent, deref_eq h0] at this ⊢
      have hmem := hf.2.2.2
      rw [hn] at hmem
      rw [hmem, this, hpar]
    · exact hm.getParent
  rcases cR with _ | ⟨f, fs⟩
  · simp only [Ctx.plug] at hl2
    cases hl2
    obtain ⟨t1, e1, hd, p1, n1, b1, c1, -⟩ := removeDetach_direct h
    obtain ⟨t2, e2, h2, f2, m2⟩ := removeReplace_spec hd
    obtain ⟨zr, hzc⟩ := hd.cellz
    refine ⟨t2, fun fuel hf => hexec fuel t1 t2 hf e1 e2, h2.downR, ?_, ⟨_, m2.trans hzc⟩, ?_,
      f2.1.trans n1, f2.2.2.1.trans b1, f2.2.1.trans c1⟩
    · exact hfin t1 t2 _ (fun e => by subst e; exact p1) n1 f2 h2.downR rfl
    · have := hd.addrsOk.1
      simp only [List.nodup_cons] at this
      rw [List.nil_append, Ctx.plug, Frame.fill, Ctx.mem_addrs_plug]
      simpa [Tree.addrs] using this.1
  · obtain ⟨t1, e1, hd, p1, n1, b1, c1⟩ := removeDetach_deep f fs hY
    obtain ⟨r1, cr1, rl1, kr1, rr1, hR⟩ := Ctx.plug_cons_node f fs yr
    rw [hR] at hd
    obtain ⟨t2, e2, h2, f2, m2⟩ := removeReplace_spec hd
    obtain ⟨zr, hzc⟩ := hd.cellz
    rw [← hR] at h2
    refine ⟨t2, fun fuel hf => hexec fuel t1 t2 hf e1 e2,
      (modelsAt_append (f :: fs) _ yr).mpr h2.downR, ?_, ⟨_, m2.trans hzc⟩, ?_,
      f2.1.trans n1, f2.2.2.1.trans b1, f2.2.1.trans c1⟩
    · exact hfin t1 t2 f.addr p1 n1 f2 ((modelsAt_append (f :: fs) _ yr).mpr h2.downR) rfl
    · have := hd.addrsOk.1
      simp only [List.nodup_cons] at this
      rw [Ctx.plug_append, Ctx.plug, Frame.fill, Ctx.mem_addrs_plug, hR]
      simpa [Tree.addrs] using this.1

end RBT

namespace RBT

open RedBlackTree

variable {α : Type}

/-! ### One iteration of the loop of `deleteFixup` -/

theorem getParent_fr {t t1 : RedBlackTree α} {ctx1 : Ctx α} {X : Tree α} {p : Ptr}
    (hx : t.getParent (X.ptr t.NIL) = some p) (hn0 : t.NIL ≠ 0) (f : Fr t t1)
    (h1 : ModelsAt t1 ctx1 X) (hp : ctx1.par = p) : t1.getParent (X.ptr t.NIL) = some p := by
  rcases X with _ | ⟨x0, cx, xl, kx, xr⟩
  · simp only [Tree.ptr_nil, RedBlackTree.getParent, deref_eq hn0] at hx ⊢
    rw [f.2.2.2]; exact hx
  · rw [← hp]; exact h1.getParent

theorem ModelsAt.nil_ne {t : RedBlackTree α} {ctx : Ctx α} {T : Tree α} (h : ModelsAt t ctx T) :
    t.NIL ≠ 0 := h.nilCell.1

theorem deleteFixupCase1L_red {t : RedBlackTree α} {fs : Ctx α} {p w : Ptr} {cp : Color}
    {X wl wr : Tree α} {kp kw : α}
    (h : ModelsAt t fs (Tree.node p cp X kp (Tree.node w Color.RED wl kw wr)))
    (hx : t.getParent (X.ptr t.NIL) = some p) :
    ∃ t1, deleteFixupCase1L t (X.ptr t.NIL) w = some (t1, wl.ptr t.NIL) ∧
      ModelsAt t1 fs (Tree.node w Color.BLACK (Tree.node p Color.RED X kp wl) kw wr) ∧
      Fr t t1 := by
  obtain ⟨t1, e1, h1, f1⟩ := setColor_at Color.BLACK h.downR
  obtain ⟨t2, e2, h2, f2⟩ := setColor_at Color.RED h1.upR
  obtain ⟨t3, e3, h3, f3⟩ := rotateLeft_at h2
  refine ⟨t3, ?_, h3, (f1.trans f2).trans f3⟩
  have hc := h.downR.getColor
  simp only [Tree.ptr_node, Tree.color_node] at hc
  have x1 := getParent_fr hx h.nil_ne f1 h1.upR.downL rfl
  have x2 := getParent_fr hx h.nil_ne (f1.trans f2) h2.downL rfl
  have x3 := getParent_fr hx h.nil_ne ((f1.trans f2).trans f3) h3.downL.downL rfl
  have hr := h3.downL.getRight
  rw [f3.1, f2.1, f1.1] at hr
  simp only [deleteFixupCase1L, hc, if_true, e1, x1, e2, x2, e3, x3, hr, Option.bind_eq_bind,
    Option.some_bind, Frame.addr]

theorem deleteFixupCase1R_red {t : RedBlackTree α} {fs : Ctx α} {p w : Ptr} {cp : Color}
    {X wl wr : Tree α} {kp kw : α}
    (h : ModelsAt t fs (Tree.node p cp (Tree.node w Color.RED wl kw wr) kp X))
    (hx : t.getParent (X.ptr t.NIL) = some p) :
    ∃ t1, deleteFixupCase1R t (X.ptr t.NIL) w = some (t1, wr.ptr t.NIL) ∧
      ModelsAt t1 fs (Tree.node w Color.BLACK wl kw (Tree.node p Color.RED wr kp X)) ∧
      Fr t t1 := by
  obtain ⟨t1, e1, h1, f1⟩ := setColor_at Color.BLACK h.downL
  obtain ⟨t2, e2, h2, f2⟩ := setColor_at Color.RED h1.upL
  obtain ⟨t3, e3, h3, f3⟩ := rotateRight_at h2
  refine ⟨t3, ?_, h3, (f1.trans f2).trans f3⟩
  have hc := h.downL.getColor
  simp only [Tree.ptr_node, Tree.color_node] at hc
  have x1 := getParent_fr hx h.nil_ne f1 h1.upL.downR rfl
  have x2 := getParent_fr hx h.nil_ne (f1.trans f2) h2.downR rfl
  have x3 := getParent_fr hx h.nil_ne ((f1.trans f2).trans f3) h3.downR.downR rfl
  have hr := h3.downR.getLeft
  rw [f3.1, f2.1, f1.1] at hr
  simp only [deleteFixupCase1R, hc, if_true, e1, x1, e2, x2, e3, x3, hr, Option.bind_eq_bind,
    Option.some_bind, Frame.addr]

theorem deleteFixupCase1_black {t : RedBlackTree α} {ctx : Ctx α} {W : Tree α} (x : Ptr)
    (h : ModelsAt t ctx W) (hc : W.color = Color.BLACK) :
    deleteFixupCase1L t x (W.ptr t.NIL) = some (t, W.ptr t.NIL) ∧
      deleteFixupCase1R t x (W.ptr t.NIL) = some (t, W.ptr t.NIL) := by
  have := h.getColor
  rw [hc] at this
  simp only [deleteFixupCase1L, deleteFixupCase1R, this, Option.bind_eq_bind, Option.some_bind,
    reduceCtorEq, if_false, and_self]

theorem deleteFixupCase4L_spec {t : RedBlackTree α} {fs : Ctx α} {p w b : Ptr}
    {cp cw cb : Color} {X wl bl br : Tree α} {kp kw kb : α}
    (h : ModelsAt t fs (Tree.node p cp X kp (Tree.node w cw wl kw (Tree.node b cb bl kb br))))
    (hx : t.getParent (X.ptr t.NIL) = some p) :
    ∃ t1, deleteFixupCase4L t (X.ptr t.NIL) w = some (t1, t1.root) ∧
      ModelsAt t1 fs (Tree.node w cp (Tree.node p Color.BLACK X kp wl) kw
        (Tree.node b Color.BLACK bl kb br)) ∧ Fr t t1 := by
  obtain ⟨t1, e1, h1, f1⟩ := setColor_at cp h.downR
  obtain ⟨t2, e2, h2, f2⟩ := setColor_at Color.BLACK h1.upR
  obtain ⟨t3, e3, h3, f3⟩ := setColor_at Color.BLACK h2.downR.downR
  obtain ⟨t4, e4, h4, f4⟩ := rotateLeft_at h3.upR.upR
  refine ⟨t4, ?_, h4, ((f1.trans f2).trans f3).trans f4⟩
  have hc := h.getColor
  simp only [Tree.ptr_node, Tree.color_node] at hc
  have x1 := getParent_fr hx h.nil_ne f1 h1.upR.downL rfl
  have x2 := getParent_fr hx h.nil_ne (f1.trans f2) h2.downL rfl
  have x3 := getParent_fr hx h.nil_ne ((f1.trans f2).trans f3) h3.upR.upR.downL rfl
  simp only [deleteFixupCase4L, hx, hc, e1, x1, e2, h2.downR.getRight, Tree.ptr_node, e3, x3, e4,
    Option.bind_eq_bind, Option.some_bind, Frame.addr]

theorem deleteFixupCase4R_spec {t : RedBlackTree α} {fs : Ctx α} {p w a : Ptr}
    {cp cw ca : Color} {X wr al ar : Tree α} {kp kw ka : α}
    (h : ModelsAt t fs (Tree.node p cp (Tree.node w cw (Tree.node a ca al ka ar) kw wr) kp X))
    (hx : t.getParent (X.ptr t.NIL) = some p) :
    ∃ t1, deleteFixupCase4R t (X.ptr t.NIL) w = some (t1, t1.root) ∧
      ModelsAt t1 fs (Tree.node w cp (Tree.node a Color.BLACK al ka ar) kw
        (Tree.node p Color.BLACK wr kp X)) ∧ Fr t t1 := by
  obtain ⟨t1, e1, h1, f1⟩ := setColor_at cp h.downL
  obtain ⟨t2, e2, h2, f2⟩ := setColor_at Color.BLACK h1.upL
  obtain ⟨t3, e3, h3, f3⟩ := setColor_at Color.BLACK h2.downL.downL
  obtain ⟨t4, e4, h4, f4⟩ := rotateRight_at h3.upL.upL
  refine ⟨t4, ?_, h4, ((f1.trans f2).trans f3).trans f4⟩
  have hc := h.getColor
  simp only [Tree.ptr_node, Tree.color_node] at hc
  have x1 := getParent_fr hx h.nil_ne f1 h1.upL.downR rfl
  have x2 := getParent_fr hx h.nil_ne (f1.trans f2) h2.downR rfl
  have x3 := getParent_fr hx h.nil_ne ((f1.trans f2).trans f3) h3.upL.upL.downR rfl
  simp only [deleteFixupCase4R, hx, hc, e1, x1, e2, h2.downL.getLeft, Tree.ptr_node, e3, x3, e4,
    Option.bind_eq_bind, Option.some_bind, Frame.addr]

theorem deleteFixupCase3L_spec {t : RedBlackTree α} {fs : Ctx α} {p w a : Ptr}
    {cp cw ca : Color} {X b al ar : Tree α} {kp kw ka : α}
    (h : ModelsAt t fs (Tree.node p cp X kp (Tree.node w cw (Tree.node a ca al ka ar) kw b)))
    (hb : b.color = Color.BLACK) (hx : t.getParent (X.ptr t.NIL) = some p) :
    ∃ t1, deleteFixupCase3L t (X.ptr t.NIL) w = some (t1, a) ∧
      ModelsAt t1 fs (Tree.node p cp X kp (Tree.node a Color.BLACK al ka
        (Tree.node w Color.RED ar kw b))) ∧ Fr t t1 := by
  obtain ⟨t1, e1, h1, f1⟩ := setColor_at Color.BLACK h.downR.downL
  obtain ⟨t2, e2, h2, f2⟩ := setColor_at Color.RED h1.upL
  obtain ⟨t3, e3, h3, f3⟩ := rotateRight_at h2
  refine ⟨t3, ?_, h3.upR, (f1.trans f2).trans f3⟩
  have hc := h.downR.downR.getColor
  rw [hb] at hc
  have x3 := getParent_fr hx h.nil_ne ((f1.trans f2).trans f3) h3.upR.downL rfl
  simp only [deleteFixupCase3L, h.downR.getRight, hc, if_true, h.downR.getLeft, Tree.ptr_node, e1,
    e2, e3, x3, h3.upR.getRight, Option.bind_eq_bind, Option.some_bind, Frame.addr]

theorem deleteFixupCase3R_spec {t : RedBlackTree α} {fs : Ctx α} {p w b : Ptr}
    {cp cw cb : Color} {X a bl br : Tree α} {kp kw kb : α}
    (h : ModelsAt t fs (Tree.node p cp (Tree.node w cw a kw (Tree.node b cb bl kb br)) kp X))
    (ha : a.color = Color.BLACK) (hx : t.getParent (X.ptr t.NIL) = some p) :
    ∃ t1, deleteFixupCase3R t (X.ptr t.NIL) w = some (t1, b) ∧
      ModelsAt t1 fs (Tree.node p cp (Tree.node b Color.BLACK
        (Tree.node w Color.RED a kw bl) kb br) kp X) ∧ Fr t t1 := by
  obtain ⟨t1, e1, h1, f1⟩ := setColor_at Color.BLACK h.downL.downR
  obtain ⟨t2, e2, h2, f2⟩ := setColor_at Color.RED h1.upR
  obtain ⟨t3, e3, h3, f3⟩ := rotateLeft_at h2
  refine ⟨t3, ?_, h3.upL, (f1.trans f2).trans f3⟩
  have hc := h.downL.downL.getColor
  rw [ha] at hc
  have x3 := getParent_fr hx h.nil_ne ((f1.trans f2).trans f3) h3.upL.downR rfl
  simp only [deleteFixupCase3R, h.downL.getLeft, hc, if_true, h.downL.getRight, Tree.ptr_node, e1,
    e2, e3, x3, h3.upL.getLeft, Option.bind_eq_bind, Option.some_bind, Frame.addr]

theorem deleteFixupCase3_skip {t : RedBlackTree α} {ctx : Ctx α} {w : Ptr} {cw : Color}
    {a b : Tree α} {kw : α} (x : Ptr) (h : ModelsAt t ctx (Tree.node w cw a kw b)) :
    (b.color = Color.RED → deleteFixupCase3L t x w = some (t, w)) ∧
      (a.color = Color.RED → deleteFixupCase3R t x w = some (t, w)) := by
  constructor
  · intro hb
    have hc := h.downR.getColor
    rw [hb] at hc
    simp only [deleteFixupCase3L, h.getRight, hc, Option.bind_eq_bind, Option.some_bind,
      reduceCtorEq, if_false]
  · intro ha
    have hc := h.downL.getColor
    rw [ha] at hc
    simp only [deleteFixupCase3R, h.getLeft, hc, Option.bind_eq_bind, Option.some_bind,
      reduceCtorEq, if_false]

end RBT

namespace RBT

open RedBlackTree

variable {α : Type}

theorem Tree.color_ne_black_node {T : Tree α} (h : ¬ T.color = Color.BLACK) :
    ∃ a l k r, T = Tree.node a Color.RED l k r := by
  rcases T with _ | ⟨a, _ | _, l, k, r⟩
  · exact absurd rfl h
  · exact ⟨a, l, k, r, rfl⟩
  · exact absurd rfl h

theorem deleteFixupRestL_spec {t : RedBlackTree α} {fs ctx1 : Ctx α} {p : Ptr} {cp : Color}
    {X W X1 : Tree α} {kp : α} (h : ModelsAt t fs (Tree.node p cp X kp W))
    (hx : t.getParent (X.ptr t.NIL) = some p)
    (hs : Ctx.delRestL fs p cp kp X W = some (ctx1, X1)) :
    ∃ t1, deleteFixupRestL t (X.ptr t.NIL) (W.ptr t.NIL) = some (t1, X1.ptr t.NIL) ∧
      ModelsAt t1 ctx1 X1 ∧ Fr t t1 ∧ ∃ a c l k r, X1 = Tree.node a c l k r := by
  rcases W with _ | ⟨w, cw, a, kw, b⟩
  · simp [Ctx.delRestL] at hs
  have hca := h.downR.downL.getColor
  have hcb := h.downR.downR.getColor
  simp only [Ctx.delRestL] at hs
  simp only [deleteFixupRestL, Tree.ptr_node, h.downR.getLeft, hca, h.downR.getRight, hcb,
    Option.bind_eq_bind, Option.some_bind]
  by_cases h2 : a.color = Color.BLACK ∧ b.color = Color.BLACK
  · simp only [h2, and_self, if_true, Option.some.injEq, Prod.mk.injEq] at hs ⊢
    obtain ⟨rfl, rfl⟩ := hs
    obtain ⟨t1, e1, h1, f1⟩ := setColor_at Color.RED h.downR
    have x1 := getParent_fr hx h.nil_ne f1 h1.upR.downL rfl
    exact ⟨t1, by simp only [e1, x1, Option.some_bind, Tree.ptr_node, Frame.addr], h1.upR, f1,
      _, _, _, _, _, rfl⟩
  · simp only [h2, if_false] at hs ⊢
    by_cases hb : b.color = Color.BLACK
    · have ha : ¬ a.color = Color.BLACK := fun ha => h2 ⟨ha, hb⟩
      obtain ⟨a1, al, ka, ar, rfl⟩ := Tree.color_ne_black_node ha
      simp only [hb, if_true, Option.some.injEq, Prod.mk.injEq] at hs
      obtain ⟨rfl, rfl⟩ := hs
      obtain ⟨t1, e1, h1, f1⟩ := deleteFixupCase3L_spec h hb hx
      have x1 := getParent_fr hx h.nil_ne f1 h1.downL rfl
      rw [← f1.1] at x1
      obtain ⟨t2, e2, h2, f2⟩ := deleteFixupCase4L_spec h1 x1
      rw [f1.1] at e2
      have hm := (modelsAt_iff fs _).mp h2
      have hroot := hm.root
      rw [f2.1, f1.1] at hroot
      refine ⟨t2, by simp only [e1, e2, Option.some_bind, hroot], (modelsAt_nil _).mpr hm,
        f1.trans f2, ?_⟩
      exact Ctx.plug_node fs _ _ _ _ _
    · obtain ⟨b1, bl, kb, br, rfl⟩ := Tree.color_ne_black_node hb
      simp only [Tree.color_node, reduceCtorEq, if_false, Option.some.injEq,
        Prod.mk.injEq] at hs
      obtain ⟨rfl, rfl⟩ := hs
      have e1 := (deleteFixupCase3_skip (X.ptr t.NIL) h.downR).1 rfl
      obtain ⟨t2, e2, h2, f2⟩ := deleteFixupCase4L_spec h hx
      have hm := (modelsAt_iff fs _).mp h2
      have hroot := hm.root
      rw [f2.1] at hroot
      refine ⟨t2, by simp only [e1, e2, Option.some_bind, hroot], (modelsAt_nil _).mpr hm,
        f2, ?_⟩
      exact Ctx.plug_node fs _ _ _ _ _

theorem deleteFixupRestR_spec {t : RedBlackTree α} {fs ctx1 : Ctx α} {p : Ptr} {cp : Color}
    {X W X1 : Tree α} {kp : α} (h : ModelsAt t fs (Tree.node p cp W kp X))
    (hx : t.getParent (X.ptr t.NIL) = some p)
    (hs : Ctx.delRestR fs p cp kp X W = some (ctx1, X1)) :
    ∃ t1, deleteFixupRestR t (X.ptr t.NIL) (W.ptr t.NIL) = some (t1, X1.ptr t.NIL) ∧
      ModelsAt t1 ctx1 X1 ∧ Fr t t1 ∧ ∃ a c l k r, X1 = Tree.node a c l k r := by
  rcases W with _ | ⟨w, cw, a, kw, b⟩
  · simp [Ctx.delRestR] at hs
  have hca := h.downL.downL.getColor
  have hcb := h.downL.downR.getColor
  simp only [Ctx.delRestR] at hs
  simp only [deleteFixupRestR, Tree.ptr_node, h.downL.getLeft, hca, h.downL.getRight, hcb,
    Option.bind_eq_bind, Option.some_bind]
  by_cases h2 : b.color = Color.BLACK ∧ a.color = Color.BLACK
  · simp only [h2, and_self, if_true, Option.some.injEq, Prod.mk.injEq] at hs ⊢
    obtain ⟨rfl, rfl⟩ := hs
    obtain ⟨t1, e1, h1, f1⟩ := setColor_at Color.RED h.downL
    have x1 := getParent_fr hx h.nil_ne f1 h1.upL.downR rfl
    exact ⟨t1, by simp only [e1, x1, Option.some_bind, Tree.ptr_node, Frame.addr], h1.upL, f1,
      _, _, _, _, _, rfl⟩
  · simp only [h2, if_false] at hs ⊢
    by_cases ha : a.color = Color.BLACK
    · have hb : ¬ b.color = Color.BLACK := fun hb => h2 ⟨hb, ha⟩
      obtain ⟨b1, bl, kb, br, rfl⟩ := Tree.color_ne_black_node hb
      simp only [ha, if_true, Option.some.injEq, Prod.mk.injEq] at hs
      obtain ⟨rfl, rfl⟩ := hs
      obtain ⟨t1, e1, h1, f1⟩ := deleteFixupCase3R_spec h ha hx
      have x1 := getParent_fr hx h.nil_ne f1 h1.downR rfl
      rw [← f1.1] at x1
      obtain ⟨t2, e2, h2, f2⟩ := deleteFixupCase4R_spec h1 x1
      rw [f1.1] at e2
      have hm := (modelsAt_iff fs _).mp h2
      have hroot := hm.root
      rw [f2.1, f1.1] at hroot
      refine ⟨t2, by simp only [e1, e2, Option.some_bind, hroot], (modelsAt_nil _).mpr hm,
        f1.trans f2, ?_⟩
      exact Ctx.plug_node fs _ _ _ _ _
    · obtain ⟨a1, al, ka, ar, rfl⟩ := Tree.color_ne_black_node ha
      simp only [Tree.color_node, reduceCtorEq, if_false, Option.some.injEq,
        Prod.mk.injEq] at hs
      obtain ⟨rfl, rfl⟩ := hs
      have e1 := (deleteFixupCase3_skip (X.ptr t.NIL) h.downL).2 rfl
      obtain ⟨t2, e2, h2, f2⟩ := deleteFixupCase4R_spec h hx
      have hm := (modelsAt_iff fs _).mp h2
      have hroot := hm.root
      rw [f2.1] at hroot
      refine ⟨t2, by simp only [e1, e2, Option.some_bind, hroot], (modelsAt_nil _).mpr hm,
        f2, ?_⟩
      exact Ctx.plug_node fs _ _ _ _ _

end RBT

namespace RBT

open RedBlackTree

variable {α : Type}

theorem Ctx.root_mem (NIL : Ptr) (f : Frame α) (fs : Ctx α) (X : Tree α) :
    (Ctx.plug (f :: fs) X).ptr NIL ∈ Ctx.addrs (f :: fs) := by
  induction fs generalizing f X with
  | nil => cases f <;> simp [Ctx.plug, Frame.fill, Ctx.addrs, Frame.addr]
  | cons g gs ih =>
    have := ih g (f.fill X)
    simp only [Ctx.plug] at this ⊢
    simp only [Ctx.addrs, List.mem_cons, List.mem_append] at this ⊢
    tauto

theorem ModelsAt.ptr_ne_root {t : RedBlackTree α} {f : Frame α} {fs : Ctx α} {X : Tree α}
    (h : ModelsAt t (f :: fs) X) : (X.ptr t.NIL = t.root) = False := by
  have hroot := ((modelsAt_iff _ _).mp h).root
  have hmem := Ctx.root_mem t.NIL f fs X
  rw [← hroot] at hmem
  have hok := h.addrsOk
  simp only [eq_iff_iff, iff_false]
  intro e
  rcases X with _ | ⟨x0, cx, xl, kx, xr⟩
  · exact (hok.2 _ (List.mem_append_right _ hmem)).2.1 (by rw [← e]; rfl)
  · have hnd := hok.1
    rw [List.nodup_append] at hnd
    exact hnd.2.2 (by rw [← e]; simp [Tree.addrs]) hmem

theorem deleteFixupCond_spec {t : RedBlackTree α} {ctx : Ctx α} {X : Tree α}
    (h : ModelsAt t ctx X) : deleteFixupCond (t, X.ptr t.NIL) = some (Ctx.delCond ctx X) := by
  rcases ctx with _ | ⟨f, fs⟩
  · have : t.root = X.ptr t.NIL := h.repCtx
    simp only [deleteFixupCond, this, if_true, Ctx.delCond]
  · simp only [deleteFixupCond, h.ptr_ne_root, if_false, h.getColor, Option.bind_eq_bind,
      Option.some_bind, Ctx.delCond]

theorem deleteFixupBody_spec {t : RedBlackTree α} {ctx ctx1 : Ctx α} {X X1 : Tree α}
    (h : ModelsAt t ctx X) (hx : t.getParent (X.ptr t.NIL) = some ctx.par)
    (hs : Ctx.delStep ctx X = some (ctx1, X1)) :
    ∃ t1, deleteFixupBody (t, X.ptr t.NIL) = some (t1, X1.ptr t.NIL) ∧ ModelsAt t1 ctx1 X1 ∧
      Fr t t1 ∧ ∃ a c l k r, X1 = Tree.node a c l k r := by
  rcases ctx with _ | ⟨⟨p, cp, kp, W⟩ | ⟨p, cp, W, kp⟩, fs⟩
  · simp [Ctx.delStep] at hs
  · simp only [Ctx.par_cons, Frame.addr] at hx
    simp only [deleteFixupBody, hx, h.upL.getLeft, Option.bind_eq_bind, Option.some_bind,
      if_true, deleteFixupLeft, h.upL.getRight]
    rcases W with _ | ⟨w, _ | _, wl, kw, wr⟩
    · simp [Ctx.delStep, Ctx.delRestL] at hs
    · simp only [Ctx.delStep] at hs
      obtain ⟨t1, e1, h1, f1⟩ := deleteFixupCase1L_red h.upL hx
      have x1 := getParent_fr hx h.nil_ne f1 h1.downL.downL rfl
      rw [← f1.1] at x1
      obtain ⟨t2, e2, h2, f2, hn⟩ := deleteFixupRestL_spec h1.downL x1 hs
      rw [f1.1] at e2
      exact ⟨t2, by simp only [Tree.ptr_node, e1, Option.some_bind, e2], h2, f1.trans f2, hn⟩
    · simp only [Ctx.delStep] at hs
      have e1 := (deleteFixupCase1_black (X.ptr t.NIL) h.upL.downR rfl).1
      obtain ⟨t2, e2, h2, f2, hn⟩ := deleteFixupRestL_spec h.upL hx hs
      exact ⟨t2, by simp only [e1, Option.some_bind, e2], h2, f2, hn⟩
  · simp only [Ctx.par_cons, Frame.addr] at hx
    rcases W with _ | ⟨w, cw, wl, kw, wr⟩
    · simp [Ctx.delStep, Ctx.delRestR] at hs
    have hne : (X.ptr t.NIL = w) = False := by
      rcases X with _ | ⟨x0, cx, xl, kx, xr⟩
      · have := h.upR.downL.ne_nil
        simp only [eq_iff_iff, iff_false] at this ⊢
        exact fun e => this e.symm
      · have := h.upR.right_ne_left
        simpa using this
    simp only [deleteFixupBody, hx, h.upR.getLeft, Option.bind_eq_bind, Option.some_bind,
      Tree.ptr_node, hne, if_false, deleteFixupRight]
    rcases cw with _ | _
    · simp only [Ctx.delStep] at hs
      obtain ⟨t1, e1, h1, f1⟩ := deleteFixupCase1R_red h.upR hx
      have x1 := getParent_fr hx h.nil_ne f1 h1.downR.downR rfl
      rw [← f1.1] at x1
      obtain ⟨t2, e2, h2, f2, hn⟩ := deleteFixupRestR_spec h1.downR x1 hs
      rw [f1.1] at e2
      exact ⟨t2, by simp only [e1, Option.some_bind, e2], h2, f1.trans f2, hn⟩
    · simp only [Ctx.delStep] at hs
      have e1 := (deleteFixupCase1_black (X.ptr t.NIL) h.upR.downL rfl).2
      simp only [Tree.ptr_node] at e1
      obtain ⟨t2, e2, h2, f2, hn⟩ := deleteFixupRestR_spec h.upR hx hs
      simp only [Tree.ptr_node] at e2
      exact ⟨t2, by simp only [e1, Option.some_bind, e2], h2, f2, hn⟩

end RBT

namespace RBT

variable {α : Type}

/-! ### Shape of the tree through `deleteFixup` -/

theorem Tree.setColor_of_black {X : Tree α} (h : X.color = Color.BLACK) :
    X.setColor Color.BLACK = X := by
  cases X with
  | nil => rfl
  | node a c l k r => simp only [Tree.color_node] at h; subst h; rfl

theorem DelInv.terminal {fs : Ctx α} {T : Tree α} {m : Nat} (h1 : Ctx.WF fs m) (h2 : T.WF)
    (h3 : T.bh = m) (h4 : T.color = Color.RED → Ctx.headBlack fs) :
    ∃ n1, DelInv [] (Ctx.plug fs T) n1 :=
  ⟨_, trivial, Tree.WF.setColor_black (Ctx.WF.plug h1 h2 h3 h4).1, rfl⟩

theorem Tree.WF.black_of_setColor {X : Tree α} (h : (X.setColor Color.BLACK).WF)
    (hc : X.color = Color.BLACK) : X.WF := by
  rw [Tree.setColor_of_black hc] at h; exact h

theorem delRestL_inv {fs ctx1 : Ctx α} {p : Ptr} {cp : Color} {kp : α} {X W X1 : Tree α}
    {n : Nat} (hs : Ctx.delRestL fs p cp kp X W = some (ctx1, X1))
    (hctx : Ctx.WF (Frame.L p cp kp W :: fs) (n + 1)) (hW : W.color = Color.BLACK)
    (hX : X.WF) (hXn : X.bh = n) :
    (∃ n1, DelInv ctx1 X1 n1) ∧ ctx1.length ≤ fs.length ∧ (X1.color = cp ∨ ctx1 = []) ∧
      (Ctx.plug ctx1 X1).keys = (Ctx.plug fs (Tree.node p cp X kp W)).keys ∧
      (Ctx.plug ctx1 X1).size = (Ctx.plug fs (Tree.node p cp X kp W)).size := by
  obtain ⟨c1, c2, c3, c4⟩ := hctx
  simp only [Frame.sib, Frame.color] at c1 c2 c3 c4
  rcases W with _ | ⟨w, cw, a, kw, b⟩
  · simp [Ctx.delRestL] at hs
  simp only [Tree.color_node] at hW
  subst hW
  rcases a with _ | ⟨a1, _ | _, al, ka, ar⟩ <;> rcases b with _ | ⟨b1, _ | _, bl, kb, br⟩ <;>
  simp only [Ctx.delRestL, Tree.color_nil, Tree.color_node, and_self, if_true, if_false,
    reduceCtorEq, and_false, false_and, Option.some.injEq, Prod.mk.injEq] at hs <;>
  obtain ⟨rfl, rfl⟩ := hs <;>
  simp only [Tree.WF, Tree.bh, blk_red, blk_black, Tree.color_node, Tree.color_nil, true_and,
    forall_const, reduceCtorEq, false_implies, and_true, add_zero, zero_add, true_implies,
    and_self] at c1 c2 <;>
  refine ⟨?_, ?_, ?_, ?_, ?_⟩
  all_goals first
    | (apply Ctx.keys_plug_congr
       simp only [Ctx.plug, Frame.fill, Tree.keys, List.append_assoc, List.cons_append,
         List.nil_append])
    | (simp only [Ctx.plug]; apply Ctx.keys_plug_congr
       simp only [Ctx.plug, Frame.fill, Tree.keys, List.append_assoc, List.cons_append,
         List.nil_append])
    | (apply Ctx.size_plug_congr; simp only [Tree.size] <;> omega)
    | (simp only [Ctx.plug]; apply Ctx.size_plug_congr; simp only [Tree.size] <;> omega)
    | exact le_refl _
    | exact Nat.zero_le _
    | exact Or.inl rfl
    | exact Or.inr rfl
    | (refine DelInv.terminal (m := n + 1 + blk cp) c4 ?_ ?_ ?_
       · simp only [Tree.WF, Tree.bh, blk_red, blk_black, Tree.color_node, Tree.color_nil,
           true_and, forall_const, reduceCtorEq, false_implies, and_true, add_zero, zero_add,
           true_implies, and_self]
         try casesm* _ ∧ _
         and_intros
         all_goals first
           | assumption
           | omega
           | exact fun _ => trivial
           | exact fun _ => ⟨rfl, rfl⟩
       · simp only [Tree.bh, blk_red, blk_black]
         omega
       · exact fun hc => (c3 hc).2)
    | (refine ⟨n + blk cp, ?_, ?_, ?_⟩
       · convert c4 using 1; omega
       · simp only [Tree.setColor, Tree.WF, Tree.bh, blk_red, blk_black, Tree.color_node,
           Tree.color_nil, true_and, forall_const, reduceCtorEq, false_implies, and_true,
           add_zero, zero_add, true_implies, and_self]
         try casesm* _ ∧ _
         and_intros
         all_goals first
           | assumption
           | omega
           | exact fun _ => trivial
       · simp only [Tree.bh, blk_red, blk_black, add_zero]; omega)

theorem delRestR_inv {fs ctx1 : Ctx α} {p : Ptr} {cp : Color} {kp : α} {X W X1 : Tree α}
    {n : Nat} (hs : Ctx.delRestR fs p cp kp X W = some (ctx1, X1))
    (hctx : Ctx.WF (Frame.R p cp W kp :: fs) (n + 1)) (hW : W.color = Color.BLACK)
    (hX : X.WF) (hXn : X.bh = n) :
    (∃ n1, DelInv ctx1 X1 n1) ∧ ctx1.length ≤ fs.length ∧ (X1.color = cp ∨ ctx1 = []) ∧
      (Ctx.plug ctx1 X1).keys = (Ctx.plug fs (Tree.node p cp W kp X)).keys ∧
      (Ctx.plug ctx1 X1).size = (Ctx.plug fs (Tree.node p cp W kp X)).size := by
  obtain ⟨c1, c2, c3, c4⟩ := hctx
  simp only [Frame.sib, Frame.color] at c1 c2 c3 c4
  rcases W with _ | ⟨w, cw, a, kw, b⟩
  · simp [Ctx.delRestR] at hs
  simp only [Tree.color_node] at hW
  subst hW
  rcases a with _ | ⟨a1, _ | _, al, ka, ar⟩ <;> rcases b with _ | ⟨b1, _ | _, bl, kb, br⟩ <;>
  simp only [Ctx.delRestR, Tree.color_nil, Tree.color_node, and_self, if_true, if_false,
    reduceCtorEq, and_false, false_and, Option.some.injEq, Prod.mk.injEq] at hs <;>
  obtain ⟨rfl, rfl⟩ := hs <;>
  simp only [Tree.WF, Tree.bh, blk_red, blk_black, Tree.color_node, Tree.color_nil, true_and,
    forall_const, reduceCtorEq, false_implies, and_true, add_zero, zero_add, true_implies,
    and_self] at c1 c2 <;>
  refine ⟨?_, ?_, ?_, ?_, ?_⟩
  all_goals first
    | (apply Ctx.keys_plug_congr
       simp only [Ctx.plug, Frame.fill, Tree.keys, List.append_assoc, List.cons_append,
         List.nil_append])
    | (simp only [Ctx.plug]; apply Ctx.keys_plug_congr
       simp only [Ctx.plug, Frame.fill, Tree.keys, List.append_assoc, List.cons_append,
         List.nil_append])
    | (apply Ctx.size_plug_congr; simp only [Tree.size] <;> omega)
    | (simp only [Ctx.plug]; apply Ctx.size_plug_congr; simp only [Tree.size] <;> omega)
    | exact le_refl _
    | exact Nat.zero_le _
    | exact Or.inl rfl
    | exact Or.inr rfl
    | (refine DelInv.terminal (m := n + 1 + blk cp) c4 ?_ ?_ ?_
       · simp only [Tree.WF, Tree.bh, blk_red, blk_black, Tree.color_node, Tree.color_nil,
           true_and, forall_const, reduceCtorEq, false_implies, and_true, add_zero, zero_add,
           true_implies, and_self]
         try casesm* _ ∧ _
         and_intros
         all_goals first
           | assumption
           | omega
           | exact fun _ => trivial
           | exact fun _ => ⟨rfl, rfl⟩
       · simp only [Tree.bh, blk_red, blk_black]
         omega
       · exact fun hc => (c3 hc).2)
    | (refine ⟨n + blk cp, ?_, ?_, ?_⟩
       · convert c4 using 1; omega
       · simp only [Tree.setColor, Tree.WF, Tree.bh, blk_red, blk_black, Tree.color_node,
           Tree.color_nil, true_and, forall_const, reduceCtorEq, false_implies, and_true,
           add_zero, zero_add, true_implies, and_self]
         try casesm* _ ∧ _
         and_intros
         all_goals first
           | assumption
           | omega
           | exact fun _ => trivial
       · simp only [Tree.bh, blk_red, blk_black, add_zero]; omega)

theorem delRestL_some {fs : Ctx α} {p : Ptr} {cp : Color} {kp : α} {X W : Tree α} {n : Nat}
    (hW : W.WF) (hn : W.bh = n + 1) (hc : W.color = Color.BLACK) :
    ∃ r, Ctx.delRestL fs p cp kp X W = some r := by
  rcases W with _ | ⟨w, cw, a, kw, b⟩
  · simp [Tree.bh] at hn
  rcases a with _ | ⟨a1, _ | _, al, ka, ar⟩ <;> rcases b with _ | ⟨b1, _ | _, bl, kb, br⟩ <;>
  simp [Ctx.delRestL, Tree.color_nil, Tree.color_node]

theorem delRestR_some {fs : Ctx α} {p : Ptr} {cp : Color} {kp : α} {X W : Tree α} {n : Nat}
    (hW : W.WF) (hn : W.bh = n + 1) (hc : W.color = Color.BLACK) :
    ∃ r, Ctx.delRestR fs p cp kp X W = some r := by
  rcases W with _ | ⟨w, cw, a, kw, b⟩
  · simp [Tree.bh] at hn
  rcases a with _ | ⟨a1, _ | _, al, ka, ar⟩ <;> rcases b with _ | ⟨b1, _ | _, bl, kb, br⟩ <;>
  simp [Ctx.delRestR, Tree.color_nil, Tree.color_node]

theorem delStep_inv {ctx ctx1 : Ctx α} {X X1 : Tree α} {n : Nat}
    (hs : Ctx.delStep ctx X = some (ctx1, X1)) (hi : DelInv ctx X n)
    (hc : Ctx.delCond ctx X = true) :
    (∃ n1, DelInv ctx1 X1 n1) ∧ (ctx1.length < ctx.length ∨ X1.color = Color.RED) ∧
      (Ctx.plug ctx1 X1).keys = (Ctx.plug ctx X).keys ∧
      (Ctx.plug ctx1 X1).size = (Ctx.plug ctx X).size := by
  obtain ⟨i1, i2, i3⟩ := hi
  rcases ctx with _ | ⟨f, fs⟩
  · simp [Ctx.delStep] at hs
  simp only [Ctx.delCond, beq_iff_eq] at hc
  have hX := Tree.WF.black_of_setColor i2 hc
  rcases f with ⟨p, cp, kp, W⟩ | ⟨p, cp, W, kp⟩
  · rcases W with _ | ⟨w, _ | _, wl, kw, wr⟩
    · simp [Ctx.delStep, Ctx.delRestL] at hs
    · simp only [Ctx.delStep] at hs
      obtain ⟨c1, c2, c3, c4⟩ := i1
      simp only [Frame.sib, Frame.color, Tree.WF, Tree.bh, blk_red, add_zero, Tree.color_node,
        true_implies] at c1 c2 c3 c4
      have hcp : cp = Color.BLACK := by
        rcases cp with _ | _
        · exact absurd (c3 rfl).1 (by simp)
        · rfl
      subst hcp
      obtain ⟨w1, w2, w3, w4, w5⟩ := c1
      have hctx : Ctx.WF (Frame.L p Color.RED kp wl :: Frame.L w Color.BLACK kw wr :: fs)
          (n + 1) := by
        simp only [Ctx.WF, Frame.sib, Frame.color, Ctx.headBlack, blk_red, blk_black, add_zero,
          reduceCtorEq, false_implies, true_implies, and_true, true_and] at c4 ⊢
        exact ⟨w1, c2, w4, w2, by omega, c4⟩
      have hh := delRestL_inv hs hctx w4 hX i3
      obtain ⟨h1, h2, h3, h4, h5⟩ := hh
      refine ⟨h1, ?_, ?_, ?_⟩
      · rcases h3 with h3 | h3
        · exact Or.inr h3
        · subst h3; exact Or.inl (Nat.succ_pos _)
      · rw [h4]; simp only [Ctx.plug, Frame.fill]; apply Ctx.keys_plug_congr
        simp only [Tree.keys, List.append_assoc, List.cons_append, List.nil_append]
      · rw [h5]; simp only [Ctx.plug, Frame.fill]; apply Ctx.size_plug_congr
        simp only [Tree.size]; omega
    · simp only [Ctx.delStep] at hs
      obtain ⟨h1, h2, h3, h4, h5⟩ := delRestL_inv hs i1 rfl hX i3
      exact ⟨h1, Or.inl (Nat.lt_succ_of_le h2), h4, h5⟩
  · rcases W with _ | ⟨w, _ | _, wl, kw, wr⟩
    · simp [Ctx.delStep, Ctx.delRestR] at hs
    · simp only [Ctx.delStep] at hs
      obtain ⟨c1, c2, c3, c4⟩ := i1
      simp only [Frame.sib, Frame.color, Tree.WF, Tree.bh, blk_red, add_zero, Tree.color_node,
        true_implies] at c1 c2 c3 c4
      have hcp : cp = Color.BLACK := by
        rcases cp with _ | _
        · exact absurd (c3 rfl).1 (by simp)
        · rfl
      subst hcp
      obtain ⟨w1, w2, w3, w4, w5⟩ := c1
      have hctx : Ctx.WF (Frame.R p Color.RED wr kp :: Frame.R w Color.BLACK wl kw :: fs)
          (n + 1) := by
        simp only [Ctx.WF, Frame.sib, Frame.color, Ctx.headBlack, blk_red, blk_black, add_zero,
          reduceCtorEq, false_implies, true_implies, and_true, true_and] at c4 ⊢
        exact ⟨w2, by omega, w5, w1, by omega, c4⟩
      have hh := delRestR_inv hs hctx w5 hX i3
      obtain ⟨h1, h2, h3, h4, h5⟩ := hh
      refine ⟨h1, ?_, ?_, ?_⟩
      · rcases h3 with h3 | h3
        · exact Or.inr h3
        · subst h3; exact Or.inl (Nat.succ_pos _)
      · rw [h4]; simp only [Ctx.plug, Frame.fill]; apply Ctx.keys_plug_congr
        simp only [Tree.keys, List.append_assoc, List.cons_append, List.nil_append]
      · rw [h5]; simp only [Ctx.plug, Frame.fill]; apply Ctx.size_plug_congr
        simp only [Tree.size]; omega
    · simp only [Ctx.delStep] at hs
      obtain ⟨h1, h2, h3, h4, h5⟩ := delRestR_inv hs i1 rfl hX i3
      exact ⟨h1, Or.inl (Nat.lt_succ_of_le h2), h4, h5⟩

theorem delStep_some {ctx : Ctx α} {X : Tree α} {n : Nat} (hi : DelInv ctx X n)
    (hc : Ctx.delCond ctx X = true) : ∃ r, Ctx.delStep ctx X = some r := by
  obtain ⟨i1, i2, i3⟩ := hi
  rcases ctx with _ | ⟨f, fs⟩
  · simp [Ctx.delCond] at hc
  rcases f with ⟨p, cp, kp, W⟩ | ⟨p, cp, W, kp⟩
  · obtain ⟨c1, c2, c3, c4⟩ := i1
    simp only [Frame.sib] at c1 c2
    rcases W with _ | ⟨w, _ | _, wl, kw, wr⟩
    · simp [Tree.bh] at c2
    · simp only [Ctx.delStep]
      simp only [Tree.WF, Tree.bh, blk_red, add_zero, true_implies] at c1 c2
      exact delRestL_some c1.1 c2 c1.2.2.2.1
    · simp only [Ctx.delStep]
      exact delRestL_some c1 c2 rfl
  · obtain ⟨c1, c2, c3, c4⟩ := i1
    simp only [Frame.sib] at c1 c2
    rcases W with _ | ⟨w, _ | _, wl, kw, wr⟩
    · simp [Tree.bh] at c2
    · simp only [Ctx.delStep]
      simp only [Tree.WF, Tree.bh, blk_red, add_zero, true_implies] at c1 c2
      exact delRestR_some c1.2.1 (c1.2.2.1.symm.trans c2) c1.2.2.2.2
    · simp only [Ctx.delStep]
      exact delRestR_some c1 c2 rfl

end RBT

namespace RBT

open RedBlackTree

variable {α : Type}

theorem Tree.keys_setColor (c : Color) (X : Tree α) : (X.setColor c).keys = X.keys := by
  cases X <;> rfl

theorem Tree.size_setColor (c : Color) (X : Tree α) : (X.setColor c).size = X.size := by
  cases X <;> rfl

theorem Tree.color_setColor_black (X : Tree α) : (X.setColor Color.BLACK).color = Color.BLACK := by
  cases X <;> rfl

theorem setColor_nil_at {t : RedBlackTree α} {ctx : Ctx α} (h : ModelsAt t ctx Tree.nil) :
    t.setColor t.NIL Color.BLACK = some t := by
  obtain ⟨hn0, _, d, p, hd⟩ := h.nilCell
  simp only [RedBlackTree.setColor, deref_eq hn0, hd, Option.map_some', Option.some.injEq]
  cases t with
  | mk root NIL nodeCount mem brk =>
    simp only [RedBlackTree.store, RedBlackTree.mk.injEq, true_and, and_true]
    funext q
    by_cases hq : q = NIL
    · subst hq; simp only [if_true]; exact hd.symm
    · simp only [hq, if_false]

theorem deleteFixup_loop (N : Nat) : ∀ (t : RedBlackTree α) (ctx : Ctx α) (X : Tree α) (n : Nat),
    ctx.length ≤ N → ModelsAt t ctx X → t.getParent (X.ptr t.NIL) = some ctx.par →
    DelInv ctx X n →
    ∃ t1 ctx1 X1 n1,
      (∀ fuel, N + 1 < fuel →
        whileLoop deleteFixupCond deleteFixupBody fuel (t, X.ptr t.NIL) =
          some (t1, X1.ptr t.NIL)) ∧
      ModelsAt t1 ctx1 X1 ∧ DelInv ctx1 X1 n1 ∧ Ctx.delCond ctx1 X1 = false ∧
      (Ctx.plug ctx1 X1).keys = (Ctx.plug ctx X).keys ∧
      (Ctx.plug ctx1 X1).size = (Ctx.plug ctx X).size ∧ Fr t t1 := by
  induction N with
  | zero =>
    intro t ctx X n hl h hx hi
    have hctx : ctx = [] := List.eq_nil_of_length_eq_zero (by omega)
    subst hctx
    refine ⟨t, [], X, n, fun fuel hf => ?_, h, hi, rfl, rfl, rfl, Fr.refl t⟩
    obtain ⟨f, rfl⟩ : ∃ k, fuel = k + 1 := ⟨fuel - 1, by omega⟩
    exact whileLoop_false f (deleteFixupCond_spec h)
  | succ N ih =>
    intro t ctx X n hl h hx hi
    rcases hc : Ctx.delCond ctx X with _ | _
    · refine ⟨t, ctx, X, n, fun fuel hf => ?_, h, hi, hc, rfl, rfl, Fr.refl t⟩
      obtain ⟨f, rfl⟩ : ∃ k, fuel = k + 1 := ⟨fuel - 1, by omega⟩
      exact whileLoop_false f ((deleteFixupCond_spec h).trans (by rw [hc]))
    · obtain ⟨⟨ctx1, X1⟩, hs⟩ := delStep_some hi hc
      obtain ⟨⟨n1, hi1⟩, hlen, hk, hsz⟩ := delStep_inv hs hi hc
      obtain ⟨t1, e1, h1, f1, a, c, l, k, r, hX1⟩ := deleteFixupBody_spec h hx hs
      subst hX1
      have hx1 : t1.getParent ((Tree.node a c l k r).ptr t1.NIL) = some ctx1.par := h1.getParent
      rcases hlen with hlen | hred
      · obtain ⟨t2, ctx2, X2, n2, e2, h2, hi2, hc2, hk2, hsz2, f2⟩ :=
          ih t1 ctx1 _ n1 (by omega) h1 hx1 hi1
        refine ⟨t2, ctx2, X2, n2, fun fuel hf => ?_, h2, hi2, hc2, hk2.trans hk,
          hsz2.trans hsz, f1.trans f2⟩
        obtain ⟨f, rfl⟩ : ∃ k, fuel = k + 1 := ⟨fuel - 1, by omega⟩
        refine (whileLoop_true f ((deleteFixupCond_spec h).trans (by rw [hc])) e1).trans ?_
        have := e2 f (by omega)
        rw [f1.1] at this
        exact this
      · have hc1 : Ctx.delCond ctx1 (Tree.node a c l k r) = false := by
          simp only [Tree.color_node] at hred
          subst hred
          cases ctx1 <;> rfl
        refine ⟨t1, ctx1, _, n1, fun fuel hf => ?_, h1, hi1, hc1, hk, hsz, f1⟩
        obtain ⟨f, rfl⟩ : ∃ k, fuel = k + 1 := ⟨fuel - 1, by omega⟩
        refine (whileLoop_true f ((deleteFixupCond_spec h).trans (by rw [hc])) e1).trans ?_
        obtain ⟨g, rfl⟩ : ∃ k, f = k + 1 := ⟨f - 1, by omega⟩
        exact whileLoop_false g ((deleteFixupCond_spec h1).trans (by rw [hc1]))

theorem deleteFixup_spec {t : RedBlackTree α} {ctx : Ctx α} {X : Tree α} {n : Nat}
    (h : ModelsAt t ctx X) (hx : t.getParent (X.ptr t.NIL) = some ctx.par)
    (hi : DelInv ctx X n) :
    ∃ t1 T1, (∀ fuel, ctx.length + 1 < fuel → t.deleteFixup fuel (X.ptr t.NIL) = some t1) ∧
      Models t1 T1 ∧ T1.WF ∧ T1.color = Color.BLACK ∧ T1.keys = (Ctx.plug ctx X).keys ∧
      T1.size = (Ctx.plug ctx X).size ∧ Fr t t1 := by
  obtain ⟨t1, ctx1, X1, n1, e1, h1, hi1, hc1, hk1, hs1, f1⟩ :=
    deleteFixup_loop ctx.length t ctx X n (le_refl _) h hx hi
  obtain ⟨w1, w2, w3⟩ := hi1
  have hwf : (Ctx.plug ctx1 (X1.setColor Color.BLACK)).WF ∧
      (Ctx.plug ctx1 (X1.setColor Color.BLACK)).color = Color.BLACK := by
    rcases ctx1 with _ | ⟨f, fs⟩
    · exact ⟨w2, Tree.color_setColor_black X1⟩
    · simp only [Ctx.delCond, beq_eq_false_iff_ne, ne_eq] at hc1
      have hred := Color.ne_black.mp hc1
      rcases X1 with _ | ⟨x1, cx1, xl1, kx1, xr1⟩
      · simp at hred
      simp only [Tree.color_node] at hred
      subst hred
      have hb : (Tree.setColor Color.BLACK (Tree.node x1 Color.RED xl1 kx1 xr1)).bh = n1 + 1 := by
        simp only [Tree.setColor, Tree.bh, blk_red, blk_black, add_zero] at w3 ⊢
        omega
      have hp := Ctx.WF.plug w1 w2 hb (fun hh => by simp [Tree.setColor] at hh)
      exact ⟨hp.1, hp.2 (by simp)⟩
  have hkeys : (Ctx.plug ctx1 (X1.setColor Color.BLACK)).keys = (Ctx.plug ctx X).keys :=
    (Ctx.keys_plug_congr ctx1 (Tree.keys_setColor _ _)).trans hk1
  have hsize : (Ctx.plug ctx1 (X1.setColor Color.BLACK)).size = (Ctx.plug ctx X).size :=
    (Ctx.size_plug_congr ctx1 (Tree.size_setColor _ _)).trans hs1
  rcases X1 with _ | ⟨x1, cx1, xl1, kx1, xr1⟩
  · refine ⟨t1, _, fun fuel hf => ?_, (modelsAt_iff ctx1 _).mp h1, hwf.1, hwf.2, hkeys, hsize, f1⟩
    have hs := setColor_nil_at h1
    rw [f1.1] at hs
    simp only [deleteFixup, e1 fuel hf, Option.bind_eq_bind, Option.some_bind, Tree.ptr_nil, hs]
  · obtain ⟨t2, e2, h2, f2⟩ := setColor_at Color.BLACK h1
    refine ⟨t2, _, fun fuel hf => ?_, (modelsAt_iff ctx1 _).mp h2, hwf.1, hwf.2, hkeys, hsize,
      f1.trans f2⟩
    simp only [deleteFixup, e1 fuel hf, Option.bind_eq_bind, Option.some_bind, Tree.ptr_node, e2]

end RBT

namespace RBT

variable {α : Type}

theorem Ctx.keys_plug (ctx : Ctx α) (Z : Tree α) :
    (Ctx.plug ctx Z).keys = Ctx.keysL ctx ++ (Z.keys ++ Ctx.keysR ctx) := by
  induction ctx generalizing Z with
  | nil => simp [Ctx.plug, Ctx.keysL, Ctx.keysR]
  | cons f fs ih =>
    cases f <;>
    simp [Ctx.plug, ih, Frame.fill, Tree.keys, Ctx.keysL, Ctx.keysR, List.append_assoc]

theorem Ctx.height_plug (ctx : Ctx α) (Z : Tree α) :
    ctx.length + Z.height ≤ (Ctx.plug ctx Z).height := by
  induction ctx generalizing Z with
  | nil => simp [Ctx.plug]
  | cons f fs ih =>
    have := ih (f.fill Z)
    have h2 : Z.height + 1 ≤ (f.fill Z).height := by
      cases f <;> simp only [Frame.fill, Tree.height] <;> omega
    simp only [Ctx.plug, List.length_cons] at this ⊢
    omega

theorem Ctx.WF_congr_frame (c1 c2 : Ctx α) (f g : Frame α) (hs : f.sib = g.sib)
    (hc : f.color = g.color) (n : Nat) :
    (Ctx.WF (c1 ++ f :: c2) n ↔ Ctx.WF (c1 ++ g :: c2) n) ∧
      (Ctx.headBlack (c1 ++ f :: c2) ↔ Ctx.headBlack (c1 ++ g :: c2)) := by
  induction c1 generalizing n with
  | nil => simp only [List.nil_append, Ctx.WF, Ctx.headBlack, hs, hc, and_self]
  | cons e es ih =>
    refine ⟨?_, Iff.rfl⟩
    show (_ ∧ _ ∧ (_ → _ ∧ Ctx.headBlack (es ++ f :: c2)) ∧ Ctx.WF (es ++ f :: c2) _) ↔
      (_ ∧ _ ∧ (_ → _ ∧ Ctx.headBlack (es ++ g :: c2)) ∧ Ctx.WF (es ++ g :: c2) _)
    rw [(ih _).1, (ih 0).2]

theorem splice_core {ctx : Ctx α} {X : Tree α} {cy : Color} (hctx : Ctx.WF ctx (blk cy))
    (hX : X.WF) (hX0 : X.bh = 0) (hr : cy = Color.RED → X.color = Color.BLACK)
    (hroot : cy = Color.RED → ctx ≠ []) :
    (cy = Color.RED → (Ctx.plug ctx X).WF ∧ (Ctx.plug ctx X).color = Color.BLACK) ∧
      (cy = Color.BLACK → DelInv ctx X 0) := by
  constructor
  · intro h
    subst h
    have hp := Ctx.WF.plug hctx hX hX0 (fun hh => by rw [hr rfl] at hh; cases hh)
    exact ⟨hp.1, hp.2 (hroot rfl)⟩
  · intro h
    subst h
    exact ⟨hctx, Tree.WF.setColor_black hX, hX0⟩

theorem splice_some (ctx : Ctx α) (z : Ptr) (c : Color) (l r : Tree α) (k : α) :
    ∃ res, Ctx.splice ctx (Tree.node z c l k r) = some res := by
  rcases l with _ | ⟨l0, cl, ll, kl, lr⟩
  · exact ⟨_, rfl⟩
  rcases r with _ | ⟨r0, cr, rl, kr, rr⟩
  · exact ⟨_, rfl⟩
  obtain ⟨cR, y, cy, ky, yr, h1, -⟩ := Ctx.leftmost_spec r0 cr rl rr kr []
  simp only [Ctx.splice, h1]
  exact ⟨_, rfl⟩

theorem splice_inv {ctx ctx1 : Ctx α} {z : Ptr} {c yc : Color} {l r X : Tree α} {k : α}
    (hs : Ctx.splice ctx (Tree.node z c l k r) = some (ctx1, X, yc))
    (hwf : (Ctx.plug ctx (Tree.node z c l k r)).WF)
    (hb : (Ctx.plug ctx (Tree.node z c l k r)).color = Color.BLACK) :
    (yc = Color.RED → (Ctx.plug ctx1 X).WF ∧ (Ctx.plug ctx1 X).color = Color.BLACK) ∧
      (yc = Color.BLACK → DelInv ctx1 X 0) ∧
      (Ctx.plug ctx1 X).keys = Ctx.keysL ctx ++ ((l.keys ++ r.keys) ++ Ctx.keysR ctx) ∧
      (Ctx.plug ctx (Tree.node z c l k r)).size = (Ctx.plug ctx1 X).size + 1 ∧
      ctx1.length < (Ctx.plug ctx (Tree.node z c l k r)).height := by
  have hh := Ctx.height_plug ctx (Tree.node z c l k r)
  rcases l with _ | ⟨l0, cl, ll, kl, lr⟩
  · simp only [Ctx.splice, Option.some.injEq, Prod.mk.injEq] at hs
    obtain ⟨rfl, rfl, rfl⟩ := hs
    obtain ⟨w1, w2, w3⟩ := Ctx.WF.of_plug hwf hb
    simp only [Tree.WF, Tree.bh, zero_add, Tree.color_node, Tree.color_nil, true_and] at w1 w2 w3
    have hc := splice_core w1 w2.1 w2.2.1.symm (fun e => (w2.2.2 e)) (fun e e2 => by
      subst e2; exact w3 e)
    refine ⟨hc.1, hc.2, ?_, ?_, ?_⟩
    · rw [Ctx.keys_plug]; simp [Tree.keys]
    · exact Ctx.size_plug_add ctx (by simp [Tree.size])
    · simp only [Tree.height] at hh; omega
  rcases r with _ | ⟨r0, cr, rl, kr, rr⟩
  · simp only [Ctx.splice, Option.some.injEq, Prod.mk.injEq] at hs
    obtain ⟨rfl, rfl, rfl⟩ := hs
    obtain ⟨w1, w2, w3⟩ := Ctx.WF.of_plug hwf hb
    simp only [Tree.WF, Tree.color_node, Tree.color_nil, and_true, true_and] at w2 w3
    have hl0 : (Tree.node l0 cl ll kl lr).bh = 0 := w2.2.1
    have w1b : Ctx.WF ctx (blk c) := by
      have : (Tree.node z c (Tree.node l0 cl ll kl lr) k Tree.nil).bh = blk c := by
        rw [Tree.bh, hl0, zero_add]
      rw [this] at w1; exact w1
    have hc := splice_core w1b (by simp only [Tree.WF]; exact w2.1) hl0
      (fun e => (w2.2.2 e)) (fun e e2 => by subst e2; exact w3 e)
    refine ⟨hc.1, hc.2, ?_, ?_, ?_⟩
    · rw [Ctx.keys_plug]; simp [Tree.keys]
    · exact Ctx.size_plug_add ctx (by simp [Tree.size])
    · simp only [Tree.height] at hh; omega
  obtain ⟨cR, y, cy, ky, yr, h1, h2, h3, h4, h5⟩ := Ctx.leftmost_spec r0 cr rl rr kr []
  simp only [Ctx.splice, h1, List.append_nil, Option.some.injEq, Prod.mk.injEq] at hs
  obtain ⟨rfl, rfl, rfl⟩ := hs
  have hplug : Ctx.plug ctx (Tree.node z c (Tree.node l0 cl ll kl lr) k
      (Tree.node r0 cr rl kr rr)) =
      Ctx.plug (cR ++ Frame.R z c (Tree.node l0 cl ll kl lr) k :: ctx)
        (Tree.node y cy Tree.nil ky yr) := by
    rw [Ctx.plug_append, h2]; rfl
  rw [hplug] at hwf hb
  obtain ⟨w1, w2, w3⟩ := Ctx.WF.of_plug hwf hb
  have hcg := Ctx.WF_congr_frame cR ctx (Frame.R z c (Tree.node l0 cl ll kl lr) k)
    (Frame.R y c (Tree.node l0 cl ll kl lr) ky) rfl rfl
  simp only [Tree.WF, Tree.bh, zero_add, Tree.color_node, Tree.color_nil, true_and] at w1 w2 w3
  have hc := splice_core ((hcg _).1.mp w1) w2.1 w2.2.1.symm (fun e => (w2.2.2 e))
    (fun e e2 => by simp at e2)
  refine ⟨hc.1, hc.2, ?_, ?_, ?_⟩
  · rw [Ctx.plug_append]
    simp only [Ctx.plug, Frame.fill]
    rw [Ctx.keys_plug]
    simp only [Tree.keys] at h4 ⊢
    rw [h4]
  · rw [Ctx.plug_append]
    simp only [Ctx.plug, Frame.fill]
    apply Ctx.size_plug_add
    simp only [Tree.size] at h5 ⊢
    omega
  · simp only [Tree.height] at hh h3
    simp only [List.length_append, List.length_cons]
    omega

end RBT

namespace RBT

open RedBlackTree

variable {α : Type}

theorem remove_absent [LinearOrder α] {t : RedBlackTree α} {T : Tree α} (h : Models t T)
    (k : α) (hz : (Ctx.find k T []).2 = Tree.nil) (fuel : Nat) (hf : T.height < fuel) :
    t.remove fuel k = some (t, false) := by
  obtain ⟨e1, -⟩ := search_spec k T [] fuel ((modelsAt_nil T).mpr h) hf
  rw [← h.root, hz] at e1
  simp only [RedBlackTree.remove, e1, Tree.ptr_nil, Option.bind_eq_bind, Option.some_bind,
    if_true]

theorem remove_present [LinearOrder α] {t : RedBlackTree α} {T : Tree α} (h : Models t T)
    (hwf : T.WF) (hb : T.color = Color.BLACK) (k : α) {z : Ptr} {c : Color} {l r : Tree α}
    {x : α} (hz : (Ctx.find k T []).2 = Tree.node z c l x r) :
    ∃ t1 T1, (∀ fuel, T.height + 1 < fuel → t.remove fuel k = some (t1, true)) ∧
      Models t1 T1 ∧ T1.WF ∧ T1.color = Color.BLACK ∧
      T1.keys = Ctx.keysL (Ctx.find k T []).1 ++
        ((l.keys ++ r.keys) ++ Ctx.keysR (Ctx.find k T []).1) ∧
      T.size = T1.size + 1 ∧ t1.nodeCount = t.nodeCount - 1 ∧ t1.NIL = t.NIL ∧
      t1.brk = t.brk := by
  have hplug : Ctx.plug (Ctx.find k T []).1 (Ctx.find k T []).2 = T := Ctx.plug_find k T []
  rw [hz] at hplug
  have hZ : ModelsAt t (Ctx.find k T []).1 (Tree.node z c l x r) :=
    (modelsAt_iff _ _).mpr (by rw [hplug]; exact h)
  obtain ⟨⟨ctx1, X, yc⟩, hs⟩ := splice_some (Ctx.find k T []).1 z c l r x
  obtain ⟨t1, e1, h1, p1, ⟨n1, m1⟩, hzn, N1, b1, c1⟩ := removeSplice_spec hZ hs
  obtain ⟨i1, i2, i3, i4, i5⟩ := splice_inv hs (by rw [hplug]; exact hwf) (by rw [hplug]; exact hb)
  rw [hplug] at i4 i5
  have hzN : z ≠ t1.NIL := by rw [N1]; exact fun e => by simpa [e] using hZ.ne_nil
  have hz0 : z ≠ 0 := fun e => by simpa [e] using hZ.ne_null
  rw [Ctx.mem_addrs_plug] at hzn
  obtain ⟨t2, e2, h2, f2, r2⟩ := free_spec h1 hzn hzN hz0 m1
  have h3 := h2.setNodeCount (t2.nodeCount - 1)
  have hheight := Ctx.height_plug (Ctx.find k T []).1 (Tree.node z c l x r)
  rw [hplug] at hheight
  have hsearch : ∀ fuel, T.height < fuel → t.search fuel t.root k = some z := by
    intro fuel hf
    obtain ⟨e0, -⟩ := search_spec k T [] fuel ((modelsAt_nil T).mpr h) hf
    rw [← h.root, hz] at e0
    exact e0
  have hcount : (t2.setNodeCount (t2.nodeCount - 1)).nodeCount = t.nodeCount - 1 := by
    simp only [setNodeCount, f2.2.1, c1]
  rcases yc with _ | _
  · obtain ⟨w1, w2⟩ := i1 rfl
    refine ⟨t2.setNodeCount (t2.nodeCount - 1), Ctx.plug ctx1 X, fun fuel hf => ?_,
      (modelsAt_iff _ _).mp h3, w1, w2, i3, i4, hcount, ?_, ?_⟩
    · have e1' := e1 fuel (by omega)
      rw [← N1] at e1'
      simp only [RedBlackTree.remove, hsearch fuel (by omega), Option.bind_eq_bind,
        Option.some_bind, hZ.ne_nil, if_false, e1', e2, reduceCtorEq]
    · simp only [setNodeCount, f2.1, N1]
    · simp only [setNodeCount, f2.2.2.1, b1]
  · have hx3 : (t2.setNodeCount (t2.nodeCount - 1)).getParent
        (X.ptr (t2.setNodeCount (t2.nodeCount - 1)).NIL) = some ctx1.par := by
      have := getParent_fr (by rw [N1]; exact p1) h1.nil_ne f2 h2 rfl
      show t2.getParent (X.ptr t2.NIL) = _
      rw [f2.1]
      exact this
    obtain ⟨t4, T4, e4, h4, w4, c4, k4, s4, f4⟩ := deleteFixup_spec h3 hx3 (i2 rfl)
    refine ⟨t4, T4, fun fuel hf => ?_, h4, w4, c4, k4.trans i3, by rw [s4]; exact i4, ?_, ?_, ?_⟩
    · have e1' := e1 fuel (by omega)
      have e4' := e4 fuel (by omega)
      have hN2 : (t2.setNodeCount (t2.nodeCount - 1)).NIL = t.NIL := f2.1.trans N1
      rw [hN2] at e4'
      simp only [RedBlackTree.remove, hsearch fuel (by omega), Option.bind_eq_bind,
        Option.some_bind, hZ.ne_nil, if_false, e1', e2, if_true, e4']
    · rw [f4.2.1, hcount]
    · rw [f4.1]; exact f2.1.trans N1
    · rw [f4.2.2.1]; exact f2.2.2.1.trans b1

end RBT

namespace RBT

variable {α : Type}

theorem Tree.sorted_node [LinearOrder α] {a : Ptr} {c : Color} {l r : Tree α} {x : α}
    (h : (Tree.node a c l x r).keys.Sorted (· ≤ ·)) :
    l.keys.Sorted (· ≤ ·) ∧ r.keys.Sorted (· ≤ ·) ∧ (∀ y ∈ l.keys, y ≤ x) ∧
      (∀ y ∈ r.keys, x ≤ y) := by
  simp only [Tree.keys, List.Sorted, List.pairwise_append, List.pairwise_cons, List.mem_cons]
    at h
  exact ⟨h.1, h.2.1.2, fun y hy => h.2.2 y hy x (Or.inl rfl), h.2.1.1⟩

theorem Ctx.descend_bounds [LinearOrder α] (k : α) (T : Tree α) : ∀ ctx : Ctx α,
    (Ctx.keysL ctx ++ (T.keys ++ Ctx.keysR ctx)).Sorted (· ≤ ·) →
    (∀ y ∈ Ctx.keysL ctx, y ≤ k) → (∀ y ∈ Ctx.keysR ctx, k < y) →
    (∀ y ∈ Ctx.keysL (Ctx.descend k T ctx), y ≤ k) ∧
      (∀ y ∈ Ctx.keysR (Ctx.descend k T ctx), k < y) := by
  induction T with
  | nil => intro ctx _ h1 h2; exact ⟨h1, h2⟩
  | node a c l x r ihl ihr =>
    intro ctx hs h1 h2
    have hn : (l.keys ++ x :: r.keys).Sorted (· ≤ ·) := by
      have := (List.pairwise_append.mp hs).2.1
      exact (List.pairwise_append.mp this).1
    obtain ⟨-, -, b1, b2⟩ := Tree.sorted_node (a := a) (c := c) hn
    simp only [Ctx.descend]
    split
    · next hlt =>
      refine ihl _ ?_ h1 ?_
      · simpa [Ctx.keysL, Ctx.keysR, Tree.keys, List.append_assoc] using hs
      · intro y hy
        simp only [Ctx.keysR, List.cons_append, List.mem_cons, List.mem_append] at hy
        rcases hy with rfl | hy | hy
        · exact hlt
        · exact lt_of_lt_of_le hlt (b2 y hy)
        · exact h2 y hy
    · next hlt =>
      refine ihr _ ?_ ?_ h2
      · simpa [Ctx.keysL, Ctx.keysR, Tree.keys, List.append_assoc] using hs
      · intro y hy
        simp only [Ctx.keysL, List.mem_append, List.mem_singleton] at hy
        rcases hy with hy | hy | rfl
        · exact h1 y hy
        · exact le_trans (b1 y hy) (not_lt.mp hlt)
        · exact not_lt.mp hlt

theorem insert_keys [LinearOrder α] (k : α) (T : Tree α) (a : Ptr)
    (hs : T.keys.Sorted (· ≤ ·)) :
    (Ctx.plug (Ctx.descend k T []) (Tree.node a Color.RED Tree.nil k Tree.nil)).keys.Sorted
        (· ≤ ·) ∧
      (Ctx.plug (Ctx.descend k T []) (Tree.node a Color.RED Tree.nil k Tree.nil)).keys.Perm
        (k :: T.keys) := by
  obtain ⟨b1, b2⟩ := Ctx.descend_bounds k T [] (by simpa [Ctx.keysL, Ctx.keysR] using hs)
    (by simp [Ctx.keysL]) (by simp [Ctx.keysR])
  have hT : T.keys = Ctx.keysL (Ctx.descend k T []) ++ Ctx.keysR (Ctx.descend k T []) := by
    have := Ctx.keys_plug (Ctx.descend k T []) Tree.nil
    rw [Ctx.plug_descend] at this
    simpa [Tree.keys, Ctx.plug] using this
  rw [Ctx.keys_plug, hT]
  rw [hT] at hs
  simp only [Tree.keys, List.nil_append, List.cons_append]
  constructor
  · simp only [List.Sorted, List.pairwise_append, List.pairwise_cons, List.mem_cons,
      List.cons_append] at hs ⊢
    refine ⟨hs.1, ⟨fun y hy => le_of_lt (b2 y hy), hs.2.1⟩, ?_⟩
    rintro y hy z (rfl | hz)
    · exact b1 y hy
    · exact hs.2.2 y hy z hz
  · exact List.perm_middle

theorem Ctx.find_nil_iff [LinearOrder α] (k : α) (T : Tree α) : ∀ ctx : Ctx α,
    T.keys.Sorted (· ≤ ·) → ((Ctx.find k T ctx).2 = Tree.nil ↔ k ∉ T.keys) := by
  induction T with
  | nil => intro ctx _; simp [Ctx.find, Tree.keys]
  | node a c l x r ihl ihr =>
    intro ctx hs
    obtain ⟨s1, s2, b1, b2⟩ := Tree.sorted_node hs
    simp only [Ctx.find, Tree.keys, List.mem_append, List.mem_cons, not_or]
    split
    · next he => simp [he]
    · next he =>
      split
      · next hlt =>
        rw [ihl _ s1]
        constructor
        · intro h
          exact ⟨h, fun e => he e.symm, fun hr => absurd (b2 k hr) (not_le.mpr hlt)⟩
        · exact fun h => h.1
      · next hlt =>
        rw [ihr _ s2]
        constructor
        · intro h
          refine ⟨fun hl => ?_, fun e => he e.symm, h⟩
          have h1 := b1 k hl
          exact he (le_antisymm (not_lt.mp hlt) h1)
        · exact fun h => h.2.2

theorem erase_sorted_middle [LinearOrder α] (l1 l2 : List α) (k : α)
    (h : (l1 ++ k :: l2).Sorted (· ≤ ·)) : (l1 ++ k :: l2).erase k = l1 ++ l2 := by
  have hp : ((l1 ++ k :: l2).erase k).Perm (l1 ++ l2) := by
    have h1 : (l1 ++ k :: l2).Perm (k :: (l1 ++ k :: l2).erase k) :=
      List.perm_cons_erase (by simp)
    have h2 : (l1 ++ k :: l2).Perm (k :: (l1 ++ l2)) := List.perm_middle
    exact (h1.symm.trans h2).cons_inv
  have hs1 : ((l1 ++ k :: l2).erase k).Sorted (· ≤ ·) := h.sublist (List.erase_sublist _ _)
  have hs2 : (l1 ++ l2).Sorted (· ≤ ·) :=
    h.sublist (List.Sublist.append (List.Sublist.refl l1) (List.sublist_cons_self k l2))
  exact List.eq_of_perm_of_sorted hp hs1 hs2

end RBT

namespace RBT

open RedBlackTree

variable {α : Type}

theorem inorderHelper_spec {t : RedBlackTree α} (T : Tree α) :
    ∀ (ctx : Ctx α) (fuel : Nat), ModelsAt t ctx T → T.height < fuel →
      t.inorderHelper fuel (T.ptr t.NIL) = some T.keys := by
  induction T with
  | nil =>
    intro ctx fuel h hf
    obtain ⟨f, rfl⟩ : ∃ n, fuel = n + 1 := ⟨fuel - 1, by omega⟩
    simp [RedBlackTree.inorderHelper, Tree.keys]
  | node a c l x r ihl ihr =>
    intro ctx fuel h hf
    simp only [Tree.height] at hf
    obtain ⟨f, rfl⟩ : ∃ n, fuel = n + 1 := ⟨fuel - 1, by omega⟩
    simp only [RedBlackTree.inorderHelper, Tree.ptr_node, h.ne_nil, if_false, h.getData,
      Option.bind_eq_bind, Option.some_bind, h.getLeft, h.getRight,
      ihl _ f h.downL (by omega), ihr _ f h.downR (by omega), Tree.keys]

theorem inorder_spec {t : RedBlackTree α} {T : Tree α} (h : Models t T) (fuel : Nat)
    (hf : T.height < fuel) : t.inorder fuel = some T.keys := by
  have := inorderHelper_spec T [] fuel ((modelsAt_nil T).mpr h) hf
  rw [← h.root] at this
  exact this

theorem contains_spec [LinearOrder α] {t : RedBlackTree α} {T : Tree α} (h : Models t T)
    (hs : T.keys.Sorted (· ≤ ·)) (k : α) (fuel : Nat) (hf : T.height < fuel) :
    t.contains fuel k = some (decide (k ∈ T.keys)) := by
  obtain ⟨e1, h1⟩ := search_spec k T [] fuel ((modelsAt_nil T).mpr h) hf
  rw [← h.root] at e1
  have hiff := Ctx.find_nil_iff k T [] hs
  simp only [RedBlackTree.contains, e1, Option.bind_eq_bind, Option.some_bind, Option.some.injEq]
  rcases hz : (Ctx.find k T []).2 with _ | ⟨z, c, l, x, r⟩
  · have : k ∉ T.keys := hiff.mp hz
    simp [this]
  · rw [hz] at h1
    have : k ∈ T.keys := by
      by_contra hn
      rw [hiff.mpr hn] at hz
      cases hz
    simp [this, h1.ne_nil]

theorem freeAll_nil (t : RedBlackTree α) : t.freeAll [] = t := by
  cases t
  simp [RedBlackTree.freeAll]

theorem destroyTree_spec (T : Tree α) : ∀ (t : RedBlackTree α) (par : Ptr) (fuel : Nat),
    Rep t.mem t.NIL par T → T.addrs.Nodup → (∀ a ∈ T.addrs, a ≠ 0 ∧ a ≠ t.NIL) →
    T.height < fuel → destroyTree fuel t (T.ptr t.NIL) = some (t.freeAll T.addrs) := by
  induction T with
  | nil =>
    intro t par fuel _ _ _ hf
    obtain ⟨f, rfl⟩ : ∃ n, fuel = n + 1 := ⟨fuel - 1, by omega⟩
    simp [RedBlackTree.destroyTree, Tree.addrs, freeAll_nil]
  | node a c l x r ihl ihr =>
    intro t par fuel hr hnd hok hf
    simp only [Tree.height] at hf
    obtain ⟨f, rfl⟩ : ∃ n, fuel = n + 1 := ⟨fuel - 1, by omega⟩
    obtain ⟨hcell, hl, hrr⟩ := hr
    have ha := hok a (by simp [Tree.addrs])
    simp only [Tree.addrs, List.nodup_cons, List.mem_append, not_or, List.nodup_append] at hnd
    obtain ⟨⟨hal, har⟩, hndl, hndr, hdisj⟩ := hnd
    have e1 := ihl t a f hl hndl (fun b hb => hok b (by simp [Tree.addrs, hb])) (by omega)
    have hr1 : Rep (t.freeAll l.addrs).mem (t.freeAll l.addrs).NIL a r := by
      refine (Rep.congr_mem fun b hb => ?_).mpr hrr
      have : b ∉ l.addrs := fun hbl => hdisj hbl hb
      simp [RedBlackTree.freeAll, this]
    have e2 := ihr (t.freeAll l.addrs) a f hr1 hndr
      (fun b hb => hok b (by simp [Tree.addrs, hb])) (by omega)
    have hg1 : t.getLeft a = some (l.ptr t.NIL) := by
      simp [RedBlackTree.getLeft, deref_eq ha.1, hcell]
    have hg2 : (t.freeAll l.addrs).getRight a = some (r.ptr t.NIL) := by
      simp [RedBlackTree.getRight, deref_eq ha.1, RedBlackTree.freeAll, hal, hcell]
    have hN : (t.freeAll l.addrs).NIL = t.NIL := rfl
    rw [hN] at e2
    have hfree : ((t.freeAll l.addrs).freeAll r.addrs).free a =
        some (t.freeAll (Tree.node a c l x r).addrs) := by
      simp only [RedBlackTree.free, deref_eq ha.1, RedBlackTree.freeAll, hal, har, if_false,
        hcell, Option.some.injEq, Tree.addrs]
      congr 1
      funext q
      by_cases hq : q = a
      · simp [hq]
      · simp only [hq, if_false, List.mem_cons, List.mem_append, false_or]
        by_cases h1 : q ∈ l.addrs
        · simp [h1]
        · simp [h1]
    simp only [RedBlackTree.destroyTree, Tree.ptr_node, ha.2, if_false, hg1,
      Option.bind_eq_bind, Option.some_bind, e1, hg2, e2, hfree]

theorem clear_spec {t : RedBlackTree α} {T : Tree α} (h : Models t T) :
    ∃ t1, (∀ fuel, T.height < fuel → t.clear fuel = some t1) ∧ Models t1 Tree.nil ∧
      t1.nodeCount = 0 ∧ t1.NIL = t.NIL ∧ t1.brk = t.brk := by
  refine ⟨((t.freeAll T.addrs).setRoot t.NIL).setNodeCount 0, fun fuel hf => ?_, ?_, rfl, rfl,
    rfl⟩
  · have := destroyTree_spec T t nullptr fuel h.rep h.addrsOk.1
      (fun a ha => ⟨(h.addrsOk.2 a ha).1, (h.addrsOk.2 a ha).2.1⟩) hf
    rw [← h.root] at this
    simp only [RedBlackTree.clear, this, Option.bind_eq_bind, Option.some_bind]
    rfl
  · obtain ⟨n1, n2, d, p, n3⟩ := h.nilCell
    refine ⟨rfl, trivial, ⟨n1, n2, d, p, ?_⟩, ?_⟩
    · have : t.NIL ∉ T.addrs := fun hm => (h.addrsOk.2 _ hm).2.1 rfl
      show (if t.NIL ∈ T.addrs then none else t.mem t.NIL) = _
      rw [if_neg this]; exact n3
    · exact ⟨List.nodup_nil, fun a ha => by simp [Tree.addrs] at ha⟩

theorem new_models [Inhabited α] : Models (RedBlackTree.new : RedBlackTree α) Tree.nil :=
  ⟨rfl, trivial, ⟨Nat.succ_ne_zero 0, Nat.lt_succ_self 1, default, nullptr, rfl⟩,
    ⟨List.nodup_nil, fun a ha => by simp [Tree.addrs] at ha⟩⟩

end RBT

namespace RBT

open RedBlackTree

variable {α : Type}

theorem FuelMono.const {β : Type} (o : Option β) : FuelMono (fun _ => o) :=
  fun _ _ _ _ h => h

theorem FuelMono.bind {β γ : Type} {f : Nat → Option β} {g : β → Nat → Option γ}
    (hf : FuelMono f) (hg : ∀ b, FuelMono (g b)) : FuelMono (fun n => (f n).bind (fun b => g b n)) := by
  intro n m r hnm h
  rcases hfn : f n with _ | b
  · simp [hfn] at h
  · simp only [hfn, Option.some_bind] at h
    simp only [hf n m b hnm hfn, Option.some_bind]
    exact hg b n m r hnm h

theorem FuelMono.whileLoop {σ : Type} (cond : σ → Option Bool) (body : σ → Option σ) (s : σ) :
    FuelMono (fun n => whileLoop cond body n s) :=
  fun _ _ _ hnm h => whileLoop_mono h hnm

theorem insertFixup_mono (t : RedBlackTree α) (z : Ptr) :
    FuelMono (fun n => t.insertFixup n z) :=
  FuelMono.bind (FuelMono.whileLoop _ _ _) (fun _ => FuelMono.const _)

theorem deleteFixup_mono (t : RedBlackTree α) (x : Ptr) :
    FuelMono (fun n => t.deleteFixup n x) :=
  FuelMono.bind (FuelMono.whileLoop _ _ _) (fun _ => FuelMono.const _)

theorem insert_mono [LinearOrder α] (t : RedBlackTree α) (k : α) :
    FuelMono (fun n => t.insert n k) := by
  unfold RedBlackTree.insert
  refine FuelMono.bind (FuelMono.const _) fun t1 => ?_
  refine FuelMono.bind (FuelMono.const _) fun t2 => ?_
  refine FuelMono.bind (FuelMono.whileLoop _ _ _) fun s => ?_
  refine FuelMono.bind (FuelMono.const _) fun t3 => ?_
  exact insertFixup_mono _ _

theorem search_mono [LinearOrder α] (t : RedBlackTree α) (k : α) :
    ∀ node, FuelMono (fun n => t.search n node k) := by
  intro node n
  induction n generalizing node with
  | zero => intro m r _ h; simp [RedBlackTree.search] at h
  | succ n ih =>
    intro m r hnm h
    obtain ⟨m, rfl⟩ : ∃ j, m = j + 1 := ⟨m - 1, by omega⟩
    simp only [RedBlackTree.search] at h ⊢
    split at h
    · next hn => simpa [hn] using h
    · next hn =>
      simp only [hn, if_false]
      rcases hd : t.getData node with _ | d
      · simp [hd] at h
      simp only [hd, Option.bind_eq_bind, Option.some_bind] at h ⊢
      split at h
      · next he => simpa [he] using h
      · next he =>
        simp only [he, if_false]
        split at h
        · next hlt =>
          simp only [hlt, if_true]
          rcases hl : t.getLeft node with _ | l
          · simp [hl] at h
          simp only [hl, Option.some_bind] at h ⊢
          exact ih l m r (by omega) h
        · next hlt =>
          simp only [hlt, if_false]
          rcases hl : t.getRight node with _ | l
          · simp [hl] at h
          simp only [hl, Option.some_bind] at h ⊢
          exact ih l m r (by omega) h

theorem destroyTree_mono : ∀ (n : Nat) (t : RedBlackTree α) (node : Ptr) (m : Nat)
    (r : RedBlackTree α), n ≤ m → destroyTree n t node = some r →
    destroyTree m t node = some r := by
  intro n
  induction n with
  | zero => intro t node m r _ h; simp [RedBlackTree.destroyTree] at h
  | succ n ih =>
    intro t node m r hnm h
    obtain ⟨m, rfl⟩ : ∃ j, m = j + 1 := ⟨m - 1, by omega⟩
    simp only [RedBlackTree.destroyTree] at h ⊢
    split at h
    · next hn => simpa [hn] using h
    · next hn =>
      simp only [hn, if_false]
      rcases hl : t.getLeft node with _ | l
      · simp [hl] at h
      simp only [hl, Option.bind_eq_bind, Option.some_bind] at h ⊢
      rcases h1 : destroyTree n t l with _ | t1
      · simp [h1] at h
      simp only [h1, ih t l m t1 (by omega) h1, Option.some_bind] at h ⊢
      rcases hr : t1.getRight node with _ | r1
      · simp [hr] at h
      simp only [hr, Option.some_bind] at h ⊢
      rcases h2 : destroyTree n t1 r1 with _ | t2
      · simp [h2] at h
      simp only [h2, ih t1 r1 m t2 (by omega) h2, Option.some_bind] at h ⊢
      exact h

theorem clear_mono (t : RedBlackTree α) : FuelMono (fun n => t.clear n) :=
  FuelMono.bind (fun n m r hnm h => destroyTree_mono n t t.root m r hnm h)
    (fun _ => FuelMono.const _)

theorem removeSplice_mono (t : RedBlackTree α) (z : Ptr) :
    FuelMono (fun n => t.removeSplice n z) := by
  unfold RedBlackTree.removeSplice
  refine FuelMono.bind (FuelMono.const _) fun c => ?_
  refine FuelMono.bind (FuelMono.const _) fun zl => ?_
  split
  · exact FuelMono.const _
  · refine FuelMono.bind (FuelMono.const _) fun zr => ?_
    split
    · exact FuelMono.const _
    · unfold RedBlackTree.removeTwoChildren
      refine FuelMono.bind (FuelMono.const _) fun zr => ?_
      refine FuelMono.bind (FuelMono.whileLoop _ _ _) fun y => ?_
      exact FuelMono.const _

theorem remove_mono [LinearOrder α] (t : RedBlackTree α) (k : α) :
    FuelMono (fun n => t.remove n k) := by
  unfold RedBlackTree.remove
  refine FuelMono.bind (search_mono t k _) fun z => ?_
  split
  · exact FuelMono.const _
  · refine FuelMono.bind (removeSplice_mono t z) fun s => ?_
    refine FuelMono.bind (FuelMono.const _) fun t2 => ?_
    refine FuelMono.bind ?_ fun t3 => FuelMono.const _
    split
    · exact deleteFixup_mono _ _
    · exact FuelMono.const _

end RBT

namespace RBT

open RedBlackTree

variable {α : Type}

theorem Tree.bh_mem (T : Tree α) : T.bh ∈ T.pathBlackCounts := by
  induction T with
  | nil => simp [Tree.bh, Tree.pathBlackCounts]
  | node a c l k r ihl _ =>
    simp only [Tree.bh, Tree.pathBlackCounts, List.map_append, List.mem_append, List.mem_map]
    exact Or.inl ⟨l.bh, ihl, rfl⟩

theorem Tree.WF.paths {T : Tree α} (h : T.WF) : ∀ m ∈ T.pathBlackCounts, m = T.bh := by
  induction T with
  | nil => simp [Tree.bh, Tree.pathBlackCounts]
  | node a c l k r ihl ihr =>
    obtain ⟨h1, h2, h3, -⟩ := h
    intro m hm
    simp only [Tree.pathBlackCounts, List.map_append, List.mem_append, List.mem_map] at hm
    simp only [Tree.bh]
    rcases hm with ⟨n, hn, rfl⟩ | ⟨n, hn, rfl⟩
    · rw [ihl h1 n hn]
    · rw [ihr h2 n hn, h3]

theorem Tree.WF_iff (T : Tree α) : T.WF ↔ T.NoRedRed ∧ T.EqualBlackPaths := by
  induction T with
  | nil => simp [Tree.WF, Tree.NoRedRed, Tree.EqualBlackPaths, Tree.pathBlackCounts]
  | node a c l k r ihl ihr =>
    constructor
    · intro h
      refine ⟨⟨h.2.2.2, (ihl.mp h.1).1, (ihr.mp h.2.1).1⟩, _, Tree.WF.paths h⟩
    · rintro ⟨⟨h1, h2, h3⟩, n, hn⟩
      have hl : l.EqualBlackPaths := by
        refine ⟨l.bh, fun m hm => ?_⟩
        have e1 := hn (m + blk c) (by
          simp only [Tree.pathBlackCounts, List.map_append, List.mem_append, List.mem_map]
          exact Or.inl ⟨m, hm, rfl⟩)
        have e2 := hn (l.bh + blk c) (by
          simp only [Tree.pathBlackCounts, List.map_append, List.mem_append, List.mem_map]
          exact Or.inl ⟨l.bh, Tree.bh_mem l, rfl⟩)
        omega
      have hr : r.EqualBlackPaths := by
        refine ⟨r.bh, fun m hm => ?_⟩
        have e1 := hn (m + blk c) (by
          simp only [Tree.pathBlackCounts, List.map_append, List.mem_append, List.mem_map]
          exact Or.inr ⟨m, hm, rfl⟩)
        have e2 := hn (r.bh + blk c) (by
          simp only [Tree.pathBlackCounts, List.map_append, List.mem_append, List.mem_map]
          exact Or.inr ⟨r.bh, Tree.bh_mem r, rfl⟩)
        omega
      refine ⟨ihl.mpr ⟨h2, hl⟩, ihr.mpr ⟨h3, hr⟩, ?_, h1⟩
      have e1 := hn (l.bh + blk c) (by
        simp only [Tree.pathBlackCounts, List.map_append, List.mem_append, List.mem_map]
        exact Or.inl ⟨l.bh, Tree.bh_mem l, rfl⟩)
      have e2 := hn (r.bh + blk c) (by
        simp only [Tree.pathBlackCounts, List.map_append, List.mem_append, List.mem_map]
        exact Or.inr ⟨r.bh, Tree.bh_mem r, rfl⟩)
      omega

theorem Tree.height_le_size (T : Tree α) : T.height ≤ T.size := by
  induction T with
  | nil => simp [Tree.height, Tree.size]
  | node a c l k r ihl ihr => simp only [Tree.height, Tree.size]; omega

theorem Tree.length_keys (T : Tree α) : T.keys.length = T.size := by
  induction T with
  | nil => rfl
  | node a c l k r ihl ihr =>
    simp only [Tree.keys, Tree.size, List.length_append, List.length_cons, ihl, ihr]; omega

theorem Returns.intro {β : Type} {f : Nat → Option β} {r : β} (hm : FuelMono f) (N : Nat)
    (h : ∀ fuel, N ≤ fuel → f fuel = some r) : Returns f r := by
  refine ⟨⟨N, h⟩, fun fuel r1 e => ?_⟩
  have a := hm fuel (max fuel N) r1 (le_max_left _ _) e
  rw [h (max fuel N) (le_max_right _ _)] at a
  exact (Option.some.inj a).symm

theorem Returns.unique {β : Type} {f : Nat → Option β} {r s : β} (h1 : Returns f r)
    (h2 : Returns f s) : r = s := by
  obtain ⟨⟨N, hN⟩, -⟩ := h1
  exact h2.2 N r (hN N (le_refl N))

theorem Returns.result_eq {β : Type} {f : Nat → Option β} {r s : β} (h1 : Returns f r) {n : Nat}
    (h : f n = some s) : s = r := h1.2 n s h

theorem inorderHelper_mono (t : RedBlackTree α) : ∀ (n : Nat) (node : Ptr) (m : Nat)
    (r : List α), n ≤ m → t.inorderHelper n node = some r → t.inorderHelper m node = some r := by
  intro n
  induction n with
  | zero => intro node m r _ h; simp [RedBlackTree.inorderHelper] at h
  | succ n ih =>
    intro node m r hnm h
    obtain ⟨m, rfl⟩ : ∃ j, m = j + 1 := ⟨m - 1, by omega⟩
    simp only [RedBlackTree.inorderHelper] at h ⊢
    split at h
    · next hn => simpa [hn] using h
    · next hn =>
      simp only [hn, if_false]
      rcases hl : t.getLeft node with _ | l
      · simp [hl] at h
      simp only [hl, Option.bind_eq_bind, Option.some_bind] at h ⊢
      rcases h1 : t.inorderHelper n l with _ | xs
      · simp [h1] at h
      simp only [h1, ih l m xs (by omega) h1, Option.some_bind] at h ⊢
      rcases hd : t.getData node with _ | d
      · simp [hd] at h
      simp only [hd, Option.some_bind] at h ⊢
      rcases hr : t.getRight node with _ | r1
      · simp [hr] at h
      simp only [hr, Option.some_bind] at h ⊢
      rcases h2 : t.inorderHelper n r1 with _ | ys
      · simp [h2] at h
      simp only [h2, ih r1 m ys (by omega) h2, Option.some_bind] at h ⊢
      exact h

theorem inorder_mono (t : RedBlackTree α) : FuelMono t.inorder :=
  fun n m r hnm h => inorderHelper_mono t n t.root m r hnm h

theorem contains_mono [LinearOrder α] (t : RedBlackTree α) (k : α) :
    FuelMono (fun n => t.contains n k) :=
  FuelMono.bind (search_mono t k _) (fun _ => FuelMono.const _)

theorem insertAll_mono [LinearOrder α] (ks : List α) :
    ∀ t : RedBlackTree α, FuelMono (insertAll t ks) := by
  induction ks with
  | nil => intro t; exact FuelMono.const (some t)
  | cons k ks ih =>
    intro t
    have : insertAll t (k :: ks) = fun n => (t.insert n k).bind (fun s => insertAll s ks n) := by
      funext n
      simp [insertAll, List.foldlM_cons]
    rw [this]
    exact FuelMono.bind (insert_mono t k) ih

theorem Inv.new [LinearOrder α] [Inhabited α] : Inv (RedBlackTree.new : RedBlackTree α) :=
  ⟨Tree.nil, new_models, trivial, rfl, List.sorted_nil, rfl⟩

theorem Inv.insert_returns [LinearOrder α] {t : RedBlackTree α} (h : Inv t) (k : α) :
    ∃ t1 xs ys, Returns (fun n => t.insert n k) t1 ∧ Inv t1 ∧ Returns t.inorder xs ∧
      Returns t1.inorder ys ∧ ys.Perm (k :: xs) ∧ t1.nodeCount = t.nodeCount + 1 := by
  obtain ⟨T, hM, hwf, hb, hs, hc⟩ := h
  obtain ⟨t1, T1, e1, h1, w1, c1, k1, s1, n1⟩ := insert_spec hM hwf hb k
  obtain ⟨q1, q2⟩ := insert_keys k T t.brk hs
  rw [← k1] at q1 q2
  exact ⟨t1, T.keys, T1.keys,
    Returns.intro (insert_mono t k) (T.height + 1) (fun fuel hf => e1 fuel (by omega)),
    ⟨T1, h1, w1, c1, q1, by rw [n1, s1, hc]⟩,
    Returns.intro (inorder_mono t) (T.height + 1) (fun fuel hf => inorder_spec hM fuel (by omega)),
    Returns.intro (inorder_mono t1) (T1.height + 1)
      (fun fuel hf => inorder_spec h1 fuel (by omega)), q2, n1⟩

theorem Inv.insert [LinearOrder α] {t t1 : RedBlackTree α} (h : Inv t) {fuel : Nat} {k : α}
    (e : t.insert fuel k = some t1) : Inv t1 := by
  obtain ⟨t2, xs, ys, r1, i2, -⟩ := h.insert_returns k
  rw [r1.result_eq e]; exact i2

theorem Inv.remove_returns [LinearOrder α] {t : RedBlackTree α} (h : Inv t) (k : α) :
    ∃ t1 xs, Returns t.inorder xs ∧ Returns (fun n => t.remove n k) (t1, decide (k ∈ xs)) ∧
      Inv t1 ∧ (k ∉ xs → t1 = t) ∧
      (k ∈ xs → Returns t1.inorder (xs.erase k) ∧ t1.nodeCount + 1 = t.nodeCount) := by
  obtain ⟨T, hM, hwf, hb, hs, hc⟩ := h
  have hin : Returns t.inorder T.keys :=
    Returns.intro (inorder_mono t) (T.height + 1)
      (fun fuel hf => inorder_spec hM fuel (by omega))
  have hiff := Ctx.find_nil_iff k T [] hs
  rcases hz : (Ctx.find k T []).2 with _ | ⟨z, c, l, x, r⟩
  · have hk : k ∉ T.keys := hiff.mp hz
    refine ⟨t, T.keys, hin, Returns.intro (remove_mono t k) (T.height + 1) fun fuel hf => ?_,
      ⟨T, hM, hwf, hb, hs, hc⟩, fun _ => rfl, fun hh => absurd hh hk⟩
    show t.remove fuel k = _
    rw [remove_absent hM k hz fuel (by omega)]
    simp [hk]
  · have hk : k ∈ T.keys := by
      by_contra hn
      rw [hiff.mpr hn] at hz
      cases hz
    have hx : x = k := by
      rcases Ctx.find_key k T [] with e | ⟨a1, c1, l1, r1, e⟩
      · rw [hz] at e; cases e
      · rw [hz] at e; cases e; rfl
    subst hx
    obtain ⟨t1, T1, e1, h1, w1, c1, k1, s1, n1, -, -⟩ := remove_present hM hwf hb x hz
    have hkeys : T.keys = Ctx.keysL (Ctx.find x T []).1 ++
        ((l.keys ++ x :: r.keys) ++ Ctx.keysR (Ctx.find x T []).1) := by
      have := Ctx.keys_plug (Ctx.find x T []).1 (Ctx.find x T []).2
      rw [Ctx.plug_find, hz] at this
      simpa [Ctx.plug, Tree.keys] using this
    have herase : T.keys.erase x = T1.keys := by
      have e2 : T.keys = (Ctx.keysL (Ctx.find x T []).1 ++ l.keys) ++
          x :: (r.keys ++ Ctx.keysR (Ctx.find x T []).1) := by
        rw [hkeys]; simp [List.append_assoc]
      rw [e2] at hs ⊢
      rw [erase_sorted_middle _ _ _ hs, k1]
      simp [List.append_assoc]
    have hs1 : T1.keys.Sorted (· ≤ ·) := by
      rw [← herase]
      exact hs.sublist (List.erase_sublist _ _)
    have hpos : 0 < T.size := by rw [s1]; omega
    refine ⟨t1, T.keys, hin, Returns.intro (remove_mono t x) (T.height + 2) fun fuel hf => ?_,
      ⟨T1, h1, w1, c1, hs1, by rw [n1, hc, s1]; rfl⟩, fun hh => absurd hk hh, fun _ => ⟨?_, ?_⟩⟩
    · show t.remove fuel x = _
      rw [e1 fuel (by omega)]
      simp [hk]
    · rw [herase]
      exact Returns.intro (inorder_mono t1) (T1.height + 1)
        (fun fuel hf => inorder_spec h1 fuel (by omega))
    · rw [n1, hc]; omega

theorem Inv.remove [LinearOrder α] {t t1 : RedBlackTree α} (h : Inv t) {fuel : Nat} {k : α}
    {b : Bool} (e : t.remove fuel k = some (t1, b)) : Inv t1 := by
  obtain ⟨t2, xs, -, r1, i2, -⟩ := h.remove_returns k
  rw [(Prod.mk.inj (r1.result_eq e)).1]; exact i2

theorem Inv.clear_returns [LinearOrder α] {t : RedBlackTree α} (h : Inv t) :
    ∃ t1, Returns t.clear t1 ∧ Models t1 Tree.nil ∧ t1.nodeCount = 0 := by
  obtain ⟨T, hM, -⟩ := h
  obtain ⟨t1, e1, h1, n1, -⟩ := clear_spec hM
  exact ⟨t1, Returns.intro (clear_mono t) (T.height + 1) (fun fuel hf => e1 fuel (by omega)),
    h1, n1⟩

theorem Inv.of_empty [LinearOrder α] {t : RedBlackTree α} (h : Models t Tree.nil)
    (hc : t.nodeCount = 0) : Inv t :=
  ⟨Tree.nil, h, trivial, rfl, List.sorted_nil, hc⟩

theorem Inv.clear [LinearOrder α] {t t1 : RedBlackTree α} (h : Inv t) {fuel : Nat}
    (e : t.clear fuel = some t1) : Inv t1 := by
  obtain ⟨t2, r1, h2, c2⟩ := h.clear_returns
  rw [r1.result_eq e]; exact Inv.of_empty h2 c2

theorem Reachable.inv [LinearOrder α] [Inhabited α] {t : RedBlackTree α} (h : Reachable t) :
    Inv t := by
  induction h with
  | new => exact Inv.new
  | insert fuel k _ e ih => exact ih.insert e
  | remove fuel k b _ e ih => exact ih.remove e
  | clear fuel _ e ih => exact ih.clear e

end RBT

namespace RBT

open RedBlackTree

variable {α : Type}

theorem Models.isEmpty {t : RedBlackTree α} {T : Tree α} (h : Models t T) :
    t.isEmpty = decide (T.size = 0) := by
  cases T with
  | nil => simp [RedBlackTree.isEmpty, h.root, Tree.ptr_nil, Tree.size]
  | node a c l k r =>
    have hne := ((modelsAt_nil _).mpr h).ne_nil
    simp only [eq_iff_iff, iff_false] at hne
    simp [RedBlackTree.isEmpty, h.root, Tree.ptr_node, Tree.size, hne]

theorem Models.rootColor {t : RedBlackTree α} {T : Tree α} (h : Models t T) :
    t.getColor t.root = some T.color := by
  rw [h.root]; exact ((modelsAt_nil _).mpr h).getColor

theorem Inv.redBlack [LinearOrder α] {t : RedBlackTree α} (h : Inv t) : RedBlack t := by
  obtain ⟨T, hM, hwf, hb, -⟩ := h
  exact ⟨T, hM, hb, (Tree.WF_iff T).mp hwf⟩

theorem Inv.queries [LinearOrder α] {t : RedBlackTree α} (h : Inv t) :
    ∃ xs, Returns t.inorder xs ∧ xs.Sorted (· ≤ ·) ∧ t.nodeCount = xs.length ∧
      t.isEmpty = decide (xs.length = 0) ∧
      ∀ k, Returns (fun n => t.contains n k) (decide (k ∈ xs)) := by
  obtain ⟨T, hM, hwf, hb, hs, hc⟩ := h
  refine ⟨T.keys, Returns.intro (inorder_mono t) (T.height + 1)
    (fun fuel hf => inorder_spec hM fuel (by omega)), hs, by rw [hc, Tree.length_keys], ?_,
    fun k => Returns.intro (contains_mono t k) (T.height + 1)
      (fun fuel hf => contains_spec hM hs k fuel (by omega))⟩
  rw [hM.isEmpty, Tree.length_keys]

theorem Reachable.insertAll [LinearOrder α] [Inhabited α] (ks : List α) :
    ∀ {t t1 : RedBlackTree α} {fuel : Nat}, Reachable t → insertAll t ks fuel = some t1 →
      Reachable t1 := by
  induction ks with
  | nil =>
    intro t t1 fuel h e
    simp only [RBT.insertAll, List.foldlM_nil] at e
    cases e
    exact h
  | cons k ks ih =>
    intro t t1 fuel h e
    simp only [RBT.insertAll, List.foldlM_cons] at e
    rcases hi : t.insert fuel k with _ | s
    · simp [hi] at e
    · simp only [hi] at e
      exact ih (Reachable.insert fuel k h hi) e

theorem sampleTree_reachable : Reachable sampleTree :=
  Reachable.insertAll [5, 3, 8] Reachable.new
    (rfl : RBT.insertAll RedBlackTree.new [5, 3, 8] 4 = some sampleTree)

theorem Inv.insertAll_returns [LinearOrder α] (ks : List α) : ∀ {t : RedBlackTree α} {xs : List α},
    Inv t → Returns t.inorder xs →
    ∃ t1 ys, Returns (RBT.insertAll t ks) t1 ∧ Inv t1 ∧ Returns t1.inorder ys ∧
      ys.Perm (ks ++ xs) ∧ t1.nodeCount = t.nodeCount + ks.length := by
  induction ks with
  | nil =>
    intro t xs h hx
    exact ⟨t, xs, Returns.intro (insertAll_mono [] t) 0 (fun _ _ => rfl), h, hx,
      List.Perm.refl _, rfl⟩
  | cons k ks ih =>
    intro t xs h hx
    obtain ⟨s, xs1, ys1, r1, i1, rx, ry, p1, n1⟩ := h.insert_returns k
    have hxs : xs1 = xs := Returns.unique rx hx
    subst hxs
    obtain ⟨t1, ys, r2, i2, ry2, p2, n2⟩ := ih i1 ry
    obtain ⟨⟨N1, hN1⟩, -⟩ := r1
    obtain ⟨⟨N2, hN2⟩, -⟩ := r2
    refine ⟨t1, ys, Returns.intro (insertAll_mono (k :: ks) t) (max N1 N2) (fun fuel hf => ?_),
      i2, ry2, ?_, by rw [n2, n1, List.length_cons]; omega⟩
    · simp only [RBT.insertAll, List.foldlM_cons, hN1 fuel (le_trans (le_max_left _ _) hf)]
      exact hN2 fuel (le_trans (le_max_right _ _) hf)
    · refine p2.trans ?_
      refine (List.Perm.append_left ks p1).trans ?_
      simp only [List.cons_append]
      exact List.perm_middle

end RBT

namespace RBT

open RedBlackTree

variable {α : Type}

/-- Claim C1: `insert` preserves the red-black colouring.  From every state
reachable by public operations, and likewise from every state whose tree has
the red-black colouring, `insert k` returns, and afterwards the tree is not
empty, the record at `root` is BLACK, no RED node has a RED child and all
root-to-sentinel paths hold the same number of BLACK nodes. -/
theorem insert_preserves_red_black [LinearOrder α] [Inhabited α] (t : RedBlackTree α) (k : α)
    (h : Reachable t ∨ RedBlack t) :
    ∃ t1 T1, Returns (fun n => t.insert n k) t1 ∧ Models t1 T1 ∧ t1.isEmpty = false ∧
      t1.getColor t1.root = some Color.BLACK ∧ T1.color = Color.BLACK ∧ T1.NoRedRed ∧
      T1.EqualBlackPaths := by
  have hrb : RedBlack t := by
    rcases h with h | h
    · exact h.inv.redBlack
    · exact h
  obtain ⟨T, hM, hb, hnr, hp⟩ := hrb
  obtain ⟨t1, T1, e1, h1, w1, c1, -, s1, -⟩ := insert_spec hM ((Tree.WF_iff T).mpr ⟨hnr, hp⟩) hb k
  refine ⟨t1, T1, Returns.intro (insert_mono t k) (T.height + 1)
    (fun fuel hf => e1 fuel (by omega)), h1, ?_, ?_, c1, (Tree.WF_iff T1).mp w1⟩
  · rw [h1.isEmpty, s1]; simp
  · rw [h1.rootColor, c1]

theorem insert_preserves_red_black_witness :
    (Reachable sampleTree ∨ RedBlack sampleTree) ∧
      ∃ t1 T1, Returns (fun n => sampleTree.insert n 4) t1 ∧ Models t1 T1 ∧
        t1.isEmpty = false ∧ t1.getColor t1.root = some Color.BLACK ∧
        T1.color = Color.BLACK ∧ T1.NoRedRed ∧ T1.EqualBlackPaths :=
  ⟨Or.inl sampleTree_reachable,
    insert_preserves_red_black sampleTree 4 (Or.inl sampleTree_reachable)⟩

/-- Claim C2: `remove` preserves the red-black colouring.  Whenever `remove k`
returns true on a reachable state, it does so for every large enough budget
and with the same result, and afterwards the root is BLACK (it is the BLACK
sentinel when the tree has become empty), no RED node has a RED child and all
root-to-sentinel paths hold the same number of BLACK nodes. -/
theorem remove_preserves_red_black [LinearOrder α] [Inhabited α] (t t1 : RedBlackTree α) (k : α)
    (fuel : Nat) (h : Reachable t) (hr : t.remove fuel k = some (t1, true)) :
    Returns (fun n => t.remove n k) (t1, true) ∧
      ∃ T1, Models t1 T1 ∧ t1.getColor t1.root = some Color.BLACK ∧
        T1.color = Color.BLACK ∧ T1.NoRedRed ∧ T1.EqualBlackPaths := by
  obtain ⟨t2, xs, -, r1, i2, -⟩ := h.inv.remove_returns k
  have e := r1.result_eq hr
  rw [← e] at r1
  rw [← (Prod.mk.inj e).1] at i2
  obtain ⟨T1, hM, hb, hnr, hp⟩ := i2.redBlack
  exact ⟨r1, T1, hM, by rw [hM.rootColor, hb], hb, hnr, hp⟩

theorem remove_preserves_red_black_witness :
    Reachable sampleTree ∧ sampleTree.remove 5 3 = some (sampleRemoved 3, true) ∧
      Returns (fun n => sampleTree.remove n 3) (sampleRemoved 3, true) ∧
      ∃ T1, Models (sampleRemoved 3) T1 ∧
        (sampleRemoved 3).getColor (sampleRemoved 3).root = some Color.BLACK ∧
        T1.color = Color.BLACK ∧ T1.NoRedRed ∧ T1.EqualBlackPaths :=
  ⟨sampleTree_reachable, rfl,
    remove_preserves_red_black sampleTree (sampleRemoved 3) 3 5 sampleTree_reachable rfl⟩

/-- Claim C3: the in-order traversal visits the stored keys in
non-decreasing order of the comparator.  For every list `ks` of keys, the
inserts of `ks` into a new tree return, and the traversal of the result
returns a list that is a rearrangement of `ks` (each inserted key once per
insert) in which no key is less than a key visited before it.  Likewise in
every state reached by inserts, removes and clears: the traversal returns a
list `xs` in non-decreasing order with one entry per counted node; after
further inserts of `ks` it is a rearrangement of `ks ++ xs`, after `remove k`
it is `xs` with one entry `k` taken out, after `clear` it is empty, and each
time it is in non-decreasing order. -/
theorem inorder_nondecreasing [LinearOrder α] [Inhabited α] (t : RedBlackTree α)
    (h : Reachable t) (ks : List α) :
    (∃ s ys, Returns (insertAll (RedBlackTree.new : RedBlackTree α) ks) s ∧
      Returns s.inorder ys ∧ ys.Perm ks ∧ ys.Pairwise (fun a b => ¬ b < a)) ∧
    ∃ xs, Returns t.inorder xs ∧ xs.Pairwise (fun a b => ¬ b < a) ∧ t.size = xs.length ∧
      (∃ s ys, Returns (insertAll t ks) s ∧ Returns s.inorder ys ∧ ys.Perm (ks ++ xs) ∧
        ys.Pairwise (fun a b => ¬ b < a)) ∧
      (∀ k, ∃ s b, Returns (fun n => t.remove n k) (s, b) ∧ Returns s.inorder (xs.erase k) ∧
        (xs.erase k).Pairwise (fun a b => ¬ b < a)) ∧
      ∃ s, Returns t.clear s ∧ Returns s.inorder [] := by
  have key : ∀ {u : RedBlackTree α} {zs : List α}, Inv u → Returns u.inorder zs →
      zs.Pairwise (fun a b => ¬ b < a) := by
    intro u zs hu hz
    obtain ⟨ws, rw1, hs, -⟩ := hu.queries
    have e : ws = zs := Returns.unique rw1 hz
    subst e
    exact List.Pairwise.imp (fun hab => not_lt.mpr hab) hs
  constructor
  · obtain ⟨zs, rz, -, hl, -⟩ := (Inv.new : Inv (RedBlackTree.new : RedBlackTree α)).queries
    have hz : zs = [] := List.length_eq_zero.mp hl.symm
    subst hz
    obtain ⟨s, ys, r1, i1, ry, p, -⟩ := Inv.insertAll_returns ks Inv.new rz
    exact ⟨s, ys, r1, ry, by simpa using p, key i1 ry⟩
  · obtain ⟨xs, rx, -, hl, -⟩ := h.inv.queries
    refine ⟨xs, rx, key h.inv rx, hl, ?_, fun k => ?_, ?_⟩
    · obtain ⟨s, ys, r1, i1, ry, p, -⟩ := Inv.insertAll_returns ks h.inv rx
      exact ⟨s, ys, r1, ry, p, key i1 ry⟩
    · obtain ⟨s, zs, rz, r1, i1, hno, hyes⟩ := h.inv.remove_returns k
      have e : zs = xs := Returns.unique rz rx
      subst e
      have hr : Returns s.inorder (zs.erase k) := by
        by_cases hk : k ∈ zs
        · exact (hyes hk).1
        · rw [hno hk, List.erase_of_not_mem hk]; exact rz
      exact ⟨s, decide (k ∈ zs), r1, hr, key i1 hr⟩
    · obtain ⟨s, r1, hm, hc⟩ := h.inv.clear_returns
      obtain ⟨zs, rz, -, hl1, -⟩ := (Inv.of_empty hm hc).queries
      have hz : zs = [] := List.length_eq_zero.mp (by rw [← hl1, hc])
      subst hz
      exact ⟨s, r1, rz⟩

theorem inorder_nondecreasing_witness :
    Reachable sampleTree ∧
      (∃ s ys, Returns (insertAll (RedBlackTree.new : RedBlackTree Nat) [4, 1, 4]) s ∧
        Returns s.inorder ys ∧ ys.Perm [4, 1, 4] ∧ ys.Pairwise (fun a b => ¬ b < a)) ∧
      ∃ xs, Returns sampleTree.inorder xs ∧ xs.Pairwise (fun a b => ¬ b < a) ∧
        sampleTree.size = xs.length ∧
        (∃ s ys, Returns (insertAll sampleTree [4, 1, 4]) s ∧ Returns s.inorder ys ∧
          ys.Perm ([4, 1, 4] ++ xs) ∧ ys.Pairwise (fun a b => ¬ b < a)) ∧
        (∀ k, ∃ s b, Returns (fun n => sampleTree.remove n k) (s, b) ∧
          Returns s.inorder (xs.erase k) ∧ (xs.erase k).Pairwise (fun a b => ¬ b < a)) ∧
        ∃ s, Returns sampleTree.clear s ∧ Returns s.inorder [] :=
  ⟨sampleTree_reachable, inorder_nondecreasing sampleTree sampleTree_reachable [4, 1, 4]⟩

/-- Claim C5: `insert` always adds exactly one entry.  On every reachable state
and for every key `k`, stored already or not, `insert k` returns, the
in-order traversal afterwards is a permutation of `k` followed by the
traversal before, and `size()` has grown by 1. -/
theorem insert_adds_one_entry [LinearOrder α] [Inhabited α] (t : RedBlackTree α) (k : α)
    (h : Reachable t) :
    ∃ t1 xs ys, Returns (fun n => t.insert n k) t1 ∧ Returns t.inorder xs ∧
      Returns t1.inorder ys ∧ ys.Perm (k :: xs) ∧ t1.size = t.size + 1 := by
  obtain ⟨t1, xs, ys, r1, -, rx, ry, p, n1⟩ := h.inv.insert_returns k
  exact ⟨t1, xs, ys, r1, rx, ry, p, n1⟩

theorem insert_adds_one_entry_witness :
    Reachable sampleTree ∧
      ∃ t1 xs ys, Returns (fun n => sampleTree.insert n 5) t1 ∧ Returns sampleTree.inorder xs ∧
        Returns t1.inorder ys ∧ ys.Perm (5 :: xs) ∧ t1.size = sampleTree.size + 1 :=
  ⟨sampleTree_reachable, insert_adds_one_entry sampleTree 5 sampleTree_reachable⟩

/-- Claim C6: a `remove` that returns true deletes exactly one entry.  The key
was visited by the in-order traversal before the call, the traversal afterwards
is the one before with one occurrence of `k` erased, and `size()` has shrunk
by 1; the case of a node with two children is included. -/
theorem remove_erases_one_entry [LinearOrder α] [Inhabited α] (t t1 : RedBlackTree α) (k : α)
    (fuel : Nat) (h : Reachable t) (hr : t.remove fuel k = some (t1, true)) :
    ∃ xs, Returns t.inorder xs ∧ k ∈ xs ∧ Returns t1.inorder (xs.erase k) ∧
      t1.size + 1 = t.size := by
  obtain ⟨t2, xs, rx, r1, -, -, hin⟩ := h.inv.remove_returns k
  have e := Prod.mk.inj (r1.result_eq hr)
  have hk : k ∈ xs := by simpa using e.2.symm
  rw [← e.1] at hin
  exact ⟨xs, rx, hk, (hin hk).1, (hin hk).2⟩

theorem remove_erases_one_entry_witness :
    Reachable sampleTree ∧ sampleTree.remove 5 5 = some (sampleRemoved 5, true) ∧
      ∃ xs, Returns sampleTree.inorder xs ∧ 5 ∈ xs ∧
        Returns (sampleRemoved 5).inorder (xs.erase 5) ∧
        (sampleRemoved 5).size + 1 = sampleTree.size :=
  ⟨sampleTree_reachable, rfl,
    remove_erases_one_entry sampleTree (sampleRemoved 5) 5 5 sampleTree_reachable rfl⟩

/-- Claim C7: `remove(k)` returns true if and only if an entry with a key
equal to `k` was stored before the call.  On every reachable state `remove k`
returns, and its flag is true exactly when `k` is one of the keys the in-order
traversal visits just before the call; it is the value `contains k` returns
just before the call.  In terms of the inserts: right after `insert k` the
call `remove k` returns true, and after the inserts of a list `ks` of keys the
flag of `remove k` is true exactly when `k` is in `ks` or was stored before
them. -/
theorem remove_flag_eq_contains [LinearOrder α] [Inhabited α] (t : RedBlackTree α) (k : α)
    (h : Reachable t) :
    ∃ t1 b xs, Returns t.inorder xs ∧ Returns (fun n => t.remove n k) (t1, b) ∧
      Returns (fun n => t.contains n k) b ∧ (b = true ↔ k ∈ xs) ∧
      (∃ t2 t3, Returns (fun n => t.insert n k) t2 ∧
        Returns (fun n => t2.remove n k) (t3, true)) ∧
      ∀ ks : List α, ∃ s s1, Returns (insertAll t ks) s ∧
        Returns (fun n => s.remove n k) (s1, decide (k ∈ ks ∨ k ∈ xs)) := by
  obtain ⟨t1, xs, rx, r1, -⟩ := h.inv.remove_returns k
  obtain ⟨ys, ry, -, -, -, hc⟩ := h.inv.queries
  have e : ys = xs := Returns.unique ry rx
  subst e
  refine ⟨t1, decide (k ∈ ys), ys, rx, r1, hc k, by simp, ?_, fun ks => ?_⟩
  · obtain ⟨t2, xs1, zs, r2, i2, -, rz, p, -⟩ := h.inv.insert_returns k
    obtain ⟨t3, ws, rw1, r3, -⟩ := i2.remove_returns k
    have e : ws = zs := Returns.unique rw1 rz
    subst e
    have hk : k ∈ ws := p.symm.subset (List.mem_cons_self k xs1)
    exact ⟨t2, t3, r2, by simpa [hk] using r3⟩
  · obtain ⟨s, zs, r2, i2, rz, p, -⟩ := Inv.insertAll_returns ks h.inv rx
    obtain ⟨s1, ws, rw1, r3, -⟩ := i2.remove_returns k
    have e : ws = zs := Returns.unique rw1 rz
    subst e
    have hd : decide (k ∈ ws) = decide (k ∈ ks ∨ k ∈ ys) := by
      have := p.mem_iff (a := k)
      simp only [List.mem_append] at this
      simp only [this]
    rw [hd] at r3
    exact ⟨s, s1, r2, r3⟩

theorem remove_flag_eq_contains_witness :
    Reachable sampleTree ∧
      ∃ t1 b xs, Returns sampleTree.inorder xs ∧
        Returns (fun n => sampleTree.remove n 3) (t1, b) ∧
        Returns (fun n => sampleTree.contains n 3) b ∧ (b = true ↔ 3 ∈ xs) ∧
        (∃ t2 t3, Returns (fun n => sampleTree.insert n 3) t2 ∧
          Returns (fun n => t2.remove n 3) (t3, true)) ∧
        ∀ ks : List Nat, ∃ s s1, Returns (insertAll sampleTree ks) s ∧
          Returns (fun n => s.remove n 3) (s1, decide (3 ∈ ks ∨ 3 ∈ xs)) :=
  ⟨sampleTree_reachable, remove_flag_eq_contains sampleTree 3 sampleTree_reachable⟩

/-- Claim C8: removing an absent key is a no-op.  When `k` is not among the
keys visited by the in-order traversal of a reachable state, `remove k` returns
false and the state afterwards is the state before: same counter, same root and
same records, hence same size, traversal, structure and colours. -/
theorem remove_absent_is_noop [LinearOrder α] [Inhabited α] (t : RedBlackTree α) (k : α)
    (fuel : Nat) (xs : List α) (h : Reachable t) (hx : t.inorder fuel = some xs)
    (hk : k ∉ xs) : Returns (fun n => t.remove n k) (t, false) := by
  obtain ⟨t1, ys, ry, r1, -, hno, -⟩ := h.inv.remove_returns k
  have e : xs = ys := ry.result_eq hx
  subst e
  have ht := hno hk
  subst ht
  simpa [hk] using r1

theorem remove_absent_is_noop_witness :
    Reachable sampleTree ∧ sampleTree.inorder 5 = some [3, 5, 8] ∧ 100 ∉ [3, 5, 8] ∧
      Returns (fun n => sampleTree.remove n 100) (sampleTree, false) :=
  ⟨sampleTree_reachable, rfl, by decide,
    remove_absent_is_noop sampleTree 100 5 [3, 5, 8] sampleTree_reachable rfl (by decide)⟩

/-- Claim C9: in every reachable state `size()` is the number of keys visited
by a full in-order traversal, and the counter `nodeCount` is the number of
nodes of the tree hanging from `root`. -/
theorem size_eq_inorder_length [LinearOrder α] [Inhabited α] (t : RedBlackTree α)
    (h : Reachable t) :
    ∃ xs T, Returns t.inorder xs ∧ t.size = xs.length ∧ Models t T ∧ t.nodeCount = T.size := by
  obtain ⟨T, hM, hwf, hb, hs, hc⟩ := h.inv
  exact ⟨T.keys, T, Returns.intro (inorder_mono t) (T.height + 1)
    (fun fuel hf => inorder_spec hM fuel (by omega)),
    by rw [Tree.length_keys]; exact hc, hM, hc⟩

theorem size_eq_inorder_length_witness :
    Reachable sampleTree ∧
      ∃ xs T, Returns sampleTree.inorder xs ∧ sampleTree.size = xs.length ∧
        Models sampleTree T ∧ sampleTree.nodeCount = T.size :=
  ⟨sampleTree_reachable, size_eq_inorder_length sampleTree sampleTree_reachable⟩

/-- Claim C10: `clear` empties the tree and leaves it usable.  On every
reachable state `clear` returns; afterwards `size()` is 0, `isEmpty()` is true,
the in-order traversal visits nothing and `contains` is false for every key;
and any run of inserts on the cleared tree returns and answers `size`,
`isEmpty`, the in-order traversal and every `contains` exactly as the same run
on a newly constructed tree does. -/
theorem clear_empties_and_stays_usable [LinearOrder α] [Inhabited α] (t : RedBlackTree α)
    (h : Reachable t) :
    ∃ t0, Returns t.clear t0 ∧ t0.size = 0 ∧ t0.isEmpty = true ∧ Returns t0.inorder [] ∧
      (∀ k, Returns (fun n => t0.contains n k) false) ∧
      ∀ ks : List α, ∃ a b xs, Returns (insertAll t0 ks) a ∧
        Returns (insertAll (RedBlackTree.new : RedBlackTree α) ks) b ∧
        a.size = b.size ∧ a.isEmpty = b.isEmpty ∧ Returns a.inorder xs ∧ Returns b.inorder xs ∧
        ∀ k, ∃ c, Returns (fun n => a.contains n k) c ∧ Returns (fun n => b.contains n k) c := by
  obtain ⟨t0, r0, h0, c0⟩ := h.inv.clear_returns
  have i0 : Inv t0 := Inv.of_empty h0 c0
  have q0 : Returns t0.inorder [] := Returns.intro (inorder_mono t0) 1
    (fun fuel hf => inorder_spec h0 fuel (by simpa [Tree.height] using hf))
  have qn : Returns (RedBlackTree.new : RedBlackTree α).inorder [] :=
    Returns.intro (inorder_mono _) 1
      (fun fuel hf => inorder_spec new_models fuel (by simpa [Tree.height] using hf))
  refine ⟨t0, r0, c0, by rw [h0.isEmpty]; rfl, q0, fun k => ?_, fun ks => ?_⟩
  · obtain ⟨xs, rx, -, -, -, hc⟩ := i0.queries
    have e : xs = [] := Returns.unique rx q0
    subst e
    simpa using hc k
  · obtain ⟨a, xs, ra, ia, rxa, pa, na⟩ := Inv.insertAll_returns ks i0 q0
    obtain ⟨b, ys, rb, ib, rxb, pb, nb⟩ := Inv.insertAll_returns ks Inv.new qn
    obtain ⟨xs1, r1, s1, -, e1, hc1⟩ := ia.queries
    obtain ⟨ys1, r2, s2, -, e2, hc2⟩ := ib.queries
    have ex : xs1 = xs := Returns.unique r1 rxa
    have ey : ys1 = ys := Returns.unique r2 rxb
    subst ex
    subst ey
    have hxy : xs1 = ys1 := List.eq_of_perm_of_sorted (pa.trans pb.symm) s1 s2
    subst hxy
    refine ⟨a, b, xs1, ra, rb, ?_, by rw [e1, e2], rxa, rxb, fun k => ⟨_, hc1 k, hc2 k⟩⟩
    show a.nodeCount = b.nodeCount
    rw [na, nb, c0]
    rfl

theorem clear_empties_and_stays_usable_witness :
    Reachable sampleTree ∧
      ∃ t0, Returns sampleTree.clear t0 ∧ t0.size = 0 ∧ t0.isEmpty = true ∧
        Returns t0.inorder [] ∧ (∀ k, Returns (fun n => t0.contains n k) false) ∧
        ∀ ks : List Nat, ∃ a b xs, Returns (insertAll t0 ks) a ∧
          Returns (insertAll (RedBlackTree.new : RedBlackTree Nat) ks) b ∧
          a.size = b.size ∧ a.isEmpty = b.isEmpty ∧ Returns a.inorder xs ∧
          Returns b.inorder xs ∧
          ∀ k, ∃ c, Returns (fun n => a.contains n k) c ∧ Returns (fun n => b.contains n k) c :=
  ⟨sampleTree_reachable, clear_empties_and_stays_usable sampleTree sampleTree_reachable⟩

end RBT

namespace RBT

open RedBlackTree

variable {α : Type}

theorem Returns.of_run {β : Type} {f : Nat → Option β} {r : β} (hm : FuelMono f) {n : Nat}
    (h : f n = some r) : Returns f r :=
  Returns.intro hm n (fun fuel hf => hm n fuel r hf h)

/-- Claim C11: the example scenario.  The inserts of 5, 3, 8, 1, 4, 7, 9 on a
new tree return and the in-order traversal is `[1,3,4,5,7,8,9]`; `contains(4)`
is true; `remove(3)` returns true, after which `contains(3)` is false and the
traversal is `[1,4,5,7,8,9]`; `remove(100)` returns false and leaves the state
as it was; `clear()` returns a state with `size() == 0` and `isEmpty()` true. -/
theorem example_scenario :
    Returns (insertAll RedBlackTree.new [5, 3, 8, 1, 4, 7, 9]) scenarioTree ∧
      Returns scenarioTree.inorder [1, 3, 4, 5, 7, 8, 9] ∧
      Returns (fun n => scenarioTree.contains n 4) true ∧
      Returns (fun n => scenarioTree.remove n 3) (scenarioRemoved, true) ∧
      Returns (fun n => scenarioRemoved.contains n 3) false ∧
      Returns scenarioRemoved.inorder [1, 4, 5, 7, 8, 9] ∧
      Returns (fun n => scenarioRemoved.remove n 100) (scenarioRemoved, false) ∧
      Returns scenarioRemoved.clear scenarioCleared ∧
      scenarioCleared.size = 0 ∧ scenarioCleared.isEmpty = true :=
  ⟨Returns.of_run (insertAll_mono _ _)
      (rfl : insertAll RedBlackTree.new [5, 3, 8, 1, 4, 7, 9] 6 = some scenarioTree),
    Returns.of_run (inorder_mono _) (rfl : scenarioTree.inorder 6 = some [1, 3, 4, 5, 7, 8, 9]),
    Returns.of_run (contains_mono _ _) (rfl : scenarioTree.contains 6 4 = some true),
    Returns.of_run (remove_mono _ _)
      (rfl : scenarioTree.remove 6 3 = some (scenarioRemoved, true)),
    Returns.of_run (contains_mono _ _) (rfl : scenarioRemoved.contains 6 3 = some false),
    Returns.of_run (inorder_mono _) (rfl : scenarioRemoved.inorder 6 = some [1, 4, 5, 7, 8, 9]),
    Returns.of_run (remove_mono _ _)
      (rfl : scenarioRemoved.remove 6 100 = some (scenarioRemoved, false)),
    Returns.of_run (clear_mono _) (rfl : scenarioRemoved.clear 6 = some scenarioCleared),
    rfl, rfl⟩

end RBT

namespace RBT

open RedBlackTree

variable {α : Type}

theorem Rep.determines_tree {m : Ptr → Option (Node α)} {NIL : Ptr} (T : Tree α) :
    ∀ (T1 : Tree α) (p p1 : Ptr), Rep m NIL p T → Rep m NIL p1 T1 →
      T.ptr NIL = T1.ptr NIL → (∀ a ∈ T.addrs, a ≠ NIL) → (∀ a ∈ T1.addrs, a ≠ NIL) →
      T = T1 := by
  induction T with
  | nil =>
    intro T1 p p1 _ _ he _ h1
    cases T1 with
    | nil => rfl
    | node a c l k r =>
      simp only [Tree.ptr_nil, Tree.ptr_node] at he
      exact absurd he.symm (h1 a (by simp [Tree.addrs]))
  | node a c l k r ihl ihr =>
    intro T1 p p1 hr hr1 he h0 h1
    cases T1 with
    | nil =>
      simp only [Tree.ptr_nil, Tree.ptr_node] at he
      exact absurd he (h0 a (by simp [Tree.addrs]))
    | node a1 c1 l1 k1 r1 =>
      simp only [Tree.ptr_node] at he
      subst he
      obtain ⟨e, hl, hrr⟩ := hr
      obtain ⟨e1, hl1, hrr1⟩ := hr1
      rw [e] at e1
      simp only [Option.some.injEq, Node.mk.injEq] at e1
      obtain ⟨rfl, rfl, -, el, er⟩ := e1
      have i1 := ihl l1 a a hl hl1 el (fun b hb => h0 b (by simp [Tree.addrs, hb]))
        (fun b hb => h1 b (by simp [Tree.addrs, hb]))
      have i2 := ihr r1 a a hrr hrr1 er (fun b hb => h0 b (by simp [Tree.addrs, hb]))
        (fun b hb => h1 b (by simp [Tree.addrs, hb]))
      rw [i1, i2]

theorem Models.unique_tree {t : RedBlackTree α} {T T1 : Tree α} (h : Models t T)
    (h1 : Models t T1) : T = T1 :=
  Rep.determines_tree T T1 nullptr nullptr h.rep h1.rep (h.root.symm.trans h1.root)
    (fun a ha => (h.addrsOk.2 a ha).2.1) (fun a ha => (h1.addrsOk.2 a ha).2.1)

theorem Tree.weakSearchTree_of_sorted [LinearOrder α] (T : Tree α)
    (h : T.keys.Sorted (· ≤ ·)) : T.WeakSearchTree := by
  induction T with
  | nil => trivial
  | node a c l k r ihl ihr =>
    obtain ⟨s1, s2, b1, b2⟩ := Tree.sorted_node h
    exact ⟨fun x hx => not_lt.mpr (b1 x hx), fun x hx => not_lt.mpr (b2 x hx), ihl s1, ihr s2⟩

theorem Tree.searchTree_of_sorted_nodup [LinearOrder α] (T : Tree α)
    (h : T.keys.Sorted (· ≤ ·)) (hn : T.keys.Nodup) : T.SearchTree := by
  induction T with
  | nil => trivial
  | node a c l k r ihl ihr =>
    obtain ⟨s1, s2, b1, b2⟩ := Tree.sorted_node h
    simp only [Tree.keys, List.nodup_append, List.nodup_cons] at hn
    obtain ⟨n1, ⟨n2, n3⟩, n4⟩ := hn
    refine ⟨fun x hx => lt_of_le_of_ne (b1 x hx) fun e => ?_, fun x hx => not_lt.mpr (b2 x hx),
      ihl s1 n1, ihr s2 n3⟩
    subst e
    exact n4 hx (List.mem_cons_self _ _)

theorem tripleTree_reachable : Reachable tripleTree :=
  Reachable.insertAll [1, 1, 1] Reachable.new
    (rfl : RBT.insertAll RedBlackTree.new [1, 1, 1] 4 = some tripleTree)

theorem tripleTree_models : Models tripleTree
    (Tree.node 3 Color.BLACK (Tree.node 2 Color.RED Tree.nil 1 Tree.nil) 1
      (Tree.node 4 Color.RED Tree.nil 1 Tree.nil)) :=
  ⟨rfl, ⟨rfl, ⟨rfl, trivial, trivial⟩, ⟨rfl, trivial, trivial⟩⟩,
    ⟨by decide, by decide, 0, 0, rfl⟩, ⟨by decide, by decide⟩⟩

/-- Claim C12, refuted as stated: after `insert(1)` three times on a new tree
the root holds the key 1 and so does its left child, so the tree the state
represents has a left subtree whose key does not compare less than the key of
its node. -/
theorem strict_search_tree_fails :
    Reachable tripleTree ∧ (∃ T, Models tripleTree T) ∧
      ∀ T, Models tripleTree T → ¬ T.SearchTree := by
  refine ⟨tripleTree_reachable, ⟨_, tripleTree_models⟩, fun T hT hs => ?_⟩
  rw [Models.unique_tree hT tripleTree_models] at hs
  exact absurd (hs.1 1 (by simp [Tree.keys])) (by decide)

/-- Claim C12, amended: in every reachable state, duplicate keys included, the
tree is a search tree in the weak sense: at every node no key of the left
subtree compares greater than the key of the node and no key of the right
subtree compares less; the left keys compare strictly less whenever no key is
stored twice. -/
theorem weak_search_tree [LinearOrder α] [Inhabited α] (t : RedBlackTree α)
    (h : Reachable t) :
    ∃ T, Models t T ∧ T.WeakSearchTree ∧ (T.keys.Nodup → T.SearchTree) := by
  obtain ⟨T, hM, -, -, hs, -⟩ := h.inv
  exact ⟨T, hM, Tree.weakSearchTree_of_sorted T hs, Tree.searchTree_of_sorted_nodup T hs⟩

theorem weak_search_tree_witness :
    Reachable tripleTree ∧
      ∃ T, Models tripleTree T ∧ T.WeakSearchTree ∧ (T.keys.Nodup → T.SearchTree) :=
  ⟨tripleTree_reachable, weak_search_tree tripleTree tripleTree_reachable⟩

end RBT

namespace RBT

open RedBlackTree

variable {α : Type}

theorem pairTree_reachable : Reachable pairTree :=
  Reachable.insertAll [1, 1] Reachable.new
    (rfl : RBT.insertAll RedBlackTree.new [1, 1] 4 = some pairTree)

/-- Claim C13, refuted as stated: after `insert(1)` twice on a new tree,
`remove(1)` returns true and `contains(1)` is still true afterwards. -/
theorem removed_key_still_member :
    Reachable pairTree ∧ Returns (fun n => pairTree.remove n 1) (pairRemoved, true) ∧
      Returns (fun n => pairRemoved.contains n 1) true :=
  ⟨pairTree_reachable,
    Returns.of_run (remove_mono _ _) (rfl : pairTree.remove 4 1 = some (pairRemoved, true)),
    Returns.of_run (contains_mono _ _) (rfl : pairRemoved.contains 4 1 = some true)⟩

/-- Claim C13, amended: when `remove k` returns true on a reachable state, one
entry with the key `k` is gone: right afterwards `contains k` returns true
exactly when `k` was stored at least twice before the call, so it returns
false when `k` was stored once. -/
theorem removed_key_member_iff_duplicate [LinearOrder α] [Inhabited α]
    (t t1 : RedBlackTree α) (k : α) (fuel : Nat) (h : Reachable t)
    (hr : t.remove fuel k = some (t1, true)) :
    ∃ xs, Returns t.inorder xs ∧ Returns (fun n => t1.contains n k) (decide (2 ≤ xs.count k)) ∧
      (xs.count k = 1 → Returns (fun n => t1.contains n k) false) := by
  obtain ⟨t2, xs, rx, r1, i2, -, hin⟩ := h.inv.remove_returns k
  have e := Prod.mk.inj (r1.result_eq hr)
  have hk : k ∈ xs := by simpa using e.2.symm
  rw [← e.1] at hin i2
  obtain ⟨ys, ry, -, -, -, hc⟩ := i2.queries
  have hy : ys = xs.erase k := Returns.unique ry (hin hk).1
  subst hy
  have hd : decide (k ∈ xs.erase k) = decide (2 ≤ xs.count k) := by
    have h1 : k ∈ xs.erase k ↔ 0 < (xs.erase k).count k := List.count_pos_iff.symm
    rw [List.count_erase_self] at h1
    have h2 : (0 < xs.count k - 1) ↔ 2 ≤ xs.count k := by omega
    simp only [h1, h2]
  have hc1 := hc k
  rw [hd] at hc1
  refine ⟨xs, rx, hc1, fun h1 => ?_⟩
  simpa [h1] using hc1

theorem removed_key_member_iff_duplicate_witness :
    Reachable sampleTree ∧ sampleTree.remove 5 3 = some (sampleRemoved 3, true) ∧
      ∃ xs, Returns sampleTree.inorder xs ∧
        Returns (fun n => (sampleRemoved 3).contains n 3) (decide (2 ≤ xs.count 3)) ∧
        (xs.count 3 = 1 → Returns (fun n => (sampleRemoved 3).contains n 3) false) :=
  ⟨sampleTree_reachable, rfl,
    removed_key_member_iff_duplicate sampleTree (sampleRemoved 3) 3 5 sampleTree_reachable rfl⟩

theorem Op.step_mono [LinearOrder α] (s : RedBlackTree α × Tally) (op : Op α) :
    FuelMono (fun n => Op.step n s op) := by
  intro n m r hnm h
  cases op with
  | insert k =>
    simp only [Op.step, Option.map_eq_some'] at h ⊢
    obtain ⟨t, e, rfl⟩ := h
    exact ⟨t, insert_mono s.1 k n m t hnm e, rfl⟩
  | remove k =>
    simp only [Op.step, Option.map_eq_some'] at h ⊢
    obtain ⟨t, e, rfl⟩ := h
    exact ⟨t, remove_mono s.1 k n m t hnm e, rfl⟩
  | clear =>
    simp only [Op.step, Option.map_eq_some'] at h ⊢
    obtain ⟨t, e, rfl⟩ := h
    exact ⟨t, clear_mono s.1 n m t hnm e, rfl⟩

theorem foldlM_step_mono [LinearOrder α] (ops : List (Op α)) :
    ∀ s : RedBlackTree α × Tally, FuelMono (fun n => ops.foldlM (Op.step n) s) := by
  induction ops with
  | nil => intro s; exact FuelMono.const (some s)
  | cons op ops ih =>
    intro s
    have : (fun n => (op :: ops).foldlM (Op.step n) s) =
        fun n => (Op.step n s op).bind (fun s1 => ops.foldlM (Op.step n) s1) := by
      funext n
      simp [List.foldlM_cons]
    rw [this]
    exact FuelMono.bind (Op.step_mono s op) ih

theorem foldlM_step_returns [LinearOrder α] (ops : List (Op α)) :
    ∀ s : RedBlackTree α × Tally, Inv s.1 → s.1.nodeCount + s.2.removesLive = s.2.insertsLive →
      ∃ r, Returns (fun n => ops.foldlM (Op.step n) s) r ∧ Inv r.1 ∧
        r.1.nodeCount + r.2.removesLive = r.2.insertsLive ∧
        (Op.clear ∉ ops → s.1.nodeCount + s.2.removes = s.2.inserts →
          r.1.nodeCount + r.2.removes = r.2.inserts) := by
  induction ops with
  | nil =>
    intro s hi hc
    exact ⟨s, Returns.intro (foldlM_step_mono [] s) 0 (fun _ _ => rfl), hi, hc, fun _ h => h⟩
  | cons op ops ih =>
    intro s hi hc
    have key : ∃ s1, Returns (fun n => Op.step n s op) s1 ∧ Inv s1.1 ∧
        s1.1.nodeCount + s1.2.removesLive = s1.2.insertsLive ∧
        (op ≠ Op.clear → s.1.nodeCount + s.2.removes = s.2.inserts →
          s1.1.nodeCount + s1.2.removes = s1.2.inserts) := by
      cases op with
      | insert k =>
        obtain ⟨t1, xs, ys, r1, i1, -, -, -, n1⟩ := hi.insert_returns k
        obtain ⟨⟨N, hN⟩, -⟩ := r1
        refine ⟨(t1, ⟨s.2.inserts + 1, s.2.removes, s.2.insertsLive + 1, s.2.removesLive⟩),
          Returns.intro (Op.step_mono s _) N (fun fuel hf => ?_), i1, ?_, ?_⟩
        · simp only [Op.step, hN fuel hf, Option.map_some']
          try rfl
        · simp only; omega
        · intro _ h0; simp only; omega
      | remove k =>
        obtain ⟨t1, xs, rx, r1, i1, hno, hin⟩ := hi.remove_returns k
        obtain ⟨⟨N, hN⟩, -⟩ := r1
        refine ⟨(t1, if decide (k ∈ xs) = true then
          ⟨s.2.inserts, s.2.removes + 1, s.2.insertsLive, s.2.removesLive + 1⟩ else s.2),
          Returns.intro (Op.step_mono s _) N (fun fuel hf => ?_), i1, ?_, ?_⟩
        · simp only [Op.step, hN fuel hf, Option.map_some']
          try rfl
        · by_cases hk : k ∈ xs
          · have := (hin hk).2
            simp only [hk, decide_True, if_true]; omega
          · have := hno hk
            subst this
            simp only [hk, decide_False, Bool.false_eq_true, if_false]; exact hc
        · intro _ h0
          by_cases hk : k ∈ xs
          · have := (hin hk).2
            simp only [hk, decide_True, if_true]; omega
          · have := hno hk
            subst this
            simp only [hk, decide_False, Bool.false_eq_true, if_false]; exact h0
      | clear =>
        obtain ⟨t1, r1, h1, c1⟩ := hi.clear_returns
        obtain ⟨⟨N, hN⟩, -⟩ := r1
        refine ⟨(t1, ⟨s.2.inserts, s.2.removes, 0, 0⟩),
          Returns.intro (Op.step_mono s _) N (fun fuel hf => ?_), Inv.of_empty h1 c1, ?_, ?_⟩
        · simp only [Op.step, hN fuel hf, Option.map_some']
          try rfl
        · simp only [c1]
        · intro hne; exact absurd rfl hne
    obtain ⟨s1, r1, i1, c1, p1⟩ := key
    obtain ⟨r, r2, i2, c2, p2⟩ := ih s1 i1 c1
    obtain ⟨⟨N1, hN1⟩, -⟩ := r1
    obtain ⟨⟨N2, hN2⟩, -⟩ := r2
    refine ⟨r, Returns.intro (foldlM_step_mono (op :: ops) s) (max N1 N2) (fun fuel hf => ?_),
      i2, c2, fun hcl h0 => ?_⟩
    · simp only [List.foldlM_cons, hN1 fuel (le_trans (le_max_left _ _) hf)]
      exact hN2 fuel (le_trans (le_max_right _ _) hf)
    · simp only [List.mem_cons, not_or] at hcl
      exact p2 hcl.2 (p1 (fun e => hcl.1 e.symm) h0)

/-- Claim C14, refuted as stated: after `insert(1)` and `clear()` on a new tree
`size()` is 0, while one `insert` and no successful `remove` have been counted
since construction. -/
theorem size_not_inserts_minus_removes :
    Returns (runOps RedBlackTree.new [Op.insert 1, Op.clear]) clearedRun ∧
      clearedRun.1.size = 0 ∧ clearedRun.2.inserts - clearedRun.2.removes = 1 :=
  ⟨Returns.of_run (foldlM_step_mono _ _)
    (rfl : runOps RedBlackTree.new [Op.insert 1, Op.clear] 3 = some clearedRun), rfl, rfl⟩

/-- Claim C14, amended: every run of `insert`, `remove` and `clear` calls on a
new tree returns, and afterwards `size()` is the number of `insert` calls minus
the number of `remove` calls that returned true, both counted since the last
`clear` (since construction when the run has no `clear`). -/
theorem size_eq_inserts_minus_removes_since_clear [LinearOrder α] [Inhabited α]
    (ops : List (Op α)) :
    ∃ r, Returns (runOps (RedBlackTree.new : RedBlackTree α) ops) r ∧
      r.1.size = r.2.insertsLive - r.2.removesLive ∧ r.2.removesLive ≤ r.2.insertsLive ∧
      (Op.clear ∉ ops → r.1.size = r.2.inserts - r.2.removes ∧ r.2.removes ≤ r.2.inserts) := by
  obtain ⟨r, r1, -, c, p⟩ := foldlM_step_returns ops
    ((RedBlackTree.new : RedBlackTree α), ⟨0, 0, 0, 0⟩) Inv.new rfl
  refine ⟨r, r1, ?_, ?_, fun h => ?_⟩
  · show r.1.nodeCount = _; omega
  · omega
  · have := p h rfl
    exact ⟨by show r.1.nodeCount = _; omega, by omega⟩

end RBT

namespace RBT

open RedBlackTree

variable {α : Type}

theorem Tree.WF.height_le {T : Tree α} (h : T.WF) :
    T.height ≤ 2 * T.bh + (if T.color = Color.RED then 1 else 0) := by
  induction T with
  | nil => simp [Tree.height, Tree.bh]
  | node a c l k r ihl ihr =>
    obtain ⟨h1, h2, h3, h4⟩ := h
    have i1 := ihl h1
    have i2 := ihr h2
    cases c with
    | RED =>
      obtain ⟨cl, cr⟩ := h4 rfl
      simp only [cl, cr, reduceCtorEq, if_false, add_zero] at i1 i2
      simp only [Tree.height, Tree.bh, Tree.color_node, blk_red, if_true, add_zero]
      omega
    | BLACK =>
      simp only [Tree.height, Tree.bh, Tree.color_node, blk_black, reduceCtorEq, if_false,
        add_zero]
      split at i1 <;> split at i2 <;> omega

theorem Tree.WF.pow_bh_le {T : Tree α} (h : T.WF) : 2 ^ T.bh ≤ T.size + 1 := by
  induction T with
  | nil => simp [Tree.bh, Tree.size]
  | node a c l k r ihl ihr =>
    obtain ⟨h1, h2, h3, -⟩ := h
    have i1 := ihl h1
    have i2 := ihr h2
    rw [← h3] at i2
    have hb : blk c ≤ 1 := by cases c <;> simp [blk]
    have hp : 2 ^ (l.bh + blk c) ≤ 2 ^ (l.bh + 1) :=
      Nat.pow_le_pow_right (by decide) (by omega)
    simp only [Tree.bh, Tree.size]
    rw [Nat.pow_succ] at hp
    omega

/-- Claim C15: logarithmic height.  In every reachable state with `n` stored
nodes, the height `h` of the tree (the largest number of real nodes on a path
from the root to the sentinel) satisfies `2 ^ ceil(h/2) <= n + 1`, that is
`h <= 2 * log2 (n + 1)`. -/
theorem height_logarithmic [LinearOrder α] [Inhabited α] (t : RedBlackTree α)
    (h : Reachable t) :
    ∃ T, Models t T ∧ T.size = t.size ∧ 2 ^ ((T.height + 1) / 2) ≤ t.size + 1 ∧
      T.height ≤ 2 * Nat.log 2 (t.size + 1) := by
  obtain ⟨T, hM, hwf, hb, -, hc⟩ := h.inv
  have h1 := hwf.height_le
  simp only [hb, reduceCtorEq, if_false, add_zero] at h1
  have h2 := hwf.pow_bh_le
  have hs : t.size = T.size := hc
  have h3 : 2 ^ ((T.height + 1) / 2) ≤ 2 ^ T.bh :=
    Nat.pow_le_pow_right (by decide) (by omega)
  have h4 : T.bh ≤ Nat.log 2 (T.size + 1) :=
    Nat.le_log_of_pow_le (by decide) h2
  refine ⟨T, hM, hs.symm, ?_, ?_⟩
  · rw [hs]; exact le_trans h3 h2
  · rw [hs]; omega

theorem height_logarithmic_witness :
    Reachable scenarioTree ∧
      ∃ T, Models scenarioTree T ∧ T.size = scenarioTree.size ∧
        2 ^ ((T.height + 1) / 2) ≤ scenarioTree.size + 1 ∧
        T.height ≤ 2 * Nat.log 2 (scenarioTree.size + 1) :=
  have hr : Reachable scenarioTree :=
    Reachable.insertAll [5, 3, 8, 1, 4, 7, 9] Reachable.new
      (rfl : RBT.insertAll RedBlackTree.new [5, 3, 8, 1, 4, 7, 9] 6 = some scenarioTree)
  ⟨hr, height_logarithmic scenarioTree hr⟩

end RBT

namespace RBT

open RedBlackTree

variable {α : Type}

theorem Tree.focus (T : Tree α) (x : Ptr) (hx : x ∈ T.addrs) :
    ∃ ctx c l k r, T = Ctx.plug ctx (Tree.node x c l k r) := by
  induction T with
  | nil => simp [Tree.addrs] at hx
  | node a c l k r ihl ihr =>
    simp only [Tree.addrs, List.mem_cons, List.mem_append] at hx
    rcases hx with rfl | hx | hx
    · exact ⟨[], c, l, k, r, rfl⟩
    · obtain ⟨ctx, c1, l1, k1, r1, e⟩ := ihl hx
      refine ⟨ctx ++ [Frame.L a c k r], c1, l1, k1, r1, ?_⟩
      rw [Ctx.plug_append, ← e]; rfl
    · obtain ⟨ctx, c1, l1, k1, r1, e⟩ := ihr hx
      refine ⟨ctx ++ [Frame.R a c l k], c1, l1, k1, r1, ?_⟩
      rw [Ctx.plug_append, ← e]; rfl

theorem Ctx.nodes_plug_congr {T1 T2 : Tree α} (ctx : Ctx α) (h : T1.nodes = T2.nodes) :
    (Ctx.plug ctx T1).nodes = (Ctx.plug ctx T2).nodes := by
  induction ctx generalizing T1 T2 with
  | nil => exact h
  | cons f fs ih =>
    apply ih
    cases f <;> simp [Frame.fill, Tree.nodes, h]

theorem Tree.keys_eq_nodes (T : Tree α) : T.keys = T.nodes.map (fun n => n.2.2) := by
  induction T with
  | nil => rfl
  | node a c l k r ihl ihr => simp [Tree.keys, Tree.nodes, ihl, ihr]

theorem Ctx.ptr_plug_cons (NIL : Ptr) (f : Frame α) (fs : Ctx α) (X Y : Tree α) :
    (Ctx.plug (f :: fs) X).ptr NIL = (Ctx.plug (f :: fs) Y).ptr NIL := by
  induction fs generalizing f X Y with
  | nil => cases f <;> rfl
  | cons g gs ih => exact ih g (f.fill X) (f.fill Y)

theorem rotate_root {t t1 : RedBlackTree α} {ctx : Ctx α} {S S1 : Tree α} {x y : Ptr}
    (h : ModelsAt t ctx S) (h1 : ModelsAt t1 ctx S1) (hN : t1.NIL = t.NIL)
    (hx : S.ptr t.NIL = x) (hy : S1.ptr t.NIL = y) :
    (t.root = x → t1.root = y) ∧ (t.root ≠ x → t1.root = t.root) := by
  have r := ((modelsAt_iff _ _).mp h).root
  have r1 := ((modelsAt_iff _ _).mp h1).root
  rw [hN] at r1
  rcases ctx with _ | ⟨f, fs⟩
  · simp only [Ctx.plug] at r r1
    rw [r, r1, hx, hy]
    exact ⟨fun _ => rfl, fun hne => absurd rfl hne⟩
  · have hne := h.ptr_ne_root
    simp only [eq_iff_iff, iff_false] at hne
    rw [hx] at hne
    refine ⟨fun e => absurd e.symm hne, fun _ => ?_⟩
    rw [r, r1]
    exact Ctx.ptr_plug_cons t.NIL f fs S1 S

/-- Claim C16: rotations preserve content and order.  In any state that
represents a tree, `rotateLeft(x)` on a real node `x` whose right child `y` is
real returns; the in-order sequence of nodes, with their keys and colours, and
the node count are as before; `x` has become the left child of `y`; `root` is
`y` if `x` was the root and is unchanged otherwise.  Symmetrically for
`rotateRight(y)` on a real node `y` whose left child `x` is real. -/
theorem rotations_preserve_content (t : RedBlackTree α) (T : Tree α) (hM : Models t T) :
    (∀ x y, x ∈ T.addrs → t.getRight x = some y → y ≠ t.NIL →
      ∃ t1 T1, t.rotateLeft x = some t1 ∧ Models t1 T1 ∧ T1.nodes = T.nodes ∧
        T1.keys = T.keys ∧ t1.nodeCount = t.nodeCount ∧ t1.getLeft y = some x ∧
        t1.getParent x = some y ∧ (t.root = x → t1.root = y) ∧
        (t.root ≠ x → t1.root = t.root)) ∧
    (∀ y x, y ∈ T.addrs → t.getLeft y = some x → x ≠ t.NIL →
      ∃ t1 T1, t.rotateRight y = some t1 ∧ Models t1 T1 ∧ T1.nodes = T.nodes ∧
        T1.keys = T.keys ∧ t1.nodeCount = t.nodeCount ∧ t1.getRight x = some y ∧
        t1.getParent y = some x ∧ (t.root = y → t1.root = x) ∧
        (t.root ≠ y → t1.root = t.root)) := by
  constructor
  · intro x y hx hr hy
    obtain ⟨ctx, cx, a, kx, r, rfl⟩ := Tree.focus T x hx
    have h := (modelsAt_iff ctx _).mpr hM
    have hr2 := h.getRight
    rw [hr] at hr2
    rcases r with _ | ⟨y1, cy, b, ky, c⟩
    · exact absurd (Option.some.inj hr2) hy
    simp only [Tree.ptr_node, Option.some.injEq] at hr2
    subst hr2
    obtain ⟨t1, e1, h1, f1⟩ := rotateLeft_at h
    have hn : (Ctx.plug ctx (Tree.node y cy (Tree.node x cx a kx b) ky c)).nodes =
        (Ctx.plug ctx (Tree.node x cx a kx (Tree.node y cy b ky c))).nodes :=
      Ctx.nodes_plug_congr ctx (by simp [Tree.nodes])
    refine ⟨t1, _, e1, (modelsAt_iff ctx _).mp h1, hn, ?_, f1.2.1, ?_, ?_,
      rotate_root h h1 f1.1 rfl rfl⟩
    · rw [Tree.keys_eq_nodes, Tree.keys_eq_nodes, hn]
    · have := h1.getLeft
      simpa [Tree.ptr_node] using this
    · exact h1.downL.getParent
  · intro y x hy hl hx
    obtain ⟨ctx, cy, l, ky, c, rfl⟩ := Tree.focus T y hy
    have h := (modelsAt_iff ctx _).mpr hM
    have hl2 := h.getLeft
    rw [hl] at hl2
    rcases l with _ | ⟨x1, cx, a, kx, b⟩
    · exact absurd (Option.some.inj hl2) hx
    simp only [Tree.ptr_node, Option.some.injEq] at hl2
    subst hl2
    obtain ⟨t1, e1, h1, f1⟩ := rotateRight_at h
    have hn : (Ctx.plug ctx (Tree.node x cx a kx (Tree.node y cy b ky c))).nodes =
        (Ctx.plug ctx (Tree.node y cy (Tree.node x cx a kx b) ky c)).nodes :=
      Ctx.nodes_plug_congr ctx (by simp [Tree.nodes])
    refine ⟨t1, _, e1, (modelsAt_iff ctx _).mp h1, hn, ?_, f1.2.1, ?_, ?_,
      rotate_root h h1 f1.1 rfl rfl⟩
    · rw [Tree.keys_eq_nodes, Tree.keys_eq_nodes, hn]
    · have := h1.getRight
      simpa [Tree.ptr_node] using this
    · exact h1.downR.getParent

theorem sampleTree_models : Models sampleTree sampleShape :=
  ⟨rfl, ⟨rfl, ⟨rfl, trivial, trivial⟩, ⟨rfl, trivial, trivial⟩⟩,
    ⟨by decide, by decide, 0, 0, rfl⟩, ⟨by decide, by decide⟩⟩

theorem rotations_preserve_content_witness :
    Models sampleTree sampleShape ∧
      (2 ∈ sampleShape.addrs ∧ sampleTree.getRight 2 = some 4 ∧ 4 ≠ sampleTree.NIL) ∧
      (2 ∈ sampleShape.addrs ∧ sampleTree.getLeft 2 = some 3 ∧ 3 ≠ sampleTree.NIL) ∧
      (∃ t1 T1, sampleTree.rotateLeft 2 = some t1 ∧ Models t1 T1 ∧
        T1.nodes = sampleShape.nodes ∧ T1.keys = sampleShape.keys ∧
        t1.nodeCount = sampleTree.nodeCount ∧ t1.getLeft 4 = some 2 ∧
        t1.getParent 2 = some 4 ∧ (sampleTree.root = 2 → t1.root = 4) ∧
        (sampleTree.root ≠ 2 → t1.root = sampleTree.root)) ∧
      (∃ t1 T1, sampleTree.rotateRight 2 = some t1 ∧ Models t1 T1 ∧
        T1.nodes = sampleShape.nodes ∧ T1.keys = sampleShape.keys ∧
        t1.nodeCount = sampleTree.nodeCount ∧ t1.getRight 3 = some 2 ∧
        t1.getParent 2 = some 3 ∧ (sampleTree.root = 2 → t1.root = 3) ∧
        (sampleTree.root ≠ 2 → t1.root = sampleTree.root)) :=
  ⟨sampleTree_models, ⟨by decide, rfl, by decide⟩, ⟨by decide, rfl, by decide⟩,
    (rotations_preserve_content sampleTree sampleShape sampleTree_models).1 2 4
      (by decide) rfl (by decide),
    (rotations_preserve_content sampleTree sampleShape sampleTree_models).2 2 3
      (by decide) rfl (by decide)⟩

end RBT

namespace RBT

open RedBlackTree

variable {α : Type}

theorem Ctx.bh_plug_congr {S1 S2 : Tree α} (ctx : Ctx α) (h : S1.bh = S2.bh) :
    (Ctx.plug ctx S1).bh = (Ctx.plug ctx S2).bh := by
  induction ctx generalizing S1 S2 with
  | nil => exact h
  | cons f fs ih =>
    apply ih
    cases f <;> simp [Frame.fill, Tree.bh, h]

theorem Ctx.bh_plug_frame {S1 S2 : Tree α} (c1 c2 : Ctx α) (z y : Ptr) (c : Color)
    (l : Tree α) (k ky : α) (h : S1.bh = S2.bh) :
    (Ctx.plug (c1 ++ Frame.R z c l k :: c2) S1).bh =
      (Ctx.plug (c1 ++ Frame.R y c l ky :: c2) S2).bh := by
  induction c1 generalizing S1 S2 with
  | nil => exact Ctx.bh_plug_congr c2 (by simp [Frame.fill, Tree.bh])
  | cons f fs ih =>
    apply ih
    cases f <;> simp [Frame.fill, Tree.bh, h]

theorem splice_red_bh {ctx ctx1 : Ctx α} {z : Ptr} {c : Color} {l r X : Tree α} {k : α}
    (hs : Ctx.splice ctx (Tree.node z c l k r) = some (ctx1, X, Color.RED))
    (hwf : (Ctx.plug ctx (Tree.node z c l k r)).WF)
    (hb : (Ctx.plug ctx (Tree.node z c l k r)).color = Color.BLACK) :
    (Ctx.plug ctx1 X).bh = (Ctx.plug ctx (Tree.node z c l k r)).bh := by
  rcases l with _ | ⟨l0, cl, ll, kl, lr⟩
  · simp only [Ctx.splice, Option.some.injEq, Prod.mk.injEq] at hs
    obtain ⟨rfl, rfl, rfl⟩ := hs
    obtain ⟨-, w2, -⟩ := Ctx.WF.of_plug hwf hb
    simp only [Tree.WF, Tree.bh] at w2
    exact Ctx.bh_plug_congr ctx (by simp only [Tree.bh, blk_red, add_zero]; exact w2.2.2.1.symm)
  rcases r with _ | ⟨r0, cr, rl, kr, rr⟩
  · simp only [Ctx.splice, Option.some.injEq, Prod.mk.injEq] at hs
    obtain ⟨rfl, rfl, rfl⟩ := hs
    refine Ctx.bh_plug_congr ctx ?_
    show _ = (Tree.node l0 cl ll kl lr).bh + blk Color.RED
    simp only [blk_red, add_zero]
  obtain ⟨cR, y, cy, ky, yr, h1, h2, -⟩ := Ctx.leftmost_spec r0 cr rl rr kr []
  simp only [Ctx.splice, h1, List.append_nil, Option.some.injEq, Prod.mk.injEq] at hs
  obtain ⟨rfl, rfl, rfl⟩ := hs
  have hplug : Ctx.plug ctx (Tree.node z c (Tree.node l0 cl ll kl lr) k
      (Tree.node r0 cr rl kr rr)) =
      Ctx.plug (cR ++ Frame.R z c (Tree.node l0 cl ll kl lr) k :: ctx)
        (Tree.node y Color.RED Tree.nil ky yr) := by
    rw [Ctx.plug_append, h2]; rfl
  rw [hplug] at hwf hb ⊢
  obtain ⟨-, w2, -⟩ := Ctx.WF.of_plug hwf hb
  simp only [Tree.WF, Tree.bh] at w2
  exact (Ctx.bh_plug_frame cR ctx z y c _ k ky
    (by simp only [Tree.bh, blk_red, add_zero]; exact w2.2.2.1)).symm

/-- Claim C18: removing a red node needs no repair.  When `remove k` on a
reachable state finds `k` at the node `z` and the splice reports that the node
taken out of the tree was RED, `remove` returns true with the state the splice
left, only with `z` deleted and the counter decremented (no `deleteFixup`);
that state satisfies the red-black invariants and every root-to-sentinel path
holds the same number of BLACK nodes as before the call. -/
theorem remove_red_needs_no_fixup [LinearOrder α] [Inhabited α] (t t1 : RedBlackTree α)
    (k : α) (fuel : Nat) (z x : Ptr) (h : Reachable t)
    (hs : t.search fuel t.root k = some z) (hz : z ≠ t.NIL)
    (hy : t.removeSplice fuel z = some (t1, x, Color.RED)) :
    ∃ t2 t3 T T2 n, Returns (fun m => t.remove m k) (t3, true) ∧ t1.free z = some t2 ∧
      t3 = t2.setNodeCount (t2.nodeCount - 1) ∧ Models t T ∧ Models t3 T2 ∧
      T2.color = Color.BLACK ∧ T2.NoRedRed ∧ T2.EqualBlackPaths ∧
      (∀ m ∈ T.pathBlackCounts, m = n) ∧ (∀ m ∈ T2.pathBlackCounts, m = n) := by
  obtain ⟨T, hM, hwf, hb, -, -⟩ := h.inv
  have hsearch : ∀ m, T.height < m →
      t.search m t.root k = some ((Ctx.find k T []).2.ptr t.NIL) := by
    intro m hm
    obtain ⟨e0, -⟩ := search_spec k T [] m ((modelsAt_nil T).mpr hM) hm
    rw [← hM.root] at e0
    exact e0
  have hzf : (Ctx.find k T []).2.ptr t.NIL = z := by
    have a := hsearch (max fuel (T.height + 1)) (by omega)
    have b : t.search (max fuel (T.height + 1)) t.root k = some z :=
      search_mono t k t.root fuel (max fuel (T.height + 1)) z (le_max_left _ _) hs
    rw [a] at b
    exact Option.some.inj b
  rcases hf : (Ctx.find k T []).2 with _ | ⟨z1, c, l, kz, r⟩
  · rw [hf] at hzf
    exact absurd hzf.symm hz
  rw [hf] at hzf
  simp only [Tree.ptr_node] at hzf
  subst hzf
  have hplug : Ctx.plug (Ctx.find k T []).1 (Ctx.find k T []).2 = T := Ctx.plug_find k T []
  rw [hf] at hplug
  have hZ : ModelsAt t (Ctx.find k T []).1 (Tree.node z1 c l kz r) :=
    (modelsAt_iff _ _).mpr (by rw [hplug]; exact hM)
  obtain ⟨⟨ctx1, X, yc⟩, hsp⟩ := splice_some (Ctx.find k T []).1 z1 c l r kz
  obtain ⟨t1s, e1, h1, -, ⟨n1, m1⟩, hzn, N1, -, c1⟩ := removeSplice_spec hZ hsp
  have hheight := Ctx.height_plug (Ctx.find k T []).1 (Tree.node z1 c l kz r)
  rw [hplug] at hheight
  have hyc : t1s = t1 ∧ yc = Color.RED := by
    have a := e1 (max fuel (T.height + 1)) (by omega)
    have b : t.removeSplice (max fuel (T.height + 1)) z1 = some (t1, x, Color.RED) :=
      removeSplice_mono t z1 fuel (max fuel (T.height + 1)) _ (le_max_left _ _) hy
    rw [a] at b
    simp only [Option.some.injEq, Prod.mk.injEq] at b
    exact ⟨b.1, b.2.2⟩
  obtain ⟨rfl, rfl⟩ := hyc
  obtain ⟨i1, -, -, -, -⟩ := splice_inv hsp (by rw [hplug]; exact hwf) (by rw [hplug]; exact hb)
  obtain ⟨w1, w2⟩ := i1 rfl
  have hbh := splice_red_bh hsp (by rw [hplug]; exact hwf) (by rw [hplug]; exact hb)
  rw [hplug] at hbh
  have hzN : z1 ≠ t1s.NIL := by rw [N1]; exact hz
  have hz0 : z1 ≠ 0 := fun e => by simpa [e] using hZ.ne_null
  rw [Ctx.mem_addrs_plug] at hzn
  obtain ⟨t2, e2, h2, f2, -⟩ := free_spec h1 hzn hzN hz0 m1
  have h3 := h2.setNodeCount (t2.nodeCount - 1)
  refine ⟨t2, t2.setNodeCount (t2.nodeCount - 1), T, Ctx.plug ctx1 X, T.bh,
    Returns.intro (remove_mono t k) (T.height + 2) (fun m hm => ?_), e2, rfl, hM,
    (modelsAt_iff _ _).mp h3, w2, ((Tree.WF_iff _).mp w1).1, ((Tree.WF_iff _).mp w1).2,
    hwf.paths, ?_⟩
  · have e1' := e1 m (by omega)
    rw [← N1] at e1'
    have hs' := hsearch m (by omega)
    rw [hf] at hs'
    simp only [Tree.ptr_node] at hs'
    simp only [RedBlackTree.remove, hs', Option.bind_eq_bind, Option.some_bind, hZ.ne_nil,
      if_false, e1', e2, reduceCtorEq]
  · rw [← hbh]; exact w1.paths

theorem remove_red_needs_no_fixup_witness :
    Reachable sampleTree ∧ sampleTree.search 5 sampleTree.root 3 = some 3 ∧
      3 ≠ sampleTree.NIL ∧
      sampleTree.removeSplice 5 3 = some (sampleSpliced, 1, Color.RED) ∧
      ∃ t2 t3 T T2 n, Returns (fun m => sampleTree.remove m 3) (t3, true) ∧
        sampleSpliced.free 3 = some t2 ∧
        t3 = t2.setNodeCount (t2.nodeCount - 1) ∧ Models sampleTree T ∧ Models t3 T2 ∧
        T2.color = Color.BLACK ∧ T2.NoRedRed ∧ T2.EqualBlackPaths ∧
        (∀ m ∈ T.pathBlackCounts, m = n) ∧ (∀ m ∈ T2.pathBlackCounts, m = n) :=
  ⟨sampleTree_reachable, rfl, by decide, rfl,
    remove_red_needs_no_fixup sampleTree sampleSpliced 3 5 3 1 sampleTree_reachable rfl
      (by decide) rfl⟩

end RBT

namespace RBT

open RedBlackTree

variable {α : Type}

/-! ### One iteration of the loop of `insertFixup`, with its record -/

theorem insertFixupLeft_red_log {t : RedBlackTree α} {fs : Ctx α} {p g u : Ptr} {cp cg : Color}
    {pl pr ul ur : Tree α} {kp kg ku : α} (z : Ptr)
    (h : ModelsAt t fs (Tree.node g cg (Tree.node p cp pl kp pr) kg
      (Tree.node u Color.RED ul ku ur))) :
    ∃ t1, insertFixupLeft t z p g = some (t1, g) ∧
      insertFixupLeftLog t z p g = some ((t1, g),
        [Event.uncle Color.RED, Event.color p Color.BLACK, Event.color u Color.BLACK,
        Event.color g Color.RED]) ∧
      ModelsAt t1 fs (Tree.node g Color.RED (Tree.node p Color.BLACK pl kp pr) kg
        (Tree.node u Color.BLACK ul ku ur)) ∧ Fr t t1 := by
  obtain ⟨t1, e1, h1, f1⟩ := setColor_at Color.BLACK h.downL
  obtain ⟨t2, e2, h2, f2⟩ := setColor_at Color.BLACK h1.upL.downR
  obtain ⟨t3, e3, h3, f3⟩ := setColor_at Color.RED h2.upR
  have hc := h.downR.getColor
  simp only [Tree.ptr_node, Tree.color] at hc
  refine ⟨t3, ?_, ?_, h3, (f1.trans f2).trans f3⟩
  · simp only [insertFixupLeft, h.getRight, Tree.ptr_node, hc, e1, e2, e3, Option.bind_eq_bind,
    Option.some_bind, if_true]
  · simp only [insertFixupLeftLog, h.getRight, Tree.ptr_node, hc, e1, e2, e3, Option.bind_eq_bind,
    Option.some_bind, if_true, Tree.ptr_node,
      Tree.ptr_node, List.cons_append, List.nil_append, List.singleton_append]

theorem insertFixupRight_red_log {t : RedBlackTree α} {fs : Ctx α} {p g u : Ptr} {cp cg : Color}
    {pl pr ul ur : Tree α} {kp kg ku : α} (z : Ptr)
    (h : ModelsAt t fs (Tree.node g cg (Tree.node u Color.RED ul ku ur) kg
      (Tree.node p cp pl kp pr))) :
    ∃ t1, insertFixupRight t z p g = some (t1, g) ∧
      insertFixupRightLog t z p g = some ((t1, g),
        [Event.uncle Color.RED, Event.color p Color.BLACK, Event.color u Color.BLACK,
        Event.color g Color.RED]) ∧
      ModelsAt t1 fs (Tree.node g Color.RED (Tree.node u Color.BLACK ul ku ur) kg
        (Tree.node p Color.BLACK pl kp pr)) ∧ Fr t t1 := by
  obtain ⟨t1, e1, h1, f1⟩ := setColor_at Color.BLACK h.downR
  obtain ⟨t2, e2, h2, f2⟩ := setColor_at Color.BLACK h1.upR.downL
  obtain ⟨t3, e3, h3, f3⟩ := setColor_at Color.RED h2.upL
  have hc := h.downL.getColor
  simp only [Tree.ptr_node, Tree.color] at hc
  refine ⟨t3, ?_, ?_, h3, (f1.trans f2).trans f3⟩
  · simp only [insertFixupRight, h.getLeft, Tree.ptr_node, hc, e1, e2, e3, Option.bind_eq_bind,
    Option.some_bind, if_true]
  · simp only [insertFixupRightLog, h.getLeft, Tree.ptr_node, hc, e1, e2, e3, Option.bind_eq_bind,
    Option.some_bind, if_true, Tree.ptr_node,
      Tree.ptr_node, List.cons_append, List.nil_append, List.singleton_append]

theorem insertFixupLeft_outer_log {t : RedBlackTree α} {fs : Ctx α} {p g z : Ptr}
    {cp cg cz : Color} {zl zr pr U : Tree α} {kp kg kz : α} (h : ModelsAt t fs (Tree.node g cg (Tree.node p cp (Tree.node z cz zl kz zr) kp pr) kg U))
    (hU : U.color = Color.BLACK) :
    ∃ t1, insertFixupLeft t z p g = some (t1, z) ∧
      insertFixupLeftLog t z p g = some ((t1, z),
        [Event.uncle Color.BLACK, Event.color p Color.BLACK, Event.color g Color.RED,
        Event.rotateRight g p]) ∧
      ModelsAt t1 (Frame.L p Color.BLACK kp (Tree.node g Color.RED pr kg U) :: fs)
        (Tree.node z cz zl kz zr) ∧ Fr t t1 := by
  obtain ⟨t1, e1, h1, f1⟩ := setColor_at Color.BLACK h.downL
  obtain ⟨t2, e2, h2, f2⟩ := setColor_at Color.RED h1.upL
  obtain ⟨t3, e3, h3, f3⟩ := rotateRight_at h2
  have hc := h.downR.getColor
  simp only [hU] at hc
  refine ⟨t3, ?_, ?_, h3.downL, (f1.trans f2).trans f3⟩
  · simp only [insertFixupLeft, h.getRight, hc, h.downL.getRight, h.downL.left_ne_right,
    h.downL.downL.getParent, Ctx.par_cons, Frame.addr, e1, h1.getParent, e2, e3,
    Option.bind_eq_bind, Option.some_bind, if_false, reduceCtorEq]
  · simp only [insertFixupLeftLog, h.getRight, hc, h.downL.getRight, h.downL.left_ne_right,
    h.downL.downL.getParent, Ctx.par_cons, Frame.addr, e1, h1.getParent, e2, e3,
    Option.bind_eq_bind, Option.some_bind, if_false, reduceCtorEq, h2.getLeft,
      Tree.ptr_node, List.cons_append, List.nil_append, List.singleton_append]

theorem insertFixupRight_outer_log {t : RedBlackTree α} {fs : Ctx α} {p g z : Ptr}
    {cp cg cz : Color} {zl zr pl U : Tree α} {kp kg kz : α} (h : ModelsAt t fs (Tree.node g cg U kg (Tree.node p cp pl kp (Tree.node z cz zl kz zr))))
    (hU : U.color = Color.BLACK) :
    ∃ t1, insertFixupRight t z p g = some (t1, z) ∧
      insertFixupRightLog t z p g = some ((t1, z),
        [Event.uncle Color.BLACK, Event.color p Color.BLACK, Event.color g Color.RED,
        Event.rotateLeft g p]) ∧
      ModelsAt t1 (Frame.R p Color.BLACK (Tree.node g Color.RED U kg pl) kp :: fs)
        (Tree.node z cz zl kz zr) ∧ Fr t t1 := by
  obtain ⟨t1, e1, h1, f1⟩ := setColor_at Color.BLACK h.downR
  obtain ⟨t2, e2, h2, f2⟩ := setColor_at Color.RED h1.upR
  obtain ⟨t3, e3, h3, f3⟩ := rotateLeft_at h2
  have hc := h.downL.getColor
  simp only [hU] at hc
  refine ⟨t3, ?_, ?_, h3.downR, (f1.trans f2).trans f3⟩
  · simp only [insertFixupRight, h.getLeft, hc, h.downR.getLeft, h.downR.right_ne_left,
    h.downR.downR.getParent, Ctx.par_cons, Frame.addr, e1, h1.getParent, e2, e3,
    Option.bind_eq_bind, Option.some_bind, if_false, reduceCtorEq]
  · simp only [insertFixupRightLog, h.getLeft, hc, h.downR.getLeft, h.downR.right_ne_left,
    h.downR.downR.getParent, Ctx.par_cons, Frame.addr, e1, h1.getParent, e2, e3,
    Option.bind_eq_bind, Option.some_bind, if_false, reduceCtorEq, h2.getRight,
      Tree.ptr_node, List.cons_append, List.nil_append, List.singleton_append]

theorem insertFixupLeft_inner_log {t : RedBlackTree α} {fs : Ctx α} {p g z : Ptr}
    {cp cg cz : Color} {zl zr pl U : Tree α} {kp kg kz : α} (h : ModelsAt t fs (Tree.node g cg (Tree.node p cp pl kp (Tree.node z cz zl kz zr)) kg U))
    (hU : U.color = Color.BLACK) :
    ∃ t1, insertFixupLeft t z p g = some (t1, p) ∧
      insertFixupLeftLog t z p g = some ((t1, p),
        [Event.uncle Color.BLACK, Event.rotateLeft p z, Event.color z Color.BLACK,
        Event.color g Color.RED, Event.rotateRight g z]) ∧
      ModelsAt t1 (Frame.L z Color.BLACK kz (Tree.node g Color.RED zr kg U) :: fs)
        (Tree.node p cp pl kp zl) ∧ Fr t t1 := by
  obtain ⟨t0, e0, h0, f0⟩ := rotateLeft_at h.downL
  obtain ⟨t1, e1, h1, f1⟩ := setColor_at Color.BLACK h0
  obtain ⟨t2, e2, h2, f2⟩ := setColor_at Color.RED h1.upL
  obtain ⟨t3, e3, h3, f3⟩ := rotateRight_at h2
  have hc := h.downR.getColor
  simp only [hU] at hc
  refine ⟨t3, ?_, ?_, h3.downL, ((f0.trans f1).trans f2).trans f3⟩
  · simp only [insertFixupLeft, h.getRight, hc, h.downL.getRight, Tree.ptr_node, e0,
    h0.downL.getParent, Ctx.par_cons, Frame.addr, e1, h1.getParent, e2, e3,
    Option.bind_eq_bind, Option.some_bind, if_false, if_true, reduceCtorEq]
  · simp only [insertFixupLeftLog, h.getRight, hc, h.downL.getRight, Tree.ptr_node, e0,
    h0.downL.getParent, Ctx.par_cons, Frame.addr, e1, h1.getParent, e2, e3,
    Option.bind_eq_bind, Option.some_bind, if_false, if_true, reduceCtorEq, h2.getLeft,
      Tree.ptr_node, List.cons_append, List.nil_append, List.singleton_append]

theorem insertFixupRight_inner_log {t : RedBlackTree α} {fs : Ctx α} {p g z : Ptr}
    {cp cg cz : Color} {zl zr pr U : Tree α} {kp kg kz : α} (h : ModelsAt t fs (Tree.node g cg U kg (Tree.node p cp (Tree.node z cz zl kz zr) kp pr)))
    (hU : U.color = Color.BLACK) :
    ∃ t1, insertFixupRight t z p g = some (t1, p) ∧
      insertFixupRightLog t z p g = some ((t1, p),
        [Event.uncle Color.BLACK, Event.rotateRight p z, Event.color z Color.BLACK,
        Event.color g Color.RED, Event.rotateLeft g z]) ∧
      ModelsAt t1 (Frame.R z Color.BLACK (Tree.node g Color.RED U kg zl) kz :: fs)
        (Tree.node p cp zr kp pr) ∧ Fr t t1 := by
  obtain ⟨t0, e0, h0, f0⟩ := rotateRight_at h.downR
  obtain ⟨t1, e1, h1, f1⟩ := setColor_at Color.BLACK h0
  obtain ⟨t2, e2, h2, f2⟩ := setColor_at Color.RED h1.upR
  obtain ⟨t3, e3, h3, f3⟩ := rotateLeft_at h2
  have hc := h.downL.getColor
  simp only [hU] at hc
  refine ⟨t3, ?_, ?_, h3.downR, ((f0.trans f1).trans f2).trans f3⟩
  · simp only [insertFixupRight, h.getLeft, hc, h.downR.getLeft, Tree.ptr_node, e0,
    h0.downR.getParent, Ctx.par_cons, Frame.addr, e1, h1.getParent, e2, e3,
    Option.bind_eq_bind, Option.some_bind, if_false, if_true, reduceCtorEq]
  · simp only [insertFixupRightLog, h.getLeft, hc, h.downR.getLeft, Tree.ptr_node, e0,
    h0.downR.getParent, Ctx.par_cons, Frame.addr, e1, h1.getParent, e2, e3,
    Option.bind_eq_bind, Option.some_bind, if_false, if_true, reduceCtorEq, h2.getRight,
      Tree.ptr_node, List.cons_append, List.nil_append, List.singleton_append]

end RBT

namespace RBT

open RedBlackTree

variable {α : Type}

theorem insertFixupBodyLog_spec {t : RedBlackTree α} {ctx ctx1 : Ctx α} {z : Ptr} {cz : Color}
    {zl zr Z1 : Tree α} {kz : α} (h : ModelsAt t ctx (Tree.node z cz zl kz zr))
    (hs : Ctx.insStep ctx (Tree.node z cz zl kz zr) = some (ctx1, Z1)) :
    ∃ t1, insertFixupBody (t, z) = some (t1, Z1.ptr t.NIL) ∧
      insertFixupBodyLog (t, z) =
        some ((t1, Z1.ptr t.NIL), Ctx.insLog ctx (Tree.node z cz zl kz zr)) ∧
      ModelsAt t1 ctx1 Z1 ∧ Fr t t1 := by
  rcases ctx with _ | ⟨P, _ | ⟨G, fs⟩⟩
  · simp [Ctx.insStep] at hs
  · simp [Ctx.insStep] at hs
  · rcases P with ⟨p, cp, kp, sp⟩ | ⟨p, cp, sp, kp⟩ <;>
    rcases G with ⟨g, cg, kg, U⟩ | ⟨g, cg, U, kg⟩ <;>
    rcases U with _ | ⟨u, _ | _, ul, ku, ur⟩ <;>
    simp only [Ctx.insStep, Option.some.injEq, Prod.mk.injEq] at hs <;>
    obtain ⟨rfl, rfl⟩ := hs <;>
    simp only [insertFixupBody, insertFixupBodyLog, Ctx.insLog, h.getParent, Ctx.par_cons,
      Frame.addr, Option.bind_eq_bind, Option.some_bind, Tree.ptr_node]
    · obtain ⟨t1, e1, l1, h1, f1⟩ := insertFixupLeft_outer_log h.upL.upL rfl
      exact ⟨t1, by simp only [h.upL.getParent, Ctx.par_cons, Frame.addr, h.upL.upL.getLeft,
        Tree.ptr_node, Tree.ptr_nil, Option.bind_eq_bind, Option.some_bind, e1, if_true],
        by simp only [h.upL.getParent, Ctx.par_cons, Frame.addr, h.upL.upL.getLeft,
        Tree.ptr_node, Tree.ptr_nil, Option.bind_eq_bind, Option.some_bind, l1, if_true], h1, f1⟩
    · obtain ⟨t1, e1, l1, h1, f1⟩ := insertFixupLeft_red_log z h.upL.upL
      exact ⟨t1, by simp only [h.upL.getParent, Ctx.par_cons, Frame.addr, h.upL.upL.getLeft,
        Tree.ptr_node, Tree.ptr_nil, Option.bind_eq_bind, Option.some_bind, e1, if_true],
        by simp only [h.upL.getParent, Ctx.par_cons, Frame.addr, h.upL.upL.getLeft,
        Tree.ptr_node, Tree.ptr_nil, Option.bind_eq_bind, Option.some_bind, l1, if_true], h1, f1⟩
    · obtain ⟨t1, e1, l1, h1, f1⟩ := insertFixupLeft_outer_log h.upL.upL rfl
      exact ⟨t1, by simp only [h.upL.getParent, Ctx.par_cons, Frame.addr, h.upL.upL.getLeft,
        Tree.ptr_node, Tree.ptr_nil, Option.bind_eq_bind, Option.some_bind, e1, if_true],
        by simp only [h.upL.getParent, Ctx.par_cons, Frame.addr, h.upL.upL.getLeft,
        Tree.ptr_node, Tree.ptr_nil, Option.bind_eq_bind, Option.some_bind, l1, if_true], h1, f1⟩
    · obtain ⟨t1, e1, l1, h1, f1⟩ := insertFixupRight_inner_log h.upL.upR rfl
      have hne := h.upL.upR.right_ne_left
      simp only [Tree.ptr_node, Tree.ptr_nil] at hne
      exact ⟨t1, by simp only [h.upL.getParent, Ctx.par_cons, Frame.addr, h.upL.upR.getLeft,
        Tree.ptr_node, Tree.ptr_nil, Option.bind_eq_bind, Option.some_bind, e1, hne, if_false],
        by simp only [h.upL.getParent, Ctx.par_cons, Frame.addr, h.upL.upR.getLeft,
        Tree.ptr_node, Tree.ptr_nil, Option.bind_eq_bind, Option.some_bind, l1, hne, if_false], h1, f1⟩
    · obtain ⟨t1, e1, l1, h1, f1⟩ := insertFixupRight_red_log z h.upL.upR
      have hne := h.upL.upR.right_ne_left
      simp only [Tree.ptr_node, Tree.ptr_nil] at hne
      exact ⟨t1, by simp only [h.upL.getParent, Ctx.par_cons, Frame.addr, h.upL.upR.getLeft,
        Tree.ptr_node, Tree.ptr_nil, Option.bind_eq_bind, Option.some_bind, e1, hne, if_false],
        by simp only [h.upL.getParent, Ctx.par_cons, Frame.addr, h.upL.upR.getLeft,
        Tree.ptr_node, Tree.ptr_nil, Option.bind_eq_bind, Option.some_bind, l1, hne, if_false], h1, f1⟩
    · obtain ⟨t1, e1, l1, h1, f1⟩ := insertFixupRight_inner_log h.upL.upR rfl
      have hne := h.upL.upR.right_ne_left
      simp only [Tree.ptr_node, Tree.ptr_nil] at hne
      exact ⟨t1, by simp only [h.upL.getParent, Ctx.par_cons, Frame.addr, h.upL.upR.getLeft,
        Tree.ptr_node, Tree.ptr_nil, Option.bind_eq_bind, Option.some_bind, e1, hne, if_false],
        by simp only [h.upL.getParent, Ctx.par_cons, Frame.addr, h.upL.upR.getLeft,
        Tree.ptr_node, Tree.ptr_nil, Option.bind_eq_bind, Option.some_bind, l1, hne, if_false], h1, f1⟩
    · obtain ⟨t1, e1, l1, h1, f1⟩ := insertFixupLeft_inner_log h.upR.upL rfl
      exact ⟨t1, by simp only [h.upR.getParent, Ctx.par_cons, Frame.addr, h.upR.upL.getLeft,
        Tree.ptr_node, Tree.ptr_nil, Option.bind_eq_bind, Option.some_bind, e1, if_true],
        by simp only [h.upR.getParent, Ctx.par_cons, Frame.addr, h.upR.upL.getLeft,
        Tree.ptr_node, Tree.ptr_nil, Option.bind_eq_bind, Option.some_bind, l1, if_true], h1, f1⟩
    · obtain ⟨t1, e1, l1, h1, f1⟩ := insertFixupLeft_red_log z h.upR.upL
      exact ⟨t1, by simp only [h.upR.getParent, Ctx.par_cons, Frame.addr, h.upR.upL.getLeft,
        Tree.ptr_node, Tree.ptr_nil, Option.bind_eq_bind, Option.some_bind, e1, if_true],
        by simp only [h.upR.getParent, Ctx.par_cons, Frame.addr, h.upR.upL.getLeft,
        Tree.ptr_node, Tree.ptr_nil, Option.bind_eq_bind, Option.some_bind, l1, if_true], h1, f1⟩
    · obtain ⟨t1, e1, l1, h1, f1⟩ := insertFixupLeft_inner_log h.upR.upL rfl
      exact ⟨t1, by simp only [h.upR.getParent, Ctx.par_cons, Frame.addr, h.upR.upL.getLeft,
        Tree.ptr_node, Tree.ptr_nil, Option.bind_eq_bind, Option.some_bind, e1, if_true],
        by simp only [h.upR.getParent, Ctx.par_cons, Frame.addr, h.upR.upL.getLeft,
        Tree.ptr_node, Tree.ptr_nil, Option.bind_eq_bind, Option.some_bind, l1, if_true], h1, f1⟩
    · obtain ⟨t1, e1, l1, h1, f1⟩ := insertFixupRight_outer_log h.upR.upR rfl
      have hne := h.upR.upR.right_ne_left
      simp only [Tree.ptr_node, Tree.ptr_nil] at hne
      exact ⟨t1, by simp only [h.upR.getParent, Ctx.par_cons, Frame.addr, h.upR.upR.getLeft,
        Tree.ptr_node, Tree.ptr_nil, Option.bind_eq_bind, Option.some_bind, e1, hne, if_false],
        by simp only [h.upR.getParent, Ctx.par_cons, Frame.addr, h.upR.upR.getLeft,
        Tree.ptr_node, Tree.ptr_nil, Option.bind_eq_bind, Option.some_bind, l1, hne, if_false], h1, f1⟩
    · obtain ⟨t1, e1, l1, h1, f1⟩ := insertFixupRight_red_log z h.upR.upR
      have hne := h.upR.upR.right_ne_left
      simp only [Tree.ptr_node, Tree.ptr_nil] at hne
      exact ⟨t1, by simp only [h.upR.getParent, Ctx.par_cons, Frame.addr, h.upR.upR.getLeft,
        Tree.ptr_node, Tree.ptr_nil, Option.bind_eq_bind, Option.some_bind, e1, hne, if_false],
        by simp only [h.upR.getParent, Ctx.par_cons, Frame.addr, h.upR.upR.getLeft,
        Tree.ptr_node, Tree.ptr_nil, Option.bind_eq_bind, Option.some_bind, l1, hne, if_false], h1, f1⟩
    · obtain ⟨t1, e1, l1, h1, f1⟩ := insertFixupRight_outer_log h.upR.upR rfl
      have hne := h.upR.upR.right_ne_left
      simp only [Tree.ptr_node, Tree.ptr_nil] at hne
      exact ⟨t1, by simp only [h.upR.getParent, Ctx.par_cons, Frame.addr, h.upR.upR.getLeft,
        Tree.ptr_node, Tree.ptr_nil, Option.bind_eq_bind, Option.some_bind, e1, hne, if_false],
        by simp only [h.upR.getParent, Ctx.par_cons, Frame.addr, h.upR.upR.getLeft,
        Tree.ptr_node, Tree.ptr_nil, Option.bind_eq_bind, Option.some_bind, l1, hne, if_false], h1, f1⟩

end RBT

namespace RBT

open RedBlackTree

variable {α : Type}

theorem uncles_append (l1 l2 : List Event) : uncles (l1 ++ l2) = uncles l1 ++ uncles l2 := by
  induction l1 with
  | nil => rfl
  | cons e es ih => cases e <;> simp [uncles, ih]

theorem rotations_append (l1 l2 : List Event) :
    rotations (l1 ++ l2) = rotations l1 + rotations l2 := by
  induction l1 with
  | nil => simp [rotations]
  | cons e es ih => cases e <;> simp [rotations, ih] <;> omega

theorem realPtrs_append (l1 l2 : List Event) :
    realPtrs (l1 ++ l2) = realPtrs l1 ++ realPtrs l2 := by
  induction l1 with
  | nil => rfl
  | cons e es ih =>
    cases e with
    | color p c => cases c <;> simp [realPtrs, ih]
    | rotateLeft x y => simp [realPtrs, ih]
    | rotateRight y x => simp [realPtrs, ih]
    | uncle c => simp [realPtrs, ih]
    | grandparent g => simp [realPtrs, ih]
    | sibling w => simp [realPtrs, ih]

theorem mem_realPtrs_of_red {p : Ptr} {L : List Event} (h : Event.color p Color.RED ∈ L) :
    p ∈ realPtrs L := by
  induction L with
  | nil => cases h
  | cons e es ih =>
    rcases List.mem_cons.mp h with rfl | h1
    · simp [realPtrs]
    · have := ih h1
      cases e with
      | color q c => cases c <;> simp [realPtrs, this]
      | rotateLeft x y => simp [realPtrs, this]
      | rotateRight y x => simp [realPtrs, this]
      | uncle c => simp [realPtrs, this]
      | grandparent g => simp [realPtrs, this]
      | sibling w => simp [realPtrs, this]

/-- Shape of the record of the loop of `insertFixup`: the uncles tested are RED
in every iteration but possibly the last one, no iteration with a RED uncle
rotates, and the iteration with a BLACK uncle rotates at most twice. -/
theorem insLog_shape {ctx ctx1 : Ctx α} {Z Z1 : Tree α}
    (hs : Ctx.insStep ctx Z = some (ctx1, Z1)) :
    ((uncles (Ctx.insLog ctx Z) = [Color.RED] ∧ rotations (Ctx.insLog ctx Z) = 0) ∨
      (uncles (Ctx.insLog ctx Z) = [Color.BLACK] ∧ rotations (Ctx.insLog ctx Z) ≤ 2 ∧
        Ctx.insCond ctx1 = false)) ∧
      ∀ p ∈ realPtrs (Ctx.insLog ctx Z), p ∈ Z.addrs ++ Ctx.addrs ctx := by
  rcases ctx with _ | ⟨P, _ | ⟨G, fs⟩⟩
  · simp [Ctx.insStep] at hs
  · simp [Ctx.insStep] at hs
  · rcases P with ⟨p, cp, kp, sp⟩ | ⟨p, cp, sp, kp⟩ <;>
    rcases G with ⟨g, cg, kg, U⟩ | ⟨g, cg, U, kg⟩ <;>
    rcases U with _ | ⟨u, _ | _, ul, ku, ur⟩ <;>
    rcases Z with _ | ⟨z, cz, zl, kz, zr⟩ <;>
    simp only [Ctx.insStep, Option.some.injEq, Prod.mk.injEq, reduceCtorEq] at hs <;>
    obtain ⟨rfl, rfl⟩ := hs <;>
    simp [Ctx.insLog, uncles, rotations, realPtrs, Ctx.insCond, Frame.color, Ctx.addrs,
      Frame.addr, Tree.addrs]

theorem insertFixupLog_loop (N : Nat) : ∀ (t : RedBlackTree α) (ctx : Ctx α) (Z : Tree α)
    (n : Nat), ctx.length ≤ N → ModelsAt t ctx Z → InsInv ctx Z n →
    ∃ t1 ctx1 Z1 n1 L,
      (∀ fuel, N < fuel →
        whileLoop insertFixupCond insertFixupBody fuel (t, Z.ptr t.NIL) =
          some (t1, Z1.ptr t.NIL)) ∧
      (∀ fuel log0, N < fuel →
        whileLoop (fun s => insertFixupCond s.1)
          (fun s => (insertFixupBodyLog s.1).map fun r => (r.1, s.2 ++ r.2)) fuel
          ((t, Z.ptr t.NIL), log0) = some ((t1, Z1.ptr t.NIL), log0 ++ L)) ∧
      ModelsAt t1 ctx1 Z1 ∧ InsInv ctx1 Z1 n1 ∧ Ctx.insCond ctx1 = false ∧
      (Ctx.plug ctx1 Z1).keys = (Ctx.plug ctx Z).keys ∧
      (Ctx.plug ctx1 Z1).size = (Ctx.plug ctx Z).size ∧ Fr t t1 ∧
      (Ctx.insCond ctx = false → L = []) ∧ rotations L ≤ 2 ∧
      (∃ k, uncles L = List.replicate k Color.RED ∨
        uncles L = List.replicate k Color.RED ++ [Color.BLACK]) ∧
      ∀ p ∈ realPtrs L, p ≠ t.NIL ∧ p ≠ 0 := by
  induction N with
  | zero =>
    intro t ctx Z n hl h hi
    have hctx : ctx = [] := List.eq_nil_of_length_eq_zero (by omega)
    subst hctx
    rcases Z with _ | ⟨z, cz, zl, kz, zr⟩
    · simp [InsInv] at hi
    refine ⟨t, [], _, n, [], fun fuel hf => ?_, fun fuel log0 hf => ?_, h, hi, rfl, rfl, rfl,
      Fr.refl t, fun _ => rfl, Nat.zero_le _, ⟨0, Or.inl rfl⟩, fun p hp => by cases hp⟩
    · obtain ⟨f, rfl⟩ : ∃ k, fuel = k + 1 := ⟨fuel - 1, by omega⟩
      exact whileLoop_false f (insertFixupCond_spec h)
    · obtain ⟨f, rfl⟩ : ∃ k, fuel = k + 1 := ⟨fuel - 1, by omega⟩
      rw [List.append_nil]
      exact whileLoop_false f (insertFixupCond_spec h)
  | succ N ih =>
    intro t ctx Z n hl h hi
    rcases Z with _ | ⟨z, cz, zl, kz, zr⟩
    · simp [InsInv] at hi
    rcases hc : Ctx.insCond ctx with _ | _
    · refine ⟨t, ctx, _, n, [], fun fuel hf => ?_, fun fuel log0 hf => ?_, h, hi, hc, rfl, rfl,
        Fr.refl t, fun _ => rfl, Nat.zero_le _, ⟨0, Or.inl rfl⟩, fun p hp => by cases hp⟩
      · obtain ⟨f, rfl⟩ : ∃ k, fuel = k + 1 := ⟨fuel - 1, by omega⟩
        exact whileLoop_false f ((insertFixupCond_spec h).trans (by rw [hc]))
      · obtain ⟨f, rfl⟩ : ∃ k, fuel = k + 1 := ⟨fuel - 1, by omega⟩
        rw [List.append_nil]
        exact whileLoop_false f ((insertFixupCond_spec h).trans (by rw [hc]))
    · obtain ⟨⟨ctx1, Z1⟩, hs⟩ := insStep_some hi hc
      obtain ⟨⟨n1, hi1⟩, hlen, hk, hsz⟩ := insStep_inv hs hi hc
      obtain ⟨t1, e1, l1, h1, f1⟩ := insertFixupBodyLog_spec h hs
      obtain ⟨t2, ctx2, Z2, n2, L, e2, l2, h2, hi2, hc2, hk2, hsz2, f2, hnil, hrot, hun, hred⟩ :=
        ih t1 ctx1 Z1 n1 (by omega) h1 hi1
      obtain ⟨hshape, htargets⟩ := insLog_shape hs
      refine ⟨t2, ctx2, Z2, n2, Ctx.insLog ctx (Tree.node z cz zl kz zr) ++ L,
        fun fuel hf => ?_, fun fuel log0 hf => ?_, h2, hi2, hc2, hk2.trans hk, hsz2.trans hsz,
        f1.trans f2, fun hh => by simp at hh, ?_, ?_, ?_⟩
      · obtain ⟨f, rfl⟩ : ∃ k, fuel = k + 1 := ⟨fuel - 1, by omega⟩
        refine (whileLoop_true f ((insertFixupCond_spec h).trans (by rw [hc])) e1).trans ?_
        have := e2 f (by omega)
        rw [f1.1] at this
        exact this
      · obtain ⟨f, rfl⟩ : ∃ k, fuel = k + 1 := ⟨fuel - 1, by omega⟩
        have step := @whileLoop_true ((RedBlackTree α × Ptr) × List Event)
          (fun s => insertFixupCond s.1)
          (fun s => (insertFixupBodyLog s.1).map fun r => (r.1, s.2 ++ r.2))
          ((t, Tree.ptr t.NIL (Tree.node z cz zl kz zr)), log0)
          ((t1, Z1.ptr t.NIL), log0 ++ Ctx.insLog ctx (Tree.node z cz zl kz zr)) f
          ((insertFixupCond_spec h).trans (by rw [hc]))
          (by simp only [Tree.ptr_node, l1, Option.map_some'])
        refine step.trans ?_
        have := l2 f (log0 ++ Ctx.insLog ctx (Tree.node z cz zl kz zr)) (by omega)
        rw [f1.1] at this
        rw [this, List.append_assoc]
      · rw [rotations_append]
        rcases hshape with ⟨-, hr0⟩ | ⟨-, hr2, hc1⟩
        · omega
        · rw [hnil hc1]; simp only [rotations]; omega
      · rw [uncles_append]
        rcases hshape with ⟨hu, -⟩ | ⟨hu, -, hc1⟩
        · rw [hu]
          obtain ⟨k, hk1 | hk1⟩ := hun
          · exact ⟨k + 1, Or.inl (by rw [hk1]; rfl)⟩
          · exact ⟨k + 1, Or.inr (by rw [hk1]; rfl)⟩
        · rw [hu, hnil hc1]
          exact ⟨0, Or.inr rfl⟩
      · intro p hp
        rw [realPtrs_append, List.mem_append] at hp
        rcases hp with hp | hp
        · have := h.addrsOk.2 p (htargets p hp)
          exact ⟨this.2.1, this.1⟩
        · have := hred p hp
          rw [f1.1] at this
          exact this

end RBT

namespace RBT

open RedBlackTree

variable {α : Type}

theorem insertFixupLog_spec {t : RedBlackTree α} {ctx : Ctx α} {Z : Tree α} {n : Nat}
    (h : ModelsAt t ctx Z) (hi : InsInv ctx Z n) :
    ∃ t1 L, (∀ fuel, ctx.length < fuel →
        t.insertFixup fuel (Z.ptr t.NIL) = some t1 ∧
        t.insertFixupLog fuel (Z.ptr t.NIL) = some (t1, L)) ∧
      rotations L ≤ 2 ∧
      (∃ k, uncles L = List.replicate k Color.RED ∨
        uncles L = List.replicate k Color.RED ++ [Color.BLACK]) ∧
      ∀ p ∈ realPtrs L, p ≠ t.NIL ∧ p ≠ 0 := by
  obtain ⟨t1, ctx1, Z1, n1, L, e1, l1, h1, hi1, hc1, -, -, f1, -, hrot, hun, hred⟩ :=
    insertFixupLog_loop ctx.length t ctx Z n (le_refl _) h hi
  obtain ⟨w1, w2, w3, w4⟩ := hi1
  rcases Z1 with _ | ⟨z1, cz1, zl1, kz1, zr1⟩
  · simp at w4
  obtain ⟨a, c, l, k, r, hT⟩ := Ctx.plug_node ctx1 z1 cz1 zl1 zr1 kz1
  have hm := (modelsAt_iff ctx1 _).mp h1
  rw [hT] at hm
  obtain ⟨t2, e2, h2, f2⟩ := setColor_at Color.BLACK ((modelsAt_nil _).mpr hm)
  have hroot : t1.root = a := hm.root
  refine ⟨t2, L ++ [Event.color a Color.BLACK], fun fuel hf => ⟨?_, ?_⟩, ?_, ?_, ?_⟩
  · simp only [insertFixup, e1 fuel hf, Option.bind_eq_bind, Option.some_bind, hroot, e2]
  · simp only [insertFixupLog, l1 fuel [] hf, Option.bind_eq_bind, Option.some_bind, hroot, e2,
      List.nil_append]
  · rw [rotations_append]; simpa [rotations] using hrot
  · rw [uncles_append]; simpa [uncles] using hun
  · rw [realPtrs_append]; simpa [realPtrs] using hred

theorem insertLog_spec [LinearOrder α] {t : RedBlackTree α} {T : Tree α} (h : Models t T)
    (hwf : T.WF) (hb : T.color = Color.BLACK) (k : α) :
    ∃ t1 L, (∀ fuel, T.height < fuel →
        t.insert fuel k = some t1 ∧ t.insertLog fuel k = some (t1, L)) ∧
      rotations L ≤ 2 ∧
      (∃ j, uncles L = List.replicate j Color.RED ∨
        uncles L = List.replicate j Color.RED ++ [Color.BLACK]) ∧
      ∀ p ∈ realPtrs L, p ≠ t.NIL ∧ p ≠ 0 := by
  obtain ⟨t2, t3, e2, e3, ez, h3, hz, hN, hbrk, hcnt, hz0, hzn, hza⟩ := newNode_spec h k
  have hctx : ModelsAt t3 (Ctx.descend k T []) Tree.nil :=
    (modelsAt_iff _ _).mpr (by rw [Ctx.plug_descend]; exact h3)
  have hza' : t.brk ∉ Ctx.addrs (Ctx.descend k T []) := by
    intro hm
    apply hza
    have := (Ctx.addrs_plug (Ctx.descend k T []) Tree.nil).mem_iff (a := t.brk)
    rw [Ctx.plug_descend] at this
    exact this.mpr (by simpa [Tree.addrs] using hm)
  have hN0 := hN
  rw [← hN] at hz hzn
  obtain ⟨t4, e4, h4, f4⟩ := insertLink_spec hctx hz hz0 hzn (by rw [hbrk]; exact Nat.lt_succ_self _)
    hza' (Ctx.sideOk_descend k T [] trivial)
  have h5 := h4.setNodeCount (t4.nodeCount + 1)
  have hi : InsInv (Ctx.descend k T []) (Tree.node t.brk Color.RED Tree.nil k Tree.nil) 0 := by
    have := @Ctx.WF.of_plug α (Ctx.descend k T []) Tree.nil
      (by rw [Ctx.plug_descend]; exact hwf) (by rw [Ctx.plug_descend]; exact hb)
    exact ⟨this.1, by simp [Tree.WF, Tree.bh], by simp [Tree.bh], rfl⟩
  obtain ⟨t6, L, e6, hrot, hun, hred⟩ := insertFixupLog_spec h5 hi
  have hNIL : (t4.setNodeCount (t4.nodeCount + 1)).NIL = t.NIL := f4.1.trans hN0
  rw [hNIL] at hred
  refine ⟨t6, L, fun fuel hf => ?_, hrot, hun, hred⟩
  have hd := insertDescend_loop (t := t3) (z := t.brk) (k := k)
    (by simp [RedBlackTree.getData, deref_eq hz0, hz]) T [] fuel ((modelsAt_nil T).mpr h3) hf
  have hlen := Ctx.length_descend k T []
  simp only [List.length_nil, zero_add] at hlen
  obtain ⟨e6a, e6b⟩ := e6 fuel (by omega)
  have hroot : t3.root = T.ptr t3.NIL := h3.root
  simp only [Tree.ptr_node] at e6a e6b
  rw [ez] at e2 e3
  simp only [Ctx.par_nil, ← hroot] at hd
  constructor
  · simp only [RedBlackTree.insert, e2, e3, Option.bind_eq_bind, Option.some_bind, ez, hd,
      e4, e6a, nullptr_eq]
  · simp only [RedBlackTree.insertLog, e2, e3, Option.bind_eq_bind, Option.some_bind, ez, hd,
      e4, e6b, nullptr_eq]

end RBT

namespace RBT

open RedBlackTree

variable {α : Type}

/-! ### One iteration of the loop of `deleteFixup`, with its record -/

theorem deleteFixupCase1L_red_log {t : RedBlackTree α} {fs : Ctx α} {p w : Ptr} {cp : Color}
    {X wl wr : Tree α} {kp kw : α}
    (h : ModelsAt t fs (Tree.node p cp X kp (Tree.node w Color.RED wl kw wr)))
    (hx : t.getParent (X.ptr t.NIL) = some p) :
    ∃ t1, deleteFixupCase1L t (X.ptr t.NIL) w = some (t1, wl.ptr t.NIL) ∧
      deleteFixupCase1LLog t (X.ptr t.NIL) w = some ((t1, wl.ptr t.NIL),
        [Event.color w Color.BLACK, Event.color p Color.RED, Event.rotateLeft p w,
        Event.sibling (wl.ptr t.NIL)]) ∧
      ModelsAt t1 fs (Tree.node w Color.BLACK (Tree.node p Color.RED X kp wl) kw wr) ∧
      Fr t t1 := by
  obtain ⟨t1, e1, h1, f1⟩ := setColor_at Color.BLACK h.downR
  obtain ⟨t2, e2, h2, f2⟩ := setColor_at Color.RED h1.upR
  obtain ⟨t3, e3, h3, f3⟩ := rotateLeft_at h2
  have hc := h.downR.getColor
  simp only [Tree.ptr_node, Tree.color_node] at hc
  have x1 := getParent_fr hx h.nil_ne f1 h1.upR.downL rfl
  have x2 := getParent_fr hx h.nil_ne (f1.trans f2) h2.downL rfl
  have x3 := getParent_fr hx h.nil_ne ((f1.trans f2).trans f3) h3.downL.downL rfl
  have hr := h3.downL.getRight
  rw [f3.1, f2.1, f1.1] at hr
  refine ⟨t3, ?_, ?_, h3, (f1.trans f2).trans f3⟩
  · simp only [deleteFixupCase1L, hc, if_true, e1, x1, e2, x2, e3, x3, hr, Option.bind_eq_bind,
    Option.some_bind, Frame.addr]
  · simp only [deleteFixupCase1LLog, hc, if_true, e1, x1, e2, x2, e3, x3, hr, Option.bind_eq_bind,
    Option.some_bind, Frame.addr, h2.getRight,
      Tree.ptr_node]

theorem deleteFixupCase1R_red_log {t : RedBlackTree α} {fs : Ctx α} {p w : Ptr} {cp : Color}
    {X wl wr : Tree α} {kp kw : α}
    (h : ModelsAt t fs (Tree.node p cp (Tree.node w Color.RED wl kw wr) kp X))
    (hx : t.getParent (X.ptr t.NIL) = some p) :
    ∃ t1, deleteFixupCase1R t (X.ptr t.NIL) w = some (t1, wr.ptr t.NIL) ∧
      deleteFixupCase1RLog t (X.ptr t.NIL) w = some ((t1, wr.ptr t.NIL),
        [Event.color w Color.BLACK, Event.color p Color.RED, Event.rotateRight p w,
        Event.sibling (wr.ptr t.NIL)]) ∧
      ModelsAt t1 fs (Tree.node w Color.BLACK wl kw (Tree.node p Color.RED wr kp X)) ∧
      Fr t t1 := by
  obtain ⟨t1, e1, h1, f1⟩ := setColor_at Color.BLACK h.downL
  obtain ⟨t2, e2, h2, f2⟩ := setColor_at Color.RED h1.upL
  obtain ⟨t3, e3, h3, f3⟩ := rotateRight_at h2
  have hc := h.downL.getColor
  simp only [Tree.ptr_node, Tree.color_node] at hc
  have x1 := getParent_fr hx h.nil_ne f1 h1.upL.downR rfl
  have x2 := getParent_fr hx h.nil_ne (f1.trans f2) h2.downR rfl
  have x3 := getParent_fr hx h.nil_ne ((f1.trans f2).trans f3) h3.downR.downR rfl
  have hr := h3.downR.getLeft
  rw [f3.1, f2.1, f1.1] at hr
  refine ⟨t3, ?_, ?_, h3, (f1.trans f2).trans f3⟩
  · simp only [deleteFixupCase1R, hc, if_true, e1, x1, e2, x2, e3, x3, hr, Option.bind_eq_bind,
    Option.some_bind, Frame.addr]
  · simp only [deleteFixupCase1RLog, hc, if_true, e1, x1, e2, x2, e3, x3, hr, Option.bind_eq_bind,
    Option.some_bind, Frame.addr, h2.getLeft,
      Tree.ptr_node]

theorem deleteFixupCase4L_spec_log {t : RedBlackTree α} {fs : Ctx α} {p w b : Ptr}
    {cp cw cb : Color} {X wl bl br : Tree α} {kp kw kb : α}
    (h : ModelsAt t fs (Tree.node p cp X kp (Tree.node w cw wl kw (Tree.node b cb bl kb br))))
    (hx : t.getParent (X.ptr t.NIL) = some p) :
    ∃ t1, deleteFixupCase4L t (X.ptr t.NIL) w = some (t1, t1.root) ∧
      deleteFixupCase4LLog t (X.ptr t.NIL) w = some ((t1, t1.root),
        [Event.color w cp, Event.color p Color.BLACK, Event.color b Color.BLACK,
        Event.rotateLeft p w]) ∧
      ModelsAt t1 fs (Tree.node w cp (Tree.node p Color.BLACK X kp wl) kw
        (Tree.node b Color.BLACK bl kb br)) ∧ Fr t t1 := by
  obtain ⟨t1, e1, h1, f1⟩ := setColor_at cp h.downR
  obtain ⟨t2, e2, h2, f2⟩ := setColor_at Color.BLACK h1.upR
  obtain ⟨t3, e3, h3, f3⟩ := setColor_at Color.BLACK h2.downR.downR
  obtain ⟨t4, e4, h4, f4⟩ := rotateLeft_at h3.upR.upR
  have hc := h.getColor
  simp only [Tree.ptr_node, Tree.color_node] at hc
  have x1 := getParent_fr hx h.nil_ne f1 h1.upR.downL rfl
  have x2 := getParent_fr hx h.nil_ne (f1.trans f2) h2.downL rfl
  have x3 := getParent_fr hx h.nil_ne ((f1.trans f2).trans f3) h3.upR.upR.downL rfl
  refine ⟨t4, ?_, ?_, h4, ((f1.trans f2).trans f3).trans f4⟩
  · simp only [deleteFixupCase4L, hx, hc, e1, x1, e2, h2.downR.getRight, Tree.ptr_node, e3, x3, e4,
    Option.bind_eq_bind, Option.some_bind, Frame.addr]
  · simp only [deleteFixupCase4LLog, hx, hc, e1, x1, e2, h2.downR.getRight, Tree.ptr_node, e3, x3, e4,
    Option.bind_eq_bind, Option.some_bind, Frame.addr, h3.upR.upR.getRight,
      Tree.ptr_node]

theorem deleteFixupCase4R_spec_log {t : RedBlackTree α} {fs : Ctx α} {p w a : Ptr}
    {cp cw ca : Color} {X wr al ar : Tree α} {kp kw ka : α}
    (h : ModelsAt t fs (Tree.node p cp (Tree.node w cw (Tree.node a ca al ka ar) kw wr) kp X))
    (hx : t.getParent (X.ptr t.NIL) = some p) :
    ∃ t1, deleteFixupCase4R t (X.ptr t.NIL) w = some (t1, t1.root) ∧
      deleteFixupCase4RLog t (X.ptr t.NIL) w = some ((t1, t1.root),
        [Event.color w cp, Event.color p Color.BLACK, Event.color a Color.BLACK,
        Event.rotateRight p w]) ∧
      ModelsAt t1 fs (Tree.node w cp (Tree.node a Color.BLACK al ka ar) kw
        (Tree.node p Color.BLACK wr kp X)) ∧ Fr t t1 := by
  obtain ⟨t1, e1, h1, f1⟩ := setColor_at cp h.downL
  obtain ⟨t2, e2, h2, f2⟩ := setColor_at Color.BLACK h1.upL
  obtain ⟨t3, e3, h3, f3⟩ := setColor_at Color.BLACK h2.downL.downL
  obtain ⟨t4, e4, h4, f4⟩ := rotateRight_at h3.upL.upL
  have hc := h.getColor
  simp only [Tree.ptr_node, Tree.color_node] at hc
  have x1 := getParent_fr hx h.nil_ne f1 h1.upL.downR rfl
  have x2 := getParent_fr hx h.nil_ne (f1.trans f2) h2.downR rfl
  have x3 := getParent_fr hx h.nil_ne ((f1.trans f2).trans f3) h3.upL.upL.downR rfl
  refine ⟨t4, ?_, ?_, h4, ((f1.trans f2).trans f3).trans f4⟩
  · simp only [deleteFixupCase4R, hx, hc, e1, x1, e2, h2.downL.getLeft, Tree.ptr_node, e3, x3, e4,
    Option.bind_eq_bind, Option.some_bind, Frame.addr]
  · simp only [deleteFixupCase4RLog, hx, hc, e1, x1, e2, h2.downL.getLeft, Tree.ptr_node, e3, x3, e4,
    Option.bind_eq_bind, Option.some_bind, Frame.addr, h3.upL.upL.getLeft,
      Tree.ptr_node]

theorem deleteFixupCase3L_spec_log {t : RedBlackTree α} {fs : Ctx α} {p w a : Ptr}
    {cp cw ca : Color} {X b al ar : Tree α} {kp kw ka : α}
    (h : ModelsAt t fs (Tree.node p cp X kp (Tree.node w cw (Tree.node a ca al ka ar) kw b)))
    (hb : b.color = Color.BLACK) (hx : t.getParent (X.ptr t.NIL) = some p) :
    ∃ t1, deleteFixupCase3L t (X.ptr t.NIL) w = some (t1, a) ∧
      deleteFixupCase3LLog t (X.ptr t.NIL) w = some ((t1, a),
        [Event.color a Color.BLACK, Event.color w Color.RED, Event.rotateRight w a,
        Event.sibling a]) ∧
      ModelsAt t1 fs (Tree.node p cp X kp (Tree.node a Color.BLACK al ka
        (Tree.node w Color.RED ar kw b))) ∧ Fr t t1 := by
  obtain ⟨t1, e1, h1, f1⟩ := setColor_at Color.BLACK h.downR.downL
  obtain ⟨t2, e2, h2, f2⟩ := setColor_at Color.RED h1.upL
  obtain ⟨t3, e3, h3, f3⟩ := rotateRight_at h2
  have hc := h.downR.downR.getColor
  rw [hb] at hc
  have x3 := getParent_fr hx h.nil_ne ((f1.trans f2).trans f3) h3.upR.downL rfl
  refine ⟨t3, ?_, ?_, h3.upR, (f1.trans f2).trans f3⟩
  · simp only [deleteFixupCase3L, h.downR.getRight, hc, if_true, h.downR.getLeft, Tree.ptr_node, e1,
    e2, e3, x3, h3.upR.getRight, Option.bind_eq_bind, Option.some_bind, Frame.addr]
  · simp only [deleteFixupCase3LLog, h.downR.getRight, hc, if_true, h.downR.getLeft, Tree.ptr_node, e1,
    e2, e3, x3, h3.upR.getRight, Option.bind_eq_bind, Option.some_bind, Frame.addr, h2.getLeft,
      Tree.ptr_node]

theorem deleteFixupCase3R_spec_log {t : RedBlackTree α} {fs : Ctx α} {p w b : Ptr}
    {cp cw cb : Color} {X a bl br : Tree α} {kp kw kb : α}
    (h : ModelsAt t fs (Tree.node p cp (Tree.node w cw a kw (Tree.node b cb bl kb br)) kp X))
    (ha : a.color = Color.BLACK) (hx : t.getParent (X.ptr t.NIL) = some p) :
    ∃ t1, deleteFixupCase3R t (X.ptr t.NIL) w = some (t1, b) ∧
      deleteFixupCase3RLog t (X.ptr t.NIL) w = some ((t1, b),
        [Event.color b Color.BLACK, Event.color w Color.RED, Event.rotateLeft w b,
        Event.sibling b]) ∧
      ModelsAt t1 fs (Tree.node p cp (Tree.node b Color.BLACK
        (Tree.node w Color.RED a kw bl) kb br) kp X) ∧ Fr t t1 := by
  obtain ⟨t1, e1, h1, f1⟩ := setColor_at Color.BLACK h.downL.downR
  obtain ⟨t2, e2, h2, f2⟩ := setColor_at Color.RED h1.upR
  obtain ⟨t3, e3, h3, f3⟩ := rotateLeft_at h2
  have hc := h.downL.downL.getColor
  rw [ha] at hc
  have x3 := getParent_fr hx h.nil_ne ((f1.trans f2).trans f3) h3.upL.downR rfl
  refine ⟨t3, ?_, ?_, h3.upL, (f1.trans f2).trans f3⟩
  · simp only [deleteFixupCase3R, h.downL.getLeft, hc, if_true, h.downL.getRight, Tree.ptr_node, e1,
    e2, e3, x3, h3.upL.getLeft, Option.bind_eq_bind, Option.some_bind, Frame.addr]
  · simp only [deleteFixupCase3RLog, h.downL.getLeft, hc, if_true, h.downL.getRight, Tree.ptr_node, e1,
    e2, e3, x3, h3.upL.getLeft, Option.bind_eq_bind, Option.some_bind, Frame.addr, h2.getRight,
      Tree.ptr_node]

theorem deleteFixupCase1_black_log {t : RedBlackTree α} {ctx : Ctx α} {W : Tree α} (x : Ptr)
    (h : ModelsAt t ctx W) (hc : W.color = Color.BLACK) :
    deleteFixupCase1LLog t x (W.ptr t.NIL) = some ((t, W.ptr t.NIL), []) ∧
      deleteFixupCase1RLog t x (W.ptr t.NIL) = some ((t, W.ptr t.NIL), []) := by
  have := h.getColor
  rw [hc] at this
  simp only [deleteFixupCase1LLog, deleteFixupCase1RLog, this, Option.bind_eq_bind,
    Option.some_bind, reduceCtorEq, if_false, and_self]

theorem deleteFixupCase3_skip_log {t : RedBlackTree α} {ctx : Ctx α} {w : Ptr} {cw : Color}
    {a b : Tree α} {kw : α} (x : Ptr) (h : ModelsAt t ctx (Tree.node w cw a kw b)) :
    (b.color = Color.RED → deleteFixupCase3LLog t x w = some ((t, w), [])) ∧
      (a.color = Color.RED → deleteFixupCase3RLog t x w = some ((t, w), [])) := by
  constructor
  · intro hb
    have hc := h.downR.getColor
    rw [hb] at hc
    simp only [deleteFixupCase3LLog, h.getRight, hc, Option.bind_eq_bind, Option.some_bind,
      reduceCtorEq, if_false]
  · intro ha
    have hc := h.downL.getColor
    rw [ha] at hc
    simp only [deleteFixupCase3RLog, h.getLeft, hc, Option.bind_eq_bind, Option.some_bind,
      reduceCtorEq, if_false]

end RBT

namespace RBT

open RedBlackTree

variable {α : Type}

theorem deleteFixupRestLLog_spec {t : RedBlackTree α} {fs ctx1 : Ctx α} {p : Ptr} {cp : Color}
    {X W X1 : Tree α} {kp : α} (h : ModelsAt t fs (Tree.node p cp X kp W))
    (hx : t.getParent (X.ptr t.NIL) = some p)
    (hs : Ctx.delRestL fs p cp kp X W = some (ctx1, X1)) :
    ∃ t1 log, deleteFixupRestL t (X.ptr t.NIL) (W.ptr t.NIL) = some (t1, X1.ptr t.NIL) ∧
      deleteFixupRestLLog t (X.ptr t.NIL) (W.ptr t.NIL) = some ((t1, X1.ptr t.NIL), log) ∧
      ∀ q ∈ realPtrs log, q ∈ p :: W.addrs := by
  rcases W with _ | ⟨w, cw, a, kw, b⟩
  · simp [Ctx.delRestL] at hs
  have hca := h.downR.downL.getColor
  have hcb := h.downR.downR.getColor
  simp only [Ctx.delRestL] at hs
  simp only [deleteFixupRestL, deleteFixupRestLLog, Tree.ptr_node, h.downR.getLeft, hca,
    h.downR.getRight, hcb, Option.bind_eq_bind, Option.some_bind]
  by_cases h2 : a.color = Color.BLACK ∧ b.color = Color.BLACK
  · simp only [h2, and_self, if_true, Option.some.injEq, Prod.mk.injEq] at hs ⊢
    obtain ⟨rfl, rfl⟩ := hs
    obtain ⟨t1, e1, h1, f1⟩ := setColor_at Color.RED h.downR
    have x1 := getParent_fr hx h.nil_ne f1 h1.upR.downL rfl
    refine ⟨t1, [Event.color w Color.RED], ?_, ?_, ?_⟩
    · simp only [e1, x1, Option.some_bind, Tree.ptr_node, Frame.addr]
    · simp only [e1, x1, Option.some_bind, Tree.ptr_node, Frame.addr]
    · simp [realPtrs, Tree.addrs]
  · simp only [h2, if_false] at hs ⊢
    by_cases hb : b.color = Color.BLACK
    · have ha : ¬ a.color = Color.BLACK := fun ha => h2 ⟨ha, hb⟩
      obtain ⟨a1, al, ka, ar, rfl⟩ := Tree.color_ne_black_node ha
      simp only [hb, if_true, Option.some.injEq, Prod.mk.injEq] at hs
      obtain ⟨rfl, rfl⟩ := hs
      obtain ⟨t1, e1, l1, h1, f1⟩ := deleteFixupCase3L_spec_log h hb hx
      have x1 := getParent_fr hx h.nil_ne f1 h1.downL rfl
      rw [← f1.1] at x1
      obtain ⟨t2, e2, l2, h2, f2⟩ := deleteFixupCase4L_spec_log h1 x1
      rw [f1.1] at e2 l2
      have hm := (modelsAt_iff fs _).mp h2
      have hroot := hm.root
      rw [f2.1, f1.1] at hroot
      refine ⟨t2, _, by simp only [e1, e2, Option.some_bind, hroot],
        by simp only [l1, l2, Option.some_bind, hroot]; rfl, ?_⟩
      cases cp <;> simp [realPtrs, Tree.addrs]
    · obtain ⟨b1, bl, kb, br, rfl⟩ := Tree.color_ne_black_node hb
      simp only [Tree.color_node, reduceCtorEq, if_false, Option.some.injEq,
        Prod.mk.injEq] at hs
      obtain ⟨rfl, rfl⟩ := hs
      have e1 := (deleteFixupCase3_skip (X.ptr t.NIL) h.downR).1 rfl
      have l1 := (deleteFixupCase3_skip_log (X.ptr t.NIL) h.downR).1 rfl
      obtain ⟨t2, e2, l2, h2, f2⟩ := deleteFixupCase4L_spec_log h hx
      have hm := (modelsAt_iff fs _).mp h2
      have hroot := hm.root
      rw [f2.1] at hroot
      refine ⟨t2, _, by simp only [e1, e2, Option.some_bind, hroot],
        by simp only [l1, l2, Option.some_bind, hroot]; rfl, ?_⟩
      cases cp <;> simp [realPtrs, Tree.addrs]

theorem deleteFixupRestRLog_spec {t : RedBlackTree α} {fs ctx1 : Ctx α} {p : Ptr} {cp : Color}
    {X W X1 : Tree α} {kp : α} (h : ModelsAt t fs (Tree.node p cp W kp X))
    (hx : t.getParent (X.ptr t.NIL) = some p)
    (hs : Ctx.delRestR fs p cp kp X W = some (ctx1, X1)) :
    ∃ t1 log, deleteFixupRestR t (X.ptr t.NIL) (W.ptr t.NIL) = some (t1, X1.ptr t.NIL) ∧
      deleteFixupRestRLog t (X.ptr t.NIL) (W.ptr t.NIL) = some ((t1, X1.ptr t.NIL), log) ∧
      ∀ q ∈ realPtrs log, q ∈ p :: W.addrs := by
  rcases W with _ | ⟨w, cw, a, kw, b⟩
  · simp [Ctx.delRestR] at hs
  have hca := h.downL.downL.getColor
  have hcb := h.downL.downR.getColor
  simp only [Ctx.delRestR] at hs
  simp only [deleteFixupRestR, deleteFixupRestRLog, Tree.ptr_node, h.downL.getLeft, hca,
    h.downL.getRight, hcb, Option.bind_eq_bind, Option.some_bind]
  by_cases h2 : b.color = Color.BLACK ∧ a.color = Color.BLACK
  · simp only [h2, and_self, if_true, Option.some.injEq, Prod.mk.injEq] at hs ⊢
    obtain ⟨rfl, rfl⟩ := hs
    obtain ⟨t1, e1, h1, f1⟩ := setColor_at Color.RED h.downL
    have x1 := getParent_fr hx h.nil_ne f1 h1.upL.downR rfl
    refine ⟨t1, [Event.color w Color.RED], ?_, ?_, ?_⟩
    · simp only [e1, x1, Option.some_bind, Tree.ptr_node, Frame.addr]
    · simp only [e1, x1, Option.some_bind, Tree.ptr_node, Frame.addr]
    · simp [realPtrs, Tree.addrs]
  · simp only [h2, if_false] at hs ⊢
    by_cases ha : a.color = Color.BLACK
    · have hb : ¬ b.color = Color.BLACK := fun hb => h2 ⟨hb, ha⟩
      obtain ⟨b1, bl, kb, br, rfl⟩ := Tree.color_ne_black_node hb
      simp only [ha, if_true, Option.some.injEq, Prod.mk.injEq] at hs
      obtain ⟨rfl, rfl⟩ := hs
      obtain ⟨t1, e1, l1, h1, f1⟩ := deleteFixupCase3R_spec_log h ha hx
      have x1 := getParent_fr hx h.nil_ne f1 h1.downR rfl
      rw [← f1.1] at x1
      obtain ⟨t2, e2, l2, h2, f2⟩ := deleteFixupCase4R_spec_log h1 x1
      rw [f1.1] at e2 l2
      have hm := (modelsAt_iff fs _).mp h2
      have hroot := hm.root
      rw [f2.1, f1.1] at hroot
      refine ⟨t2, _, by simp only [e1, e2, Option.some_bind, hroot],
        by simp only [l1, l2, Option.some_bind, hroot]; rfl, ?_⟩
      cases cp <;> simp [realPtrs, Tree.addrs]
    · obtain ⟨a1, al, ka, ar, rfl⟩ := Tree.color_ne_black_node ha
      simp only [Tree.color_node, reduceCtorEq, if_false, Option.some.injEq,
        Prod.mk.injEq] at hs
      obtain ⟨rfl, rfl⟩ := hs
      have e1 := (deleteFixupCase3_skip (X.ptr t.NIL) h.downL).2 rfl
      have l1 := (deleteFixupCase3_skip_log (X.ptr t.NIL) h.downL).2 rfl
      obtain ⟨t2, e2, l2, h2, f2⟩ := deleteFixupCase4R_spec_log h hx
      have hm := (modelsAt_iff fs _).mp h2
      have hroot := hm.root
      rw [f2.1] at hroot
      refine ⟨t2, _, by simp only [e1, e2, Option.some_bind, hroot],
        by simp only [l1, l2, Option.some_bind, hroot]; rfl, ?_⟩
      cases cp <;> simp [realPtrs, Tree.addrs]

end RBT

namespace RBT

open RedBlackTree

variable {α : Type}

theorem deleteFixupBodyLog_spec {t : RedBlackTree α} {ctx ctx1 : Ctx α} {X X1 : Tree α}
    (h : ModelsAt t ctx X) (hx : t.getParent (X.ptr t.NIL) = some ctx.par)
    (hs : Ctx.delStep ctx X = some (ctx1, X1)) :
    ∃ t1 log, deleteFixupBody (t, X.ptr t.NIL) = some (t1, X1.ptr t.NIL) ∧
      deleteFixupBodyLog (t, X.ptr t.NIL) = some ((t1, X1.ptr t.NIL), log) ∧
      ∀ q ∈ realPtrs log, q ∈ Ctx.addrs ctx := by
  rcases ctx with _ | ⟨⟨p, cp, kp, W⟩ | ⟨p, cp, W, kp⟩, fs⟩
  · simp [Ctx.delStep] at hs
  · simp only [Ctx.par_cons, Frame.addr] at hx
    simp only [deleteFixupBody, deleteFixupBodyLog, hx, h.upL.getLeft, Option.bind_eq_bind,
      Option.some_bind, if_true, deleteFixupLeft, deleteFixupLeftLog, h.upL.getRight]
    rcases W with _ | ⟨w, _ | _, wl, kw, wr⟩
    · simp [Ctx.delStep, Ctx.delRestL] at hs
    · simp only [Ctx.delStep] at hs
      obtain ⟨t1, e1, l1, h1, f1⟩ := deleteFixupCase1L_red_log h.upL hx
      have x1 := getParent_fr hx h.nil_ne f1 h1.downL.downL rfl
      rw [← f1.1] at x1
      obtain ⟨t2, log, e2, l2, hq⟩ := deleteFixupRestLLog_spec h1.downL x1 hs
      rw [f1.1] at e2 l2
      refine ⟨t2, _, by simp only [Tree.ptr_node, e1, Option.some_bind, e2],
        by simp only [Tree.ptr_node, l1, Option.some_bind, l2]; rfl, ?_⟩
      rcases wl with _ | ⟨a, ca, al, ka, ar⟩
      · simp [Ctx.delRestL] at hs
      intro q hq1
      simp only [realPtrs, realPtrs_append, List.cons_append, List.nil_append, List.mem_cons,
        List.mem_append, Tree.ptr_node] at hq1
      have := hq q
      simp only [Ctx.addrs, Frame.addr, Frame.sib, Tree.addrs, List.mem_cons, List.mem_append] at this ⊢
      tauto
    · simp only [Ctx.delStep] at hs
      have e1 := (deleteFixupCase1_black (X.ptr t.NIL) h.upL.downR rfl).1
      have l1 := (deleteFixupCase1_black_log (X.ptr t.NIL) h.upL.downR rfl).1
      obtain ⟨t2, log, e2, l2, hq⟩ := deleteFixupRestLLog_spec h.upL hx hs
      refine ⟨t2, _, by simp only [e1, Option.some_bind, e2],
        by simp only [l1, Option.some_bind, l2]; rfl, ?_⟩
      intro q hq1
      simp only [realPtrs, List.nil_append, List.mem_cons, Tree.ptr_node] at hq1
      have := hq q
      simp only [Ctx.addrs, Frame.addr, Frame.sib, Tree.addrs, List.mem_cons, List.mem_append] at this ⊢
      tauto
  · simp only [Ctx.par_cons, Frame.addr] at hx
    rcases W with _ | ⟨w, cw, wl, kw, wr⟩
    · simp [Ctx.delStep, Ctx.delRestR] at hs
    have hne : (X.ptr t.NIL = w) = False := by
      rcases X with _ | ⟨x0, cx, xl, kx, xr⟩
      · have := h.upR.downL.ne_nil
        simp only [eq_iff_iff, iff_false] at this ⊢
        exact fun e => this e.symm
      · have := h.upR.right_ne_left
        simpa using this
    simp only [deleteFixupBody, deleteFixupBodyLog, hx, h.upR.getLeft, Option.bind_eq_bind,
      Option.some_bind, Tree.ptr_node, hne, if_false, deleteFixupRight, deleteFixupRightLog]
    rcases cw with _ | _
    · simp only [Ctx.delStep] at hs
      obtain ⟨t1, e1, l1, h1, f1⟩ := deleteFixupCase1R_red_log h.upR hx
      have x1 := getParent_fr hx h.nil_ne f1 h1.downR.downR rfl
      rw [← f1.1] at x1
      obtain ⟨t2, log, e2, l2, hq⟩ := deleteFixupRestRLog_spec h1.downR x1 hs
      rw [f1.1] at e2 l2
      refine ⟨t2, _, by simp only [e1, Option.some_bind, e2],
        by simp only [l1, Option.some_bind, l2]; rfl, ?_⟩
      rcases wr with _ | ⟨a, ca, al, ka, ar⟩
      · simp [Ctx.delRestR] at hs
      intro q hq1
      simp only [realPtrs, realPtrs_append, List.cons_append, List.nil_append, List.mem_cons,
        List.mem_append, Tree.ptr_node] at hq1
      have := hq q
      simp only [Ctx.addrs, Frame.addr, Frame.sib, Tree.addrs, List.mem_cons, List.mem_append] at this ⊢
      tauto
    · simp only [Ctx.delStep] at hs
      have e1 := (deleteFixupCase1_black (X.ptr t.NIL) h.upR.downL rfl).2
      have l1 := (deleteFixupCase1_black_log (X.ptr t.NIL) h.upR.downL rfl).2
      simp only [Tree.ptr_node] at e1 l1
      obtain ⟨t2, log, e2, l2, hq⟩ := deleteFixupRestRLog_spec h.upR hx hs
      simp only [Tree.ptr_node] at e2 l2
      refine ⟨t2, _, by simp only [e1, Option.some_bind, e2],
        by simp only [l1, Option.some_bind, l2]; rfl, ?_⟩
      intro q hq1
      simp only [realPtrs, List.nil_append, List.mem_cons, Tree.ptr_node] at hq1
      have := hq q
      simp only [Ctx.addrs, Frame.addr, Frame.sib, Tree.addrs, List.mem_cons, List.mem_append] at this ⊢
      tauto

end RBT

namespace RBT

open RedBlackTree

variable {α : Type}

theorem deleteFixupLog_loop (N : Nat) : ∀ (t : RedBlackTree α) (ctx : Ctx α) (X : Tree α)
    (n : Nat), ctx.length ≤ N → ModelsAt t ctx X →
    t.getParent (X.ptr t.NIL) = some ctx.par → DelInv ctx X n →
    ∃ t1 p1 L,
      (∀ fuel, N + 1 < fuel →
        whileLoop deleteFixupCond deleteFixupBody fuel (t, X.ptr t.NIL) = some (t1, p1)) ∧
      (∀ fuel log0, N + 1 < fuel →
        whileLoop (fun s => deleteFixupCond s.1)
          (fun s => (deleteFixupBodyLog s.1).map fun r => (r.1, s.2 ++ r.2)) fuel
          ((t, X.ptr t.NIL), log0) = some ((t1, p1), log0 ++ L)) ∧
      ∀ p ∈ realPtrs L, p ≠ t.NIL ∧ p ≠ 0 := by
  induction N with
  | zero =>
    intro t ctx X n hl h hx hi
    have hctx : ctx = [] := List.eq_nil_of_length_eq_zero (by omega)
    subst hctx
    refine ⟨t, X.ptr t.NIL, [], fun fuel hf => ?_, fun fuel log0 hf => ?_,
      fun p hp => by cases hp⟩
    · obtain ⟨f, rfl⟩ : ∃ k, fuel = k + 1 := ⟨fuel - 1, by omega⟩
      exact whileLoop_false f (deleteFixupCond_spec h)
    · obtain ⟨f, rfl⟩ : ∃ k, fuel = k + 1 := ⟨fuel - 1, by omega⟩
      rw [List.append_nil]
      exact whileLoop_false f (deleteFixupCond_spec h)
  | succ N ih =>
    intro t ctx X n hl h hx hi
    rcases hc : Ctx.delCond ctx X with _ | _
    · refine ⟨t, X.ptr t.NIL, [], fun fuel hf => ?_, fun fuel log0 hf => ?_,
        fun p hp => by cases hp⟩
      · obtain ⟨f, rfl⟩ : ∃ k, fuel = k + 1 := ⟨fuel - 1, by omega⟩
        exact whileLoop_false f ((deleteFixupCond_spec h).trans (by rw [hc]))
      · obtain ⟨f, rfl⟩ : ∃ k, fuel = k + 1 := ⟨fuel - 1, by omega⟩
        rw [List.append_nil]
        exact whileLoop_false f ((deleteFixupCond_spec h).trans (by rw [hc]))
    · obtain ⟨⟨ctx1, X1⟩, hs⟩ := delStep_some hi hc
      obtain ⟨⟨n1, hi1⟩, hlen, hk, hsz⟩ := delStep_inv hs hi hc
      obtain ⟨t1, e1, h1, f1, a, c, l, k, r, hX1⟩ := deleteFixupBody_spec h hx hs
      obtain ⟨t1', log, e1', l1, hq⟩ := deleteFixupBodyLog_spec h hx hs
      obtain rfl : t1' = t1 := by
        have := e1'.symm.trans e1
        simp only [Option.some.injEq, Prod.mk.injEq] at this
        exact this.1
      subst hX1
      have hx1 : t1'.getParent ((Tree.node a c l k r).ptr t1'.NIL) = some ctx1.par :=
        h1.getParent
      have hreal : ∀ p ∈ realPtrs log, p ≠ t.NIL ∧ p ≠ 0 := fun p hp =>
        have := h.addrsOk.2 p (List.mem_append_right _ (hq p hp))
        ⟨this.2.1, this.1⟩
      have hstep : ∀ (f : Nat) (log0 : List Event),
          whileLoop (fun s => deleteFixupCond s.1)
            (fun s => (deleteFixupBodyLog s.1).map fun r => (r.1, s.2 ++ r.2)) (f + 1)
            ((t, X.ptr t.NIL), log0) =
          whileLoop (fun s => deleteFixupCond s.1)
            (fun s => (deleteFixupBodyLog s.1).map fun r => (r.1, s.2 ++ r.2)) f
            ((t1', (Tree.node a c l k r).ptr t.NIL), log0 ++ log) := fun f log0 =>
        @whileLoop_true ((RedBlackTree α × Ptr) × List Event)
          (fun s => deleteFixupCond s.1)
          (fun s => (deleteFixupBodyLog s.1).map fun r => (r.1, s.2 ++ r.2))
          ((t, X.ptr t.NIL), log0)
          ((t1', (Tree.node a c l k r).ptr t.NIL), log0 ++ log) f
          ((deleteFixupCond_spec h).trans (by rw [hc]))
          (by simp only [l1, Option.map_some'])
      rcases hlen with hlen | hred
      · obtain ⟨t2, p2, L, e2, l2, hq2⟩ := ih t1' ctx1 _ n1 (by omega) h1 hx1 hi1
        refine ⟨t2, p2, log ++ L, fun fuel hf => ?_, fun fuel log0 hf => ?_, ?_⟩
        · obtain ⟨f, rfl⟩ : ∃ k, fuel = k + 1 := ⟨fuel - 1, by omega⟩
          refine (whileLoop_true f ((deleteFixupCond_spec h).trans (by rw [hc])) e1).trans ?_
          have := e2 f (by omega)
          rw [f1.1] at this
          exact this
        · obtain ⟨f, rfl⟩ : ∃ k, fuel = k + 1 := ⟨fuel - 1, by omega⟩
          refine (hstep f log0).trans ?_
          have := l2 f (log0 ++ log) (by omega)
          rw [f1.1] at this
          rw [this, List.append_assoc]
        · intro p hp
          rw [realPtrs_append, List.mem_append] at hp
          rcases hp with hp | hp
          · exact hreal p hp
          · have := hq2 p hp
            rw [f1.1] at this
            exact this
      · have hc1 : Ctx.delCond ctx1 (Tree.node a c l k r) = false := by
          simp only [Tree.color_node] at hred
          subst hred
          cases ctx1 <;> rfl
        refine ⟨t1', (Tree.node a c l k r).ptr t.NIL, log, fun fuel hf => ?_,
          fun fuel log0 hf => ?_, hreal⟩
        · obtain ⟨f, rfl⟩ : ∃ k, fuel = k + 1 := ⟨fuel - 1, by omega⟩
          refine (whileLoop_true f ((deleteFixupCond_spec h).trans (by rw [hc])) e1).trans ?_
          obtain ⟨g, rfl⟩ : ∃ k, f = k + 1 := ⟨f - 1, by omega⟩
          have := @whileLoop_false _ deleteFixupCond deleteFixupBody _ g
            ((deleteFixupCond_spec h1).trans (by rw [hc1]))
          rw [f1.1] at this
          exact this
        · obtain ⟨f, rfl⟩ : ∃ k, fuel = k + 1 := ⟨fuel - 1, by omega⟩
          refine (hstep f log0).trans ?_
          obtain ⟨g, rfl⟩ : ∃ k, f = k + 1 := ⟨f - 1, by omega⟩
          have := (deleteFixupCond_spec h1).trans (by rw [hc1])
          rw [f1.1] at this
          exact @whileLoop_false ((RedBlackTree α × Ptr) × List Event)
            (fun s => deleteFixupCond s.1)
            (fun s => (deleteFixupBodyLog s.1).map fun r => (r.1, s.2 ++ r.2))
            ((t1', (Tree.node a c l k r).ptr t.NIL), log0 ++ log) g this

theorem deleteFixupLog_spec {t : RedBlackTree α} {ctx : Ctx α} {X : Tree α} {n : Nat}
    (h : ModelsAt t ctx X) (hx : t.getParent (X.ptr t.NIL) = some ctx.par)
    (hi : DelInv ctx X n) :
    ∃ t1 L, (∀ fuel, ctx.length + 1 < fuel →
        t.deleteFixup fuel (X.ptr t.NIL) = some t1 ∧
        t.deleteFixupLog fuel (X.ptr t.NIL) = some (t1, L)) ∧
      ∀ p ∈ realPtrs L, p ≠ t.NIL ∧ p ≠ 0 := by
  obtain ⟨t1, T1, e1, -⟩ := deleteFixup_spec h hx hi
  obtain ⟨t2, p2, L, e2, l2, hq⟩ := deleteFixupLog_loop ctx.length t ctx X n (le_refl _) h hx hi
  have hset : t2.setColor p2 Color.BLACK = some t1 := by
    have := e1 (ctx.length + 2) (by omega)
    simpa only [deleteFixup, e2 (ctx.length + 2) (by omega), Option.bind_eq_bind,
      Option.some_bind] using this
  refine ⟨t1, L ++ [Event.color p2 Color.BLACK], fun fuel hf => ⟨e1 fuel hf, ?_⟩, ?_⟩
  · simp only [deleteFixupLog, l2 fuel [] hf, Option.bind_eq_bind, Option.some_bind, hset,
      List.nil_append]
  · rw [realPtrs_append]; simpa [realPtrs] using hq

theorem removeLog_spec [LinearOrder α] {t : RedBlackTree α} {T : Tree α} (h : Models t T)
    (hwf : T.WF) (hb : T.color = Color.BLACK) (k : α) :
    ∃ t1 b L, (∀ fuel, T.height + 1 < fuel →
        t.remove fuel k = some (t1, b) ∧ t.removeLog fuel k = some (t1, b, L)) ∧
      ∀ p ∈ realPtrs L, p ≠ t.NIL ∧ p ≠ 0 := by
  rcases hz : (Ctx.find k T []).2 with _ | ⟨z, c, l, x, r⟩
  · refine ⟨t, false, [], fun fuel hf => ⟨remove_absent h k hz fuel (by omega), ?_⟩,
      fun p hp => by cases hp⟩
    obtain ⟨e1, -⟩ := search_spec k T [] fuel ((modelsAt_nil T).mpr h) (by omega)
    rw [← h.root, hz] at e1
    simp only [RedBlackTree.removeLog, e1, Tree.ptr_nil, Option.bind_eq_bind, Option.some_bind,
      if_true]
  have hplug : Ctx.plug (Ctx.find k T []).1 (Ctx.find k T []).2 = T := Ctx.plug_find k T []
  rw [hz] at hplug
  have hZ : ModelsAt t (Ctx.find k T []).1 (Tree.node z c l x r) :=
    (modelsAt_iff _ _).mpr (by rw [hplug]; exact h)
  obtain ⟨⟨ctx1, X, yc⟩, hs⟩ := splice_some (Ctx.find k T []).1 z c l r x
  obtain ⟨t1, e1, h1, p1, ⟨n1, m1⟩, hzn, N1, b1, c1⟩ := removeSplice_spec hZ hs
  obtain ⟨i1, i2, i3, i4, i5⟩ := splice_inv hs (by rw [hplug]; exact hwf) (by rw [hplug]; exact hb)
  rw [hplug] at i4 i5
  have hzN : z ≠ t1.NIL := by rw [N1]; exact fun e => by simpa [e] using hZ.ne_nil
  have hz0 : z ≠ 0 := fun e => by simpa [e] using hZ.ne_null
  rw [Ctx.mem_addrs_plug] at hzn
  obtain ⟨t2, e2, h2, f2, r2⟩ := free_spec h1 hzn hzN hz0 m1
  have h3 := h2.setNodeCount (t2.nodeCount - 1)
  have hheight := Ctx.height_plug (Ctx.find k T []).1 (Tree.node z c l x r)
  rw [hplug] at hheight
  have hsearch : ∀ fuel, T.height < fuel → t.search fuel t.root k = some z := by
    intro fuel hf
    obtain ⟨e0, -⟩ := search_spec k T [] fuel ((modelsAt_nil T).mpr h) hf
    rw [← h.root, hz] at e0
    exact e0
  rcases yc with _ | _
  · refine ⟨t2.setNodeCount (t2.nodeCount - 1), true, [], fun fuel hf => ?_,
      fun p hp => by cases hp⟩
    have e1' := e1 fuel (by omega)
    rw [← N1] at e1'
    constructor
    · simp only [RedBlackTree.remove, hsearch fuel (by omega), Option.bind_eq_bind,
        Option.some_bind, hZ.ne_nil, if_false, e1', e2, reduceCtorEq]
    · simp only [RedBlackTree.removeLog, hsearch fuel (by omega), Option.bind_eq_bind,
        Option.some_bind, hZ.ne_nil, if_false, e1', e2, reduceCtorEq]
  · have hx3 : (t2.setNodeCount (t2.nodeCount - 1)).getParent
        (X.ptr (t2.setNodeCount (t2.nodeCount - 1)).NIL) = some ctx1.par := by
      have := getParent_fr (by rw [N1]; exact p1) h1.nil_ne f2 h2 rfl
      show t2.getParent (X.ptr t2.NIL) = _
      rw [f2.1]
      exact this
    obtain ⟨t4, L, e4, hq⟩ := deleteFixupLog_spec h3 hx3 (i2 rfl)
    have hN2 : (t2.setNodeCount (t2.nodeCount - 1)).NIL = t.NIL := f2.1.trans N1
    rw [hN2] at hq
    refine ⟨t4, true, L, fun fuel hf => ?_, hq⟩
    have e1' := e1 fuel (by omega)
    obtain ⟨e4a, e4b⟩ := e4 fuel (by omega)
    rw [hN2] at e4a e4b
    constructor
    · simp only [RedBlackTree.remove, hsearch fuel (by omega), Option.bind_eq_bind,
        Option.some_bind, hZ.ne_nil, if_false, e1', e2, if_true, e4a]
    · simp only [RedBlackTree.removeLog, hsearch fuel (by omega), Option.bind_eq_bind,
        Option.some_bind, hZ.ne_nil, if_false, e1', e2, if_true, e4b]

end RBT

namespace RBT

open RedBlackTree

variable {α : Type}

theorem insertFixupLog_mono (t : RedBlackTree α) (z : Ptr) :
    FuelMono (fun n => t.insertFixupLog n z) :=
  FuelMono.bind (FuelMono.whileLoop _ _ _) (fun _ => FuelMono.const _)

theorem deleteFixupLog_mono (t : RedBlackTree α) (x : Ptr) :
    FuelMono (fun n => t.deleteFixupLog n x) :=
  FuelMono.bind (FuelMono.whileLoop _ _ _) (fun _ => FuelMono.const _)

theorem insertLog_mono [LinearOrder α] (t : RedBlackTree α) (k : α) :
    FuelMono (fun n => t.insertLog n k) := by
  unfold RedBlackTree.insertLog
  refine FuelMono.bind (FuelMono.const _) fun t1 => ?_
  refine FuelMono.bind (FuelMono.const _) fun t2 => ?_
  refine FuelMono.bind (FuelMono.whileLoop _ _ _) fun s => ?_
  refine FuelMono.bind (FuelMono.const _) fun t3 => ?_
  exact insertFixupLog_mono _ _

theorem removeLog_mono [LinearOrder α] (t : RedBlackTree α) (k : α) :
    FuelMono (fun n => t.removeLog n k) := by
  unfold RedBlackTree.removeLog
  refine FuelMono.bind (search_mono t k _) fun z => ?_
  split
  · exact FuelMono.const _
  · refine FuelMono.bind (removeSplice_mono t z) fun s => ?_
    refine FuelMono.bind (FuelMono.const _) fun t2 => ?_
    refine FuelMono.bind ?_ fun t3 => FuelMono.const _
    split
    · exact deleteFixupLog_mono _ _
    · exact FuelMono.const _

theorem Models.nil_black {t : RedBlackTree α} {T : Tree α} (h : Models t T) :
    t.getColor t.NIL = some Color.BLACK := by
  obtain ⟨hn0, _, d, p, hd⟩ := h.nilCell
  simp only [RedBlackTree.getColor, deref_eq hn0, hd, Option.map_some']

/-- Claim C17: the sentinel is never recoloured.  In every reachable state the
sentinel `NIL` is BLACK; and for every key, the calls `insert(k)` and
`remove(k)` return, and in the record of the colour assignments made by
`insertFixup`, respectively `deleteFixup`, during the call, no assignment of
RED has the sentinel as its target. -/
theorem sentinel_never_recoloured [LinearOrder α] [Inhabited α] (t : RedBlackTree α)
    (h : Reachable t) :
    t.getColor t.NIL = some Color.BLACK ∧
      ∀ k : α,
        (∃ t1 L, Returns (fun n => t.insert n k) t1 ∧
          Returns (fun n => t.insertLog n k) (t1, L) ∧
          t1.getColor t1.NIL = some Color.BLACK ∧
          ∀ p, Event.color p Color.RED ∈ L → p ≠ t.NIL) ∧
        (∃ t1 b L, Returns (fun n => t.remove n k) (t1, b) ∧
          Returns (fun n => t.removeLog n k) (t1, b, L) ∧
          t1.getColor t1.NIL = some Color.BLACK ∧
          ∀ p, Event.color p Color.RED ∈ L → p ≠ t.NIL) := by
  obtain ⟨T, hM, hwf, hb, -, -⟩ := h.inv
  refine ⟨hM.nil_black, fun k => ⟨?_, ?_⟩⟩
  · obtain ⟨t1, L, e, -, -, hp⟩ := insertLog_spec hM hwf hb k
    have r1 : Returns (fun n => t.insert n k) t1 :=
      Returns.intro (insert_mono t k) (T.height + 1) (fun fuel hf => (e fuel (by omega)).1)
    obtain ⟨T1, hM1, -⟩ := (Reachable.insert (T.height + 1) k h
      ((e (T.height + 1) (by omega)).1)).inv
    exact ⟨t1, L, r1,
      Returns.intro (insertLog_mono t k) (T.height + 1) (fun fuel hf => (e fuel (by omega)).2),
      hM1.nil_black, fun p hm => (hp p (mem_realPtrs_of_red hm)).1⟩
  · obtain ⟨t1, b, L, e, hp⟩ := removeLog_spec hM hwf hb k
    obtain ⟨T1, hM1, -⟩ := (Reachable.remove (T.height + 2) k b h
      ((e (T.height + 2) (by omega)).1)).inv
    exact ⟨t1, b, L,
      Returns.intro (remove_mono t k) (T.height + 2) (fun fuel hf => (e fuel (by omega)).1),
      Returns.intro (removeLog_mono t k) (T.height + 2) (fun fuel hf => (e fuel (by omega)).2),
      hM1.nil_black, fun p hm => (hp p (mem_realPtrs_of_red hm)).1⟩

theorem sentinel_never_recoloured_witness :
    Reachable sampleTree ∧
      sampleTree.getColor sampleTree.NIL = some Color.BLACK ∧
      ∀ k : Nat,
        (∃ t1 L, Returns (fun n => sampleTree.insert n k) t1 ∧
          Returns (fun n => sampleTree.insertLog n k) (t1, L) ∧
          t1.getColor t1.NIL = some Color.BLACK ∧
          ∀ p, Event.color p Color.RED ∈ L → p ≠ sampleTree.NIL) ∧
        (∃ t1 b L, Returns (fun n => sampleTree.remove n k) (t1, b) ∧
          Returns (fun n => sampleTree.removeLog n k) (t1, b, L) ∧
          t1.getColor t1.NIL = some Color.BLACK ∧
          ∀ p, Event.color p Color.RED ∈ L → p ≠ sampleTree.NIL) :=
  ⟨sampleTree_reachable, sentinel_never_recoloured sampleTree sampleTree_reachable⟩

/-- Claim C19: in `insertFixup` the uncle-BLACK branch ends the loop.  For a
reachable tree and any key, `insert(k)` returns, and in the record of its
`insertFixup` the uncle colours met by the successive iterations are RED for
every iteration but possibly the last: an iteration that takes the
uncle-BLACK branch is the last one.  The whole call makes at most two
rotations. -/
theorem uncle_black_ends_fixup [LinearOrder α] [Inhabited α] (t : RedBlackTree α)
    (h : Reachable t) (k : α) :
    ∃ t1 L, Returns (fun n => t.insert n k) t1 ∧
      Returns (fun n => t.insertLog n k) (t1, L) ∧
      (∃ j, uncles L = List.replicate j Color.RED ∨
        uncles L = List.replicate j Color.RED ++ [Color.BLACK]) ∧
      rotations L ≤ 2 := by
  obtain ⟨T, hM, hwf, hb, -, -⟩ := h.inv
  obtain ⟨t1, L, e, hrot, hun, -⟩ := insertLog_spec hM hwf hb k
  exact ⟨t1, L,
    Returns.intro (insert_mono t k) (T.height + 1) (fun fuel hf => (e fuel (by omega)).1),
    Returns.intro (insertLog_mono t k) (T.height + 1) (fun fuel hf => (e fuel (by omega)).2),
    hun, hrot⟩

theorem uncle_black_ends_fixup_witness :
    Reachable sampleTree ∧
      ∃ t1 L, Returns (fun n => sampleTree.insert n 1) t1 ∧
        Returns (fun n => sampleTree.insertLog n 1) (t1, L) ∧
        (∃ j, uncles L = List.replicate j Color.RED ∨
          uncles L = List.replicate j Color.RED ++ [Color.BLACK]) ∧
        rotations L ≤ 2 :=
  ⟨sampleTree_reachable, uncle_black_ends_fixup sampleTree sampleTree_reachable 1⟩

/-- Claim C20: every public operation terminates on every reachable tree.
For a reachable tree and any key, `insert`, `remove`, `contains`, `inorder`
and `clear` return (every large enough step budget gives the same result),
and a budget of `2 * log2 (size + 1) + 2` iterations for each loop and
recursion is enough: the descent loops of `search`, `insert` and `minimum`
and the loops of `insertFixup` and `deleteFixup` all end within it. -/
theorem operations_terminate [LinearOrder α] [Inhabited α] (t : RedBlackTree α)
    (h : Reachable t) (k : α) :
    (∃ t1, Returns (fun n => t.insert n k) t1) ∧
      (∃ r, Returns (fun n => t.remove n k) r) ∧
      (∃ b, Returns (fun n => t.contains n k) b) ∧
      (∃ xs, Returns t.inorder xs) ∧
      (∃ t1, Returns t.clear t1) ∧
      ∀ fuel, 2 * Nat.log 2 (t.size + 1) + 2 ≤ fuel →
        (t.search fuel t.root k).isSome ∧ (t.insert fuel k).isSome ∧
        (t.remove fuel k).isSome ∧ (t.contains fuel k).isSome ∧
        (t.inorder fuel).isSome ∧ (t.clear fuel).isSome := by
  have hI := h.inv
  obtain ⟨T, hM, hwf, hb, hs, hc⟩ := hI
  have hh : T.height ≤ 2 * Nat.log 2 (t.size + 1) := by
    have h1 := hwf.height_le
    simp only [hb, reduceCtorEq, if_false, add_zero] at h1
    have h2 := hwf.pow_bh_le
    have hsz : t.size = T.size := hc
    have h4 : T.bh ≤ Nat.log 2 (T.size + 1) := Nat.le_log_of_pow_le (by decide) h2
    rw [hsz]; omega
  obtain ⟨t1, T1, e1, -⟩ := insert_spec hM hwf hb k
  obtain ⟨t2, b2, L2, e2, -⟩ := removeLog_spec hM hwf hb k
  obtain ⟨t3, e3, -⟩ := clear_spec hM
  refine ⟨⟨t1, Returns.intro (insert_mono t k) (T.height + 1) (fun fuel hf => e1 fuel (by omega))⟩,
    ⟨(t2, b2), Returns.intro (remove_mono t k) (T.height + 2)
      (fun fuel hf => (e2 fuel (by omega)).1)⟩,
    ⟨_, Returns.intro (contains_mono t k) (T.height + 1)
      (fun fuel hf => contains_spec hM hs k fuel (by omega))⟩,
    ⟨_, Returns.intro (inorder_mono t) (T.height + 1)
      (fun fuel hf => inorder_spec hM fuel (by omega))⟩,
    ⟨t3, Returns.intro (clear_mono t) (T.height + 1) (fun fuel hf => e3 fuel (by omega))⟩,
    fun fuel hf => ?_⟩
  obtain ⟨s1, -⟩ := search_spec k T [] fuel ((modelsAt_nil T).mpr hM) (by omega)
  rw [← hM.root] at s1
  refine ⟨?_, ?_, ?_, ?_, ?_, ?_⟩
  · rw [s1]; rfl
  · rw [e1 fuel (by omega)]; rfl
  · rw [(e2 fuel (by omega)).1]; rfl
  · rw [contains_spec hM hs k fuel (by omega)]; rfl
  · rw [inorder_spec hM fuel (by omega)]; rfl
  · rw [e3 fuel (by omega)]; rfl

theorem operations_terminate_witness :
    Reachable sampleTree ∧
      (∃ t1, Returns (fun n => sampleTree.insert n 4) t1) ∧
      (∃ r, Returns (fun n => sampleTree.remove n 4) r) ∧
      (∃ b, Returns (fun n => sampleTree.contains n 4) b) ∧
      (∃ xs, Returns sampleTree.inorder xs) ∧
      (∃ t1, Returns sampleTree.clear t1) ∧
      ∀ fuel, 2 * Nat.log 2 (sampleTree.size + 1) + 2 ≤ fuel →
        (sampleTree.search fuel sampleTree.root 4).isSome ∧ (sampleTree.insert fuel 4).isSome ∧
        (sampleTree.remove fuel 4).isSome ∧ (sampleTree.contains fuel 4).isSome ∧
        (sampleTree.inorder fuel).isSome ∧ (sampleTree.clear fuel).isSome :=
  ⟨sampleTree_reachable, operations_terminate sampleTree sampleTree_reachable 4⟩

end RBT

namespace RBT

open RedBlackTree

variable {α : Type}

theorem realPtrs_of_mem {e : Event} {L : List Event} (h : e ∈ L) :
    ∀ p ∈ realPtrs [e], p ∈ realPtrs L := by
  obtain ⟨l1, l2, rfl⟩ := List.append_of_mem h
  intro p hp
  have : l1 ++ e :: l2 = l1 ++ ([e] ++ l2) := rfl
  rw [this, realPtrs_append, realPtrs_append]
  exact List.mem_append_right _ (List.mem_append_left _ hp)

theorem RealNode.rep {t : RedBlackTree α} {T : Tree α} (h : Models t T) {p : Ptr}
    (hp : RealNode t p) :
    ∃ par c l k r, Rep t.mem t.NIL par (Tree.node p c l k r) ∧
      ∀ q ∈ (Tree.node p c l k r).addrs, q ∈ T.addrs := by
  induction hp with
  | root hne =>
    rcases T with _ | ⟨a, c, l, k, r⟩
    · exact absurd h.root hne
    · have hr : t.root = a := h.root
      rw [hr]
      exact ⟨nullptr, c, l, k, r, h.rep, fun q hq => hq⟩
  | @left n c0 _ hl hne ih =>
    obtain ⟨par, c, l, k, r, hrep, hsub⟩ := ih
    have hn0 : n ≠ 0 := (h.addrsOk.2 n (hsub n (by simp [Tree.addrs]))).1
    obtain ⟨hm, hrl, -⟩ := hrep
    simp only [RedBlackTree.getLeft, deref_eq hn0, hm, Option.map_some',
      Option.some.injEq] at hl
    rcases l with _ | ⟨a, ca, al, ka, ar⟩
    · exact absurd hl.symm hne
    · simp only [Tree.ptr_node] at hl
      subst hl
      exact ⟨n, ca, al, ka, ar, hrl, fun q hq => hsub q (by
        simp only [Tree.addrs, List.mem_cons, List.mem_append] at hq ⊢; tauto)⟩
  | @right n c0 _ hl hne ih =>
    obtain ⟨par, c, l, k, r, hrep, hsub⟩ := ih
    have hn0 : n ≠ 0 := (h.addrsOk.2 n (hsub n (by simp [Tree.addrs]))).1
    obtain ⟨hm, -, hrr⟩ := hrep
    simp only [RedBlackTree.getRight, deref_eq hn0, hm, Option.map_some',
      Option.some.injEq] at hl
    rcases r with _ | ⟨a, ca, al, ka, ar⟩
    · exact absurd hl.symm hne
    · simp only [Tree.ptr_node] at hl
      subst hl
      exact ⟨n, ca, al, ka, ar, hrr, fun q hq => hsub q (by
        simp only [Tree.addrs, List.mem_cons, List.mem_append] at hq ⊢; tauto)⟩

theorem RealNode.of_rep {t : RedBlackTree α} :
    ∀ (T : Tree α) (par : Ptr), Rep t.mem t.NIL par T →
      (∀ a ∈ T.addrs, a ≠ 0 ∧ a ≠ t.NIL) →
      (T ≠ Tree.nil → RealNode t (T.ptr t.NIL)) → ∀ p ∈ T.addrs, RealNode t p := by
  intro T
  induction T with
  | nil => intro par _ _ _ p hp; cases hp
  | node a c l k r ihl ihr =>
    intro par hrep hadd hroot p hp
    have ha : RealNode t a := hroot (by simp)
    obtain ⟨hm, hrl, hrr⟩ := hrep
    have ha0 : a ≠ 0 := (hadd a (by simp [Tree.addrs])).1
    simp only [Tree.addrs, List.mem_cons, List.mem_append] at hp
    rcases hp with rfl | hp | hp
    · exact ha
    · refine ihl a hrl (fun q hq => hadd q (by
        simp only [Tree.addrs, List.mem_cons, List.mem_append]; tauto)) (fun hne => ?_) p hp
      rcases l with _ | ⟨b, cb, bl, kb, br⟩
      · exact absurd rfl hne
      · exact RealNode.left ha
          (by simp only [RedBlackTree.getLeft, deref_eq ha0, hm, Option.map_some'])
          (hadd b (by simp [Tree.addrs])).2
    · refine ihr a hrr (fun q hq => hadd q (by
        simp only [Tree.addrs, List.mem_cons, List.mem_append]; tauto)) (fun hne => ?_) p hp
      rcases r with _ | ⟨b, cb, bl, kb, br⟩
      · exact absurd rfl hne
      · exact RealNode.right ha
          (by simp only [RedBlackTree.getRight, deref_eq ha0, hm, Option.map_some'])
          (hadd b (by simp [Tree.addrs])).2

theorem Models.realNode_iff {t : RedBlackTree α} {T : Tree α} (h : Models t T) (p : Ptr) :
    RealNode t p ↔ p ∈ T.addrs := by
  constructor
  · intro hp
    obtain ⟨par, c, l, k, r, -, hsub⟩ := hp.rep h
    exact hsub p (by simp [Tree.addrs])
  · intro hp
    refine RealNode.of_rep T nullptr h.rep
      (fun a ha => ⟨(h.addrsOk.2 a ha).1, (h.addrsOk.2 a ha).2.1⟩) (fun hne => ?_) p hp
    rcases T with _ | ⟨a, c, l, k, r⟩
    · exact absurd rfl hne
    · have hr : t.root = a := h.root
      have hn : t.root ≠ t.NIL := by
        rw [hr]; exact (h.addrsOk.2 a (by simp [Tree.addrs])).2.1
      have := RealNode.root hn
      rw [hr] at this
      exact this

theorem RealNode.child_parent {t : RedBlackTree α} {T : Tree α} (h : Models t T) {n c : Ptr}
    (hn : RealNode t n) (hc : t.getLeft n = some c ∨ t.getRight n = some c) (hne : c ≠ t.NIL) :
    t.getParent c = some n := by
  have key : ∀ {c : Ptr}, RealNode t c → ∀ par cc l k r,
      Rep t.mem t.NIL par (Tree.node c cc l k r) → t.getParent c = some par := by
    intro c hc par cc l k r hrep
    have hc0 : c ≠ 0 := (h.addrsOk.2 c ((h.realNode_iff c).mp hc)).1
    simp only [RedBlackTree.getParent, deref_eq hc0, hrep.1, Option.map_some']
  obtain ⟨par, cn, l, k, r, hrep, hsub⟩ := hn.rep h
  have hn0 : n ≠ 0 := (h.addrsOk.2 n (hsub n (by simp [Tree.addrs]))).1
  obtain ⟨hm, hrl, hrr⟩ := hrep
  rcases hc with hc | hc
  · have hreal := RealNode.left hn hc hne
    simp only [RedBlackTree.getLeft, deref_eq hn0, hm, Option.map_some',
      Option.some.injEq] at hc
    rcases l with _ | ⟨a, ca, al, ka, ar⟩
    · exact absurd hc.symm hne
    · simp only [Tree.ptr_node] at hc
      subst hc
      exact key hreal n ca al ka ar hrl
  · have hreal := RealNode.right hn hc hne
    simp only [RedBlackTree.getRight, deref_eq hn0, hm, Option.map_some',
      Option.some.injEq] at hc
    rcases r with _ | ⟨a, ca, al, ka, ar⟩
    · exact absurd hc.symm hne
    · simp only [Tree.ptr_node] at hc
      subst hc
      exact key hreal n ca al ka ar hrr

theorem leafRemovedCleared_reachable : Reachable leafRemovedCleared :=
  Reachable.clear 4
    (Reachable.remove 4 3 true
      (Reachable.insertAll [5, 3] Reachable.new
        (rfl : RBT.insertAll RedBlackTree.new [5, 3] 4 = some leafTree))
      (rfl : leafTree.remove 4 3 = some (leafRemoved, true)))
    (rfl : leafRemoved.clear 4 = some leafRemovedCleared)

/-- Claim C21: `isEmpty()` and `size()` agree.  In every reachable state
`isEmpty()` (the test `root == NIL`) is true if and only if `size()` (the
counter `nodeCount`) is 0. -/
theorem isEmpty_iff_size_zero [LinearOrder α] [Inhabited α] (t : RedBlackTree α)
    (h : Reachable t) : t.isEmpty = true ↔ t.size = 0 := by
  obtain ⟨T, hM, -, -, -, hc⟩ := h.inv
  have hs : t.size = T.size := hc
  rw [hM.isEmpty, hs]
  simp

theorem isEmpty_iff_size_zero_witness :
    Reachable leafRemovedCleared ∧
      (leafRemovedCleared.isEmpty = true ↔ leafRemovedCleared.size = 0) :=
  ⟨leafRemovedCleared_reachable, isEmpty_iff_size_zero leafRemovedCleared
    leafRemovedCleared_reachable⟩

/-- Claim C22: the fixups never dereference a missing node on a reachable
tree.  For a reachable tree and any key, `insert(k)` and `remove(k)` return,
and in the record of what `insertFixup`, respectively `deleteFixup`, did
during the call: every grandparent `z->parent->parent` read by `insertFixup`
is a real node; every sibling `w` taken by `deleteFixup` is a real node; and
in every call of `rotateLeft(x)` (of `rotateRight(y)`) both `x` and its right
child (both `y` and its left child) are real nodes.  A real node is neither
the sentinel nor the null pointer. -/
theorem fixups_touch_real_nodes [LinearOrder α] [Inhabited α] (t : RedBlackTree α)
    (h : Reachable t) (k : α) :
    (∃ t1 L, Returns (fun n => t.insert n k) t1 ∧
      Returns (fun n => t.insertLog n k) (t1, L) ∧
      (∀ g, Event.grandparent g ∈ L → g ≠ t.NIL ∧ g ≠ nullptr) ∧
      (∀ x y, Event.rotateLeft x y ∈ L →
        (x ≠ t.NIL ∧ x ≠ nullptr) ∧ (y ≠ t.NIL ∧ y ≠ nullptr)) ∧
      (∀ y x, Event.rotateRight y x ∈ L →
        (y ≠ t.NIL ∧ y ≠ nullptr) ∧ (x ≠ t.NIL ∧ x ≠ nullptr))) ∧
    (∃ t1 b L, Returns (fun n => t.remove n k) (t1, b) ∧
      Returns (fun n => t.removeLog n k) (t1, b, L) ∧
      (∀ w, Event.sibling w ∈ L → w ≠ t.NIL ∧ w ≠ nullptr) ∧
      (∀ x y, Event.rotateLeft x y ∈ L →
        (x ≠ t.NIL ∧ x ≠ nullptr) ∧ (y ≠ t.NIL ∧ y ≠ nullptr)) ∧
      (∀ y x, Event.rotateRight y x ∈ L →
        (y ≠ t.NIL ∧ y ≠ nullptr) ∧ (x ≠ t.NIL ∧ x ≠ nullptr))) := by
  obtain ⟨T, hM, hwf, hb, -, -⟩ := h.inv
  constructor
  · obtain ⟨t1, L, e, -, -, hp⟩ := insertLog_spec hM hwf hb k
    refine ⟨t1, L,
      Returns.intro (insert_mono t k) (T.height + 1) (fun fuel hf => (e fuel (by omega)).1),
      Returns.intro (insertLog_mono t k) (T.height + 1) (fun fuel hf => (e fuel (by omega)).2),
      fun g hg => hp g (realPtrs_of_mem hg g (by simp [realPtrs])),
      fun x y hx => ⟨hp x (realPtrs_of_mem hx x (by simp [realPtrs])),
        hp y (realPtrs_of_mem hx y (by simp [realPtrs]))⟩,
      fun y x hx => ⟨hp y (realPtrs_of_mem hx y (by simp [realPtrs])),
        hp x (realPtrs_of_mem hx x (by simp [realPtrs]))⟩⟩
  · obtain ⟨t1, b, L, e, hp⟩ := removeLog_spec hM hwf hb k
    refine ⟨t1, b, L,
      Returns.intro (remove_mono t k) (T.height + 2) (fun fuel hf => (e fuel (by omega)).1),
      Returns.intro (removeLog_mono t k) (T.height + 2) (fun fuel hf => (e fuel (by omega)).2),
      fun g hg => hp g (realPtrs_of_mem hg g (by simp [realPtrs])),
      fun x y hx => ⟨hp x (realPtrs_of_mem hx x (by simp [realPtrs])),
        hp y (realPtrs_of_mem hx y (by simp [realPtrs]))⟩,
      fun y x hx => ⟨hp y (realPtrs_of_mem hx y (by simp [realPtrs])),
        hp x (realPtrs_of_mem hx x (by simp [realPtrs]))⟩⟩

theorem fixups_touch_real_nodes_witness :
    Reachable sampleTree ∧
      (∃ t1 L, Returns (fun n => sampleTree.insert n 1) t1 ∧
        Returns (fun n => sampleTree.insertLog n 1) (t1, L) ∧
        (∀ g, Event.grandparent g ∈ L → g ≠ sampleTree.NIL ∧ g ≠ nullptr) ∧
        (∀ x y, Event.rotateLeft x y ∈ L →
          (x ≠ sampleTree.NIL ∧ x ≠ nullptr) ∧ (y ≠ sampleTree.NIL ∧ y ≠ nullptr)) ∧
        (∀ y x, Event.rotateRight y x ∈ L →
          (y ≠ sampleTree.NIL ∧ y ≠ nullptr) ∧ (x ≠ sampleTree.NIL ∧ x ≠ nullptr))) ∧
      (∃ t1 b L, Returns (fun n => sampleTree.remove n 1) (t1, b) ∧
        Returns (fun n => sampleTree.removeLog n 1) (t1, b, L) ∧
        (∀ w, Event.sibling w ∈ L → w ≠ sampleTree.NIL ∧ w ≠ nullptr) ∧
        (∀ x y, Event.rotateLeft x y ∈ L →
          (x ≠ sampleTree.NIL ∧ x ≠ nullptr) ∧ (y ≠ sampleTree.NIL ∧ y ≠ nullptr)) ∧
        (∀ y x, Event.rotateRight y x ∈ L →
          (y ≠ sampleTree.NIL ∧ y ≠ nullptr) ∧ (x ≠ sampleTree.NIL ∧ x ≠ nullptr))) :=
  ⟨sampleTree_reachable, fixups_touch_real_nodes sampleTree sampleTree_reachable 1⟩

/-- Claim C23: parent links are consistent in every reachable state.  The
parent of the root node is null (a tree that is not empty has its root node
at `root`; in an empty tree `root` is the sentinel and there is no root
node); for every real node `n`, each real child `c` of `n` has
`c.parent == n`; and every real node other than the root is the left or the
right child of its parent, which is a real node.  The real nodes are the
nodes reached from the root through child links, and they are the nodes of
the tree the state holds, as many as `size()` counts. -/
theorem parent_links_consistent [LinearOrder α] [Inhabited α] (t : RedBlackTree α)
    (h : Reachable t) :
    (t.root ≠ t.NIL → t.getParent t.root = some nullptr) ∧
      (∀ n c, RealNode t n → (t.getLeft n = some c ∨ t.getRight n = some c) → c ≠ t.NIL →
        t.getParent c = some n) ∧
      (∀ c, RealNode t c → c ≠ t.root →
        ∃ n, RealNode t n ∧ t.getParent c = some n ∧
          (t.getLeft n = some c ∨ t.getRight n = some c)) ∧
      ∃ T, Models t T ∧ T.size = t.size ∧ ∀ p, RealNode t p ↔ p ∈ T.addrs := by
  obtain ⟨T, hM, -, -, -, hc⟩ := h.inv
  refine ⟨fun hne => ?_, fun n c hn hc hne => hn.child_parent hM hc hne, fun c hc hne => ?_,
    T, hM, hc.symm, hM.realNode_iff⟩
  · rcases T with _ | ⟨a, c, l, k, r⟩
    · exact absurd hM.root hne
    · have hr : t.root = a := hM.root
      have ha0 : a ≠ 0 := (hM.addrsOk.2 a (by simp [Tree.addrs])).1
      rw [hr]
      simp only [RedBlackTree.getParent, deref_eq ha0, hM.rep.1, Option.map_some']
  · cases hc with
    | root _ => exact absurd rfl hne
    | @left n _ hn hl hnil => exact ⟨n, hn, hn.child_parent hM (Or.inl hl) hnil, Or.inl hl⟩
    | @right n _ hn hl hnil => exact ⟨n, hn, hn.child_parent hM (Or.inr hl) hnil, Or.inr hl⟩

theorem parent_links_consistent_witness :
    Reachable sampleTree ∧
      (sampleTree.root ≠ sampleTree.NIL → sampleTree.getParent sampleTree.root = some nullptr) ∧
      (∀ n c, RealNode sampleTree n →
        (sampleTree.getLeft n = some c ∨ sampleTree.getRight n = some c) →
        c ≠ sampleTree.NIL → sampleTree.getParent c = some n) ∧
      (∀ c, RealNode sampleTree c → c ≠ sampleTree.root →
        ∃ n, RealNode sampleTree n ∧ sampleTree.getParent c = some n ∧
          (sampleTree.getLeft n = some c ∨ sampleTree.getRight n = some c)) ∧
      ∃ T, Models sampleTree T ∧ T.size = sampleTree.size ∧
        ∀ p, RealNode sampleTree p ↔ p ∈ T.addrs :=
  ⟨sampleTree_reachable, parent_links_consistent sampleTree sampleTree_reachable⟩

end RBT
